import Mathlib

/-!
The bLSM merge engine.

A shallow embedding of the streaming merger (`merge_iterators`, `insert_filter`,
`garbage_collect` in `mergeScheduler.cpp`), of the snapshot iterator
(`mergeManyIterator`, `bLSM::iterator`, `mightBeOnDisk` in `bLSM.h`), of the rate limiter
(`RateLimiter` in `mergeScheduler.cpp`) and of the two merge threads
(`memMergeThread`, `diskMergeThread`), followed by the theorems about them.

Conventions of the embedding:
* a byte is a natural number, a byte string is a list of bytes;
* a sub-iterator over an immutable run is the list of tuples it has not yet produced;
* a nullable pointer is an `Option`;
* an execution that aborts (failed `assert`, dereference of a null pointer) or a loop
  that is cut off by its fuel is `none`; a merge thread that aborts stays in the
  position `aborted`;
* a member function that may throw returns its outcome (`Except`) together with the
  state it leaves;
* a `double` is a binary64 value: a finite number given by its rational value, an
  infinity or NaN; the operations `fadd`, `fsub`, `fmul`, `fdiv` and the conversion
  `of_int` round to nearest, ties to even, and overflow to an infinity;
* the rate limiter is embedded twice: `binary64.RateLimiter` carries the values the code
  computes, and `RateLimiter` is the same code over the rationals, without rounding, for
  the statements about the order of magnitude of the waits, their bounds and the
  wrap-around of the 64-bit clock arithmetic;
* an `unsigned long long` is a natural number with arithmetic modulo `2 ^ 64`, an `int`
  product that can overflow wraps at 32 bits, and the system clock is an argument (the
  reading in microseconds since the epoch);
* the two merge threads are a state machine: a step is one section run under the header
  write-lock, or the merge between two such sections.
-/

set_option linter.unusedSectionVars false

/-- A byte string: keys and values are sequences of unsigned chars. -/
abbrev Bytes := List Nat

/-- Modelled from the spec: the tuple record of `datatuple.h`, which is not part of the
sources at hand. A tuple carries its raw key, the length of the stripped key (the
comparison prefix of the raw key the codec designates), its value bytes, its timestamp
and its tombstone flag. -/
structure dataTuple where
  rawkey : Bytes
  strippedkeylen : Nat
  data : Bytes
  timestamp : Int
  isDelete : Bool
deriving DecidableEq

namespace dataTuple

/-- The stripped key is the raw key minus the suffix designated by the codec. -/
def strippedkey (t : dataTuple) : Bytes := t.rawkey.take t.strippedkeylen

/-- The length of the value. -/
def datalen (t : dataTuple) : Nat := t.data.length

/-- Modelled from the spec: `dataTuple::compare(k1, k1l, k2, k2l)`, the lexicographic
comparison of two byte strings; negative, zero or positive. -/
def compare : Bytes → Bytes → Int
  | [], [] => 0
  | [], _ :: _ => -1
  | _ :: _, [] => 1
  | a :: as, b :: bs => if a < b then -1 else if b < a then 1 else compare as bs

/-- Modelled from the spec: `dataTuple::compare_obj`, the comparator handed to the
merge iterators; it compares stripped keys. -/
def compare_obj (a b : dataTuple) : Int := compare a.strippedkey b.strippedkey

end dataTuple

/-- C `memcmp(a, b, n)`: compares the first `n` bytes; negative, zero or positive. -/
def memcmp (a b : Bytes) (n : Nat) : Int := dataTuple.compare (a.take n) (b.take n)

/-- An on-disk component: its bloom filter (the lookup function, or null) and the sorted
run of tuples it stores. -/
structure diskTreeComponent where
  bloom_filter : Option (Bytes → Bool)
  tuples : List dataTuple

/-- `stasis_bloom_filter_lookup(bf, key, len)`. -/
def stasis_bloom_filter_lookup (bf : Bytes → Bool) (key : Bytes) : Bool := bf key

/-- A `double`: a finite value, an infinity or NaN. The finite values that arise are the
binary64 numbers, given by their rational value; there is one zero (the sign of a zero
decides only the sign of a quotient by it, and no divisor below is a negative zero). -/
inductive double where
  | finite (q : ℚ)
  | inf
  | ninf
  | nan
deriving DecidableEq

namespace double

/-- The quotient `a / b` of two finite values before rounding: a zero divisor gives an
infinity with the sign of `a`, or NaN when `a` is zero too. It is the argument of `sqrt`
in the disk-merge thread, where `sqrt` is an arbitrary function. -/
def div (a b : ℚ) : double :=
  if b = 0 then (if 0 < a then inf else if a < 0 then ninf else nan) else finite (a / b)

/-- The comparison `a < b` of two doubles; false when either is NaN. -/
def lt : double → double → Bool
  | nan, _ => false
  | _, nan => false
  | _, ninf => false
  | ninf, _ => true
  | inf, _ => false
  | _, inf => true
  | finite a, finite b => decide (a < b)

/-- The comparison `a > b`. -/
def gt (a b : double) : Bool := lt b a

/-- The comparison `a >= b` of two doubles; false when either is NaN. -/
def ge : double → double → Bool
  | nan, _ => false
  | _, nan => false
  | _, ninf => true
  | ninf, _ => false
  | inf, _ => true
  | _, inf => false
  | finite a, finite b => decide (b ≤ a)

/-- `std::max(a, b)`, which is `(a < b) ? b : a`. -/
def max (a b : double) : double := if lt a b then b else a

/-- The exponent of the binary64 quantum (the unit in the last place) at `x`: the
exponent of the leading bit of `x`, not below that of the smallest normal number, minus
the 52 fraction bits. -/
def quantum (x : ℚ) : Int := Max.max (Int.log 2 |x|) (-1022) - 52

/-- Rounding of a rational to the nearest integer, a tie going to the even one. -/
def round_half_even (m : ℚ) : Int :=
  if m - ⌊m⌋ < 1 / 2 then ⌊m⌋
  else if 1 / 2 < m - ⌊m⌋ then ⌊m⌋ + 1
  else if ⌊m⌋ % 2 = 0 then ⌊m⌋ else ⌊m⌋ + 1

/-- The binary64 value of the real number `x` under the default rounding of IEEE 754
(to nearest, ties to even): the nearest multiple of the quantum, an infinity when that
is `2 ^ 1024` or more in magnitude. -/
def round (x : ℚ) : double :=
  if x = 0 then finite 0
  else if (2 : ℚ) ^ 1024 ≤ (round_half_even (|x| / 2 ^ quantum x) : ℚ) * 2 ^ quantum x then
    (if 0 < x then inf else ninf)
  else if 0 < x then finite ((round_half_even (|x| / 2 ^ quantum x) : ℚ) * 2 ^ quantum x)
  else finite (-((round_half_even (|x| / 2 ^ quantum x) : ℚ) * 2 ^ quantum x))


/-- The negation of a double. -/
def neg : double → double
  | finite q => finite (-q)
  | inf => ninf
  | ninf => inf
  | nan => nan

/-- The IEEE sum `a + b`, correctly rounded. -/
def fadd : double → double → double
  | nan, _ => nan
  | _, nan => nan
  | inf, ninf => nan
  | ninf, inf => nan
  | inf, _ => inf
  | _, inf => inf
  | ninf, _ => ninf
  | _, ninf => ninf
  | finite a, finite b => round (a + b)

/-- The IEEE difference `a - b`, correctly rounded. -/
def fsub (a b : double) : double := fadd a (neg b)

/-- The IEEE product `a * b`, correctly rounded; an infinity times zero is NaN. -/
def fmul : double → double → double
  | nan, _ => nan
  | _, nan => nan
  | inf, inf => inf
  | inf, ninf => ninf
  | ninf, inf => ninf
  | ninf, ninf => inf
  | inf, finite b => if b = 0 then nan else if 0 < b then inf else ninf
  | ninf, finite b => if b = 0 then nan else if 0 < b then ninf else inf
  | finite a, inf => if a = 0 then nan else if 0 < a then inf else ninf
  | finite a, ninf => if a = 0 then nan else if 0 < a then ninf else inf
  | finite a, finite b => round (a * b)

/-- The IEEE quotient `a / b`, correctly rounded; a finite non-zero value over zero is an
infinity, zero over zero and an infinity over an infinity are NaN. -/
def fdiv : double → double → double
  | nan, _ => nan
  | _, nan => nan
  | inf, inf => nan
  | inf, ninf => nan
  | ninf, inf => nan
  | ninf, ninf => nan
  | inf, finite b => if 0 ≤ b then inf else ninf
  | ninf, finite b => if 0 ≤ b then ninf else inf
  | finite _, inf => finite 0
  | finite _, ninf => finite 0
  | finite a, finite b =>
    if b = 0 then (if 0 < a then inf else if a < 0 then ninf else nan) else round (a / b)

/-- The comparison `a <= b` of two doubles; false when either is NaN. -/
def le : double → double → Bool
  | nan, _ => false
  | _, nan => false
  | ninf, _ => true
  | _, inf => true
  | _, ninf => false
  | inf, _ => false
  | finite a, finite b => decide (a ≤ b)

/-- `std::min(a, b)`, which is `(b < a) ? b : a`. -/
def fmin (a b : double) : double := if lt b a then b else a

/-- The conversion `(double) z` of an integer. -/
def of_int (z : Int) : double := round z

end double

/-- The engine state read by the merger, by the snapshot iterator and by the merge
threads: the component slots, the epoch, the expiry settings, the size ratio `r_val`
(reached through `R()`), the C0 statistics and the flags. The in-memory trees are given
by their in-order contents. -/
structure bLSM where
  tree_c0 : List dataTuple
  tree_c0_mergeable : Option (List dataTuple)
  tree_c1 : Option diskTreeComponent
  tree_c1_mergeable : Option diskTreeComponent
  tree_c1_prime : Option diskTreeComponent
  tree_c2 : Option diskTreeComponent
  epoch : Nat
  current_timestamp : Int
  expiry : Int
  r_val : double
  max_c0_size : Int
  mean_c0_run_length : Int
  num_c0_mergers : Int
  c0_is_merging : Bool
  c0_flushing : Bool
  c1_flushing : Bool
  shutting_down_ : Bool

namespace bLSM

/-- One slot's block of `mightBeOnDisk` / `mightBeAfterMemMerge`: true when the function
returns true at this slot (the slot is set and either has no bloom filter or its filter
answers true for the stripped key), false when control falls through to the next slot. -/
def slotMight (slot : Option diskTreeComponent) (t : dataTuple) : Bool :=
  match slot with
  | none => false
  | some c =>
    match c.bloom_filter with
    | none => true
    | some bf => stasis_bloom_filter_lookup bf t.strippedkey

/-- `bLSM::mightBeAfterMemMerge`. -/
def mightBeAfterMemMerge (ltable : bLSM) (t : dataTuple) : Bool :=
  if slotMight ltable.tree_c1_mergeable t then true
  else if slotMight ltable.tree_c2 t then true
  else false

/-- `bLSM::mightBeOnDisk`. -/
def mightBeOnDisk (ltable : bLSM) (t : dataTuple) : Bool :=
  if slotMight ltable.tree_c1 t then true
  else if slotMight ltable.tree_c1_prime t then true
  else ltable.mightBeAfterMemMerge t

end bLSM

/-- `insert_filter(ltable, t, dropDeletes)`. The timestamps are signed 64-bit integers in
the source; signed overflow being undefined there, the subtraction is the mathematical
one. -/
def insert_filter (ltable : bLSM) (t : dataTuple) (dropDeletes : Bool) : Bool :=
  if t.isDelete && (dropDeletes || !ltable.mightBeAfterMemMerge t) then false
  else if ltable.expiry = 0 then true
  else if t.timestamp < ltable.current_timestamp - ltable.expiry then false
  else true

/-- `memTreeComponent::rbtree_t::find`: the entry of the tree equivalent to `t` under the
tree's comparator (stripped keys), or `end()`. -/
def rbtree_find (tree : List dataTuple) (t : dataTuple) : Option dataTuple :=
  tree.find? (fun e => decide (dataTuple.compare_obj e t = 0))

/-- `memTreeComponent::rbtree_t::erase(key)`: removes the entries equivalent to `t`. -/
def rbtree_erase (tree : List dataTuple) (t : dataTuple) : List dataTuple :=
  tree.filter (fun e => !decide (dataTuple.compare_obj e t = 0))

/-- The body of the `for` loop of `garbage_collect` for one buffered tuple `g`. -/
def garbage_collect_one (ltable_ : bLSM) (g : dataTuple) : bLSM :=
  let t2tmp : Option dataTuple :=
    match rbtree_find ltable_.tree_c0 g with
    | some e =>
      if e.datalen = g.datalen ∧ memcmp e.data g.data g.datalen = 0 then some e else none
    | none => none
  match t2tmp with
  | some _ => { ltable_ with tree_c0 := rbtree_erase ltable_.tree_c0 g }
  | none => ltable_

/-- The `for (int i = 0; i < next_garbage; i++)` loop of `garbage_collect`, over the
indices still to visit. A slot of the array that was never written is `none`. -/
def garbage_collect_loop (garbage : List (Option dataTuple)) : List Nat → bLSM → bLSM
  | [], ltable_ => ltable_
  | i :: is, ltable_ =>
    match garbage.getD i none with
    | some g => garbage_collect_loop garbage is (garbage_collect_one ltable_ g)
    | none => garbage_collect_loop garbage is ltable_

/-- `garbage_collect(ltable_, garbage, garbage_len, next_garbage, force)`: the engine
afterwards and the returned `next_garbage`. -/
def garbage_collect (ltable_ : bLSM) (garbage : List (Option dataTuple))
    (garbage_len next_garbage : Nat) (force : Bool) : bLSM × Nat :=
  if next_garbage = garbage_len ∨ force = true then
    (garbage_collect_loop garbage (List.range next_garbage) ltable_, 0)
  else
    (ltable_, next_garbage)

/-- What `merge_iterators` is handed besides its two streams: the tuple merger, the
`dropDeletes` flag, the merge level of `stats`, and the parts of the code base that are
not among the sources (`dataTuple::byte_length`, `bLSM::limit`,
`mergeManager::FORCE_INTERVAL`). -/
structure mergeEnv where
  merge : dataTuple → dataTuple → dataTuple
  dropDeletes : Bool
  merge_level : Int
  byte_length : dataTuple → Nat
  limit : Int
  FORCE_INTERVAL : Int

/-- The mutable state of one run of `merge_iterators`. `scratch_tree` lists the tuples
inserted into the scratch tree, oldest first; `i` is the byte counter (an `int` in the
source, here without wrap-around: with rate limiting it is reset before it can overflow,
without rate limiting its value is never used); `aquired` lists the permits requested
from the rate limiter, oldest first; `garbage` is the array of `garbage_len` slots, a
slot never written being `none`; `garbage_writes` records every write
`garbage[next_garbage] = t2` (index and tuple) and `collected` the tuples the loop of
`garbage_collect` has visited. -/
structure mergeState where
  ltable : bLSM
  scratch_tree : List dataTuple
  i : Int
  aquired : List Int
  garbage : List (Option dataTuple)
  next_garbage : Nat
  garbage_writes : List (Nat × dataTuple)
  collected : List dataTuple

/-- `periodically_force(xid, &i, forceMe, log)`. -/
def periodically_force (env : mergeEnv) (st : mergeState) : mergeState :=
  if env.limit ≠ 0 ∧ st.i > env.FORCE_INTERVAL then
    { st with aquired := st.aquired ++ [st.i], i := 0 }
  else st

/-- The block `if (insert_filter(ltable, t, dropDeletes)) { scratch_tree->insertTuple(xid, t);
i += t->byte_length(); ... }` that `merge_iterators` runs for every candidate tuple. -/
def insert_if_kept (env : mergeEnv) (st : mergeState) (t : dataTuple) : mergeState :=
  if insert_filter st.ltable t env.dropDeletes then
    { st with scratch_tree := st.scratch_tree ++ [t], i := st.i + env.byte_length t }
  else st

/-- The inner loop `while (t1 != 0 && compare(t1->rawkey(), t2->rawkey()) < 0)`. The pair
of `t1` and `itrA` is the list of large-side tuples not yet consumed: `t1` is its head
(null when the list is empty) and `t1 = itrA->next_callerFrees()` moves to the tail. -/
def merge_while_less (env : mergeEnv) (t2 : dataTuple) :
    List dataTuple → mergeState → List dataTuple × mergeState
  | [], st => ([], st)
  | t1 :: itrA, st =>
    if dataTuple.compare t1.rawkey t2.rawkey < 0 then
      merge_while_less env t2 itrA (periodically_force env (insert_if_kept env st t1))
    else (t1 :: itrA, st)

/-- The `if (t1 != 0 && compare(t1->strippedkey(), t2->strippedkey()) == 0) ... else ...`
statement of the outer loop. -/
def merge_equal_or_small (env : mergeEnv) (t2 : dataTuple) :
    List dataTuple → mergeState → List dataTuple × mergeState
  | [], st => ([], periodically_force env (insert_if_kept env st t2))
  | t1 :: itrA, st =>
    if dataTuple.compare t1.strippedkey t2.strippedkey = 0 then
      (itrA, periodically_force env (insert_if_kept env st (env.merge t1 t2)))
    else (t1 :: itrA, periodically_force env (insert_if_kept env st t2))

/-- The block `if (stats->merge_level == 1) { ... }` of the outer loop: collect the
buffer when it is full, then buffer `t2`. -/
def merge_buffer_garbage (env : mergeEnv) (garbage_len : Nat) (t2 : dataTuple)
    (st : mergeState) : mergeState :=
  if env.merge_level = 1 then
    let r := garbage_collect st.ltable st.garbage garbage_len st.next_garbage false
    { st with
      ltable := r.1
      collected := if st.next_garbage = garbage_len
        then st.collected ++ (st.garbage.take st.next_garbage).filterMap id else st.collected
      garbage := st.garbage.set r.2 (some t2)
      garbage_writes := st.garbage_writes ++ [(r.2, t2)]
      next_garbage := r.2 + 1 }
  else st

/-- The outer loop `while ((t2 = itrB->next_callerFrees()) != 0)`, by recursion on the
tuples the small side still yields. -/
def merge_while_small (env : mergeEnv) (garbage_len : Nat) :
    List dataTuple → List dataTuple → mergeState → List dataTuple × mergeState
  | [], itrA, st => (itrA, st)
  | t2 :: itrB, itrA, st =>
    let r1 := merge_while_less env t2 itrA st
    let r2 := merge_equal_or_small env t2 r1.1 r1.2
    merge_while_small env garbage_len itrB r2.1 (merge_buffer_garbage env garbage_len t2 r2.2)

/-- The loop `while (t1 != 0)` that drains the large side. -/
def merge_while_large (env : mergeEnv) : List dataTuple → mergeState → mergeState
  | [], st => st
  | t1 :: itrA, st =>
    merge_while_large env itrA (periodically_force env (insert_if_kept env st t1))

/-- `merge_iterators(xid, forceMe, itrA, itrB, ltable, scratch_tree, stats, dropDeletes)`
with an empty scratch tree: the state when it returns. -/
def merge_iterators (env : mergeEnv) (itrA itrB : List dataTuple) (ltable : bLSM) :
    mergeState :=
  let garbage_len : Nat := 100
  let st0 : mergeState :=
    { ltable := ltable, scratch_tree := [], i := 0, aquired := [],
      garbage := List.replicate garbage_len none, next_garbage := 0,
      garbage_writes := [], collected := [] }
  let r := merge_while_small env garbage_len itrB itrA st0
  let st1 := merge_while_large env r.1 r.2
  let g := garbage_collect st1.ltable st1.garbage garbage_len st1.next_garbage true
  { st1 with
    ltable := g.1
    collected := st1.collected ++ (st1.garbage.take st1.next_garbage).filterMap id
    next_garbage := g.2 }

/-! ### The merge as a function on lists, and the reference merge -/

/-- The tuples `merge_iterators` submits to `insert_filter`, in the order it submits
them: the control flow of its loops with the state stripped away. The first list is the
small side, the second the large side. -/
def merge_candidates (merge : dataTuple → dataTuple → dataTuple) :
    List dataTuple → List dataTuple → List dataTuple
  | [], itrA => itrA
  | t2 :: itrB, itrA =>
    let less := fun (t1 : dataTuple) => decide (dataTuple.compare t1.rawkey t2.rawkey < 0)
    match itrA.dropWhile less with
    | [] => itrA.takeWhile less ++ t2 :: merge_candidates merge itrB []
    | t1 :: rest =>
      if dataTuple.compare t1.strippedkey t2.strippedkey = 0 then
        itrA.takeWhile less ++ merge t1 t2 :: merge_candidates merge itrB rest
      else
        itrA.takeWhile less ++ t2 :: merge_candidates merge itrB (t1 :: rest)

/-- The union of the stripped keys of the two streams, in ascending order. -/
def union_keys (A B : List dataTuple) : List Bytes :=
  ((A.map dataTuple.strippedkey ++ B.map dataTuple.strippedkey).dedup).insertionSort (· ≤ ·)

/-- What the reference merge yields for the stripped key `k`: `merge(a, b)` when both
streams hold `k` (large-side tuple first), the single tuple when one does. -/
def reference_pick (merge : dataTuple → dataTuple → dataTuple) (A B : List dataTuple)
    (k : Bytes) : Option dataTuple :=
  match A.find? (fun a => decide (a.strippedkey = k)),
      B.find? (fun b => decide (b.strippedkey = k)) with
  | some a, some b => some (merge a b)
  | some a, none => some a
  | none, some b => some b
  | none, none => none

/-- The reference merge of the specification: walk the union of the stripped keys in
ascending order, take the merged or the single tuple of each key, and keep the tuples
the filter accepts. -/
def reference_merge (merge : dataTuple → dataTuple → dataTuple) (keep : dataTuple → Bool)
    (A B : List dataTuple) : List dataTuple :=
  ((union_keys A B).filterMap (reference_pick merge A B)).filter keep

/-- The state `st2` arises from `st1` by submitting the tuples `out` to the filter and
inserting the accepted ones; of the engine at most live C0 has changed. -/
def Emitted (dropDeletes : Bool) (st1 st2 : mergeState) (out : List dataTuple) : Prop :=
  st2.scratch_tree =
    st1.scratch_tree ++ out.filter (fun t => insert_filter st1.ltable t dropDeletes) ∧
  ∃ c0, st2.ltable = { st1.ltable with tree_c0 := c0 }

/-! ### The k-way merge iterator `mergeManyIterator` -/

/-- What the template parameters `ITRA` and `ITRN` of `mergeManyIterator` provide. -/
class TupleIterator (I : Type) where
  next_callerFrees : I → Option dataTuple × I

/-- Modelled from the spec: an iterator over one component (`memTreeComponent::iterator`,
`memTreeComponent::batchedRevalidatingIterator`, `diskTreeComponent::iterator`, none of
them among the sources at hand) is the list of tuples it has yet to yield. -/
abbrev treeIterator := List dataTuple

instance : TupleIterator treeIterator where
  next_callerFrees
    | [] => (none, [])
    | t :: rest => (some t, rest)

/-- The expression `it ? it->next_callerFrees() : NULL` on a slot of `iters_`. The
unguarded calls `iters_[i]->next_callerFrees()` use it too: they only reach slots whose
`current_` entry is set, and the entry of a null slot is never set. -/
def slot_next (it : Option treeIterator) : Option dataTuple × Option treeIterator :=
  match it with
  | none => (none, none)
  | some l => ((TupleIterator.next_callerFrees l).1, some (TupleIterator.next_callerFrees l).2)

/-- The fields of `mergeManyIterator<ITRA, ITRN>`. `num_iters_` is the length of
`current_`; `last_iter_` is `none` for -1. The comparator `cmp_` is
`dataTuple::compare_obj` and `merge_` is null in the only place that constructs the
iterator (`bLSM::iterator::validate`), so neither is a field. -/
structure mergeManyIterator (ITRA : Type) where
  first_iter_ : ITRA
  iters_ : List (Option treeIterator)
  current_ : List (Option dataTuple)
  last_iter_ : Option Nat

namespace mergeManyIterator

variable {ITRA : Type} [TupleIterator ITRA]

/-- The field `num_iters_`. -/
def num_iters_ (s : mergeManyIterator ITRA) : Nat := s.current_.length

/-- The constructor `mergeManyIterator(a, iters, num_iters, merge, cmp)`. -/
def init (a : ITRA) (iters : List (Option treeIterator)) : mergeManyIterator ITRA :=
  { first_iter_ := (TupleIterator.next_callerFrees a).2
    iters_ := iters.map (fun it => (slot_next it).2)
    current_ := (TupleIterator.next_callerFrees a).1 :: iters.map (fun it => (slot_next it).1)
    last_iter_ := none }

/-- The statement `current_[0] = first_iter_->next_callerFrees()`. -/
def advance_first (s : mergeManyIterator ITRA) : mergeManyIterator ITRA :=
  { s with
    first_iter_ := (TupleIterator.next_callerFrees s.first_iter_).2
    current_ := s.current_.set 0 (TupleIterator.next_callerFrees s.first_iter_).1 }

/-- The statement `current_[i] = iters_[i-1]->next_callerFrees()` for `i = j + 1`. -/
def advance_iters (s : mergeManyIterator ITRA) (j : Nat) : mergeManyIterator ITRA :=
  { s with
    iters_ := s.iters_.set j (slot_next (s.iters_.getD j none)).2
    current_ := s.current_.set (j + 1) (slot_next (s.iters_.getD j none)).1 }

/-- The block `if (last_iter_ != -1) { ... }` that opens `next_callerFrees`. -/
def advance_last (s : mergeManyIterator ITRA) : mergeManyIterator ITRA :=
  match s.last_iter_ with
  | none => s
  | some 0 => s.advance_first
  | some (j + 1) => s.advance_iters j

/-- The loop `while (min < num_iters_ && !current_[min]) min++`; the first argument
bounds the number of iterations left. -/
def skip_null (current_ : List (Option dataTuple)) : Nat → Nat → Nat
  | 0, min => min
  | k + 1, min =>
    match current_.getD min none with
    | none => skip_null current_ k (min + 1)
    | some _ => min

/-- The loop `for (int i = min+1; i < num_iters_; i++)` over the indices still to visit:
the final `min` and the first `num_dups` entries of `dups`. The entry `current_[min]` is
never null in this loop (`skip_null` stopped at a set entry, and `min` only moves to set
entries), so the branch for a null `current_[min]` is never taken. -/
def scan (current_ : List (Option dataTuple)) : List Nat → Nat → List Nat → Nat × List Nat
  | [], min, dups => (min, dups)
  | i :: is, min, dups =>
    match current_.getD i none with
    | none => scan current_ is min dups
    | some ti =>
      match current_.getD min none with
      | none => scan current_ is min dups
      | some tmin =>
        if dataTuple.compare_obj tmin ti > 0 then scan current_ is i []
        else if dataTuple.compare_obj tmin ti = 0 then scan current_ is min (dups ++ [i])
        else scan current_ is min dups

/-- The loop that advances the iterators listed in `dups`. An entry of `dups` is never 0
(the loop above only records indices above `min`). -/
def advance_dups : List Nat → mergeManyIterator ITRA → mergeManyIterator ITRA
  | [], s => s
  | 0 :: ds, s => advance_dups ds s
  | (j + 1) :: ds, s => advance_dups ds (s.advance_iters j)

/-- `mergeManyIterator::next_callerFrees`: the returned tuple (or null) and the iterator
afterwards. -/
def next_callerFrees (s : mergeManyIterator ITRA) : Option dataTuple × mergeManyIterator ITRA :=
  let s1 := s.advance_last
  let min := skip_null s1.current_ s1.num_iters_ 0
  if min = s1.num_iters_ then (none, s1)
  else
    let r := scan s1.current_ (List.range' (min + 1) (s1.num_iters_ - (min + 1))) min []
    (s1.current_.getD r.1 none, { advance_dups r.2 s1 with last_iter_ := some r.1 })

/-- `mergeManyIterator::peek`. -/
def peek (s : mergeManyIterator ITRA) : Option dataTuple × mergeManyIterator ITRA :=
  (s.next_callerFrees.1, { s.next_callerFrees.2 with last_iter_ := none })

instance : TupleIterator (mergeManyIterator ITRA) where
  next_callerFrees := mergeManyIterator.next_callerFrees

end mergeManyIterator

/-- The tuples an iterator returns before its first null, at most `n` of them. -/
def drain {I : Type} [TupleIterator I] : Nat → I → List dataTuple
  | 0, _ => []
  | n + 1, it =>
    match (TupleIterator.next_callerFrees it).1 with
    | none => []
    | some t => t :: drain n (TupleIterator.next_callerFrees it).2

/-- An iterator together with its specification: an invariant of its states and the list
of tuples it has yet to yield, of which `next_callerFrees` returns the head and keeps the
tail. -/
class LawfulTupleIterator (I : Type) [TupleIterator I] where
  Inv : I → Prop
  remaining : I → List dataTuple
  next_fst : ∀ it, Inv it → (TupleIterator.next_callerFrees it).1 = (remaining it).head?
  next_snd : ∀ it, Inv it →
    remaining (TupleIterator.next_callerFrees it).2 = (remaining it).tail
  next_inv : ∀ it, Inv it → Inv (TupleIterator.next_callerFrees it).2

instance : LawfulTupleIterator treeIterator where
  Inv := fun _ => True
  remaining := fun l => l
  next_fst := fun it _ => by cases it <;> rfl
  next_snd := fun it _ => by cases it <;> rfl
  next_inv := fun _ _ => trivial

namespace mergeManyIterator

variable {ITRA : Type} [TupleIterator ITRA] [LawfulTupleIterator ITRA]

/-- The entry `current_[j]` (null beyond the array). -/
def cur (s : mergeManyIterator ITRA) (j : Nat) : Option dataTuple := s.current_.getD j none

/-- What sub-iterator `j` has yet to yield: `first_iter_` for 0, `iters_[j-1]` otherwise. -/
def rest (s : mergeManyIterator ITRA) : Nat → List dataTuple
  | 0 => LawfulTupleIterator.remaining s.first_iter_
  | j + 1 => (s.iters_.getD j none).getD []

/-- The tuples sub-iterator `j` has yet to contribute to the merge: its head `current_[j]`,
unless that is the tuple the previous call returned, followed by what the sub-iterator
has yet to yield. -/
def stream (s : mergeManyIterator ITRA) (j : Nat) : List dataTuple :=
  (if s.last_iter_ = some j then [] else (s.cur j).toList) ++ s.rest j

/-- The well-formed states of a `mergeManyIterator`: `current_` has one entry more than
`iters_`, the first iterator is in a state of its own invariant, a null entry of
`current_` belongs to an exhausted sub-iterator, and `last_iter_` is an index. -/
structure WF (s : mergeManyIterator ITRA) : Prop where
  len : s.current_.length = s.iters_.length + 1
  first : LawfulTupleIterator.Inv s.first_iter_
  null : ∀ j, j < s.current_.length → s.last_iter_ ≠ some j → s.cur j = none → s.rest j = []
  last : ∀ m, s.last_iter_ = some m → m < s.current_.length

/-- The step `current_[i] = (iterator i)->next_callerFrees()` for either kind of `i`. -/
def advance_slot (s : mergeManyIterator ITRA) : Nat → mergeManyIterator ITRA
  | 0 => s.advance_first
  | j + 1 => s.advance_iters j

end mergeManyIterator

/-- The invariant of the loop of `scan` when it is about to visit index `a`: `min` is
the first index below `a` whose entry has the least stripped key, and `dups` lists the
later indices below `a` whose entries have that key. -/
def ScanInv (H : List (Option dataTuple)) (a min : Nat) (dups : List Nat) : Prop :=
  min < a ∧ dups.Nodup ∧ ∃ tmin, H.getD min none = some tmin ∧
    (∀ j u, j < a → H.getD j none = some u →
      (j < min → tmin.strippedkey < u.strippedkey) ∧
      (min ≤ j → tmin.strippedkey ≤ u.strippedkey)) ∧
    (∀ j, j ∈ dups ↔
      (min < j ∧ j < a ∧ ∃ u, H.getD j none = some u ∧ u.strippedkey = tmin.strippedkey))

/-- A stream after the tuple `t` was returned: its head is dropped when it carries the
stripped key of `t`. -/
def drop_key (t : dataTuple) : List dataTuple → List dataTuple
  | [] => []
  | h :: tl => if h.strippedkey = t.strippedkey then tl else h :: tl

namespace mergeManyIterator

variable {ITRA : Type} [TupleIterator ITRA] [LawfulTupleIterator ITRA]

/-- The number of tuples the sub-iterators have yet to contribute. -/
def total (s : mergeManyIterator ITRA) : Nat :=
  ((List.range s.num_iters_).map (fun j => (s.stream j).length)).sum

/-- Every sub-iterator is strictly ascending by stripped key under the comparator. -/
def SortedStreams (s : mergeManyIterator ITRA) : Prop :=
  ∀ j, j < s.current_.length →
    (s.stream j).Pairwise (fun a b => dataTuple.compare_obj a b < 0)

end mergeManyIterator

/-! ### The snapshot iterator `bLSM::iterator` -/

/-- Modelled from the spec: `open_iterator(start_key?)` of a component and the
constructors of the in-memory iterators, which are not among the sources at hand: an
iterator over the tuples of the component that are not below the start key, all of them
when no start key is given. -/
def open_iterator (tuples : List dataTuple) (t : Option dataTuple) : treeIterator :=
  match t with
  | none => tuples
  | some t => tuples.dropWhile (fun e => decide (dataTuple.compare_obj e t < 0))

/-- The type `inner_merge_it_t`: the merge of C0 and C0-mergeable. -/
abbrev inner_merge_it_t := mergeManyIterator treeIterator

/-- The type `merge_it_t`: the merge of the inner merge and the four disk components. -/
abbrev merge_it_t := mergeManyIterator inner_merge_it_t

namespace bLSM

/-- The fields of `bLSM::iterator`. `reports` lists the pairs (`last_returned`, `tmp`) for
which `getnextHelper` has printed its out-of-order message. -/
structure iterator where
  epoch : Nat
  merge_it_ : Option merge_it_t
  last_returned : Option dataTuple
  key : Option dataTuple
  valid : Bool
  reval_count : Nat
  reports : List (dataTuple × dataTuple)

namespace iterator

/-- `bLSM::iterator::validate`; `none` when C1 or C2 is null (a null dereference). -/
def validate (ltable : bLSM) (it : iterator) : Option iterator :=
  let t : Option dataTuple :=
    match it.last_returned with
    | some lr => some lr
    | none => it.key
  let c0_it := open_iterator ltable.tree_c0 t
  let c0_mergeable_it := open_iterator (ltable.tree_c0_mergeable.getD []) t
  match ltable.tree_c1, ltable.tree_c2 with
  | some c1, some c2 =>
    let disk_it : List (Option treeIterator) :=
      [ltable.tree_c1_prime.map (fun c => open_iterator c.tuples t),
        some (open_iterator c1.tuples t),
        ltable.tree_c1_mergeable.map (fun c => open_iterator c.tuples t),
        some (open_iterator c2.tuples t)]
    let inner_merge_it : inner_merge_it_t := mergeManyIterator.init c0_it [some c0_mergeable_it]
    let merge_it : merge_it_t := mergeManyIterator.init inner_merge_it disk_it
    let merge_it2 : merge_it_t :=
      match it.last_returned with
      | some lr =>
        match merge_it.peek.1 with
        | some junk =>
          if dataTuple.compare junk.strippedkey lr.strippedkey = 0 then
            merge_it.peek.2.next_callerFrees.2
          else merge_it.peek.2
        | none => merge_it.peek.2
      | none => merge_it
    some { it with epoch := ltable.epoch, merge_it_ := some merge_it2, valid := true }
  | _, _ => none

/-- The constructors `iterator(ltable)` and `iterator(ltable, key)`. -/
def init (ltable : bLSM) (key : Option dataTuple) : Option iterator :=
  validate ltable
    { epoch := ltable.epoch, merge_it_ := none, last_returned := none, key := key,
      valid := false, reval_count := 0, reports := [] }

/-- `bLSM::iterator::revalidate`; `none` when the assertion on the epoch fails. -/
def revalidate (ltable : bLSM) (it : iterator) : Option iterator :=
  let it1 : iterator :=
    if it.reval_count = 100 then { it with reval_count := 0 }
    else { it with reval_count := it.reval_count + 1 }
  if it1.valid = false then validate ltable it1
  else if it1.epoch = ltable.epoch then some it1
  else none

/-- `bLSM::iterator::getnextHelper`: the returned tuple (or null) and the iterator
afterwards; `none` when the call aborts. -/
def getnextHelper (ltable : bLSM) (it : iterator) : Option (Option dataTuple × iterator) :=
  match revalidate ltable it with
  | none => none
  | some it1 =>
    match it1.merge_it_ with
    | none => none
    | some m =>
      let tmp := m.next_callerFrees.1
      let reports :=
        match it1.last_returned, tmp with
        | some lr, some t =>
          if dataTuple.compare lr.strippedkey t.strippedkey ≥ 0 then it1.reports ++ [(lr, t)]
          else it1.reports
        | _, _ => it1.reports
      some (tmp, { it1 with
        merge_it_ := some m.next_callerFrees.2, last_returned := tmp, reports := reports })

/-- `bLSM::iterator::getnextIncludingTombstones`. -/
def getnextIncludingTombstones (ltable : bLSM) (it : iterator) :
    Option (Option dataTuple × iterator) :=
  getnextHelper ltable it

/-- `bLSM::iterator::getnext`; the first argument bounds the iterations of its loop, and
the result is `none` when the bound is reached or the call aborts. -/
def getnext (ltable : bLSM) : Nat → iterator → Option (Option dataTuple × iterator)
  | 0, _ => none
  | fuel + 1, it =>
    match getnextHelper ltable it with
    | none => none
    | some (none, it1) => some (none, it1)
    | some (some ret, it1) =>
      if ret.isDelete then getnext ltable fuel it1 else some (some ret, it1)

/-- `bLSM::iterator::invalidate`. -/
def invalidate (it : iterator) : iterator :=
  if it.valid then { it with merge_it_ := none, valid := false } else it

/-- The results of `n` successive calls of `getnextIncludingTombstones`. -/
def getnextIncludingTombstones_n (ltable : bLSM) :
    Nat → iterator → Option (List (Option dataTuple))
  | 0, _ => some []
  | n + 1, it =>
    match getnextIncludingTombstones ltable it with
    | none => none
    | some (r, it1) => (getnextIncludingTombstones_n ltable n it1).map (fun rs => r :: rs)

/-- The results of `n` successive calls of `getnext`, each with loop bound `fuel`. -/
def getnext_n (ltable : bLSM) (fuel : Nat) : Nat → iterator → Option (List (Option dataTuple))
  | 0, _ => some []
  | n + 1, it =>
    match getnext ltable fuel it with
    | none => none
    | some (r, it1) => (getnext_n ltable fuel n it1).map (fun rs => r :: rs)

end iterator

/-- The runs of the six component slots in the temporal order C0, C0-mergeable, C1-prime,
C1, C1-mergeable, C2; an absent slot has no tuples. -/
def components (ltable : bLSM) : List (List dataTuple) :=
  [ltable.tree_c0, ltable.tree_c0_mergeable.getD [],
    (ltable.tree_c1_prime.map (fun c => c.tuples)).getD [],
    (ltable.tree_c1.map (fun c => c.tuples)).getD [],
    (ltable.tree_c1_mergeable.map (fun c => c.tuples)).getD [],
    (ltable.tree_c2.map (fun c => c.tuples)).getD []]

end bLSM

/-! ### The rate limiter `RateLimiter` -/

/-- The value of an `unsigned long long` expression whose mathematical value is `x`:
unsigned arithmetic is modulo `2 ^ 64`. -/
def wrap_unsigned_long_long (x : Int) : Nat := (x % 2 ^ 64).toNat

/-- The value of an `int` expression whose mathematical value is `x`, on a target with
32-bit two's-complement `int` (signed overflow is undefined in the language; the
compilers of such targets wrap). -/
def wrap_int (x : Int) : Int := (x + 2 ^ 31) % 2 ^ 32 - 2 ^ 31

/-- The conversion `(long) x` of a `double`: truncation toward zero (undefined in the
language when the truncated value does not fit a `long`; the model keeps the
mathematical value). -/
def to_long (x : ℚ) : Int := if 0 ≤ x then ⌊x⌋ else ⌈x⌉

/-- The conversion `(long) x` or `(int64_t) x` of a double: truncation toward zero. It is
undefined in the language for NaN, for an infinity and when the truncated value does not
fit 64 bits; the model gives 0 for the former two and keeps the mathematical value in
the latter case. -/
def double.cast_long : double → Int
  | .finite q => to_long q
  | _ => 0

/-- The fields of `RateLimiter` (`mergeScheduler.h`) in the embedding without rounding:
the three `double` fields are rationals, and there is no infinity and no NaN (the
embedding with binary64 fields is `binary64.RateLimiter`). `next_free_` is an
`unsigned long long`, a time in microseconds. The mutex is not modelled: every member
function runs alone. -/
structure RateLimiter where
  interval_ : ℚ
  max_permits_ : ℚ
  stored_permits_ : ℚ
  next_free_ : Nat
deriving DecidableEq

namespace RateLimiter

/-- `RateLimiter::set_rate(rate)`: the outcome (the `std::runtime_error` thrown, or a
normal return) and the state afterwards. -/
def set_rate (s : RateLimiter) (rate : ℚ) : Except String Unit × RateLimiter :=
  if rate ≤ 0 then (.error "RateLimiter: Rate must be greater than 0", s)
  else (.ok (), { s with interval_ := 1000000 / rate })

/-- `RateLimiter::get_rate()`. -/
def get_rate (s : RateLimiter) : ℚ := 1000000 / s.interval_

/-- The constructor `RateLimiter::RateLimiter()`: the member initialisers followed by
`set_rate(100 * 1024 * 1024)`. -/
def init : Except String Unit × RateLimiter :=
  set_rate
    { interval_ := 0, max_permits_ := 100 * 1024 * 1024, stored_permits_ := 0,
      next_free_ := 0 }
    (100 * 1024 * 1024)

/-- `RateLimiter::sync(now)`. Inside the branch `now - next_free_` does not wrap. -/
def sync (s : RateLimiter) (now : Nat) : RateLimiter :=
  if now > s.next_free_ then
    { s with
      stored_permits_ :=
        min s.max_permits_
          (s.stored_permits_ + ((now - s.next_free_ : Nat) : ℚ) / s.interval_)
      next_free_ := now }
  else s

/-- `RateLimiter::claim_next(permits)` when the clock reads `now` microseconds: the
returned wait (the count of the `std::chrono::microseconds`) and the state afterwards. -/
def claim_next (s : RateLimiter) (permits : ℚ) (now : Nat) : Nat × RateLimiter :=
  let s1 := s.sync now
  let wait : Nat := wrap_unsigned_long_long ((s1.next_free_ : Int) - (now : Int))
  let stored : ℚ := min permits s1.stored_permits_
  let fresh : ℚ := permits - stored
  let next_free : Int := to_long (fresh * s1.interval_)
  (wait,
    { s1 with
      next_free_ := wrap_unsigned_long_long ((s1.next_free_ : Int) + next_free)
      stored_permits_ := s1.stored_permits_ - stored })

/-- `RateLimiter::aquire(permits)` when the clock reads `now`: the outcome (an exception,
or the returned `long` together with the time slept, in microseconds) and the state
afterwards. The statement `if (permits <= 0) { std::runtime_error("..."); }` builds an
exception object and drops it, there is no `throw`: it has no effect, and the call goes
on for every `permits`. -/
def aquire (s : RateLimiter) (permits : Int) (now : Nat) :
    Except String (Int × Nat) × RateLimiter :=
  let r := s.claim_next (permits : ℚ) now
  (.ok (to_long ((r.1 : ℚ) / 1000), r.1), r.2)

/-- `RateLimiter::try_aquire(permits, timeout)`: `now` is the clock reading of
`try_aquire` itself, `now2` the later one of the `claim_next` it may reach. The outcome
is the returned `bool` with the time slept. `timeout * 1000` is an `int` product; the
sum with `now` is unsigned. -/
def try_aquire (s : RateLimiter) (permits timeout : Int) (now now2 : Nat) :
    Except String (Bool × Nat) × RateLimiter :=
  if s.next_free_ > wrap_unsigned_long_long ((now : Int) + wrap_int (timeout * 1000)) then
    (.ok (false, 0), s)
  else
    match s.aquire permits now2 with
    | (.ok r, s1) => (.ok (true, r.2), s1)
    | (.error e, s1) => (.error e, s1)

end RateLimiter

/-! ### The rate limiter in binary64 arithmetic -/

/-- The value of a `long` (64 bits, two's complement) that an unsigned 64-bit value `x`
converts to. -/
def wrap_long (x : Int) : Int := (x + 2 ^ 63) % 2 ^ 64 - 2 ^ 63

namespace binary64

/-- The fields of `RateLimiter` (`mergeScheduler.h`) with the three `double` fields as
binary64 values, infinities and NaN included. `next_free_` is an `unsigned long long`, a
time in microseconds. The mutex is not modelled: every member function runs alone. -/
structure RateLimiter where
  interval_ : double
  max_permits_ : double
  stored_permits_ : double
  next_free_ : Nat
deriving DecidableEq

namespace RateLimiter

/-- `RateLimiter::set_rate(rate)`: the outcome (the `std::runtime_error` thrown, or a
normal return) and the state afterwards. -/
def set_rate (s : RateLimiter) (rate : double) : Except String Unit × RateLimiter :=
  if double.le rate (double.finite 0) then
    (.error "RateLimiter: Rate must be greater than 0", s)
  else (.ok (), { s with interval_ := double.fdiv (double.finite 1000000) rate })

/-- `RateLimiter::get_rate()`. -/
def get_rate (s : RateLimiter) : double := double.fdiv (double.finite 1000000) s.interval_

/-- The constructor `RateLimiter::RateLimiter()`: the member initialisers followed by
`set_rate(100 * 1024 * 1024)`. -/
def init : Except String Unit × RateLimiter :=
  set_rate
    { interval_ := double.finite 0, max_permits_ := double.finite (100 * 1024 * 1024),
      stored_permits_ := double.finite 0, next_free_ := 0 }
    (double.finite (100 * 1024 * 1024))

/-- `RateLimiter::sync(now)`. Inside the branch `now - next_free_` does not wrap; the
difference is converted to `double` for the division. -/
def sync (s : RateLimiter) (now : Nat) : RateLimiter :=
  if now > s.next_free_ then
    { s with
      stored_permits_ :=
        double.fmin s.max_permits_
          (double.fadd s.stored_permits_
            (double.fdiv (double.of_int ((now - s.next_free_ : Nat) : Int)) s.interval_))
      next_free_ := now }
  else s

/-- `RateLimiter::claim_next(permits)` when the clock reads `now` microseconds: the
returned wait (the count of the `std::chrono::microseconds`) and the state afterwards. -/
def claim_next (s : RateLimiter) (permits : double) (now : Nat) : Nat × RateLimiter :=
  let s1 := s.sync now
  let wait : Nat := wrap_unsigned_long_long ((s1.next_free_ : Int) - (now : Int))
  let stored : double := double.fmin permits s1.stored_permits_
  let fresh : double := double.fsub permits stored
  let next_free : Int := double.cast_long (double.fmul fresh s1.interval_)
  (wait,
    { s1 with
      next_free_ := wrap_unsigned_long_long ((s1.next_free_ : Int) + next_free)
      stored_permits_ := double.fsub s1.stored_permits_ stored })

/-- `RateLimiter::aquire(permits)` when the clock reads `now`: the returned `long` (the
count of `microseconds(wait)`, a signed 64-bit number, divided by `1000.0`) together
with the time slept, in microseconds (`sleep_for` returns at once for a negative
duration), and the state afterwards. The statement
`if (permits <= 0) { std::runtime_error("..."); }` builds an exception object and drops
it: the call goes on for every `permits`. -/
def aquire (s : RateLimiter) (permits : Int) (now : Nat) : (Int × Nat) × RateLimiter :=
  let r := s.claim_next (double.of_int permits) now
  ((double.cast_long
      (double.fdiv (double.of_int (wrap_long (r.1 : Int))) (double.finite 1000)),
    (wrap_long (r.1 : Int)).toNat), r.2)

/-- Two calls `aquire(n)` back to back: the first when the clock reads `now`, the second
when the sleep of the first has ended. The total time slept and the state afterwards. -/
def aquire_twice (s : RateLimiter) (n : Int) (now : Nat) : Nat × RateLimiter :=
  let a := s.aquire n now
  let b := a.2.aquire n (now + a.1.2)
  (a.1.2 + b.1.2, b.2)

end RateLimiter

end binary64

/-! ### The merge threads of `mergeScheduler` -/

namespace bLSM

/-- `bLSM::is_still_running()`. -/
def is_still_running (l : bLSM) : Bool := !l.shutting_down_

/-- `bLSM::set_tree_c1(t)`: stores the pointer and bumps the epoch. -/
def set_tree_c1 (l : bLSM) (t : Option diskTreeComponent) : bLSM :=
  { l with tree_c1 := t, epoch := l.epoch + 1 }

/-- `bLSM::set_tree_c1_mergeable(t)`. -/
def set_tree_c1_mergeable (l : bLSM) (t : Option diskTreeComponent) : bLSM :=
  { l with tree_c1_mergeable := t, epoch := l.epoch + 1 }

/-- `bLSM::set_tree_c1_prime(t)`. -/
def set_tree_c1_prime (l : bLSM) (t : Option diskTreeComponent) : bLSM :=
  { l with tree_c1_prime := t, epoch := l.epoch + 1 }

/-- `bLSM::set_tree_c2(t)`. -/
def set_tree_c2 (l : bLSM) (t : Option diskTreeComponent) : bLSM :=
  { l with tree_c2 := t, epoch := l.epoch + 1 }

/-- `bLSM::set_c0_is_merging(is_merging)`. -/
def set_c0_is_merging (l : bLSM) (is_merging : Bool) : bLSM :=
  { l with c0_is_merging := is_merging }

end bLSM

/-- What the parts of the code base that are not among the sources contribute to one
step of a merge thread: the tuple merger, `byte_length`, `limit` and `FORCE_INTERVAL`
for `merge_iterators`; the bloom filter a disk component has once it holds the given
tuples; the counters `bytes_in_small` and `output_size()` of `mergeStats`; the C
library's `sqrt`; and whether `diskTreeComponent::force` and `Tcommit` failed (`force`
returns nothing and the value `Tcommit` returns is dropped by the merge threads). -/
structure mergeOracle where
  merge : dataTuple → dataTuple → dataTuple
  byte_length : dataTuple → Nat
  limit : Int
  FORCE_INTERVAL : Int
  bloom_filter : List dataTuple → Option (Bytes → Bool)
  bytes_in_small : Int
  output_size : Int
  sqrt : double → double
  force_failed : Bool
  commit_failed : Bool

/-- Where the mem-merge thread stands: at the top of its loop, between the two locked
sections (merging), about to install `c1_prime`, at the head of the loop that waits for
the C1-mergeable slot, inside `rwlc_cond_wait`, after the `break`, or stopped by the
failed assertion or a null component. -/
inductive memMergePc where
  | top
  | merging
  | installing
  | waiting
  | blocked
  | finished
  | aborted
deriving DecidableEq

/-- Where the disk-merge thread stands: at the head of the loop that waits for input,
inside `rwlc_cond_wait`, merging, about to install `c2_prime`, after the `break`, or
stopped by a null component. -/
inductive diskMergePc where
  | top
  | blocked
  | merging
  | installing
  | finished
  | aborted
deriving DecidableEq

/-- The two merge threads. -/
inductive mergeThread where
  | mem
  | disk
deriving DecidableEq

/-- The class `mergeScheduler` with its two threads: the engine, the constant `MIN_R`,
and for either thread its position, its local `merge_count`, and for the disk thread
the local `c2_prime` (the `c1_prime` of the mem thread is the component in the C1-prime
slot). A step of a thread is one section run under the header write-lock, or the merge
between two such sections. -/
structure mergeScheduler where
  ltable_ : bLSM
  MIN_R : double
  mem_pc : memMergePc
  mem_merge_count : Int
  disk_pc : diskMergePc
  disk_merge_count : Int
  c2_prime : Option diskTreeComponent

namespace mergeScheduler

/-- The constructor `mergeScheduler(ltable)`, with both threads at the top of their loops
and `merge_count = 0`. -/
def init (ltable : bLSM) : mergeScheduler :=
  { ltable_ := ltable, MIN_R := double.finite 3, mem_pc := .top, mem_merge_count := 0,
    disk_pc := .top, disk_merge_count := 0, c2_prime := none }

/-- The environment `merge_iterators` runs in for the given thread: the mem thread
passes `dropDeletes = false` and the statistics of level 1, the disk thread
`dropDeletes = true` and those of level 2. -/
def env (o : mergeOracle) (t : mergeThread) : mergeEnv :=
  { merge := o.merge, dropDeletes := (match t with | .mem => false | .disk => true),
    merge_level := (match t with | .mem => 1 | .disk => 2),
    byte_length := o.byte_length, limit := o.limit, FORCE_INTERVAL := o.FORCE_INTERVAL }

/-- The mem-merge thread from the top of its loop to the first `rwlc_unlock`: leave the
loop when the engine is shutting down, else open the iterator on C1 and store a new,
empty `c1_prime` in the C1-prime slot. -/
def memMerge_top (o : mergeOracle) (s : mergeScheduler) : mergeScheduler :=
  if !s.ltable_.is_still_running then { s with mem_pc := .finished }
  else
    match s.ltable_.tree_c1 with
    | none => { s with mem_pc := .aborted }
    | some _ =>
      { s with
        ltable_ := s.ltable_.set_tree_c1_prime
          (some { bloom_filter := o.bloom_filter [], tuples := [] })
        mem_pc := .merging }

/-- The mem-merge thread between its locked sections: `merge_iterators` over C1 and the
tuples of C0 fills `c1_prime` (the component the C1-prime slot points to) and collects
the merged tuples from C0; then `c1_prime->force(xid)`, whose outcome is not looked at.
Modelled from the spec: the batched iterator over C0 (`memTreeComponent`, not among the
sources) yields the tuples of C0 in key order. -/
def memMerge_merge (o : mergeOracle) (s : mergeScheduler) : mergeScheduler :=
  match s.ltable_.tree_c1 with
  | none => { s with mem_pc := .aborted }
  | some c1 =>
    let st := merge_iterators (env o .mem) c1.tuples s.ltable_.tree_c0 s.ltable_
    { s with
      ltable_ :=
        { st.ltable with
          tree_c1_prime :=
            some { bloom_filter := o.bloom_filter st.scratch_tree,
                   tuples := st.scratch_tree } }
      mem_pc := .installing }

/-- The local `frac = 1.0 / (double) merge_count` of the mem-merge thread. -/
def frac (merge_count : Int) : double :=
  double.fdiv (double.finite 1) (double.of_int merge_count)

/-- The update of `mean_c0_run_length` in the mem-merge thread, for the incremented
`merge_count`: the expression
`((double) mean) * (1 - frac) + ((double) bytes_in_small * frac)` in binary64 arithmetic,
truncated by the cast to `int64_t`. -/
def new_mean_c0_run_length (mean bytes_in_small merge_count : Int) : Int :=
  double.cast_long
    (double.fadd
      (double.fmul (double.of_int mean) (double.fsub (double.finite 1) (frac merge_count)))
      (double.fmul (double.of_int bytes_in_small) (frac merge_count)))

/-- The mem-merge thread from the second `rwlc_writelock` to the cascade decision:
install `c1_prime` as C1, clear the C1-prime slot and `c0_is_merging`, commit (the value
of `Tcommit` is dropped), update the C0 statistics, check the assertion
`*R() >= MIN_R`, and compute `signal_c2`. -/
def memMerge_install (o : mergeOracle) (s : mergeScheduler) : mergeScheduler :=
  let merge_count := s.mem_merge_count + 1
  let l1 := ((s.ltable_.set_tree_c1 s.ltable_.tree_c1_prime).set_tree_c1_prime none
    ).set_c0_is_merging false
  let new_c1_size : double := double.of_int o.output_size
  let l2 :=
    if o.bytes_in_small ≠ 0 then
      { l1 with
        num_c0_mergers := merge_count
        mean_c0_run_length :=
          new_mean_c0_run_length l1.mean_c0_run_length o.bytes_in_small merge_count }
    else l1
  if !double.ge l2.r_val s.MIN_R then
    { s with ltable_ := l2, mem_merge_count := merge_count, mem_pc := .aborted }
  else
    let signal_c2 : Bool :=
      double.gt
        (double.fdiv (double.fmul (double.round (105 / 100)) new_c1_size)
          (double.of_int l2.mean_c0_run_length))
        l2.r_val
    { s with
      ltable_ := l2, mem_merge_count := merge_count
      mem_pc := if signal_c2 then .waiting else .top }

/-- The mem-merge thread at the head of `while (ltable_->get_tree_c1_mergeable())`: wait
(with `c1_flushing` set) while the slot is occupied, else promote C1 to C1-mergeable and
install a new, empty C1. -/
def memMerge_wait (o : mergeOracle) (s : mergeScheduler) : mergeScheduler :=
  match s.ltable_.tree_c1_mergeable with
  | some _ => { s with ltable_ := { s.ltable_ with c1_flushing := true }, mem_pc := .blocked }
  | none =>
    { s with
      ltable_ := (s.ltable_.set_tree_c1_mergeable s.ltable_.tree_c1).set_tree_c1
        (some { bloom_filter := o.bloom_filter [], tuples := [] })
      mem_pc := .top }

/-- The mem-merge thread returning from `rwlc_cond_wait`. -/
def memMerge_wake (s : mergeScheduler) : mergeScheduler :=
  { s with ltable_ := { s.ltable_ with c1_flushing := false }, mem_pc := .waiting }

/-- The disk-merge thread at the head of `while (!ltable_->get_tree_c1_mergeable())`:
without input, leave the loop when the engine is shutting down and wait otherwise; with
input, open the iterators on C2 and C1-mergeable and create `c2_prime`. -/
def diskMerge_top (o : mergeOracle) (s : mergeScheduler) : mergeScheduler :=
  match s.ltable_.tree_c1_mergeable with
  | none =>
    if !s.ltable_.is_still_running then { s with disk_pc := .finished }
    else { s with disk_pc := .blocked }
  | some _ =>
    match s.ltable_.tree_c2 with
    | none => { s with disk_pc := .aborted }
    | some _ =>
      { s with
        c2_prime := some { bloom_filter := o.bloom_filter [], tuples := [] }
        disk_pc := .merging }

/-- The disk-merge thread returning from `rwlc_cond_wait`. -/
def diskMerge_wake (s : mergeScheduler) : mergeScheduler :=
  { s with disk_pc := .top }

/-- The disk-merge thread between its locked sections: `merge_iterators` over C2 and
C1-mergeable fills `c2_prime`; then `c2_prime->force(xid)`, whose outcome is not looked
at. -/
def diskMerge_merge (o : mergeOracle) (s : mergeScheduler) : mergeScheduler :=
  match s.ltable_.tree_c2, s.ltable_.tree_c1_mergeable with
  | some c2, some c1_mergeable =>
    let st := merge_iterators (env o .disk) c2.tuples c1_mergeable.tuples s.ltable_
    { s with
      ltable_ := st.ltable
      c2_prime :=
        some { bloom_filter := o.bloom_filter st.scratch_tree, tuples := st.scratch_tree }
      disk_pc := .installing }
  | _, _ => { s with disk_pc := .aborted }

/-- The disk-merge thread from the second `rwlc_writelock` to the end of the loop body:
clear the C1-mergeable slot, recompute `R`, install `c2_prime` as C2 and commit (the
value of `Tcommit` is dropped). -/
def diskMerge_install (o : mergeOracle) (s : mergeScheduler) : mergeScheduler :=
  let l1 := s.ltable_.set_tree_c1_mergeable none
  let l2 :=
    { l1 with
      r_val := double.max s.MIN_R
        (o.sqrt (double.div (o.output_size : ℚ) (l1.mean_c0_run_length : ℚ))) }
  { s with
    ltable_ := l2.set_tree_c2 s.c2_prime
    disk_merge_count := s.disk_merge_count + 1
    c2_prime := none
    disk_pc := .top }

/-- One step of the given thread, by its position; a thread that has left its loop or
was stopped does nothing. -/
def step (t : mergeThread) (o : mergeOracle) (s : mergeScheduler) : mergeScheduler :=
  match t with
  | .mem =>
    match s.mem_pc with
    | .top => memMerge_top o s
    | .merging => memMerge_merge o s
    | .installing => memMerge_install o s
    | .waiting => memMerge_wait o s
    | .blocked => memMerge_wake s
    | .finished => s
    | .aborted => s
  | .disk =>
    match s.disk_pc with
    | .top => diskMerge_top o s
    | .blocked => diskMerge_wake s
    | .merging => diskMerge_merge o s
    | .installing => diskMerge_install o s
    | .finished => s
    | .aborted => s

/-- A run of the two threads: the steps of a schedule, taken in order. -/
def run (s : mergeScheduler) : List (mergeThread × mergeOracle) → mergeScheduler
  | [] => s
  | a :: schedule => run (step a.1 a.2 s) schedule

end mergeScheduler


/-! ### Pacing and the garbage buffer of `merge_iterators` -/

/-- The bytes `merge_iterators` charges to its counter for the given tuples: the sum of
their `byte_length()`. -/
def bytes_written (env : mergeEnv) (ts : List dataTuple) : Int :=
  (ts.map (fun t => (env.byte_length t : Int))).sum

/-- The pacing of a merge state: the scratch tree splits into consecutive batches, one per
request to the rate limiter, followed by the tuples written since the last request; every
request asked for the bytes of its batch and exceeded `FORCE_INTERVAL`, the counter holds
the bytes of the rest, and without rate limiting nothing was requested. -/
def Paced (env : mergeEnv) (st : mergeState) : Prop :=
  ∃ (batches : List (List dataTuple)) (rest : List dataTuple),
    st.scratch_tree = batches.flatten ++ rest ∧
    st.aquired = batches.map (bytes_written env) ∧
    st.i = bytes_written env rest ∧
    (∀ a ∈ st.aquired, env.FORCE_INTERVAL < a) ∧
    (env.limit = 0 → st.aquired = [])


/-- The state of the garbage buffer after `merge_iterators` has consumed the small-side
tuples `consumed` at merge level 1: the array has its 100 slots, its first `next_garbage`
slots hold the tuples buffered since the last collection, in order; these and the
collected tuples are the consumed tuples, every one of which was written once, at an
index below 100. -/
def Buffered (st : mergeState) (consumed : List dataTuple) : Prop :=
  st.garbage.length = 100 ∧ st.next_garbage ≤ 100 ∧
    (∃ pending : List dataTuple,
      st.garbage.take st.next_garbage = pending.map some ∧
      st.collected ++ pending = consumed) ∧
    st.garbage_writes.map Prod.snd = consumed ∧
    ∀ w ∈ st.garbage_writes, w.1 < 100

/-- The state of the garbage buffer at a merge level other than 1: nothing was buffered
or collected, and the engine is the one the merge started with. -/
def Unbuffered (st : mergeState) (ltable : bLSM) : Prop :=
  st.ltable = ltable ∧ st.next_garbage = 0 ∧ st.garbage_writes = [] ∧ st.collected = []


namespace RateLimiter

/-- A call that changes the limiter: `sync(now)`, `claim_next(permits)` at a clock
reading, or `set_rate(rate)`. -/
inductive call where
  | sync (now : Nat)
  | claim_next (permits : ℚ) (now : Nat)
  | set_rate (rate : ℚ)

/-- The state after a call. -/
def perform (s : RateLimiter) : call → RateLimiter
  | .sync now => s.sync now
  | .claim_next permits now => (s.claim_next permits now).2
  | .set_rate rate => (s.set_rate rate).2

/-- The state after a sequence of calls. -/
def perform_all (s : RateLimiter) : List call → RateLimiter
  | [] => s
  | c :: calls => perform_all (s.perform c) calls

/-- The calls the invariant of the bucket is stated for: `claim_next` with a non-negative
number of permits, and any `sync` and `set_rate`. -/
def call.admissible : call → Prop
  | .claim_next permits _ => 0 ≤ permits
  | _ => True

end RateLimiter


namespace mergeScheduler

/-- The component a merge builds: the candidates of the two runs that pass
`insert_filter`, with the bloom filter the collaborators give it. -/
def merged_component (o : mergeOracle) (l : bLSM) (large small : List dataTuple)
    (dropDeletes : Bool) : diskTreeComponent :=
  { bloom_filter := o.bloom_filter
      ((merge_candidates o.merge small large).filter
        (fun t => insert_filter l t dropDeletes)),
    tuples := (merge_candidates o.merge small large).filter
      (fun t => insert_filter l t dropDeletes) }

/-- The cascade decision `signal_c2` of the mem-merge thread for the engine as it is at
the decision: `1.05 * new_c1_size / mean_c0_run_length > R`, in `double` arithmetic. -/
def signal_c2 (o : mergeOracle) (l : bLSM) : Bool :=
  double.gt
    (double.fdiv (double.fmul (double.round (105 / 100)) (double.of_int o.output_size))
      (double.of_int l.mean_c0_run_length))
    l.r_val

/-- The mem-merge thread from the top of its loop to the cascade decision: the first
locked section, the merge and the second locked section, without a step of the other
thread in between. -/
def memMerge_pass (o1 o2 o3 : mergeOracle) (s : mergeScheduler) : mergeScheduler :=
  step .mem o3 (step .mem o2 (step .mem o1 s))

/-- The disk-merge thread once through its loop body, from the top of the loop, without a
step of the other thread in between. -/
def diskMerge_pass (o1 o2 o3 : mergeOracle) (s : mergeScheduler) : mergeScheduler :=
  step .disk o3 (step .disk o2 (step .disk o1 s))


/-- What the disk-merge thread holds while it merges and before it installs: its inputs
C2 and C1-mergeable are set, and before the install `c2_prime` is their merge. -/
def DiskHolds (s : mergeScheduler) : Prop :=
  (s.disk_pc = .merging →
    ∃ c2 c1m, s.ltable_.tree_c2 = some c2 ∧ s.ltable_.tree_c1_mergeable = some c1m) ∧
  (s.disk_pc = .installing →
    ∃ (o : mergeOracle) (c2 c1m : diskTreeComponent),
      s.ltable_.tree_c2 = some c2 ∧ s.ltable_.tree_c1_mergeable = some c1m ∧
      s.c2_prime = some (merged_component o s.ltable_ c2.tuples c1m.tuples true))

end mergeScheduler

namespace bLSM

/-- `bLSM::stop()`: the engine afterwards and the number of calls of `flushTable()` it
made. `flushTable` (defined outside the sources at hand) is a parameter: the engine it
leaves, given the engine it is called on. -/
def stop (flushTable : bLSM → bLSM) (l : bLSM) : bLSM × Nat :=
  if !l.shutting_down_ then
    ({ flushTable { l with shutting_down_ := true } with
        c0_flushing := true, c1_flushing := true }, 1)
  else (l, 0)

end bLSM


namespace mergeScheduler

/-- A stretch of a schedule in which only the disk-merge thread takes steps. -/
def disk_steps (os : List mergeOracle) : List (mergeThread × mergeOracle) :=
  os.map (fun o => (mergeThread.disk, o))

end mergeScheduler

/-! ### Sample data for the concrete instances -/

/-- A live tuple whose raw key is `key` followed by `suffix` and whose stripped key is
`key`. -/
def sampleTuple (key suffix data : Bytes) : dataTuple :=
  { rawkey := key ++ suffix, strippedkeylen := key.length, data := data, timestamp := 0,
    isDelete := false }

/-- A tombstone for `key`. -/
def sampleTombstone (key : Bytes) : dataTuple :=
  { rawkey := key, strippedkeylen := key.length, data := [], timestamp := 0,
    isDelete := true }

/-- An engine whose C0 holds `c0`, with empty C1 and C2 and no expiry. -/
def sampleTable (c0 : List dataTuple) : bLSM :=
  { tree_c0 := c0, tree_c0_mergeable := none,
    tree_c1 := some { bloom_filter := none, tuples := [] },
    tree_c1_mergeable := none, tree_c1_prime := none,
    tree_c2 := some { bloom_filter := none, tuples := [] },
    epoch := 0, current_timestamp := 0, expiry := 0,
    r_val := double.finite 3, max_c0_size := 100, mean_c0_run_length := 100,
    num_c0_mergers := 0, c0_is_merging := false, c0_flushing := false,
    c1_flushing := false, shutting_down_ := false }

/-- A merge environment whose tuple merger lets the small (newer) side win, without rate
limiting. -/
def sampleEnv (dropDeletes : Bool) (merge_level : Int) : mergeEnv :=
  { merge := fun _ t2 => t2, dropDeletes := dropDeletes, merge_level := merge_level,
    byte_length := fun t => t.rawkey.length + t.data.length, limit := 0,
    FORCE_INTERVAL := 0 }

/-- A merge iterator over three runs: keys 1, 3 (values 7), keys 1, 2 (values 8) and
keys 2, 3, 9 (values 5), with a null slot between the last two. -/
def sampleMerge : mergeManyIterator treeIterator :=
  mergeManyIterator.init [sampleTuple [1] [] [7], sampleTuple [3] [] [7]]
    [some [sampleTuple [1] [] [8], sampleTuple [2] [] [8]], none,
      some [sampleTuple [2] [] [5], sampleTuple [3] [] [5], sampleTuple [9] [] [5]]]

/-- An engine with C0 holding `c0`, C1 holding `c1` and C2 holding `c2`; the other slots
are null, the disk components have no bloom filter, and no expiry is configured. -/
def sampleEngine (c0 c1 c2 : List dataTuple) (epoch : Nat) : bLSM :=
  { tree_c0 := c0, tree_c0_mergeable := none,
    tree_c1 := some { bloom_filter := none, tuples := c1 },
    tree_c1_mergeable := none, tree_c1_prime := none,
    tree_c2 := some { bloom_filter := none, tuples := c2 },
    epoch := epoch, current_timestamp := 0, expiry := 0,
    r_val := double.finite 3, max_c0_size := 100, mean_c0_run_length := 100,
    num_c0_mergers := 0, c0_is_merging := false, c0_flushing := false,
    c1_flushing := false, shutting_down_ := false }

/-- An invalidated snapshot iterator that has returned nothing yet. -/
def sampleInvalidIterator : bLSM.iterator :=
  { epoch := 0, merge_it_ := none, last_returned := none, key := none, valid := false,
    reval_count := 0, reports := [] }

/-- A limiter with an interval of 100 microseconds per permit (10 000 permits per second)
and the bucket size of the constructor. -/
def sampleLimiter (stored : ℚ) (next_free : Nat) : RateLimiter :=
  { interval_ := 100, max_permits_ := 104857600, stored_permits_ := stored,
    next_free_ := next_free }

/-- What the collaborators contribute in the concrete instances: the tuple merger lets
the newer side win, new components have no bloom filter, the merge reports 1600 bytes
written and no bytes read from the small side, `sqrt` knows the root of 16, and `force`
and `Tcommit` fail as given. -/
def sampleOracle (force_failed commit_failed : Bool) : mergeOracle :=
  { merge := fun _ t2 => t2, byte_length := fun t => t.rawkey.length + t.data.length,
    limit := 0, FORCE_INTERVAL := 0, bloom_filter := fun _ => none, bytes_in_small := 0,
    output_size := 1600,
    sqrt := fun x => if x = double.finite 16 then double.finite 4 else double.nan,
    force_failed := force_failed, commit_failed := commit_failed }

/-- A valid snapshot iterator over an engine at epoch 0 that last returned key 2 and
whose merge iterator holds key 1 in the C1 slot. -/
def sampleOutOfOrderIterator : bLSM.iterator :=
  { epoch := 0,
    merge_it_ := some (mergeManyIterator.init (mergeManyIterator.init [] [some []])
      [none, some [sampleTuple [1] [] [8]], none, some []]),
    last_returned := some (sampleTuple [2] [] [7]), key := none, valid := true,
    reval_count := 0, reports := [] }


/-- An engine with key 1 in C0, empty C1 and C2, and key 5 frozen in C1-mergeable. -/
def sampleFrozenEngine : bLSM :=
  { sampleEngine [sampleTuple [1] [] [7]] [] [] 0 with
    tree_c1_mergeable := some { bloom_filter := none, tuples := [sampleTuple [5] [] [7]] } }

/-- The collaborators of `sampleOracle`, with a merge that reports 100 bytes written. -/
def sampleSmallOracle : mergeOracle :=
  { sampleOracle false false with output_size := 100 }

/-! ## Theorems -/

/-! ### The comparator -/

theorem Bytes.cons_lt_cons_iff (a b : Nat) (as bs : Bytes) :
    (a :: as : Bytes) < b :: bs ↔ a < b ∨ (a = b ∧ as < bs) := by
  constructor
  · intro h
    cases h with
    | cons h => exact Or.inr ⟨rfl, h⟩
    | rel h => exact Or.inl h
  · rintro (h | ⟨rfl, h⟩)
    · exact List.Lex.rel h
    · exact List.Lex.cons h

theorem dataTuple.compare_lt_zero_iff (a b : Bytes) : dataTuple.compare a b < 0 ↔ a < b := by
  induction a generalizing b with
  | nil =>
    cases b with
    | nil => simp [dataTuple.compare]
    | cons y ys => simp [dataTuple.compare, List.nil_lt_cons]
  | cons x xs ih =>
    cases b with
    | nil => simp [dataTuple.compare]
    | cons y ys =>
      rw [Bytes.cons_lt_cons_iff, dataTuple.compare]
      split_ifs with h1 h2
      · simp [h1]
      · constructor
        · intro h; omega
        · rintro (h | ⟨rfl, _⟩) <;> omega
      · have hxy : x = y := by omega
        subst hxy
        simp [ih]

theorem dataTuple.compare_eq_zero_iff (a b : Bytes) : dataTuple.compare a b = 0 ↔ a = b := by
  induction a generalizing b with
  | nil => cases b <;> simp [dataTuple.compare]
  | cons x xs ih =>
    cases b with
    | nil => simp [dataTuple.compare]
    | cons y ys =>
      rw [dataTuple.compare]
      split_ifs with h1 h2
      · simp; omega
      · simp; omega
      · have hxy : x = y := by omega
        subst hxy
        simp [ih]

theorem dataTuple.compare_obj_lt_iff (a b : dataTuple) :
    dataTuple.compare_obj a b < 0 ↔ a.strippedkey < b.strippedkey :=
  dataTuple.compare_lt_zero_iff _ _

theorem dataTuple.compare_obj_eq_iff (a b : dataTuple) :
    dataTuple.compare_obj a b = 0 ↔ a.strippedkey = b.strippedkey :=
  dataTuple.compare_eq_zero_iff _ _

theorem dataTuple.compare_pos_iff (a b : Bytes) : 0 < dataTuple.compare a b ↔ b < a := by
  rcases lt_trichotomy a b with h | h | h
  · have h1 := (dataTuple.compare_lt_zero_iff a b).2 h
    constructor
    · intro h2; omega
    · intro h2; exact absurd h (lt_asymm h2)
  · subst h
    have h1 := (dataTuple.compare_eq_zero_iff a a).2 rfl
    simp [h1]
  · have h1 : ¬ dataTuple.compare a b < 0 := fun hc =>
      lt_asymm h ((dataTuple.compare_lt_zero_iff a b).1 hc)
    have h2 : ¬ dataTuple.compare a b = 0 := fun hc =>
      (ne_of_gt h) ((dataTuple.compare_eq_zero_iff a b).1 hc)
    constructor
    · intro _; exact h
    · intro _; omega

/-! ### Bloom-filter gates and the insert filter -/

theorem bLSM.slotMight_eq_false_iff (slot : Option diskTreeComponent) (t : dataTuple) :
    bLSM.slotMight slot t = false ↔
      ∀ c, slot = some c →
        ∃ bf, c.bloom_filter = some bf ∧ stasis_bloom_filter_lookup bf t.strippedkey = false := by
  cases slot with
  | none => simp [bLSM.slotMight]
  | some c =>
    cases hbf : c.bloom_filter with
    | none => simp [bLSM.slotMight, hbf]
    | some bf => simp [bLSM.slotMight, hbf]

/-- C10: `mightBeOnDisk(t)` returns false exactly when every non-null slot among C1,
C1-prime, C1-mergeable and C2 has a bloom filter whose lookup of the stripped key of `t`
answers false; hence `mightBeAfterMemMerge(t) = true` implies `mightBeOnDisk(t) = true`. -/
theorem bLSM.mightBeOnDisk_eq_false_iff (ltable : bLSM) (t : dataTuple) :
    (ltable.mightBeOnDisk t = false ↔
      ∀ slot ∈ [ltable.tree_c1, ltable.tree_c1_prime, ltable.tree_c1_mergeable, ltable.tree_c2],
        ∀ c, slot = some c →
          ∃ bf, c.bloom_filter = some bf ∧
            stasis_bloom_filter_lookup bf t.strippedkey = false) ∧
    (ltable.mightBeAfterMemMerge t = true → ltable.mightBeOnDisk t = true) := by
  have h1 := bLSM.slotMight_eq_false_iff ltable.tree_c1 t
  have h2 := bLSM.slotMight_eq_false_iff ltable.tree_c1_prime t
  have h3 := bLSM.slotMight_eq_false_iff ltable.tree_c1_mergeable t
  have h4 := bLSM.slotMight_eq_false_iff ltable.tree_c2 t
  constructor
  · simp only [List.mem_cons, List.mem_singleton, List.not_mem_nil, or_false, forall_eq_or_imp,
      forall_eq]
    rw [← h1, ← h2, ← h3, ← h4]
    unfold bLSM.mightBeOnDisk bLSM.mightBeAfterMemMerge
    cases bLSM.slotMight ltable.tree_c1 t <;> cases bLSM.slotMight ltable.tree_c1_prime t <;>
      cases bLSM.slotMight ltable.tree_c1_mergeable t <;>
      cases bLSM.slotMight ltable.tree_c2 t <;> simp
  · unfold bLSM.mightBeOnDisk
    intro h
    rw [h]
    cases bLSM.slotMight ltable.tree_c1 t <;> cases bLSM.slotMight ltable.tree_c1_prime t <;>
      simp

/-- C3: `insert_filter(ltable, t, dropDeletes)` returns false exactly when `t` is a
tombstone and (`dropDeletes` is set or `mightBeAfterMemMerge(t)` is false), or when an
expiry is configured and `t.timestamp < current_timestamp - expiry`; in every other case
it returns true. -/
theorem insert_filter_eq_false_iff (ltable : bLSM) (t : dataTuple) (dropDeletes : Bool) :
    (insert_filter ltable t dropDeletes = false ↔
      (t.isDelete = true ∧ (dropDeletes = true ∨ ltable.mightBeAfterMemMerge t = false)) ∨
      (ltable.expiry ≠ 0 ∧ t.timestamp < ltable.current_timestamp - ltable.expiry)) ∧
    (insert_filter ltable t dropDeletes = true ↔
      ¬ ((t.isDelete = true ∧ (dropDeletes = true ∨ ltable.mightBeAfterMemMerge t = false)) ∨
        (ltable.expiry ≠ 0 ∧ t.timestamp < ltable.current_timestamp - ltable.expiry))) := by
  unfold insert_filter
  by_cases he : ltable.expiry = 0 <;>
    by_cases hts : t.timestamp < ltable.current_timestamp - ltable.expiry <;>
    cases t.isDelete <;> cases dropDeletes <;> cases ltable.mightBeAfterMemMerge t <;>
    simp [he, hts]

/-! ### Garbage collection of C0 -/

/-- The test `garbage_collect` applies to a live entry `e` and a buffered tuple `g`: same
stripped key, same value length, same value bytes. -/
def gc_matches (e g : dataTuple) : Bool :=
  decide (e.strippedkey = g.strippedkey ∧ e.datalen = g.datalen ∧ e.data = g.data)

theorem memcmp_eq_zero_iff (a b : Bytes) (h : a.length = b.length) :
    memcmp a b b.length = 0 ↔ a = b := by
  unfold memcmp
  rw [dataTuple.compare_eq_zero_iff, ← h, List.take_length, h, List.take_length]

theorem strippedkey_unique {tree : List dataTuple}
    (hs : tree.Pairwise (fun a b => dataTuple.compare_obj a b < 0))
    {x y : dataTuple} (hx : x ∈ tree) (hy : y ∈ tree)
    (hk : x.strippedkey = y.strippedkey) : x = y := by
  by_contra hne
  have hp : tree.Pairwise (fun a b => a.strippedkey ≠ b.strippedkey) :=
    hs.imp (fun {a b} hab => ne_of_lt ((dataTuple.compare_obj_lt_iff a b).1 hab))
  exact hp.forall (fun _ _ h => h.symm) hx hy hne hk

theorem garbage_collect_one_eq (ltable_ : bLSM) (g : dataTuple)
    (hs : ltable_.tree_c0.Pairwise (fun a b => dataTuple.compare_obj a b < 0)) :
    garbage_collect_one ltable_ g =
      { ltable_ with tree_c0 := ltable_.tree_c0.filter (fun e => !gc_matches e g) } := by
  unfold garbage_collect_one rbtree_find
  cases hf : ltable_.tree_c0.find? (fun e => decide (dataTuple.compare_obj e g = 0)) with
  | none =>
    have hnone : ∀ e ∈ ltable_.tree_c0, ¬ e.strippedkey = g.strippedkey := by
      intro e he hk
      have := List.find?_eq_none.1 hf e he
      simp [dataTuple.compare_obj_eq_iff] at this
      exact this hk
    have : ltable_.tree_c0.filter (fun e => !gc_matches e g) = ltable_.tree_c0 := by
      rw [List.filter_eq_self]
      intro e he
      simp [gc_matches, hnone e he]
    simp only [this]
  | some e =>
    have hmem : e ∈ ltable_.tree_c0 := List.mem_of_find?_eq_some hf
    have hkey : e.strippedkey = g.strippedkey := by
      have := List.find?_some hf
      simpa [dataTuple.compare_obj_eq_iff] using this
    have huniq : ∀ x ∈ ltable_.tree_c0, x.strippedkey = g.strippedkey → x = e :=
      fun x hx hk => strippedkey_unique hs hx hmem (hk.trans hkey.symm)
    by_cases hd : e.datalen = g.datalen ∧ memcmp e.data g.data g.datalen = 0
    · have hdata : e.data = g.data := (memcmp_eq_zero_iff _ _ hd.1).1 hd.2
      simp only [hd, and_self, if_true]
      congr 1
      unfold rbtree_erase
      apply List.filter_congr
      intro x hx
      by_cases hk : x.strippedkey = g.strippedkey
      · have hxe := huniq x hx hk
        subst hxe
        simp [gc_matches, dataTuple.compare_obj_eq_iff, hk, hd.1, hdata]
      · simp [gc_matches, dataTuple.compare_obj_eq_iff, hk]
    · have hdata : ¬ (e.datalen = g.datalen ∧ e.data = g.data) := by
        rintro ⟨h1, h2⟩
        exact hd ⟨h1, (memcmp_eq_zero_iff _ _ h1).2 h2⟩
      have : ltable_.tree_c0.filter (fun e => !gc_matches e g) = ltable_.tree_c0 := by
        rw [List.filter_eq_self]
        intro x hx
        by_cases hk : x.strippedkey = g.strippedkey
        · have hxe := huniq x hx hk
          subst hxe
          simpa [gc_matches, hk] using not_and_or.1 hdata
        · simp [gc_matches, hk]
      simp only [hd, if_false, this]

theorem garbage_collect_fold_eq (buf : List dataTuple) (ltable_ : bLSM)
    (hs : ltable_.tree_c0.Pairwise (fun a b => dataTuple.compare_obj a b < 0)) :
    buf.foldl garbage_collect_one ltable_ =
      { ltable_ with
        tree_c0 := ltable_.tree_c0.filter (fun e => !buf.any (fun g => gc_matches e g)) } := by
  induction buf generalizing ltable_ with
  | nil => simp
  | cons g gs ih =>
    rw [List.foldl_cons, garbage_collect_one_eq ltable_ g hs, ih _ (hs.filter _)]
    simp only [List.filter_filter, List.any_cons, Bool.not_or]
    congr 1
    apply List.filter_congr
    intro x _
    rw [Bool.and_comm]

theorem garbage_collect_loop_eq (pre : List (Option dataTuple)) (buf : List dataTuple)
    (rest : List (Option dataTuple)) (ltable_ : bLSM) :
    garbage_collect_loop (pre ++ (buf.map some ++ rest)) (List.range' pre.length buf.length)
      ltable_ = buf.foldl garbage_collect_one ltable_ := by
  induction buf generalizing pre ltable_ with
  | nil => simp [garbage_collect_loop]
  | cons g gs ih =>
    have hget : (pre ++ ((g :: gs).map some ++ rest)).getD pre.length none = some g := by
      rw [List.getD_eq_getElem?_getD, List.getElem?_append_right (le_refl _)]
      simp
    have hpre : pre ++ ((g :: gs).map some ++ rest) = (pre ++ [some g]) ++ (gs.map some ++ rest) := by
      simp
    rw [List.length_cons, List.range'_succ, garbage_collect_loop, hget]
    simp only [List.foldl_cons]
    rw [hpre]
    have := ih (pre ++ [some g]) (garbage_collect_one ltable_ g)
    simpa using this

/-- C4: when `garbage_collect` runs (the buffer is full or `force` is set) it removes from
live C0 exactly the entries whose stripped key equals that of a buffered tuple and whose
value has the same length and the same bytes as that tuple, leaves every other entry and
every other part of the engine unchanged, and returns 0; otherwise C0 is unchanged and
it returns `next_garbage`. The buffer is the first `next_garbage` slots of the array; C0
is a set ordered by stripped key. -/
theorem garbage_collect_spec (ltable_ : bLSM) (buf : List dataTuple)
    (rest : List (Option dataTuple)) (garbage_len : Nat) (force : Bool)
    (hs : ltable_.tree_c0.Pairwise (fun a b => dataTuple.compare_obj a b < 0)) :
    (buf.length = garbage_len ∨ force = true →
      garbage_collect ltable_ (buf.map some ++ rest) garbage_len buf.length force =
        ({ ltable_ with
           tree_c0 := ltable_.tree_c0.filter (fun e => !buf.any (fun g => gc_matches e g)) },
         0)) ∧
    (¬ (buf.length = garbage_len ∨ force = true) →
      garbage_collect ltable_ (buf.map some ++ rest) garbage_len buf.length force =
        (ltable_, buf.length)) := by
  constructor
  · intro h
    have hl := garbage_collect_loop_eq [] buf rest ltable_
    simp only [List.nil_append, List.length_nil, ← List.range_eq_range'] at hl
    unfold garbage_collect
    rw [if_pos h, hl, garbage_collect_fold_eq buf ltable_ hs]
  · intro h
    unfold garbage_collect
    rw [if_neg h]

/-- C4 at a concrete input: C0 holds key 1 with value 7 and key 2 with value 9; the
buffer holds key 1 with value 7 and key 2 with the older value 8. The forced collection
removes key 1 and keeps the overwritten key 2. -/
theorem garbage_collect_spec_witness :
    garbage_collect (sampleTable [sampleTuple [1] [] [7], sampleTuple [2] [] [9]])
        ([sampleTuple [1] [] [7], sampleTuple [2] [] [8]].map some ++ []) 100 2 true =
      (sampleTable [sampleTuple [2] [] [9]], 0) :=
  (garbage_collect_spec (sampleTable [sampleTuple [1] [] [7], sampleTuple [2] [] [9]])
    [sampleTuple [1] [] [7], sampleTuple [2] [] [8]] [] 100 true (by decide)).1 (Or.inr rfl)

/-! ### The streaming merger: from the loops to the list of candidates -/

theorem insert_filter_tree_c0 (l : bLSM) (c0 : List dataTuple) (t : dataTuple) (d : Bool) :
    insert_filter { l with tree_c0 := c0 } t d = insert_filter l t d := rfl

theorem Emitted.refl (d : Bool) (st : mergeState) : Emitted d st st [] := by
  exact ⟨by simp, st.ltable.tree_c0, rfl⟩

theorem Emitted.trans {d : Bool} {st1 st2 st3 : mergeState} {o1 o2 : List dataTuple}
    (h1 : Emitted d st1 st2 o1) (h2 : Emitted d st2 st3 o2) :
    Emitted d st1 st3 (o1 ++ o2) := by
  obtain ⟨hs1, c1, hl1⟩ := h1
  obtain ⟨hs2, c2, hl2⟩ := h2
  refine ⟨?_, c2, ?_⟩
  · rw [hs2, hs1, hl1, List.filter_append, List.append_assoc]
    rfl
  · rw [hl2, hl1]

theorem garbage_collect_one_frame (l : bLSM) (g : dataTuple) :
    ∃ c0, garbage_collect_one l g = { l with tree_c0 := c0 } := by
  unfold garbage_collect_one
  cases rbtree_find l.tree_c0 g with
  | none => exact ⟨l.tree_c0, rfl⟩
  | some e =>
    by_cases h : e.datalen = g.datalen ∧ memcmp e.data g.data g.datalen = 0
    · dsimp only
      rw [if_pos h]
      exact ⟨_, rfl⟩
    · dsimp only
      rw [if_neg h]
      exact ⟨l.tree_c0, rfl⟩

theorem garbage_collect_loop_frame (garbage : List (Option dataTuple)) (is : List Nat)
    (l : bLSM) : ∃ c0, garbage_collect_loop garbage is l = { l with tree_c0 := c0 } := by
  induction is generalizing l with
  | nil => exact ⟨l.tree_c0, rfl⟩
  | cons i is ih =>
    unfold garbage_collect_loop
    split
    · rename_i g _
      obtain ⟨c1, h1⟩ := garbage_collect_one_frame l g
      obtain ⟨c2, h2⟩ := ih (garbage_collect_one l g)
      exact ⟨c2, by rw [h2, h1]⟩
    · exact ih l

theorem garbage_collect_frame (l : bLSM) (garbage : List (Option dataTuple))
    (garbage_len next_garbage : Nat) (force : Bool) :
    ∃ c0, (garbage_collect l garbage garbage_len next_garbage force).1 =
      { l with tree_c0 := c0 } := by
  unfold garbage_collect
  split
  · exact garbage_collect_loop_frame _ _ _
  · exact ⟨l.tree_c0, rfl⟩

theorem periodically_force_emitted (env : mergeEnv) (st : mergeState) :
    Emitted env.dropDeletes st (periodically_force env st) [] := by
  unfold periodically_force
  split
  · exact ⟨by simp, st.ltable.tree_c0, rfl⟩
  · exact Emitted.refl _ _

theorem insert_if_kept_emitted (env : mergeEnv) (st : mergeState) (t : dataTuple) :
    Emitted env.dropDeletes st (insert_if_kept env st t) [t] := by
  unfold insert_if_kept
  by_cases h : insert_filter st.ltable t env.dropDeletes = true
  · rw [if_pos h]
    exact ⟨by simp [h], st.ltable.tree_c0, rfl⟩
  · rw [if_neg h]
    exact ⟨by simp [h], st.ltable.tree_c0, rfl⟩

theorem submit_emitted (env : mergeEnv) (st : mergeState) (t : dataTuple) :
    Emitted env.dropDeletes st (periodically_force env (insert_if_kept env st t)) [t] := by
  have := (insert_if_kept_emitted env st t).trans (periodically_force_emitted env _)
  simpa using this

theorem merge_buffer_garbage_emitted (env : mergeEnv) (garbage_len : Nat) (t2 : dataTuple)
    (st : mergeState) :
    Emitted env.dropDeletes st (merge_buffer_garbage env garbage_len t2 st) [] := by
  unfold merge_buffer_garbage
  split
  · exact ⟨by simp, garbage_collect_frame _ _ _ _ _⟩
  · exact Emitted.refl _ _

theorem merge_while_less_spec (env : mergeEnv) (t2 : dataTuple) (itrA : List dataTuple)
    (st : mergeState) :
    (merge_while_less env t2 itrA st).1 =
        itrA.dropWhile (fun t1 => decide (dataTuple.compare t1.rawkey t2.rawkey < 0)) ∧
      Emitted env.dropDeletes st (merge_while_less env t2 itrA st).2
        (itrA.takeWhile (fun t1 => decide (dataTuple.compare t1.rawkey t2.rawkey < 0))) := by
  induction itrA generalizing st with
  | nil => exact ⟨rfl, Emitted.refl _ _⟩
  | cons t1 itrA ih =>
    unfold merge_while_less
    by_cases h : dataTuple.compare t1.rawkey t2.rawkey < 0
    · obtain ⟨h1, h2⟩ := ih (periodically_force env (insert_if_kept env st t1))
      simp only [h, if_true, List.dropWhile_cons, List.takeWhile_cons, decide_True]
      exact ⟨h1, by simpa using (submit_emitted env st t1).trans h2⟩
    · simp only [h, if_false, List.dropWhile_cons, List.takeWhile_cons, decide_False]
      exact ⟨rfl, Emitted.refl _ _⟩

theorem merge_while_large_emitted (env : mergeEnv) (itrA : List dataTuple) (st : mergeState) :
    Emitted env.dropDeletes st (merge_while_large env itrA st) itrA := by
  induction itrA generalizing st with
  | nil => exact Emitted.refl _ _
  | cons t1 itrA ih =>
    unfold merge_while_large
    simpa using (submit_emitted env st t1).trans (ih _)

theorem merge_loops_emitted (env : mergeEnv) (garbage_len : Nat) (itrB itrA : List dataTuple)
    (st : mergeState) :
    Emitted env.dropDeletes st
      (merge_while_large env (merge_while_small env garbage_len itrB itrA st).1
        (merge_while_small env garbage_len itrB itrA st).2)
      (merge_candidates env.merge itrB itrA) := by
  induction itrB generalizing itrA st with
  | nil => exact merge_while_large_emitted env itrA st
  | cons t2 itrB ih =>
    obtain ⟨hA, hE⟩ := merge_while_less_spec env t2 itrA st
    unfold merge_while_small merge_candidates
    simp only [hA]
    generalize (merge_while_less env t2 itrA st).2 = st1 at hE ⊢
    cases hd : itrA.dropWhile
        (fun t1 => decide (dataTuple.compare t1.rawkey t2.rawkey < 0)) with
    | nil =>
      simp only [merge_equal_or_small]
      have h3 := ((hE.trans (submit_emitted env st1 t2)).trans
        (merge_buffer_garbage_emitted env garbage_len t2 _)).trans (ih [] _)
      simpa using h3
    | cons t1 rest =>
      simp only [merge_equal_or_small]
      by_cases he : dataTuple.compare t1.strippedkey t2.strippedkey = 0
      · simp only [he, if_true]
        have h3 := ((hE.trans (submit_emitted env st1 (env.merge t1 t2))).trans
          (merge_buffer_garbage_emitted env garbage_len t2 _)).trans (ih rest _)
        simpa using h3
      · simp only [he, if_false]
        have h3 := ((hE.trans (submit_emitted env st1 t2)).trans
          (merge_buffer_garbage_emitted env garbage_len t2 _)).trans (ih (t1 :: rest) _)
        simpa using h3

/-- The scratch tree after `merge_iterators`: the candidates the filter accepts. -/
theorem merge_iterators_scratch_tree (env : mergeEnv) (itrA itrB : List dataTuple)
    (ltable : bLSM) :
    (merge_iterators env itrA itrB ltable).scratch_tree =
      (merge_candidates env.merge itrB itrA).filter
        (fun t => insert_filter ltable t env.dropDeletes) := by
  have h := (merge_loops_emitted env 100 itrB itrA
    { ltable := ltable, scratch_tree := [], i := 0, aquired := [],
      garbage := List.replicate 100 none, next_garbage := 0,
      garbage_writes := [], collected := [] }).1
  simpa [merge_iterators] using h

/-! ### The streaming merger: from the list of candidates to the reference merge -/

theorem pairwise_strippedkey_of_compare_obj {l : List dataTuple}
    (h : l.Pairwise (fun a b => dataTuple.compare_obj a b < 0)) :
    l.Pairwise (fun a b => a.strippedkey < b.strippedkey) :=
  h.imp (fun {a b} hab => (dataTuple.compare_obj_lt_iff a b).1 hab)

theorem union_keys_sorted (A B : List dataTuple) : (union_keys A B).Pairwise (· < ·) := by
  unfold union_keys
  have h1 : List.Sorted (· ≤ ·)
      (((A.map dataTuple.strippedkey ++ B.map dataTuple.strippedkey).dedup).insertionSort
        (· ≤ ·)) :=
    List.sorted_insertionSort _ _
  have h2 : (((A.map dataTuple.strippedkey ++ B.map dataTuple.strippedkey).dedup).insertionSort
      (· ≤ ·)).Nodup :=
    (List.perm_insertionSort _ _).nodup_iff.2 (List.nodup_dedup _)
  exact h1.lt_of_le h2

theorem mem_union_keys (A B : List dataTuple) (k : Bytes) :
    k ∈ union_keys A B ↔
      k ∈ A.map dataTuple.strippedkey ∨ k ∈ B.map dataTuple.strippedkey := by
  unfold union_keys
  rw [List.mem_insertionSort, List.mem_dedup, List.mem_append]

theorem sorted_eq_of_mem_iff {K1 K2 : List Bytes} (h1 : K1.Pairwise (· < ·))
    (h2 : K2.Pairwise (· < ·)) (h : ∀ k, k ∈ K1 ↔ k ∈ K2) : K1 = K2 :=
  List.eq_of_perm_of_sorted ((List.perm_ext_iff_of_nodup h1.nodup h2.nodup).2 h) h1 h2

theorem find_key_of_mem {A : List dataTuple}
    (hs : A.Pairwise (fun a b => a.strippedkey < b.strippedkey)) {a : dataTuple}
    (ha : a ∈ A) :
    A.find? (fun x => decide (x.strippedkey = a.strippedkey)) = some a := by
  induction A with
  | nil => cases ha
  | cons x xs ih =>
    rw [List.pairwise_cons] at hs
    rcases List.mem_cons.1 ha with rfl | hmem
    · simp
    · have hne : ¬ x.strippedkey = a.strippedkey := ne_of_lt (hs.1 a hmem)
      rw [List.find?_cons_of_neg _ (by simpa using hne)]
      exact ih hs.2 hmem

theorem find_key_none {A : List dataTuple} {k : Bytes}
    (h : ∀ a ∈ A, a.strippedkey ≠ k) :
    A.find? (fun x => decide (x.strippedkey = k)) = none := by
  rw [List.find?_eq_none]
  intro x hx
  simpa using h x hx

theorem filterMap_map_strippedkey (L : List dataTuple) (f : Bytes → Option dataTuple)
    (h : ∀ a ∈ L, f a.strippedkey = some a) :
    (L.map dataTuple.strippedkey).filterMap f = L := by
  induction L with
  | nil => rfl
  | cons x xs ih =>
    rw [List.map_cons, List.filterMap_cons, h x (List.mem_cons_self _ _)]
    simp only
    rw [ih (fun a ha => h a (List.mem_cons_of_mem _ ha))]

theorem union_keys_nil_right {A : List dataTuple}
    (hA : A.Pairwise (fun a b => a.strippedkey < b.strippedkey)) :
    union_keys A [] = A.map dataTuple.strippedkey := by
  apply sorted_eq_of_mem_iff (union_keys_sorted A []) (List.pairwise_map.2 hA)
  intro k
  simp [mem_union_keys]

theorem union_keys_step (Alt mid A2 B2 : List dataTuple) (t2 : dataTuple)
    (hA : (Alt ++ mid ++ A2).Pairwise (fun a b => a.strippedkey < b.strippedkey))
    (hB : (t2 :: B2).Pairwise (fun a b => a.strippedkey < b.strippedkey))
    (hlt : ∀ a ∈ Alt, a.strippedkey < t2.strippedkey)
    (hmid : ∀ a ∈ mid, a.strippedkey = t2.strippedkey)
    (hgt : ∀ a ∈ A2, t2.strippedkey < a.strippedkey) :
    (∀ k ∈ union_keys A2 B2, t2.strippedkey < k) ∧
    union_keys (Alt ++ mid ++ A2) (t2 :: B2) =
      Alt.map dataTuple.strippedkey ++ t2.strippedkey :: union_keys A2 B2 := by
  have hgtU : ∀ k ∈ union_keys A2 B2, t2.strippedkey < k := by
    intro k hk
    rcases (mem_union_keys A2 B2 k).1 hk with h | h
    · obtain ⟨a, ha, rfl⟩ := List.mem_map.1 h
      exact hgt a ha
    · obtain ⟨b, hb, rfl⟩ := List.mem_map.1 h
      exact (List.pairwise_cons.1 hB).1 b hb
  refine ⟨hgtU, ?_⟩
  apply sorted_eq_of_mem_iff (union_keys_sorted _ _)
  · rw [List.pairwise_append]
    refine ⟨List.pairwise_map.2 ?_, List.pairwise_cons.2 ⟨hgtU, union_keys_sorted _ _⟩, ?_⟩
    · exact ((List.pairwise_append.1 ((List.pairwise_append.1 hA).1)).1)
    · intro x hx y hy
      obtain ⟨a, ha, rfl⟩ := List.mem_map.1 hx
      rcases List.mem_cons.1 hy with rfl | hy
      · exact hlt a ha
      · exact lt_trans (hlt a ha) (hgtU y hy)
  · intro k
    have hm : k ∈ mid.map dataTuple.strippedkey → k = t2.strippedkey := by
      intro h
      obtain ⟨a, ha, rfl⟩ := List.mem_map.1 h
      exact hmid a ha
    simp only [mem_union_keys, List.map_append, List.mem_append, List.map_cons, List.mem_cons]
    tauto

theorem reference_step (merge : dataTuple → dataTuple → dataTuple)
    (Alt mid A2 B2 : List dataTuple) (t2 : dataTuple)
    (hA : (Alt ++ mid ++ A2).Pairwise (fun a b => a.strippedkey < b.strippedkey))
    (hB : (t2 :: B2).Pairwise (fun a b => a.strippedkey < b.strippedkey))
    (hlt : ∀ a ∈ Alt, a.strippedkey < t2.strippedkey)
    (hmid : ∀ a ∈ mid, a.strippedkey = t2.strippedkey)
    (hgt : ∀ a ∈ A2, t2.strippedkey < a.strippedkey) :
    (union_keys (Alt ++ mid ++ A2) (t2 :: B2)).filterMap
        (reference_pick merge (Alt ++ mid ++ A2) (t2 :: B2)) =
      Alt ++ (match mid.head? with
          | some t1 => merge t1 t2
          | none => t2) ::
        (union_keys A2 B2).filterMap (reference_pick merge A2 B2) := by
  obtain ⟨hgtU, hU⟩ := union_keys_step Alt mid A2 B2 t2 hA hB hlt hmid hgt
  have hBge : ∀ b ∈ t2 :: B2, t2.strippedkey ≤ b.strippedkey := by
    intro b hb
    rcases List.mem_cons.1 hb with rfl | hb
    · exact le_refl _
    · exact le_of_lt ((List.pairwise_cons.1 hB).1 b hb)
  rw [hU, List.filterMap_append, List.filterMap_cons]
  have ha : (Alt.map dataTuple.strippedkey).filterMap
      (reference_pick merge (Alt ++ mid ++ A2) (t2 :: B2)) = Alt := by
    apply filterMap_map_strippedkey
    intro a ha
    have h1 := find_key_of_mem hA (a := a) (by simp [ha])
    have h2 : (t2 :: B2).find? (fun b => decide (b.strippedkey = a.strippedkey)) = none :=
      find_key_none (fun b hb => ne_of_gt (lt_of_lt_of_le (hlt a ha) (hBge b hb)))
    unfold reference_pick
    rw [h1, h2]
  have hb : reference_pick merge (Alt ++ mid ++ A2) (t2 :: B2) t2.strippedkey =
      some (match mid.head? with
        | some t1 => merge t1 t2
        | none => t2) := by
    have h2 : (t2 :: B2).find? (fun b => decide (b.strippedkey = t2.strippedkey)) = some t2 :=
      List.find?_cons_of_pos _ (by simp)
    cases mid with
    | nil =>
      have h1 : (Alt ++ [] ++ A2).find?
          (fun (a : dataTuple) => decide (a.strippedkey = t2.strippedkey)) = none := by
        apply find_key_none
        intro a ha
        simp only [List.append_nil, List.mem_append] at ha
        rcases ha with ha | ha
        · exact ne_of_lt (hlt a ha)
        · exact ne_of_gt (hgt a ha)
      unfold reference_pick
      rw [h1, h2]
      rfl
    | cons t1 rest =>
      have hk : t1.strippedkey = t2.strippedkey := hmid t1 (List.mem_cons_self _ _)
      have h1 := find_key_of_mem hA (a := t1) (by simp)
      rw [hk] at h1
      unfold reference_pick
      rw [h1, h2]
      rfl
  have hc : (union_keys A2 B2).filterMap (reference_pick merge (Alt ++ mid ++ A2) (t2 :: B2)) =
      (union_keys A2 B2).filterMap (reference_pick merge A2 B2) := by
    apply List.filterMap_congr
    intro k hk
    have hlt2 := hgtU k hk
    have h1 : (Alt ++ mid).find? (fun a => decide (a.strippedkey = k)) = none := by
      apply find_key_none
      intro a ha
      rcases List.mem_append.1 ha with ha | ha
      · exact ne_of_lt (lt_trans (hlt a ha) hlt2)
      · rw [hmid a ha]
        exact ne_of_lt hlt2
    have h2 : (t2 :: B2).find? (fun b => decide (b.strippedkey = k)) =
        B2.find? (fun b => decide (b.strippedkey = k)) :=
      List.find?_cons_of_neg _ (by simpa using ne_of_lt hlt2)
    unfold reference_pick
    rw [List.find?_append, h1, h2]
    rfl
  rw [ha, hb, hc]

/-- Under the agreement of the raw-key and the stripped-key order, the candidates of
`merge_iterators` are the walk over the union of the keys. -/
theorem merge_candidates_eq_reference (merge : dataTuple → dataTuple → dataTuple)
    (B A : List dataTuple)
    (hA : A.Pairwise (fun a b => a.strippedkey < b.strippedkey))
    (hB : B.Pairwise (fun a b => a.strippedkey < b.strippedkey))
    (hag : ∀ a ∈ A, ∀ b ∈ B, (dataTuple.compare a.rawkey b.rawkey < 0 ↔
      dataTuple.compare a.strippedkey b.strippedkey < 0)) :
    merge_candidates merge B A = (union_keys A B).filterMap (reference_pick merge A B) := by
  induction B generalizing A with
  | nil =>
    rw [union_keys_nil_right hA, merge_candidates]
    symm
    apply filterMap_map_strippedkey
    intro a ha
    unfold reference_pick
    rw [find_key_of_mem hA ha]
    rfl
  | cons t2 B2 ih =>
    obtain ⟨Alt, Ar, hsplit, hAlt, hAr⟩ :
        ∃ Alt Ar, A = Alt ++ Ar ∧
          A.takeWhile (fun t1 => decide (dataTuple.compare t1.rawkey t2.rawkey < 0)) = Alt ∧
          A.dropWhile (fun t1 => decide (dataTuple.compare t1.rawkey t2.rawkey < 0)) = Ar :=
      ⟨_, _, (List.takeWhile_append_dropWhile _ A).symm, rfl, rfl⟩
    have hlt : ∀ a ∈ Alt, a.strippedkey < t2.strippedkey := by
      intro a ha
      have hmemA : a ∈ A := by rw [hsplit]; exact List.mem_append_left _ ha
      rw [← hAlt] at ha
      have := List.mem_takeWhile_imp ha
      simp only [decide_eq_true_eq] at this
      exact (dataTuple.compare_lt_zero_iff _ _).1
        ((hag a hmemA t2 (List.mem_cons_self _ _)).1 this)
    have hhead : ∀ t1 rest, Ar = t1 :: rest → ¬ t1.strippedkey < t2.strippedkey := by
      intro t1 rest hr hc
      have hmemA : t1 ∈ A := by rw [hsplit, hr]; simp
      have h1 := List.head?_dropWhile_not
        (fun t1 => decide (dataTuple.compare t1.rawkey t2.rawkey < 0)) A
      rw [hAr, hr] at h1
      simp only [List.head?_cons, decide_eq_true_eq] at h1
      have h2 := (hag t1 hmemA t2 (List.mem_cons_self _ _)).2
        ((dataTuple.compare_lt_zero_iff _ _).2 hc)
      simp [h2] at h1
    unfold merge_candidates
    simp only [hAlt, hAr]
    subst hsplit
    have hB2 := (List.pairwise_cons.1 hB).2
    cases Ar with
    | nil =>
      simp only
      have hA0 : (Alt ++ [] ++ []).Pairwise
          (fun (a b : dataTuple) => a.strippedkey < b.strippedkey) := by simpa using hA
      have hs := reference_step merge Alt [] [] B2 t2 hA0 hB hlt (by simp) (by simp)
      have hi := ih [] List.Pairwise.nil hB2 (by simp)
      simp only [List.append_nil] at hs ⊢
      rw [hs, hi]
      rfl
    | cons t1 rest =>
      have hnlt := hhead t1 rest rfl
      have hrest : ∀ a ∈ rest, t1.strippedkey < a.strippedkey :=
        (List.pairwise_cons.1 (List.pairwise_append.1 hA).2.1).1
      have hrs : rest.Pairwise (fun a b => a.strippedkey < b.strippedkey) :=
        (List.pairwise_cons.1 (List.pairwise_append.1 hA).2.1).2
      by_cases he : dataTuple.compare t1.strippedkey t2.strippedkey = 0
      · have hk : t1.strippedkey = t2.strippedkey := (dataTuple.compare_eq_zero_iff _ _).1 he
        simp only [he, if_true]
        have hA0 : (Alt ++ [t1] ++ rest).Pairwise
            (fun a b => a.strippedkey < b.strippedkey) := by simpa using hA
        have hs := reference_step merge Alt [t1] rest B2 t2 hA0 hB hlt
          (by simpa using hk) (fun a ha => hk ▸ hrest a ha)
        have hi := ih rest hrs hB2 (fun a ha b hb =>
          hag a (by simp [ha]) b (List.mem_cons_of_mem _ hb))
        simp only [List.append_assoc, List.singleton_append] at hs
        rw [hs, hi]
        rfl
      · have hk : t2.strippedkey < t1.strippedkey := by
          rcases lt_trichotomy t1.strippedkey t2.strippedkey with h | h | h
          · exact absurd h hnlt
          · exact absurd ((dataTuple.compare_eq_zero_iff _ _).2 h) he
          · exact h
        simp only [he, if_false]
        have hA0 : (Alt ++ [] ++ t1 :: rest).Pairwise
            (fun (a b : dataTuple) => a.strippedkey < b.strippedkey) := by simpa using hA
        have hs := reference_step merge Alt [] (t1 :: rest) B2 t2 hA0 hB hlt (by simp)
          (by
            intro a ha
            rcases List.mem_cons.1 ha with rfl | ha
            · exact hk
            · exact lt_trans hk (hrest a ha))
        have hi := ih (t1 :: rest) (List.pairwise_append.1 hA).2.1 hB2 (fun a ha b hb =>
          hag a (List.mem_append_right _ ha) b (List.mem_cons_of_mem _ hb))
        simp only [List.append_nil] at hs
        rw [hs, hi]
        rfl

/-- C2: when both streams are strictly ascending by stripped key and the raw-key order
between a large-side and a small-side tuple agrees with their stripped-key order, the
tuples `merge_iterators` inserts into the scratch tree are the reference merge: the walk
over the union of the stripped keys in ascending order, with `merge(a, b)` for a key in
both streams and the single tuple otherwise, restricted to the tuples `insert_filter`
accepts. In particular every large-side tuple beyond the last small-side key that
passes the filter is written. -/
theorem merge_iterators_eq_reference_merge (env : mergeEnv) (itrA itrB : List dataTuple)
    (ltable : bLSM)
    (hA : itrA.Pairwise (fun a b => dataTuple.compare_obj a b < 0))
    (hB : itrB.Pairwise (fun a b => dataTuple.compare_obj a b < 0))
    (hag : ∀ a ∈ itrA, ∀ b ∈ itrB, (dataTuple.compare a.rawkey b.rawkey < 0 ↔
      dataTuple.compare a.strippedkey b.strippedkey < 0)) :
    (merge_iterators env itrA itrB ltable).scratch_tree =
        reference_merge env.merge (fun t => insert_filter ltable t env.dropDeletes)
          itrA itrB ∧
      ∀ a ∈ itrA, (∀ b ∈ itrB, dataTuple.compare_obj b a < 0) →
        insert_filter ltable a env.dropDeletes = true →
        a ∈ (merge_iterators env itrA itrB ltable).scratch_tree := by
  have hA2 := pairwise_strippedkey_of_compare_obj hA
  have hB2 := pairwise_strippedkey_of_compare_obj hB
  have hmain : (merge_iterators env itrA itrB ltable).scratch_tree =
      reference_merge env.merge (fun t => insert_filter ltable t env.dropDeletes)
        itrA itrB := by
    rw [merge_iterators_scratch_tree, merge_candidates_eq_reference env.merge itrB itrA hA2 hB2 hag]
    rfl
  refine ⟨hmain, ?_⟩
  intro a ha hlast hkeep
  rw [hmain]
  unfold reference_merge
  rw [List.mem_filter]
  refine ⟨?_, hkeep⟩
  rw [List.mem_filterMap]
  refine ⟨a.strippedkey, ?_, ?_⟩
  · rw [mem_union_keys]
    exact Or.inl (List.mem_map_of_mem _ ha)
  · have h1 := find_key_of_mem hA2 ha
    have h2 : itrB.find? (fun b => decide (b.strippedkey = a.strippedkey)) = none :=
      find_key_none (fun b hb => ne_of_lt ((dataTuple.compare_obj_lt_iff b a).1 (hlast b hb)))
    unfold reference_pick
    rw [h1, h2]

/-- C2 at a concrete input: large side keys 1, 3, 4, small side keys 1 (newer value) and
2; the merger lets the small side win. -/
theorem merge_iterators_eq_reference_merge_witness :
    (merge_iterators (sampleEnv false 2)
        [sampleTuple [1] [] [7], sampleTuple [3] [] [7], sampleTuple [4] [] [7]]
        [sampleTuple [1] [] [8], sampleTuple [2] [] [8]] (sampleTable [])).scratch_tree =
      reference_merge (fun _ t2 => t2) (fun t => insert_filter (sampleTable []) t false)
        [sampleTuple [1] [] [7], sampleTuple [3] [] [7], sampleTuple [4] [] [7]]
        [sampleTuple [1] [] [8], sampleTuple [2] [] [8]] ∧
    reference_merge (fun _ t2 => t2) (fun t => insert_filter (sampleTable []) t false)
        [sampleTuple [1] [] [7], sampleTuple [3] [] [7], sampleTuple [4] [] [7]]
        [sampleTuple [1] [] [8], sampleTuple [2] [] [8]] =
      [sampleTuple [1] [] [8], sampleTuple [2] [] [8], sampleTuple [3] [] [7],
        sampleTuple [4] [] [7]] :=
  ⟨(merge_iterators_eq_reference_merge (sampleEnv false 2)
      [sampleTuple [1] [] [7], sampleTuple [3] [] [7], sampleTuple [4] [] [7]]
      [sampleTuple [1] [] [8], sampleTuple [2] [] [8]] (sampleTable [])
      (by decide) (by decide) (by decide)).1, by decide⟩

/-- C1 evaluated at the failing input: the large side holds stripped key 1 with raw key
1,0,1 and the small side holds stripped key 1 with raw key 1,0,2. Both streams are
strictly ascending, the filter keeps both tuples, and `merge_iterators` writes both, so
the stripped key 1 is written twice. -/
theorem merge_iterators_writes_key_twice :
    [sampleTuple [1] [0, 1] [7]].Pairwise (fun a b => dataTuple.compare_obj a b < 0) ∧
    [sampleTuple [1] [0, 2] [8]].Pairwise (fun a b => dataTuple.compare_obj a b < 0) ∧
    insert_filter (sampleTable []) (sampleTuple [1] [0, 1] [7]) false = true ∧
    insert_filter (sampleTable []) (sampleTuple [1] [0, 2] [8]) false = true ∧
    (merge_iterators (sampleEnv false 1) [sampleTuple [1] [0, 1] [7]]
        [sampleTuple [1] [0, 2] [8]] (sampleTable [])).scratch_tree =
      [sampleTuple [1] [0, 1] [7], sampleTuple [1] [0, 2] [8]] ∧
    (sampleTuple [1] [0, 1] [7]).strippedkey = (sampleTuple [1] [0, 2] [8]).strippedkey ∧
    ¬ (merge_iterators (sampleEnv false 1) [sampleTuple [1] [0, 1] [7]]
        [sampleTuple [1] [0, 2] [8]] (sampleTable [])).scratch_tree.Pairwise
      (fun a b => dataTuple.compare_obj a b < 0) := by
  refine ⟨by decide, by decide, by decide, by decide, by decide, by decide, by decide⟩

/-! ### The k-way merge iterator: one call of `next_callerFrees` -/

theorem getD_set_self {α : Type} (l : List α) (i : Nat) (a d : α) (h : i < l.length) :
    (l.set i a).getD i d = a := by
  simp [List.getD_eq_getElem?_getD, List.getElem?_set_self h]

theorem getD_set_ne {α : Type} (l : List α) (i j : Nat) (a d : α) (h : i ≠ j) :
    (l.set i a).getD j d = l.getD j d := by
  simp [List.getD_eq_getElem?_getD, List.getElem?_set_ne h]

theorem slot_next_fst (o : Option treeIterator) : (slot_next o).1 = (o.getD []).head? := by
  cases o with
  | none => rfl
  | some l => cases l <;> rfl

theorem slot_next_snd (o : Option treeIterator) :
    ((slot_next o).2).getD [] = (o.getD []).tail := by
  cases o with
  | none => rfl
  | some l => cases l <;> rfl

namespace mergeManyIterator

variable {ITRA : Type} [TupleIterator ITRA] [LawfulTupleIterator ITRA]

/-- The effect of advancing slot `i` on the view of the state through `cur` and `rest`. -/
theorem advance_slot_view (s : mergeManyIterator ITRA) (i : Nat)
    (hlen : s.current_.length = s.iters_.length + 1)
    (hfirst : LawfulTupleIterator.Inv s.first_iter_) (hi : i < s.current_.length) :
    (s.advance_slot i).current_.length = s.current_.length ∧
    (s.advance_slot i).iters_.length = s.iters_.length ∧
    LawfulTupleIterator.Inv (s.advance_slot i).first_iter_ ∧
    (s.advance_slot i).last_iter_ = s.last_iter_ ∧
    (s.advance_slot i).cur i = (s.rest i).head? ∧
    (s.advance_slot i).rest i = (s.rest i).tail ∧
    ∀ j, j ≠ i → (s.advance_slot i).cur j = s.cur j ∧ (s.advance_slot i).rest j = s.rest j := by
  cases i with
  | zero =>
    refine ⟨by simp [advance_slot, advance_first], rfl,
      LawfulTupleIterator.next_inv _ hfirst, rfl, ?_, ?_, ?_⟩
    · simp only [advance_slot, advance_first, cur, rest]
      rw [getD_set_self _ _ _ _ hi]
      exact LawfulTupleIterator.next_fst _ hfirst
    · simp only [advance_slot, advance_first, rest]
      exact LawfulTupleIterator.next_snd _ hfirst
    · intro j hj
      cases j with
      | zero => exact absurd rfl hj
      | succ j =>
        refine ⟨?_, rfl⟩
        simp only [advance_slot, advance_first, cur]
        exact getD_set_ne _ _ _ _ _ (by omega)
  | succ i =>
    have hi2 : i < s.iters_.length := by omega
    refine ⟨by simp [advance_slot, advance_iters], by simp [advance_slot, advance_iters],
      hfirst, rfl, ?_, ?_, ?_⟩
    · simp only [advance_slot, advance_iters, cur, rest]
      rw [getD_set_self _ _ _ _ hi]
      exact slot_next_fst _
    · simp only [advance_slot, advance_iters, rest]
      rw [getD_set_self _ _ _ _ hi2]
      exact slot_next_snd _
    · intro j hj
      cases j with
      | zero =>
        refine ⟨?_, rfl⟩
        simp only [advance_slot, advance_iters, cur]
        exact getD_set_ne _ _ _ _ _ (by omega)
      | succ j =>
        have hne : i ≠ j := fun h => hj (by rw [h])
        constructor
        · simp only [advance_slot, advance_iters, cur]
          exact getD_set_ne _ _ _ _ _ (by omega)
        · simp only [advance_slot, advance_iters, rest]
          rw [getD_set_ne _ _ _ _ _ hne]

theorem skip_null_spec (H : List (Option dataTuple)) (k min : Nat) :
    min ≤ skip_null H k min ∧ skip_null H k min ≤ min + k ∧
    (∀ j, min ≤ j → j < skip_null H k min → H.getD j none = none) ∧
    (skip_null H k min < min + k → ∃ t, H.getD (skip_null H k min) none = some t) := by
  induction k generalizing min with
  | zero =>
    refine ⟨le_refl _, le_refl _, ?_, ?_⟩
    · intro j h1 h2
      simp only [skip_null] at h2
      omega
    · intro h
      simp only [skip_null] at h
      omega
  | succ k ih =>
    cases hc : H.getD min none with
    | none =>
      have hs : skip_null H (k + 1) min = skip_null H k (min + 1) := by
        simp only [skip_null, hc]
      obtain ⟨h1, h2, h3, h4⟩ := ih (min + 1)
      rw [hs]
      refine ⟨by omega, by omega, ?_, ?_⟩
      · intro j hj1 hj2
        by_cases hj : j = min
        · rw [hj]; exact hc
        · exact h3 j (by omega) hj2
      · intro h
        exact h4 (by omega)
    | some t =>
      have hs : skip_null H (k + 1) min = min := by
        simp only [skip_null, hc]
      rw [hs]
      refine ⟨le_refl _, by omega, ?_, ?_⟩
      · intro j h1 h2
        omega
      · intro _
        exact ⟨t, hc⟩

theorem scan_inv_step_none (H : List (Option dataTuple)) (a min : Nat) (dups : List Nat)
    (h : ScanInv H a min dups) (ha : H.getD a none = none) : ScanInv H (a + 1) min dups := by
  obtain ⟨h1, h2, tmin, h3, h4, h5⟩ := h
  refine ⟨by omega, h2, tmin, h3, ?_, ?_⟩
  · intro j u hj hu
    have hja : j ≠ a := fun hc => by rw [hc, ha] at hu; cases hu
    exact h4 j u (by omega) hu
  · intro j
    rw [h5 j]
    constructor
    · rintro ⟨q1, q2, q3⟩
      exact ⟨q1, by omega, q3⟩
    · rintro ⟨q1, q2, u, q3, q4⟩
      have hja : j ≠ a := fun hc => by rw [hc, ha] at q3; cases q3
      exact ⟨q1, by omega, u, q3, q4⟩

theorem scan_inv (H : List (Option dataTuple)) (k a min : Nat) (dups : List Nat)
    (h : ScanInv H a min dups) :
    ScanInv H (a + k) (scan H (List.range' a k) min dups).1
      (scan H (List.range' a k) min dups).2 := by
  induction k generalizing a min dups with
  | zero => simpa [scan] using h
  | succ k ih =>
    rw [List.range'_succ, show a + (k + 1) = a + 1 + k by omega]
    cases ha : H.getD a none with
    | none =>
      have hs : scan H (a :: List.range' (a + 1) k) min dups =
          scan H (List.range' (a + 1) k) min dups := by
        simp only [scan, ha]
      rw [hs]
      exact ih (a + 1) min dups (scan_inv_step_none H a min dups h ha)
    | some ti =>
      obtain ⟨h1, h2, tmin, h3, h4, h5⟩ := h
      by_cases hgt : dataTuple.compare_obj tmin ti > 0
      · have hs : scan H (a :: List.range' (a + 1) k) min dups =
            scan H (List.range' (a + 1) k) a [] := by
          simp only [scan, ha, h3]
          rw [if_pos hgt]
        rw [hs]
        apply ih
        have hlt : ti.strippedkey < tmin.strippedkey :=
          (dataTuple.compare_pos_iff _ _).1 hgt
        refine ⟨by omega, List.nodup_nil, ti, ha, ?_, ?_⟩
        · intro j u hj hu
          by_cases hja : j = a
          · subst hja
            rw [ha] at hu
            cases hu
            exact ⟨fun hc => absurd hc (lt_irrefl _), fun _ => le_refl _⟩
          · have hj2 : j < a := by omega
            obtain ⟨q1, q2⟩ := h4 j u hj2 hu
            refine ⟨fun _ => ?_, fun hc => by omega⟩
            by_cases hjm : j < min
            · exact lt_trans hlt (q1 hjm)
            · exact lt_of_lt_of_le hlt (q2 (by omega))
        · intro j
          simp only [List.not_mem_nil, false_iff, not_and]
          intro q1 q2
          omega
      · by_cases heq : dataTuple.compare_obj tmin ti = 0
        · have hs : scan H (a :: List.range' (a + 1) k) min dups =
              scan H (List.range' (a + 1) k) min (dups ++ [a]) := by
            simp only [scan, ha, h3]
            rw [if_neg hgt, if_pos heq]
          rw [hs]
          apply ih
          have hk : tmin.strippedkey = ti.strippedkey := (dataTuple.compare_obj_eq_iff _ _).1 heq
          have hnot : a ∉ dups := fun hc => by
            have := ((h5 a).1 hc).2.1
            omega
          refine ⟨by omega, ?_, tmin, h3, ?_, ?_⟩
          · rw [List.nodup_append]
            refine ⟨h2, List.nodup_singleton a, ?_⟩
            intro x hx hx2
            rw [List.mem_singleton] at hx2
            subst hx2
            exact hnot hx
          · intro j u hj hu
            by_cases hja : j = a
            · subst hja
              rw [ha] at hu
              cases hu
              exact ⟨fun hc => by omega, fun _ => le_of_eq hk⟩
            · exact h4 j u (by omega) hu
          · intro j
            rw [List.mem_append, List.mem_singleton, h5 j]
            constructor
            · rintro (⟨q1, q2, q3⟩ | rfl)
              · exact ⟨q1, by omega, q3⟩
              · exact ⟨h1, by omega, ti, ha, hk.symm⟩
            · rintro ⟨q1, q2, q3⟩
              by_cases hja : j = a
              · exact Or.inr hja
              · exact Or.inl ⟨q1, by omega, q3⟩
        · have hs : scan H (a :: List.range' (a + 1) k) min dups =
              scan H (List.range' (a + 1) k) min dups := by
            simp only [scan, ha, h3]
            rw [if_neg hgt, if_neg heq]
          rw [hs]
          apply ih
          have hlt : tmin.strippedkey < ti.strippedkey := by
            rcases lt_trichotomy tmin.strippedkey ti.strippedkey with hc | hc | hc
            · exact hc
            · exact absurd ((dataTuple.compare_obj_eq_iff _ _).2 hc) heq
            · exact absurd ((dataTuple.compare_pos_iff _ _).2 hc) hgt
          refine ⟨by omega, h2, tmin, h3, ?_, ?_⟩
          · intro j u hj hu
            by_cases hja : j = a
            · subst hja
              rw [ha] at hu
              cases hu
              exact ⟨fun hc => by omega, fun _ => le_of_lt hlt⟩
            · exact h4 j u (by omega) hu
          · intro j
            rw [h5 j]
            constructor
            · rintro ⟨q1, q2, q3⟩
              exact ⟨q1, by omega, q3⟩
            · rintro ⟨q1, q2, u, q3, q4⟩
              have hja : j ≠ a := by
                intro hc
                subst hc
                rw [ha] at q3
                cases q3
                exact absurd q4 (ne_of_gt hlt)
              exact ⟨q1, by omega, u, q3, q4⟩

theorem head_toList_append_tail (l : List dataTuple) : l.head?.toList ++ l.tail = l := by
  cases l <;> rfl

/-- The effect of the loop over `dups` on the view of the state. -/
theorem advance_dups_view (ds : List Nat) (s : mergeManyIterator ITRA)
    (hlen : s.current_.length = s.iters_.length + 1)
    (hfirst : LawfulTupleIterator.Inv s.first_iter_)
    (hds : ∀ d ∈ ds, 1 ≤ d ∧ d < s.current_.length) (hnd : ds.Nodup) :
    (advance_dups ds s).current_.length = s.current_.length ∧
    (advance_dups ds s).iters_.length = s.iters_.length ∧
    LawfulTupleIterator.Inv (advance_dups ds s).first_iter_ ∧
    (advance_dups ds s).last_iter_ = s.last_iter_ ∧
    (∀ j, j ∈ ds → (advance_dups ds s).cur j = (s.rest j).head? ∧
      (advance_dups ds s).rest j = (s.rest j).tail) ∧
    (∀ j, j ∉ ds → (advance_dups ds s).cur j = s.cur j ∧
      (advance_dups ds s).rest j = s.rest j) := by
  induction ds generalizing s with
  | nil =>
    exact ⟨rfl, rfl, hfirst, rfl, fun j hj => absurd hj (List.not_mem_nil j),
      fun j _ => ⟨rfl, rfl⟩⟩
  | cons d ds ih =>
    obtain ⟨hd1, hd2⟩ := hds d (List.mem_cons_self _ _)
    obtain ⟨i, rfl⟩ : ∃ i, d = i + 1 := ⟨d - 1, by omega⟩
    obtain ⟨a1, a2, a3, a4, a5, a6, a7⟩ := advance_slot_view s (i + 1) hlen hfirst hd2
    have hstep : advance_dups ((i + 1) :: ds) s = advance_dups ds (s.advance_slot (i + 1)) := rfl
    rw [List.nodup_cons] at hnd
    obtain ⟨b1, b2, b3, b4, b5, b6⟩ := ih (s.advance_slot (i + 1)) (by rw [a1, a2, hlen]) a3
      (fun x hx => by rw [a1]; exact hds x (List.mem_cons_of_mem _ hx)) hnd.2
    rw [hstep]
    refine ⟨by rw [b1, a1], by rw [b2, a2], b3, by rw [b4, a4], ?_, ?_⟩
    · intro j hj
      rcases List.mem_cons.1 hj with rfl | hj
      · obtain ⟨c1, c2⟩ := b6 (i + 1) hnd.1
        exact ⟨by rw [c1, a5], by rw [c2, a6]⟩
      · have hne : j ≠ i + 1 := fun hc => hnd.1 (hc ▸ hj)
        obtain ⟨c1, c2⟩ := b5 j hj
        obtain ⟨e1, e2⟩ := a7 j hne
        exact ⟨by rw [c1, e2], by rw [c2, e2]⟩
    · intro j hj
      have hne : j ≠ i + 1 := fun hc => hj (hc ▸ List.mem_cons_self _ _)
      have hj2 : j ∉ ds := fun hc => hj (List.mem_cons_of_mem _ hc)
      obtain ⟨c1, c2⟩ := b6 j hj2
      obtain ⟨e1, e2⟩ := a7 j hne
      exact ⟨by rw [c1, e1], by rw [c2, e2]⟩

/-- The state after the opening block of `next_callerFrees`: every entry of `current_`
is the head of its stream. -/
theorem advance_last_view (s : mergeManyIterator ITRA) (h : s.WF) :
    s.advance_last.current_.length = s.current_.length ∧
    s.advance_last.iters_.length = s.iters_.length ∧
    LawfulTupleIterator.Inv s.advance_last.first_iter_ ∧
    s.advance_last.last_iter_ = s.last_iter_ ∧
    (∀ j, j < s.current_.length →
      (s.advance_last.cur j).toList ++ s.advance_last.rest j = s.stream j) ∧
    (∀ j, j < s.current_.length → s.advance_last.cur j = none → s.advance_last.rest j = []) := by
  cases hl : s.last_iter_ with
  | none =>
    have hs : s.advance_last = s := by simp only [advance_last, hl]
    rw [hs]
    refine ⟨rfl, rfl, h.first, hl, ?_, ?_⟩
    · intro j _
      simp [stream, hl]
    · intro j hj hc
      exact h.null j hj (by rw [hl]; exact fun hc => by cases hc) hc
  | some i =>
    have hs : s.advance_last = s.advance_slot i := by
      cases i <;> simp only [advance_last, hl, advance_slot]
    have hi := h.last i hl
    obtain ⟨a1, a2, a3, a4, a5, a6, a7⟩ := advance_slot_view s i h.len h.first hi
    rw [hs]
    refine ⟨a1, a2, a3, by rw [a4, hl], ?_, ?_⟩
    · intro j _
      by_cases hji : j = i
      · subst hji
        rw [a5, a6, head_toList_append_tail]
        simp [stream, hl]
      · obtain ⟨e1, e2⟩ := a7 j hji
        rw [e1, e2]
        have : ¬ (some i = some j) := fun hc => hji (Option.some.inj hc).symm
        simp [stream, hl, this]
    · intro j hj hc
      by_cases hji : j = i
      · subst hji
        rw [a5] at hc
        rw [a6]
        cases hr : s.rest j with
        | nil => rfl
        | cons x xs => rw [hr] at hc; cases hc
      · obtain ⟨e1, e2⟩ := a7 j hji
        rw [e1] at hc
        rw [e2]
        exact h.null j hj (by rw [hl]; exact fun hc => hji (Option.some.inj hc).symm) hc

theorem next_callerFrees_of_all_null (s : mergeManyIterator ITRA)
    (hmin : skip_null s.advance_last.current_ s.advance_last.current_.length 0 =
      s.advance_last.current_.length) :
    s.next_callerFrees = (none, s.advance_last) := by
  unfold next_callerFrees
  simp only [num_iters_]
  rw [if_pos hmin]

theorem next_callerFrees_of_some (s : mergeManyIterator ITRA)
    (hmin : ¬ skip_null s.advance_last.current_ s.advance_last.current_.length 0 =
      s.advance_last.current_.length) :
    s.next_callerFrees =
      (s.advance_last.current_.getD
        (scan s.advance_last.current_
          (List.range' (skip_null s.advance_last.current_ s.advance_last.current_.length 0 + 1)
            (s.advance_last.current_.length -
              (skip_null s.advance_last.current_ s.advance_last.current_.length 0 + 1)))
          (skip_null s.advance_last.current_ s.advance_last.current_.length 0) []).1 none,
        { advance_dups
            (scan s.advance_last.current_
              (List.range' (skip_null s.advance_last.current_ s.advance_last.current_.length 0 + 1)
                (s.advance_last.current_.length -
                  (skip_null s.advance_last.current_ s.advance_last.current_.length 0 + 1)))
              (skip_null s.advance_last.current_ s.advance_last.current_.length 0) []).2
            s.advance_last with
          last_iter_ := some
            (scan s.advance_last.current_
              (List.range' (skip_null s.advance_last.current_ s.advance_last.current_.length 0 + 1)
                (s.advance_last.current_.length -
                  (skip_null s.advance_last.current_ s.advance_last.current_.length 0 + 1)))
              (skip_null s.advance_last.current_ s.advance_last.current_.length 0) []).1 }) := by
  unfold next_callerFrees
  simp only [num_iters_]
  rw [if_neg hmin]

theorem stream_head_eq_cur (s : mergeManyIterator ITRA) (h : s.WF) (j : Nat)
    (hj : j < s.current_.length) : (s.stream j).head? = s.advance_last.cur j := by
  obtain ⟨_, _, _, _, a5, a6⟩ := advance_last_view s h
  rw [← a5 j hj]
  cases hc : s.advance_last.cur j with
  | none => rw [a6 j hj hc]; rfl
  | some v => rfl

/-- One call of `next_callerFrees` on a well-formed state: either every stream is empty
and null is returned, or the head `t` of the first stream `m` with the least stripped
key is returned, `last_iter_` becomes `m`, and every stream whose head carries that key
loses its head. -/
theorem next_callerFrees_spec (s : mergeManyIterator ITRA) (h : s.WF) :
    s.next_callerFrees.2.WF ∧
    s.next_callerFrees.2.current_.length = s.current_.length ∧
    (((∀ j, j < s.current_.length → s.stream j = []) ∧ s.next_callerFrees.1 = none ∧
        ∀ j, j < s.current_.length → s.next_callerFrees.2.stream j = []) ∨
      ∃ m t, m < s.current_.length ∧ (s.stream m).head? = some t ∧
        s.next_callerFrees.1 = some t ∧ s.next_callerFrees.2.last_iter_ = some m ∧
        (∀ j u, j < s.current_.length → (s.stream j).head? = some u →
          (j < m → t.strippedkey < u.strippedkey) ∧
          (m ≤ j → t.strippedkey ≤ u.strippedkey)) ∧
        (∀ j, j < s.current_.length →
          s.next_callerFrees.2.stream j = drop_key t (s.stream j)) ∧
        s.next_callerFrees.2.cur m = some t) := by
  obtain ⟨a1, a2, a3, a4, a5, a6⟩ := advance_last_view s h
  have hhead := stream_head_eq_cur s h
  obtain ⟨k1, k2, k3, k4⟩ := skip_null_spec s.advance_last.current_
    s.advance_last.current_.length 0
  by_cases hmin : skip_null s.advance_last.current_ s.advance_last.current_.length 0 =
      s.advance_last.current_.length
  · rw [next_callerFrees_of_all_null s hmin]
    have hnull : ∀ j, j < s.current_.length → s.advance_last.cur j = none := by
      intro j hj
      exact k3 j (Nat.zero_le _) (by rw [hmin, a1]; exact hj)
    have hrest : ∀ j, j < s.current_.length → s.advance_last.rest j = [] :=
      fun j hj => a6 j hj (hnull j hj)
    refine ⟨⟨by rw [a1, a2, h.len], a3, ?_, ?_⟩, a1, Or.inl ⟨?_, rfl, ?_⟩⟩
    · intro j hj _ hc
      exact a6 j (by rw [← a1]; exact hj) hc
    · intro m hm
      rw [a1]
      exact h.last m (by rw [← a4]; exact hm)
    · intro j hj
      rw [← a5 j hj, hnull j hj, hrest j hj]
      rfl
    · intro j hj
      simp only [stream, hnull j hj, hrest j hj]
      split <;> rfl
  · rw [next_callerFrees_of_some s hmin]
    have hlt : skip_null s.advance_last.current_ s.advance_last.current_.length 0 <
        s.advance_last.current_.length := by omega
    obtain ⟨t0, ht0⟩ := k4 (by omega)
    have hinit : ScanInv s.advance_last.current_
        (skip_null s.advance_last.current_ s.advance_last.current_.length 0 + 1)
        (skip_null s.advance_last.current_ s.advance_last.current_.length 0) [] := by
      refine ⟨by omega, List.nodup_nil, t0, ht0, ?_, ?_⟩
      · intro j u hj hu
        by_cases hjm : j = skip_null s.advance_last.current_ s.advance_last.current_.length 0
        · rw [hjm, ht0] at hu
          cases hu
          exact ⟨fun _ => by omega, fun _ => le_refl _⟩
        · have := k3 j (Nat.zero_le _) (by omega)
          rw [this] at hu
          cases hu
      · intro j
        simp only [List.not_mem_nil, false_iff, not_and]
        intro q1 q2
        omega
    have hfin := scan_inv s.advance_last.current_
      (s.advance_last.current_.length -
        (skip_null s.advance_last.current_ s.advance_last.current_.length 0 + 1))
      (skip_null s.advance_last.current_ s.advance_last.current_.length 0 + 1)
      (skip_null s.advance_last.current_ s.advance_last.current_.length 0) [] hinit
    rw [show skip_null s.advance_last.current_ s.advance_last.current_.length 0 + 1 +
        (s.advance_last.current_.length -
          (skip_null s.advance_last.current_ s.advance_last.current_.length 0 + 1)) =
        s.current_.length by omega] at hfin
    generalize (scan s.advance_last.current_
      (List.range' (skip_null s.advance_last.current_ s.advance_last.current_.length 0 + 1)
        (s.advance_last.current_.length -
          (skip_null s.advance_last.current_ s.advance_last.current_.length 0 + 1)))
      (skip_null s.advance_last.current_ s.advance_last.current_.length 0) []) = r at hfin ⊢
    obtain ⟨m, ds⟩ := r
    obtain ⟨f1, f2, t, f3, f4, f5⟩ := hfin
    simp only at f1 f2 f3 f4 f5 ⊢
    have hds : ∀ d ∈ ds, 1 ≤ d ∧ d < s.advance_last.current_.length := by
      intro d hd
      obtain ⟨q1, q2, _⟩ := (f5 d).1 hd
      exact ⟨by omega, by omega⟩
    obtain ⟨b1, b2, b3, b4, b5, b6⟩ := advance_dups_view ds s.advance_last
      (by rw [a1, a2, h.len]) a3 hds f2
    have hm_notin : m ∉ ds := fun hc => by
      have := ((f5 m).1 hc).1
      omega
    have hcur : ∀ j, (mergeManyIterator.mk (advance_dups ds s.advance_last).first_iter_
        (advance_dups ds s.advance_last).iters_ (advance_dups ds s.advance_last).current_
        (some m)).cur j = (advance_dups ds s.advance_last).cur j := fun _ => rfl
    have hrest : ∀ j, (mergeManyIterator.mk (advance_dups ds s.advance_last).first_iter_
        (advance_dups ds s.advance_last).iters_ (advance_dups ds s.advance_last).current_
        (some m)).rest j = (advance_dups ds s.advance_last).rest j := by
      intro j
      cases j <;> rfl
    refine ⟨⟨by simp only [b1, b2, a1, a2, h.len], b3, ?_, ?_⟩, by simp only [b1, a1],
      Or.inr ⟨m, t, f1, ?_, f3, rfl, ?_, ?_, ?_⟩⟩
    · intro j hj hne hc
      simp only [b1, a1] at hj
      rw [hcur] at hc
      rw [hrest]
      by_cases hjd : j ∈ ds
      · obtain ⟨c1, c2⟩ := b5 j hjd
        rw [c1] at hc
        rw [c2]
        cases hr : s.advance_last.rest j with
        | nil => rfl
        | cons x xs => rw [hr] at hc; cases hc
      · obtain ⟨c1, c2⟩ := b6 j hjd
        rw [c1] at hc
        rw [c2]
        exact a6 j hj hc
    · intro m2 hm2
      simp only at hm2
      cases hm2
      simp only [b1, a1]
      exact f1
    · rw [hhead m f1]
      exact f3
    · intro j u hj hu
      rw [hhead j hj] at hu
      exact f4 j u hj hu
    · intro j hj
      have hstream : (mergeManyIterator.mk (advance_dups ds s.advance_last).first_iter_
          (advance_dups ds s.advance_last).iters_ (advance_dups ds s.advance_last).current_
          (some m)).stream j =
          (if m = j then [] else ((advance_dups ds s.advance_last).cur j).toList) ++
            (advance_dups ds s.advance_last).rest j := by
        simp only [stream, hcur, hrest, Option.some.injEq]
      rw [hstream, ← a5 j hj]
      by_cases hjm : m = j
      · subst hjm
        obtain ⟨c1, c2⟩ := b6 m hm_notin
        have f3b : s.advance_last.cur m = some t := f3
        rw [if_pos rfl, c2, f3b]
        simp [drop_key]
      · rw [if_neg hjm]
        by_cases hjd : j ∈ ds
        · obtain ⟨c1, c2⟩ := b5 j hjd
          obtain ⟨_, _, u, q3, q4⟩ := (f5 j).1 hjd
          have q3b : s.advance_last.cur j = some u := q3
          rw [c1, c2, head_toList_append_tail, q3b]
          simp [drop_key, q4]
        · obtain ⟨c1, c2⟩ := b6 j hjd
          rw [c1, c2]
          cases hc : s.advance_last.cur j with
          | none =>
            rw [a6 j hj hc]
            rfl
          | some u =>
            have hne : u.strippedkey ≠ t.strippedkey := by
              intro hk
              obtain ⟨q1, q2⟩ := f4 j u hj hc
              by_cases hlt2 : j < m
              · exact absurd hk (ne_of_gt (q1 hlt2))
              · exact hjd ((f5 j).2 ⟨by omega, hj, u, hc, hk⟩)
            simp [drop_key, hne]
    · rw [hcur]
      exact ((b6 m hm_notin).1).trans f3

theorem drop_key_length_le (t : dataTuple) (l : List dataTuple) :
    (drop_key t l).length ≤ l.length := by
  cases l with
  | nil => exact le_refl _
  | cons h tl =>
    simp only [drop_key]
    split <;> simp

theorem total_eq_zero_iff (s : mergeManyIterator ITRA) :
    s.total = 0 ↔ ∀ j, j < s.current_.length → s.stream j = [] := by
  unfold total num_iters_
  rw [List.sum_eq_zero_iff]
  constructor
  · intro h j hj
    have := h (s.stream j).length (List.mem_map.2 ⟨j, List.mem_range.2 hj, rfl⟩)
    exact List.length_eq_zero.1 this
  · intro h x hx
    obtain ⟨j, hj, rfl⟩ := List.mem_map.1 hx
    rw [h j (List.mem_range.1 hj)]
    rfl

/-- The three facts about the measure `total` that make `drain` independent of its fuel. -/
theorem total_next (s : mergeManyIterator ITRA) (h : s.WF) :
    (s.next_callerFrees.1 = none → s.total = 0 ∧ s.next_callerFrees.2.total = 0) ∧
    (∀ t, s.next_callerFrees.1 = some t → s.next_callerFrees.2.total < s.total) ∧
    (s.total = 0 → s.next_callerFrees.1 = none) := by
  obtain ⟨hwf, hlen, hcase⟩ := next_callerFrees_spec s h
  rcases hcase with ⟨hA, hret, hA2⟩ | ⟨m, t, hm, hhead, hret, _, _, hdrop, _⟩
  · refine ⟨fun _ => ⟨(total_eq_zero_iff s).2 hA, ?_⟩, fun t ht => ?_, fun _ => hret⟩
    · rw [total_eq_zero_iff, hlen]
      exact hA2
    · rw [hret] at ht
      cases ht
  · have hlt : s.next_callerFrees.2.total < s.total := by
      unfold total num_iters_
      rw [hlen]
      apply List.sum_lt_sum
      · intro j hj
        rw [hdrop j (List.mem_range.1 hj)]
        exact drop_key_length_le _ _
      · refine ⟨m, List.mem_range.2 hm, ?_⟩
        rw [hdrop m hm]
        cases hs : s.stream m with
        | nil => rw [hs] at hhead; cases hhead
        | cons x xs =>
          rw [hs] at hhead
          simp only [List.head?_cons, Option.some.injEq] at hhead
          subst hhead
          simp [drop_key]
    refine ⟨fun hn => ?_, fun _ _ => hlt, fun h0 => ?_⟩
    · rw [hret] at hn
      cases hn
    · omega

theorem drain_fuel (n : Nat) (s : mergeManyIterator ITRA) (h : s.WF) (hn : s.total ≤ n)
    (m : Nat) (hm : n ≤ m) : drain m s = drain n s := by
  induction n generalizing s m with
  | zero =>
    have h0 : s.next_callerFrees.1 = none := (total_next s h).2.2 (by omega)
    cases m with
    | zero => rfl
    | succ m =>
      show (match s.next_callerFrees.1 with
        | none => []
        | some t => t :: drain m s.next_callerFrees.2) = []
      rw [h0]
  | succ n ih =>
    obtain ⟨m2, rfl⟩ : ∃ m2, m = m2 + 1 := ⟨m - 1, by omega⟩
    show (match s.next_callerFrees.1 with
        | none => []
        | some t => t :: drain m2 s.next_callerFrees.2) =
      (match s.next_callerFrees.1 with
        | none => []
        | some t => t :: drain n s.next_callerFrees.2)
    cases hc : s.next_callerFrees.1 with
    | none => rfl
    | some t =>
      have hlt := (total_next s h).2.1 t hc
      have hwf := (next_callerFrees_spec s h).1
      simp only
      rw [ih s.next_callerFrees.2 hwf (by omega) m2 (by omega)]

end mergeManyIterator

/-- A `mergeManyIterator` over a lawful first iterator is lawful: its invariant is `WF`
and it yields what `drain` collects. -/
instance {ITRA : Type} [TupleIterator ITRA] [LawfulTupleIterator ITRA] :
    LawfulTupleIterator (mergeManyIterator ITRA) where
  Inv := mergeManyIterator.WF
  remaining := fun s => drain s.total s
  next_fst := fun s h => by
    show s.next_callerFrees.1 = (drain s.total s).head?
    cases ht : s.total with
    | zero =>
      rw [(mergeManyIterator.total_next s h).2.2 ht]
      rfl
    | succ n =>
      show s.next_callerFrees.1 = (match s.next_callerFrees.1 with
        | none => []
        | some t => t :: drain n s.next_callerFrees.2).head?
      cases s.next_callerFrees.1 <;> rfl
  next_snd := fun s h => by
    show drain s.next_callerFrees.2.total s.next_callerFrees.2 = (drain s.total s).tail
    have hwf := (mergeManyIterator.next_callerFrees_spec s h).1
    cases hc : s.next_callerFrees.1 with
    | none =>
      obtain ⟨h1, h2⟩ := (mergeManyIterator.total_next s h).1 hc
      rw [h1, h2]
      rfl
    | some t =>
      have hlt := (mergeManyIterator.total_next s h).2.1 t hc
      obtain ⟨n, hn⟩ : ∃ n, s.total = n + 1 := ⟨s.total - 1, by omega⟩
      rw [hn]
      show _ = (match s.next_callerFrees.1 with
        | none => []
        | some t => t :: drain n s.next_callerFrees.2).tail
      rw [hc]
      simp only [List.tail_cons]
      exact (mergeManyIterator.drain_fuel _ _ hwf (le_refl _) n (by omega)).symm
  next_inv := fun s h => (mergeManyIterator.next_callerFrees_spec s h).1

namespace mergeManyIterator

variable {ITRA : Type} [TupleIterator ITRA] [LawfulTupleIterator ITRA]

/-! ### The k-way merge iterator: the sequence it yields -/

theorem list_eq_cons_of_head_tail {l l2 : List dataTuple} {t : dataTuple}
    (h1 : l.head? = some t) (h2 : l.tail = l2) : l = t :: l2 := by
  cases l with
  | nil => cases h1
  | cons x xs =>
    simp only [List.head?_cons, Option.some.injEq] at h1
    simp only [List.tail_cons] at h2
    rw [h1, h2]

/-- The tuples a well-formed iterator yields, unfolded by one call. -/
theorem remaining_cases (s : mergeManyIterator ITRA) (h : s.WF) :
    s.next_callerFrees.2.WF ∧
    s.next_callerFrees.2.current_.length = s.current_.length ∧
    (((∀ j, j < s.current_.length → s.stream j = []) ∧ s.next_callerFrees.1 = none ∧
        LawfulTupleIterator.remaining s = []) ∨
      ∃ m t, m < s.current_.length ∧ (s.stream m).head? = some t ∧
        s.next_callerFrees.1 = some t ∧
        LawfulTupleIterator.remaining s =
          t :: LawfulTupleIterator.remaining s.next_callerFrees.2 ∧
        s.next_callerFrees.2.total < s.total ∧
        (∀ j u, j < s.current_.length → (s.stream j).head? = some u →
          (j < m → t.strippedkey < u.strippedkey) ∧
          (m ≤ j → t.strippedkey ≤ u.strippedkey)) ∧
        ∀ j, j < s.current_.length →
          s.next_callerFrees.2.stream j = drop_key t (s.stream j)) := by
  obtain ⟨hwf, hlen, hcase⟩ := next_callerFrees_spec s h
  have hfst : s.next_callerFrees.1 = (LawfulTupleIterator.remaining s).head? :=
    LawfulTupleIterator.next_fst s h
  have hsnd : LawfulTupleIterator.remaining s.next_callerFrees.2 =
      (LawfulTupleIterator.remaining s).tail := LawfulTupleIterator.next_snd s h
  refine ⟨hwf, hlen, ?_⟩
  rcases hcase with ⟨hA, hret, _⟩ | ⟨m, t, hm, hhead, hret, _, hmin, hdrop, _⟩
  · refine Or.inl ⟨hA, hret, ?_⟩
    rw [hret] at hfst
    cases hr : LawfulTupleIterator.remaining s with
    | nil => rfl
    | cons x xs => rw [hr] at hfst; cases hfst
  · refine Or.inr ⟨m, t, hm, hhead, hret, ?_, (total_next s h).2.1 t hret, hmin, hdrop⟩
    rw [hret] at hfst
    exact list_eq_cons_of_head_tail hfst.symm hsnd.symm

/-- Induction over the calls of `next_callerFrees` until null is returned. -/
theorem wf_induction (P : mergeManyIterator ITRA → Prop)
    (step : ∀ s : mergeManyIterator ITRA, s.WF →
      (∀ t, s.next_callerFrees.1 = some t → P s.next_callerFrees.2) → P s)
    (s : mergeManyIterator ITRA) (h : s.WF) : P s := by
  have key : ∀ n (s : mergeManyIterator ITRA), s.WF → s.total ≤ n → P s := by
    intro n
    induction n with
    | zero =>
      intro s h hn
      apply step s h
      intro t ht
      have := (total_next s h).2.2 (by omega)
      rw [this] at ht
      cases ht
    | succ n ih =>
      intro s h hn
      apply step s h
      intro t ht
      have hlt := (total_next s h).2.1 t ht
      exact ih _ (next_callerFrees_spec s h).1 (by omega)
  exact key s.total s h (le_refl _)

theorem mem_of_mem_drop_key {t x : dataTuple} {l : List dataTuple} (h : x ∈ drop_key t l) :
    x ∈ l := by
  cases l with
  | nil => exact h
  | cons a tl =>
    simp only [drop_key] at h
    split at h
    · exact List.mem_cons_of_mem _ h
    · exact h

theorem drop_key_pairwise {t : dataTuple} {l : List dataTuple} {R : dataTuple → dataTuple → Prop}
    (h : l.Pairwise R) : (drop_key t l).Pairwise R := by
  cases l with
  | nil => exact h
  | cons a tl =>
    simp only [drop_key]
    split
    · exact (List.pairwise_cons.1 h).2
    · exact h

theorem lt_of_mem_drop_key {t x : dataTuple} {l : List dataTuple}
    (hs : l.Pairwise (fun a b => a.strippedkey < b.strippedkey))
    (hh : ∀ u, l.head? = some u → t.strippedkey ≤ u.strippedkey) (hx : x ∈ drop_key t l) :
    t.strippedkey < x.strippedkey := by
  cases l with
  | nil => cases hx
  | cons a tl =>
    have ha := hh a rfl
    rw [List.pairwise_cons] at hs
    simp only [drop_key] at hx
    split at hx
    · rename_i heq
      rw [← heq]
      exact hs.1 x hx
    · rename_i hne
      have hlt : t.strippedkey < a.strippedkey := lt_of_le_of_ne ha (fun hc => hne hc.symm)
      rcases List.mem_cons.1 hx with rfl | hx
      · exact hlt
      · exact lt_trans hlt (hs.1 x hx)

theorem find_drop_key {t : dataTuple} {k : Bytes} (l : List dataTuple)
    (hk : t.strippedkey ≠ k) :
    (drop_key t l).find? (fun x => decide (x.strippedkey = k)) =
      l.find? (fun x => decide (x.strippedkey = k)) := by
  cases l with
  | nil => rfl
  | cons a tl =>
    simp only [drop_key]
    split
    · rename_i heq
      rw [List.find?_cons_of_neg]
      simpa [heq] using hk
    · rfl

theorem sortedStreams_next (s : mergeManyIterator ITRA) (h : s.WF) (hs : s.SortedStreams) :
    s.next_callerFrees.2.SortedStreams := by
  obtain ⟨_, hlen, hcase⟩ := remaining_cases s h
  intro j hj
  rw [hlen] at hj
  rcases hcase with ⟨hA, hret, _⟩ | ⟨m, t, _, _, _, _, _, _, hdrop⟩
  · have := (next_callerFrees_spec s h).2.2
    rcases this with ⟨_, _, hA2⟩ | ⟨m, t, _, _, hret2, _⟩
    · rw [hA2 j hj]
      exact List.Pairwise.nil
    · rw [hret] at hret2
      cases hret2
  · rw [hdrop j hj]
    exact drop_key_pairwise (hs j hj)

/-- Every tuple the iterator yields comes from one of its streams. -/
theorem mem_stream_of_mem_remaining (s : mergeManyIterator ITRA) (h : s.WF) :
    ∀ x ∈ LawfulTupleIterator.remaining s, ∃ j, j < s.current_.length ∧ x ∈ s.stream j := by
  refine wf_induction (fun s => ∀ x ∈ LawfulTupleIterator.remaining s,
    ∃ j, j < s.current_.length ∧ x ∈ s.stream j) ?_ s h
  intro s h ih x hx
  obtain ⟨_, hlen, hcase⟩ := remaining_cases s h
  rcases hcase with ⟨_, _, hnil⟩ | ⟨m, t, hm, hhead, hret, hrem, _, _, hdrop⟩
  · rw [hnil] at hx
    cases hx
  · rw [hrem] at hx
    rcases List.mem_cons.1 hx with rfl | hx
    · exact ⟨m, hm, List.mem_of_mem_head? hhead⟩
    · obtain ⟨j, hj, hxj⟩ := ih t hret x hx
      rw [hlen] at hj
      rw [hdrop j hj] at hxj
      exact ⟨j, hj, mem_of_mem_drop_key hxj⟩

/-- The tuples a well-formed iterator over strictly ascending streams yields are strictly
ascending by stripped key. -/
theorem remaining_sorted (s : mergeManyIterator ITRA) (h : s.WF) (hs : s.SortedStreams) :
    (LawfulTupleIterator.remaining s).Pairwise
      (fun a b => dataTuple.compare_obj a b < 0) := by
  refine wf_induction (fun s => s.SortedStreams →
    (LawfulTupleIterator.remaining s).Pairwise
      (fun a b => dataTuple.compare_obj a b < 0)) ?_ s h hs
  intro s h ih hs
  obtain ⟨hwf, hlen, hcase⟩ := remaining_cases s h
  rcases hcase with ⟨_, _, hnil⟩ | ⟨m, t, hm, hhead, hret, hrem, _, hmin, hdrop⟩
  · rw [hnil]
    exact List.Pairwise.nil
  · rw [hrem, List.pairwise_cons]
    refine ⟨?_, ih t hret (sortedStreams_next s h hs)⟩
    intro x hx
    obtain ⟨j, hj, hxj⟩ := mem_stream_of_mem_remaining _ hwf x hx
    rw [hlen] at hj
    rw [hdrop j hj] at hxj
    rw [dataTuple.compare_obj_lt_iff]
    apply lt_of_mem_drop_key (pairwise_strippedkey_of_compare_obj (hs j hj)) _ hxj
    intro u hu
    obtain ⟨q1, q2⟩ := hmin j u hj hu
    by_cases hjm : j < m
    · exact le_of_lt (q1 hjm)
    · exact q2 (by omega)

theorem range_findSome_eq_some {α : Type} (n : Nat) (F : Nat → Option α) (m : Nat) (a : α)
    (hm : m < n) (hnone : ∀ j, j < m → F j = none) (hsome : F m = some a) :
    (List.range n).findSome? F = some a := by
  induction n with
  | zero => omega
  | succ n ih =>
    rw [List.range_succ, List.findSome?_append]
    by_cases hmn : m < n
    · rw [ih hmn]
      rfl
    · have hmn2 : m = n := by omega
      subst hmn2
      have h0 : (List.range m).findSome? F = none := by
        rw [List.findSome?_eq_none_iff]
        intro j hj
        exact hnone j (List.mem_range.1 hj)
      rw [h0]
      simp [List.findSome?_cons, hsome]

theorem range_findSome_congr {α : Type} (n : Nat) (F G : Nat → Option α)
    (h : ∀ j, j < n → F j = G j) : (List.range n).findSome? F = (List.range n).findSome? G := by
  induction n with
  | zero => rfl
  | succ n ih =>
    rw [List.range_succ, List.findSome?_append, List.findSome?_append,
      ih (fun j hj => h j (by omega))]
    simp [List.findSome?_cons, h n (by omega)]

theorem find_none_of_head_gt {l : List dataTuple} {k : Bytes}
    (hs : l.Pairwise (fun a b => a.strippedkey < b.strippedkey))
    (hh : ∀ u, l.head? = some u → k < u.strippedkey) :
    l.find? (fun x => decide (x.strippedkey = k)) = none := by
  apply find_key_none
  intro a ha
  cases l with
  | nil => cases ha
  | cons x xs =>
    have hx := hh x rfl
    rcases List.mem_cons.1 ha with rfl | ha
    · exact ne_of_gt hx
    · exact ne_of_gt (lt_trans hx ((List.pairwise_cons.1 hs).1 a ha))

/-- For every stripped key, the iterator yields the tuple of the first stream that holds
the key, and nothing when no stream holds it. -/
theorem remaining_find (s : mergeManyIterator ITRA) (h : s.WF) (hs : s.SortedStreams)
    (k : Bytes) :
    (LawfulTupleIterator.remaining s).find? (fun x => decide (x.strippedkey = k)) =
      (List.range s.current_.length).findSome?
        (fun j => (s.stream j).find? (fun x => decide (x.strippedkey = k))) := by
  refine wf_induction (fun s => s.SortedStreams →
    (LawfulTupleIterator.remaining s).find? (fun x => decide (x.strippedkey = k)) =
      (List.range s.current_.length).findSome?
        (fun j => (s.stream j).find? (fun x => decide (x.strippedkey = k)))) ?_ s h hs
  intro s h ih hs
  obtain ⟨hwf, hlen, hcase⟩ := remaining_cases s h
  rcases hcase with ⟨hA, _, hnil⟩ | ⟨m, t, hm, hhead, hret, hrem, _, hmin, hdrop⟩
  · rw [hnil, List.find?_nil]
    symm
    rw [List.findSome?_eq_none_iff]
    intro j hj
    rw [hA j (List.mem_range.1 hj)]
    rfl
  · rw [hrem]
    by_cases hk : t.strippedkey = k
    · rw [List.find?_cons_of_pos _ (by simpa using hk)]
      symm
      apply range_findSome_eq_some _ _ m t hm
      · intro j hj
        apply find_none_of_head_gt (pairwise_strippedkey_of_compare_obj (hs j (by omega)))
        intro u hu
        rw [← hk]
        exact (hmin j u (by omega) hu).1 hj
      · cases hsm : s.stream m with
        | nil => rw [hsm] at hhead; cases hhead
        | cons x xs =>
          rw [hsm] at hhead
          simp only [List.head?_cons, Option.some.injEq] at hhead
          subst hhead
          exact List.find?_cons_of_pos _ (by simpa using hk)
    · rw [List.find?_cons_of_neg _ (by simpa using hk), ih t hret (sortedStreams_next s h hs),
        hlen]
      apply range_findSome_congr
      intro j hj
      rw [hdrop j hj]
      exact find_drop_key _ hk

/-- The state the constructor builds is well-formed, and its streams are what the
iterators handed in will yield. -/
theorem init_spec (a : ITRA) (iters : List (Option treeIterator))
    (ha : LawfulTupleIterator.Inv a) :
    (init a iters).WF ∧ (init a iters).current_.length = iters.length + 1 ∧
    (init a iters).stream 0 = LawfulTupleIterator.remaining a ∧
    ∀ j, j < iters.length → (init a iters).stream (j + 1) = (iters.getD j none).getD [] := by
  have hfst := LawfulTupleIterator.next_fst a ha
  have hsnd := LawfulTupleIterator.next_snd a ha
  have hcur : ∀ j, j < iters.length →
      (init a iters).cur (j + 1) = ((iters.getD j none).getD []).head? := by
    intro j hj
    simp only [init, cur, List.getD_eq_getElem?_getD, List.getElem?_cons_succ,
      List.getElem?_map, List.getElem?_eq_getElem hj, Option.map_some', Option.getD_some]
    exact slot_next_fst _
  have hrest : ∀ j, j < iters.length →
      (init a iters).rest (j + 1) = ((iters.getD j none).getD []).tail := by
    intro j hj
    simp only [init, rest, List.getD_eq_getElem?_getD,
      List.getElem?_map, List.getElem?_eq_getElem hj, Option.map_some', Option.getD_some]
    exact slot_next_snd _
  have hcur0 : (init a iters).cur 0 = (LawfulTupleIterator.remaining a).head? := hfst
  have hrest0 : (init a iters).rest 0 = (LawfulTupleIterator.remaining a).tail := hsnd
  have hnil : ∀ l : List dataTuple, l.head? = none → l.tail = [] := by
    intro l hl
    cases l with
    | nil => rfl
    | cons x xs => cases hl
  refine ⟨⟨by simp [init], LawfulTupleIterator.next_inv a ha, ?_, ?_⟩, by simp [init], ?_, ?_⟩
  · intro j hj _ hc
    cases j with
    | zero =>
      rw [hcur0] at hc
      rw [hrest0]
      exact hnil _ hc
    | succ j =>
      have hj2 : j < iters.length := by simpa [init] using hj
      rw [hcur j hj2] at hc
      rw [hrest j hj2]
      exact hnil _ hc
  · intro m hm
    cases hm
  · have : (init a iters).stream 0 = ((init a iters).cur 0).toList ++ (init a iters).rest 0 := by
      simp [stream, init]
    rw [this, hcur0, hrest0, head_toList_append_tail]
  · intro j hj
    have : (init a iters).stream (j + 1) =
        ((init a iters).cur (j + 1)).toList ++ (init a iters).rest (j + 1) := by
      simp [stream, init]
    rw [this, hcur j hj, hrest j hj, head_toList_append_tail]

theorem compare_obj_le_iff (a b : dataTuple) :
    dataTuple.compare_obj a b ≤ 0 ↔ a.strippedkey ≤ b.strippedkey := by
  rw [le_iff_lt_or_eq, le_iff_lt_or_eq, dataTuple.compare_obj_lt_iff,
    dataTuple.compare_obj_eq_iff]

/-- C5: on a `mergeManyIterator` whose sub-iterators are strictly ascending by key, a call
of `next_callerFrees` returns null when every sub-iterator is exhausted; otherwise it
returns the head `t` of some sub-iterator `m` such that no head has a smaller key, every
head of a lower-index sub-iterator has a strictly larger key, and after the call the head
of every sub-iterator (what `m` yields after `t` included) has a strictly larger key
than `t`. -/
theorem next_callerFrees_min (s : mergeManyIterator ITRA) (h : s.WF)
    (hs : s.SortedStreams) :
    ((∀ j, j < s.num_iters_ → s.stream j = []) → s.next_callerFrees.1 = none) ∧
    ((∃ j, j < s.num_iters_ ∧ s.stream j ≠ []) →
      ∃ m t, m < s.num_iters_ ∧ (s.stream m).head? = some t ∧
        s.next_callerFrees.1 = some t ∧
        (∀ j u, j < s.num_iters_ → (s.stream j).head? = some u →
          dataTuple.compare_obj t u ≤ 0) ∧
        (∀ j u, j < m → (s.stream j).head? = some u → dataTuple.compare_obj t u < 0) ∧
        (∀ j u, j < s.num_iters_ → (s.next_callerFrees.2.stream j).head? = some u →
          dataTuple.compare_obj t u < 0)) := by
  obtain ⟨_, hlen, hcase⟩ := next_callerFrees_spec s h
  unfold num_iters_
  rcases hcase with ⟨hA, hret, _⟩ | ⟨m, t, hm, hhead, hret, _, hmin, hdrop, _⟩
  · refine ⟨fun _ => hret, ?_⟩
    rintro ⟨j, hj, hne⟩
    exact absurd (hA j hj) hne
  · refine ⟨?_, fun _ => ⟨m, t, hm, hhead, hret, ?_, ?_, ?_⟩⟩
    · intro hall
      rw [hall m hm] at hhead
      cases hhead
    · intro j u hj hu
      rw [compare_obj_le_iff]
      obtain ⟨q1, q2⟩ := hmin j u hj hu
      by_cases hjm : j < m
      · exact le_of_lt (q1 hjm)
      · exact q2 (by omega)
    · intro j u hj hu
      rw [dataTuple.compare_obj_lt_iff]
      exact (hmin j u (by omega) hu).1 hj
    · intro j u hj hu
      rw [dataTuple.compare_obj_lt_iff]
      rw [hdrop j hj] at hu
      apply lt_of_mem_drop_key (pairwise_strippedkey_of_compare_obj (hs j hj)) _
        (List.mem_of_mem_head? hu)
      intro v hv
      obtain ⟨q1, q2⟩ := hmin j v hj hv
      by_cases hjm : j < m
      · exact le_of_lt (q1 hjm)
      · exact q2 (by omega)

/-- `peek` keeps the state well-formed and returns what `next_callerFrees` returns. -/
theorem peek_wf (s : mergeManyIterator ITRA) (h : s.WF) : s.peek.2.WF := by
  obtain ⟨hwf, hlen, hcase⟩ := next_callerFrees_spec s h
  have hcur : ∀ j, s.peek.2.cur j = s.next_callerFrees.2.cur j := fun _ => rfl
  have hrest : ∀ j, s.peek.2.rest j = s.next_callerFrees.2.rest j := by
    intro j
    cases j <;> rfl
  refine ⟨hwf.len, hwf.first, ?_, ?_⟩
  · intro j hj _ hc
    rw [hcur] at hc
    rw [hrest]
    have hj2 : j < s.next_callerFrees.2.current_.length := hj
    by_cases hl : s.next_callerFrees.2.last_iter_ = some j
    · rcases hcase with ⟨_, _, hA2⟩ | ⟨m, t, _, _, _, hlast, _, _, hcm⟩
      · have := hA2 j (by rw [← hlen]; exact hj2)
        simpa [stream, hl] using this
      · rw [hlast] at hl
        cases hl
        rw [hcm] at hc
        cases hc
    · exact hwf.null j hj2 hl hc
  · intro m hm
    cases hm

/-- The streams after `peek`: the stream of the returned tuple is untouched, the other
streams lose a head that carries its key. -/
theorem peek_streams (s : mergeManyIterator ITRA) (h : s.WF) :
    s.peek.2.current_.length = s.current_.length ∧
    ((s.peek.1 = none ∧ ∀ j, j < s.current_.length → s.stream j = [] ∧ s.peek.2.stream j = []) ∨
      ∃ m t, m < s.current_.length ∧ s.peek.1 = some t ∧ (s.stream m).head? = some t ∧
        (∀ j u, j < s.current_.length → (s.stream j).head? = some u →
          (j < m → t.strippedkey < u.strippedkey) ∧
          (m ≤ j → t.strippedkey ≤ u.strippedkey)) ∧
        s.peek.2.stream m = s.stream m ∧
        ∀ j, j < s.current_.length → j ≠ m → s.peek.2.stream j = drop_key t (s.stream j)) := by
  obtain ⟨hwf, hlen, hcase⟩ := next_callerFrees_spec s h
  have hcur : ∀ j, s.peek.2.cur j = s.next_callerFrees.2.cur j := fun _ => rfl
  have hrest : ∀ j, s.peek.2.rest j = s.next_callerFrees.2.rest j := by
    intro j
    cases j <;> rfl
  have hstream : ∀ j, s.peek.2.stream j =
      (s.next_callerFrees.2.cur j).toList ++ s.next_callerFrees.2.rest j := by
    intro j
    simp only [stream, hcur, hrest]
    have : ¬ (s.peek.2.last_iter_ = some j) := fun hc => by cases hc
    rw [if_neg this]
  refine ⟨hlen, ?_⟩
  rcases hcase with ⟨hA, hret, hA2⟩ | ⟨m, t, hm, hhead, hret, hlast, hmin, hdrop, hcm⟩
  · refine Or.inl ⟨hret, fun j hj => ⟨hA j hj, ?_⟩⟩
    rw [hstream]
    have hj2 : j < s.next_callerFrees.2.current_.length := by rw [hlen]; exact hj
    have hs2 := hA2 j hj
    by_cases hl : s.next_callerFrees.2.last_iter_ = some j
    · have hr : s.next_callerFrees.2.rest j = [] := by simpa [stream, hl] using hs2
      have hl0 : s.advance_last.current_.length = s.current_.length :=
        (advance_last_view s h).1
      have hc : s.next_callerFrees.2.cur j = none := by
        have hsk := skip_null_spec s.advance_last.current_ s.advance_last.current_.length 0
        by_cases hmin2 : skip_null s.advance_last.current_ s.advance_last.current_.length 0 =
            s.advance_last.current_.length
        · rw [next_callerFrees_of_all_null s hmin2]
          exact hsk.2.2.1 j (Nat.zero_le _) (by rw [hmin2, hl0]; exact hj)
        · rw [next_callerFrees_of_some s hmin2] at hret
          obtain ⟨t0, ht0⟩ := hsk.2.2.2 (by omega)
          have hh := stream_head_eq_cur s h _ (show skip_null s.advance_last.current_
            s.advance_last.current_.length 0 < s.current_.length by omega)
          rw [hA _ (by omega)] at hh
          have ht1 : s.advance_last.cur (skip_null s.advance_last.current_
            s.advance_last.current_.length 0) = some t0 := ht0
          rw [ht1] at hh
          cases hh
      rw [hc, hr]
      rfl
    · have : s.next_callerFrees.2.stream j =
          (s.next_callerFrees.2.cur j).toList ++ s.next_callerFrees.2.rest j := by
        simp only [stream, if_neg hl]
      rw [← this]
      exact hs2
  · refine Or.inr ⟨m, t, hm, hret, hhead, hmin, ?_, ?_⟩
    · rw [hstream, hcm]
      have h1 : s.next_callerFrees.2.stream m = s.next_callerFrees.2.rest m := by
        simp [stream, hlast]
      rw [← h1, hdrop m hm]
      cases hs : s.stream m with
      | nil => rw [hs] at hhead; cases hhead
      | cons x xs =>
        rw [hs] at hhead
        simp only [List.head?_cons, Option.some.injEq] at hhead
        subst hhead
        simp [drop_key]
    · intro j hj hne
      rw [hstream, ← hdrop j hj]
      have : ¬ (s.next_callerFrees.2.last_iter_ = some j) := by
        rw [hlast]
        exact fun hc => hne (Option.some.inj hc).symm
      simp only [stream, if_neg this]

theorem sorted_find_ext {l1 l2 : List dataTuple}
    (h1 : l1.Pairwise (fun a b => a.strippedkey < b.strippedkey))
    (h2 : l2.Pairwise (fun a b => a.strippedkey < b.strippedkey))
    (h : ∀ k : Bytes, l1.find? (fun x => decide (x.strippedkey = k)) =
      l2.find? (fun x => decide (x.strippedkey = k))) : l1 = l2 := by
  have hmem : ∀ x, x ∈ l1 ↔ x ∈ l2 := by
    intro x
    constructor
    · intro hx
      have := find_key_of_mem h1 hx
      rw [h] at this
      exact List.mem_of_find?_eq_some this
    · intro hx
      have := find_key_of_mem h2 hx
      rw [← h] at this
      exact List.mem_of_find?_eq_some this
  have hn1 : l1.Nodup := h1.imp (fun {a b} hab hc => by rw [hc] at hab; exact lt_irrefl _ hab)
  have hn2 : l2.Nodup := h2.imp (fun {a b} hab hc => by rw [hc] at hab; exact lt_irrefl _ hab)
  have hanti : IsAntisymm dataTuple (fun a b => a.strippedkey < b.strippedkey) :=
    ⟨fun a b hab hba => absurd hab (lt_asymm hba)⟩
  exact List.eq_of_perm_of_sorted ((List.perm_ext_iff_of_nodup hn1 hn2).2 hmem) h1 h2

theorem peek_sortedStreams (s : mergeManyIterator ITRA) (h : s.WF) (hs : s.SortedStreams) :
    s.peek.2.SortedStreams := by
  obtain ⟨hlen, hcase⟩ := peek_streams s h
  intro j hj
  rw [hlen] at hj
  rcases hcase with ⟨_, hA⟩ | ⟨m, t, _, _, _, _, hm, hdrop⟩
  · rw [(hA j hj).2]
    exact List.Pairwise.nil
  · by_cases hjm : j = m
    · rw [hjm, hm]
      exact hs m (by omega)
    · rw [hdrop j hj hjm]
      exact drop_key_pairwise (hs j hj)

/-- `peek` consumes nothing: the iterator yields the same tuples after it. -/
theorem peek_remaining (s : mergeManyIterator ITRA) (h : s.WF) (hs : s.SortedStreams) :
    s.peek.1 = (LawfulTupleIterator.remaining s).head? ∧
    LawfulTupleIterator.remaining s.peek.2 = LawfulTupleIterator.remaining s := by
  refine ⟨LawfulTupleIterator.next_fst s h, ?_⟩
  have hpw := peek_wf s h
  have hps := peek_sortedStreams s h hs
  apply sorted_find_ext
    (pairwise_strippedkey_of_compare_obj (remaining_sorted _ hpw hps))
    (pairwise_strippedkey_of_compare_obj (remaining_sorted _ h hs))
  intro k
  rw [remaining_find _ hpw hps k, remaining_find _ h hs k]
  obtain ⟨hlen, hcase⟩ := peek_streams s h
  rw [hlen]
  rcases hcase with ⟨_, hA⟩ | ⟨m, t, hm, _, hhead, hmin, hsm, hdrop⟩
  · apply range_findSome_congr
    intro j hj
    rw [(hA j hj).1, (hA j hj).2]
  · by_cases hk : t.strippedkey = k
    · have hfm : (s.stream m).find? (fun x => decide (x.strippedkey = k)) = some t := by
        cases hsm2 : s.stream m with
        | nil => rw [hsm2] at hhead; cases hhead
        | cons x xs =>
          rw [hsm2] at hhead
          simp only [List.head?_cons, Option.some.injEq] at hhead
          subst hhead
          exact List.find?_cons_of_pos _ (by simpa using hk)
      have hnone : ∀ j, j < m →
          (s.stream j).find? (fun x => decide (x.strippedkey = k)) = none := by
        intro j hj
        apply find_none_of_head_gt (pairwise_strippedkey_of_compare_obj (hs j (by omega)))
        intro u hu
        rw [← hk]
        exact (hmin j u (by omega) hu).1 hj
      rw [range_findSome_eq_some _ _ m t hm hnone hfm]
      apply range_findSome_eq_some _ _ m t hm
      · intro j hj
        rw [hdrop j (by omega) (by omega)]
        apply find_key_none
        intro a ha
        have := List.find?_eq_none.1 (hnone j hj) a (mem_of_mem_drop_key ha)
        simpa using this
      · rw [hsm]
        exact hfm
    · apply range_findSome_congr
      intro j hj
      by_cases hjm : j = m
      · rw [hjm, hsm]
      · rw [hdrop j hj hjm]
        exact find_drop_key _ hk

end mergeManyIterator

/-! ### The snapshot iterator -/

namespace bLSM.iterator

/-- The next call of `getnextHelper` on `it` revalidates without aborting and then draws
from the well-formed merge iterator `m`. -/
def Ready (ltable : bLSM) (it : iterator) (m : merge_it_t) : Prop :=
  ∃ it1, revalidate ltable it = some it1 ∧ it1.merge_it_ = some m ∧ m.WF ∧
    it1.valid = true ∧ it1.epoch = ltable.epoch

/-- The states of a snapshot iterator between two calls: either valid, with the epoch of
the engine and a well-formed merge iterator, or invalidated, to be rebuilt from an engine
whose C1 and C2 are set. -/
def Inv (ltable : bLSM) (it : iterator) : Prop :=
  (it.valid = true ∧ it.epoch = ltable.epoch ∧ ∃ m, it.merge_it_ = some m ∧ m.WF) ∨
  (it.valid = false ∧ ltable.tree_c1.isSome = true ∧ ltable.tree_c2.isSome = true)

end bLSM.iterator

namespace bLSM.iterator

/-- `validate` succeeds when C1 and C2 are set; it installs a well-formed merge iterator,
which is the freshly constructed one when nothing was returned yet. -/
theorem validate_spec (ltable : bLSM) (it : iterator) (c1 c2 : diskTreeComponent)
    (h1 : ltable.tree_c1 = some c1) (h2 : ltable.tree_c2 = some c2) :
    ∃ m : merge_it_t,
      validate ltable it =
        some { it with epoch := ltable.epoch, merge_it_ := some m, valid := true } ∧
      m.WF ∧
      (it.last_returned = none →
        m = mergeManyIterator.init
          (mergeManyIterator.init (open_iterator ltable.tree_c0 it.key)
            [some (open_iterator (ltable.tree_c0_mergeable.getD []) it.key)])
          [ltable.tree_c1_prime.map (fun c => open_iterator c.tuples it.key),
            some (open_iterator c1.tuples it.key),
            ltable.tree_c1_mergeable.map (fun c => open_iterator c.tuples it.key),
            some (open_iterator c2.tuples it.key)]) := by
  have hinner : ∀ (a : treeIterator) (l : List (Option treeIterator)),
      (mergeManyIterator.init a l).WF := fun a l => (mergeManyIterator.init_spec a l trivial).1
  have houter : ∀ (a : inner_merge_it_t) (l : List (Option treeIterator)), a.WF →
      (mergeManyIterator.init a l).WF := fun a l ha => (mergeManyIterator.init_spec a l ha).1
  cases hl : it.last_returned with
  | none =>
    refine ⟨_, ?_, houter _ _ (hinner _ _), fun _ => rfl⟩
    simp only [validate, h1, h2, hl]
  | some lr =>
    simp only [validate, h1, h2, hl]
    have hw := houter (mergeManyIterator.init (open_iterator ltable.tree_c0 (some lr))
        [some (open_iterator (ltable.tree_c0_mergeable.getD []) (some lr))])
      [ltable.tree_c1_prime.map (fun c => open_iterator c.tuples (some lr)),
        some (open_iterator c1.tuples (some lr)),
        ltable.tree_c1_mergeable.map (fun c => open_iterator c.tuples (some lr)),
        some (open_iterator c2.tuples (some lr))] (hinner _ _)
    have hp := mergeManyIterator.peek_wf _ hw
    refine ⟨_, rfl, ?_, fun hc => by cases hc⟩
    split
    · split
      · exact (mergeManyIterator.next_callerFrees_spec _ hp).1
      · exact hp
    · exact hp

theorem revalidate_valid (ltable : bLSM) (it : iterator) (hv : it.valid = true)
    (he : it.epoch = ltable.epoch) :
    ∃ it1, revalidate ltable it = some it1 ∧ it1.merge_it_ = it.merge_it_ ∧
      it1.valid = true ∧ it1.epoch = ltable.epoch ∧
      it1.last_returned = it.last_returned := by
  unfold revalidate
  by_cases hc : it.reval_count = 100
  · refine ⟨{ it with reval_count := 0 }, ?_, rfl, hv, he, rfl⟩
    rw [if_pos hc, if_neg (by simp [hv]), if_pos he]
  · refine ⟨{ it with reval_count := it.reval_count + 1 }, ?_, rfl, hv, he, rfl⟩
    rw [if_neg hc, if_neg (by simp [hv]), if_pos he]

theorem revalidate_invalid (ltable : bLSM) (it : iterator) (hv : it.valid = false) :
    ∃ it0, revalidate ltable it = validate ltable it0 ∧
      it0.last_returned = it.last_returned ∧ it0.key = it.key := by
  unfold revalidate
  by_cases hc : it.reval_count = 100
  · refine ⟨{ it with reval_count := 0 }, ?_, rfl, rfl⟩
    rw [if_pos hc, if_pos hv]
  · refine ⟨{ it with reval_count := it.reval_count + 1 }, ?_, rfl, rfl⟩
    rw [if_neg hc, if_pos hv]

theorem ready_of_inv (ltable : bLSM) (it : iterator) (h : Inv ltable it) :
    ∃ m, Ready ltable it m := by
  rcases h with ⟨hv, he, m, hm, hwf⟩ | ⟨hv, h1, h2⟩
  · obtain ⟨it1, hr, q1, q2, q3, _⟩ := revalidate_valid ltable it hv he
    exact ⟨m, it1, hr, by rw [q1, hm], hwf, q2, q3⟩
  · obtain ⟨c1, hc1⟩ := Option.isSome_iff_exists.1 h1
    obtain ⟨c2, hc2⟩ := Option.isSome_iff_exists.1 h2
    obtain ⟨it0, hr, _, _⟩ := revalidate_invalid ltable it hv
    obtain ⟨m, hm, hwf, _⟩ := validate_spec ltable it0 c1 c2 hc1 hc2
    exact ⟨m, _, by rw [hr, hm], rfl, hwf, rfl, rfl⟩

/-- One call of `getnextHelper`: it returns what the merge iterator yields next. -/
theorem getnextHelper_ready (ltable : bLSM) (it : iterator) (m : merge_it_t)
    (h : Ready ltable it m) :
    ∃ it2, getnextHelper ltable it = some ((LawfulTupleIterator.remaining m).head?, it2) ∧
      Ready ltable it2 m.next_callerFrees.2 ∧
      LawfulTupleIterator.remaining m.next_callerFrees.2 =
        (LawfulTupleIterator.remaining m).tail ∧
      it2.last_returned = (LawfulTupleIterator.remaining m).head? := by
  obtain ⟨it1, hr, hm, hwf, hv, he⟩ := h
  have hfst : m.next_callerFrees.1 = (LawfulTupleIterator.remaining m).head? :=
    LawfulTupleIterator.next_fst m hwf
  have hsnd : LawfulTupleIterator.remaining m.next_callerFrees.2 =
      (LawfulTupleIterator.remaining m).tail := LawfulTupleIterator.next_snd m hwf
  have hwf2 : m.next_callerFrees.2.WF := (mergeManyIterator.next_callerFrees_spec m hwf).1
  obtain ⟨it2, hg, g1, g2, g3, g4⟩ : ∃ it2, getnextHelper ltable it =
      some (m.next_callerFrees.1, it2) ∧ it2.merge_it_ = some m.next_callerFrees.2 ∧
      it2.valid = true ∧ it2.epoch = ltable.epoch ∧
      it2.last_returned = m.next_callerFrees.1 := by
    simp only [getnextHelper, hr, hm]
    exact ⟨_, rfl, rfl, hv, he, rfl⟩
  obtain ⟨it3, hr3, q1, q2, q3, _⟩ := revalidate_valid ltable it2 g2 g3
  refine ⟨it2, by rw [hg, hfst], ⟨it3, hr3, by rw [q1, g1], hwf2, q2, q3⟩, hsnd, by rw [g4, hfst]⟩

theorem getnextIncludingTombstones_n_ready (ltable : bLSM) (n : Nat) (it : iterator)
    (m : merge_it_t) (h : Ready ltable it m) :
    ∃ rs, getnextIncludingTombstones_n ltable n it = some rs ∧
      rs.filterMap id = (LawfulTupleIterator.remaining m).take n := by
  induction n generalizing it m with
  | zero => exact ⟨[], rfl, by simp⟩
  | succ n ih =>
    obtain ⟨it2, hg, hr2, hrem, _⟩ := getnextHelper_ready ltable it m h
    obtain ⟨rs, hrs, hf⟩ := ih it2 _ hr2
    refine ⟨(LawfulTupleIterator.remaining m).head? :: rs, ?_, ?_⟩
    · simp only [getnextIncludingTombstones_n, getnextIncludingTombstones, hg, hrs, Option.map_some']
    · rw [hrem] at hf
      cases hR : LawfulTupleIterator.remaining m with
      | nil =>
        rw [hR] at hf
        simpa using hf
      | cons x xs =>
        rw [hR] at hf
        simpa using hf

/-- One call of `getnext` with enough fuel: it returns the next tuple that is not a
tombstone. -/
theorem getnext_ready (ltable : bLSM) (fuel : Nat) (it : iterator) (m : merge_it_t)
    (h : Ready ltable it m) (hfuel : (LawfulTupleIterator.remaining m).length < fuel) :
    ∃ it2 m2, getnext ltable fuel it =
        some (((LawfulTupleIterator.remaining m).dropWhile (fun t => t.isDelete)).head?, it2) ∧
      Ready ltable it2 m2 ∧
      LawfulTupleIterator.remaining m2 =
        ((LawfulTupleIterator.remaining m).dropWhile (fun t => t.isDelete)).tail := by
  induction fuel generalizing it m with
  | zero => omega
  | succ fuel ih =>
    obtain ⟨it2, hg, hr2, hrem, _⟩ := getnextHelper_ready ltable it m h
    cases hR : LawfulTupleIterator.remaining m with
    | nil =>
      rw [hR] at hg hrem
      exact ⟨it2, _, by simp only [getnext, hg]; rfl, hr2, by rw [hrem]; rfl⟩
    | cons x xs =>
      rw [hR] at hg hrem hfuel
      simp only [List.head?_cons, List.tail_cons] at hg hrem
      by_cases hd : x.isDelete = true
      · obtain ⟨it3, m3, h3, hr3, hrem3⟩ := ih it2 _ hr2 (by
          rw [hrem]
          simp only [List.length_cons] at hfuel
          omega)
        refine ⟨it3, m3, ?_, hr3, ?_⟩
        · simp only [getnext, hg, hd, if_true, h3, hrem, List.dropWhile_cons]
        · simp only [hrem3, hrem, hd, List.dropWhile_cons, if_true]
      · refine ⟨it2, _, ?_, hr2, ?_⟩
        · simp only [getnext, hg, hd, List.dropWhile_cons, List.head?_cons]
          rfl
        · simp only [hrem, hd, List.dropWhile_cons, List.tail_cons]
          rfl

theorem filter_eq_head_dropWhile (R : List dataTuple) :
    R.filter (fun t => !t.isDelete) =
      (R.dropWhile (fun t => t.isDelete)).head?.toList ++
        ((R.dropWhile (fun t => t.isDelete)).tail).filter (fun t => !t.isDelete) := by
  induction R with
  | nil => rfl
  | cons x xs ih =>
    by_cases hd : x.isDelete = true
    · simp only [List.filter_cons, hd, List.dropWhile_cons, if_true, Bool.not_true]
      exact ih
    · simp [List.filter_cons, hd, List.dropWhile_cons]

theorem getnext_n_ready (ltable : bLSM) (fuel n : Nat) (it : iterator) (m : merge_it_t)
    (h : Ready ltable it m) (hfuel : (LawfulTupleIterator.remaining m).length < fuel) :
    ∃ rs, getnext_n ltable fuel n it = some rs ∧
      rs.filterMap id =
        ((LawfulTupleIterator.remaining m).filter (fun t => !t.isDelete)).take n := by
  induction n generalizing it m with
  | zero => exact ⟨[], rfl, by simp⟩
  | succ n ih =>
    obtain ⟨it2, m2, hg, hr2, hrem⟩ := getnext_ready ltable fuel it m h hfuel
    have hlen : (LawfulTupleIterator.remaining m2).length < fuel := by
      rw [hrem, List.length_tail]
      have := (List.dropWhile_sublist (fun t : dataTuple => t.isDelete)
        (l := LawfulTupleIterator.remaining m)).length_le
      omega
    obtain ⟨rs, hrs, hf⟩ := ih it2 m2 hr2 hlen
    refine ⟨((LawfulTupleIterator.remaining m).dropWhile (fun t => t.isDelete)).head? :: rs,
      ?_, ?_⟩
    · simp only [getnext_n, hg, hrs, Option.map_some']
    · rw [filter_eq_head_dropWhile (LawfulTupleIterator.remaining m), ← hrem]
      cases hh : ((LawfulTupleIterator.remaining m).dropWhile (fun t => t.isDelete)).head? with
      | none =>
        have hnil : (LawfulTupleIterator.remaining m).dropWhile (fun t => t.isDelete) = [] := by
          cases hl : (LawfulTupleIterator.remaining m).dropWhile (fun t => t.isDelete) with
          | nil => rfl
          | cons a as => rw [hl] at hh; cases hh
        rw [hnil] at hrem
        simp only [List.tail_nil] at hrem
        simp [hf, hrem]
      | some x =>
        simp [hf]

end bLSM.iterator

/-! ### The snapshot iterator over the six components -/

theorem open_iterator_pairwise {R : dataTuple → dataTuple → Prop} {c : List dataTuple}
    (h : c.Pairwise R) (t : Option dataTuple) : (open_iterator c t).Pairwise R := by
  cases t with
  | none => exact h
  | some t => exact h.sublist (List.dropWhile_sublist _)

theorem open_iterator_slot (o : Option diskTreeComponent) (t : Option dataTuple) :
    (o.map (fun c => open_iterator c.tuples t)).getD [] =
      open_iterator ((o.map (fun c => c.tuples)).getD []) t := by
  cases o with
  | none => cases t <;> rfl
  | some c => rfl

theorem findSome_cons_or {α β : Type} (f : α → Option β) (a : α) (l : List α) :
    (a :: l).findSome? f = (f a).or (l.findSome? f) := by
  rw [List.findSome?_cons]
  cases f a <;> rfl

/-- The merge iterator `validate` builds when nothing was returned yet. -/
def fresh_merge_it (ltable : bLSM) (c1 c2 : diskTreeComponent) (key : Option dataTuple) :
    merge_it_t :=
  mergeManyIterator.init
    (mergeManyIterator.init (open_iterator ltable.tree_c0 key)
      [some (open_iterator (ltable.tree_c0_mergeable.getD []) key)])
    [ltable.tree_c1_prime.map (fun c => open_iterator c.tuples key),
      some (open_iterator c1.tuples key),
      ltable.tree_c1_mergeable.map (fun c => open_iterator c.tuples key),
      some (open_iterator c2.tuples key)]

theorem fresh_merge_it_spec (ltable : bLSM) (c1 c2 : diskTreeComponent)
    (key : Option dataTuple) (h1 : ltable.tree_c1 = some c1) (h2 : ltable.tree_c2 = some c2)
    (hsorted : ∀ c ∈ ltable.components,
      c.Pairwise (fun a b => dataTuple.compare_obj a b < 0)) :
    (fresh_merge_it ltable c1 c2 key).WF ∧
    (LawfulTupleIterator.remaining (fresh_merge_it ltable c1 c2 key)).Pairwise
      (fun a b => dataTuple.compare_obj a b < 0) ∧
    (∀ k : Bytes,
      (LawfulTupleIterator.remaining (fresh_merge_it ltable c1 c2 key)).find?
          (fun x => decide (x.strippedkey = k)) =
        (ltable.components.map (fun c => open_iterator c key)).findSome?
          (fun c => c.find? (fun x => decide (x.strippedkey = k)))) ∧
    (fresh_merge_it ltable c1 c2 key).SortedStreams ∧
    ∀ x ∈ LawfulTupleIterator.remaining (fresh_merge_it ltable c1 c2 key),
      ∃ c ∈ ltable.components, x ∈ open_iterator c key := by
  have hc : ∀ c ∈ ltable.components,
      (open_iterator c key).Pairwise (fun a b => dataTuple.compare_obj a b < 0) :=
    fun c hc => open_iterator_pairwise (hsorted c hc) key
  simp only [bLSM.components, h1, h2, Option.map_some', Option.getD_some, List.mem_cons,
    List.mem_singleton, List.not_mem_nil, or_false, forall_eq_or_imp, forall_eq] at hc
  obtain ⟨s0, s1, s2, s3, s4, s5⟩ := hc
  obtain ⟨iw, il, i0, i1⟩ := mergeManyIterator.init_spec (open_iterator ltable.tree_c0 key)
    [some (open_iterator (ltable.tree_c0_mergeable.getD []) key)] trivial
  have i1b := i1 0 (by simp)
  simp only [List.getD_cons_zero, Option.getD_some, Nat.zero_add] at i1b
  have isorted : (mergeManyIterator.init (open_iterator ltable.tree_c0 key)
      [some (open_iterator (ltable.tree_c0_mergeable.getD []) key)]).SortedStreams := by
    intro j hj
    rw [il] at hj
    simp only [List.length_singleton] at hj
    rcases j with _ | _ | j
    · rw [i0]; exact s0
    · rw [i1b]; exact s1
    · omega
  obtain ⟨ow, ol, o0, o1⟩ := mergeManyIterator.init_spec
    (mergeManyIterator.init (open_iterator ltable.tree_c0 key)
      [some (open_iterator (ltable.tree_c0_mergeable.getD []) key)])
    [ltable.tree_c1_prime.map (fun c => open_iterator c.tuples key),
      some (open_iterator c1.tuples key),
      ltable.tree_c1_mergeable.map (fun c => open_iterator c.tuples key),
      some (open_iterator c2.tuples key)] iw
  have o1a := o1 0 (by simp)
  have o1b := o1 1 (by simp)
  have o1c := o1 2 (by simp)
  have o1d := o1 3 (by simp)
  simp only [List.getD_cons_zero, List.getD_cons_succ, Option.getD_some, Nat.zero_add,
    Nat.reduceAdd, open_iterator_slot] at o1a o1b o1c o1d
  have osorted : (fresh_merge_it ltable c1 c2 key).SortedStreams := by
    intro j hj
    unfold fresh_merge_it at hj ⊢
    rw [ol] at hj
    simp only [List.length_cons, List.length_nil] at hj
    rcases j with _ | _ | _ | _ | _ | j
    · rw [o0]; exact mergeManyIterator.remaining_sorted _ iw isorted
    · rw [o1a]; exact s2
    · rw [o1b]; exact s3
    · rw [o1c]; exact s4
    · rw [o1d]; exact s5
    · omega
  refine ⟨ow, mergeManyIterator.remaining_sorted _ ow osorted, ?_, osorted, ?_⟩
  swap
  · intro x hx
    obtain ⟨j, hj, hxj⟩ := mergeManyIterator.mem_stream_of_mem_remaining _ ow x hx
    rw [ol] at hj
    simp only [List.length_cons, List.length_nil] at hj
    simp only [bLSM.components, h1, h2, Option.map_some', Option.getD_some, List.mem_cons,
      List.mem_singleton, List.not_mem_nil, or_false, exists_eq_or_imp, exists_eq_left]
    rcases j with _ | _ | _ | _ | _ | j
    · rw [o0] at hxj
      obtain ⟨i, hi, hxi⟩ := mergeManyIterator.mem_stream_of_mem_remaining _ iw x hxj
      rw [il] at hi
      simp only [List.length_singleton] at hi
      rcases i with _ | _ | i
      · rw [i0] at hxi
        exact Or.inl hxi
      · rw [i1b] at hxi
        exact Or.inr (Or.inl hxi)
      · omega
    · rw [o1a] at hxj
      exact Or.inr (Or.inr (Or.inl hxj))
    · rw [o1b] at hxj
      exact Or.inr (Or.inr (Or.inr (Or.inl hxj)))
    · rw [o1c] at hxj
      exact Or.inr (Or.inr (Or.inr (Or.inr (Or.inl hxj))))
    · rw [o1d] at hxj
      exact Or.inr (Or.inr (Or.inr (Or.inr (Or.inr hxj))))
    · omega
  intro k
  unfold fresh_merge_it
  rw [mergeManyIterator.remaining_find _ ow osorted k, ol]
  have hr5 : List.range (([ltable.tree_c1_prime.map (fun c => open_iterator c.tuples key),
      some (open_iterator c1.tuples key),
      ltable.tree_c1_mergeable.map (fun c => open_iterator c.tuples key),
      some (open_iterator c2.tuples key)] : List (Option treeIterator)).length + 1) =
      [0, 1, 2, 3, 4] := rfl
  rw [hr5]
  simp only [findSome_cons_or, o0, o1a, o1b, o1c, o1d]
  rw [mergeManyIterator.remaining_find _ iw isorted k, il]
  have hr2 : List.range (([some (open_iterator (ltable.tree_c0_mergeable.getD []) key)] :
      List (Option treeIterator)).length + 1) = [0, 1] := rfl
  rw [hr2]
  simp only [findSome_cons_or, i0, i1b, bLSM.components, h1, h2, List.map_cons, List.map_nil,
    Option.map_some', Option.getD_some, List.findSome?_nil, Option.or_none, Option.or_assoc]
  rfl

theorem init_ready (ltable : bLSM) (c1 c2 : diskTreeComponent) (key : Option dataTuple)
    (h1 : ltable.tree_c1 = some c1) (h2 : ltable.tree_c2 = some c2) :
    ∃ it, bLSM.iterator.init ltable key = some it ∧
      bLSM.iterator.Ready ltable it (fresh_merge_it ltable c1 c2 key) := by
  obtain ⟨m, hm, hwf, hfresh⟩ := bLSM.iterator.validate_spec ltable
    { epoch := ltable.epoch, merge_it_ := none, last_returned := none, key := key,
      valid := false, reval_count := 0, reports := [] } c1 c2 h1 h2
  have hmeq : m = fresh_merge_it ltable c1 c2 key := hfresh rfl
  subst hmeq
  obtain ⟨it1, hr, q1, q2, q3, _⟩ := bLSM.iterator.revalidate_valid ltable
    { epoch := ltable.epoch, merge_it_ := some (fresh_merge_it ltable c1 c2 key),
      last_returned := none, key := key, valid := true, reval_count := 0, reports := [] }
    rfl rfl
  exact ⟨_, hm, it1, hr, q1, hwf, q2, q3⟩

/-- The ordering of the results of a newly created iterator while the engine stays as it
is: over components that are each strictly ascending by stripped key, with any start
key, the non-null results of any number of successive calls of
`getnextIncludingTombstones`, and of `getnext` (its loop given enough fuel), have
strictly increasing stripped keys. -/
theorem getnext_strictly_ascending (ltable : bLSM) (key : Option dataTuple)
    (h1 : ltable.tree_c1.isSome = true) (h2 : ltable.tree_c2.isSome = true)
    (hsorted : ∀ c ∈ ltable.components,
      c.Pairwise (fun a b => dataTuple.compare_obj a b < 0)) :
    ∃ it, bLSM.iterator.init ltable key = some it ∧
      (∀ n, ∃ rs, bLSM.iterator.getnextIncludingTombstones_n ltable n it = some rs ∧
        (rs.filterMap id).Pairwise (fun a b => dataTuple.compare_obj a b < 0)) ∧
      ∃ N, ∀ fuel, N ≤ fuel → ∀ n,
        ∃ rs, bLSM.iterator.getnext_n ltable fuel n it = some rs ∧
          (rs.filterMap id).Pairwise (fun a b => dataTuple.compare_obj a b < 0) := by
  obtain ⟨c1, hc1⟩ := Option.isSome_iff_exists.1 h1
  obtain ⟨c2, hc2⟩ := Option.isSome_iff_exists.1 h2
  obtain ⟨it, hit, hready⟩ := init_ready ltable c1 c2 key hc1 hc2
  obtain ⟨_, hR, _, _, _⟩ := fresh_merge_it_spec ltable c1 c2 key hc1 hc2 hsorted
  refine ⟨it, hit, ?_, (LawfulTupleIterator.remaining (fresh_merge_it ltable c1 c2 key)).length + 1,
    ?_⟩
  · intro n
    obtain ⟨rs, hrs, hf⟩ :=
      bLSM.iterator.getnextIncludingTombstones_n_ready ltable n it _ hready
    exact ⟨rs, hrs, by rw [hf]; exact hR.sublist (List.take_sublist _ _)⟩
  · intro fuel hfuel n
    obtain ⟨rs, hrs, hf⟩ := bLSM.iterator.getnext_n_ready ltable fuel n it _ hready (by omega)
    refine ⟨rs, hrs, ?_⟩
    rw [hf]
    exact hR.sublist ((List.take_sublist _ _).trans (List.filter_sublist _))

/-- C7: the iterator `validate` builds over components that are each strictly ascending
emits, over its whole life, a strictly ascending sequence `out` (so at most one tuple per
stripped key), and for every stripped key the tuple it emits is the one of the first
component, in the order C0, C0-mergeable, C1-prime, C1, C1-mergeable, C2, whose run from
the start key on holds the key; in particular every emitted tuple is that of the first
component holding its key. -/
theorem iterator_first_component_wins (ltable : bLSM) (key : Option dataTuple)
    (h1 : ltable.tree_c1.isSome = true) (h2 : ltable.tree_c2.isSome = true)
    (hsorted : ∀ c ∈ ltable.components,
      c.Pairwise (fun a b => dataTuple.compare_obj a b < 0)) :
    ∃ it out, bLSM.iterator.init ltable key = some it ∧
      (∀ n, out.length ≤ n →
        ∃ rs, bLSM.iterator.getnextIncludingTombstones_n ltable n it = some rs ∧
          rs.filterMap id = out) ∧
      out.Pairwise (fun a b => dataTuple.compare_obj a b < 0) ∧
      (∀ k : Bytes, out.find? (fun x => decide (x.strippedkey = k)) =
        (ltable.components.map (fun c => open_iterator c key)).findSome?
          (fun c => c.find? (fun x => decide (x.strippedkey = k)))) ∧
      ∀ t ∈ out, (ltable.components.map (fun c => open_iterator c key)).findSome?
          (fun c => c.find? (fun x => decide (x.strippedkey = t.strippedkey))) = some t := by
  obtain ⟨c1, hc1⟩ := Option.isSome_iff_exists.1 h1
  obtain ⟨c2, hc2⟩ := Option.isSome_iff_exists.1 h2
  obtain ⟨it, hit, hready⟩ := init_ready ltable c1 c2 key hc1 hc2
  obtain ⟨_, hR, hfind, _, _⟩ := fresh_merge_it_spec ltable c1 c2 key hc1 hc2 hsorted
  refine ⟨it, LawfulTupleIterator.remaining (fresh_merge_it ltable c1 c2 key), hit, ?_, hR,
    hfind, ?_⟩
  · intro n hn
    obtain ⟨rs, hrs, hf⟩ :=
      bLSM.iterator.getnextIncludingTombstones_n_ready ltable n it _ hready
    exact ⟨rs, hrs, by rw [hf, List.take_of_length_le hn]⟩
  · intro t ht
    rw [← hfind t.strippedkey]
    exact find_key_of_mem (pairwise_strippedkey_of_compare_obj hR) ht

/-! ### Revalidation after an epoch bump -/

/-- The merge iterator `validate` builds when `lr` was the last tuple returned: the fresh
iterator positioned at `lr`, minus a leading tuple with the stripped key of `lr`. -/
def resume_merge_it (ltable : bLSM) (c1 c2 : diskTreeComponent) (lr : dataTuple) :
    merge_it_t :=
  match (fresh_merge_it ltable c1 c2 (some lr)).peek.1 with
  | some junk =>
    if dataTuple.compare junk.strippedkey lr.strippedkey = 0 then
      (fresh_merge_it ltable c1 c2 (some lr)).peek.2.next_callerFrees.2
    else (fresh_merge_it ltable c1 c2 (some lr)).peek.2
  | none => (fresh_merge_it ltable c1 c2 (some lr)).peek.2

theorem validate_resume (ltable : bLSM) (it : bLSM.iterator) (c1 c2 : diskTreeComponent)
    (lr : dataTuple) (h1 : ltable.tree_c1 = some c1) (h2 : ltable.tree_c2 = some c2)
    (hl : it.last_returned = some lr) :
    bLSM.iterator.validate ltable it =
      some { it with
        epoch := ltable.epoch, merge_it_ := some (resume_merge_it ltable c1 c2 lr),
        valid := true } := by
  simp only [bLSM.iterator.validate, h1, h2, hl]
  rfl

theorem open_iterator_ge {c : List dataTuple}
    (hs : c.Pairwise (fun a b => dataTuple.compare_obj a b < 0)) (lr : dataTuple) :
    ∀ x ∈ open_iterator c (some lr), lr.strippedkey ≤ x.strippedkey := by
  have hs2 := pairwise_strippedkey_of_compare_obj hs
  unfold open_iterator
  induction c with
  | nil => intro x hx; cases hx
  | cons a as ih =>
    rw [List.pairwise_cons] at hs hs2
    by_cases ha : dataTuple.compare_obj a lr < 0
    · simp only [List.dropWhile_cons, ha, decide_True, if_true]
      exact ih hs.2 hs2.2
    · simp only [List.dropWhile_cons, ha, decide_False]
      have hge : lr.strippedkey ≤ a.strippedkey :=
        not_lt.1 (fun hc => ha ((dataTuple.compare_obj_lt_iff a lr).2 hc))
      intro x hx
      simp only [Bool.false_eq_true, if_false] at hx
      rcases List.mem_cons.1 hx with rfl | hx
      · exact hge
      · exact le_of_lt (lt_of_le_of_lt hge (hs2.1 x hx))

/-- What `validate` resumes with over strictly ascending components: a well-formed merge
iterator that yields a strictly ascending sequence of tuples whose stripped keys are all
strictly greater than that of `lr`. -/
theorem resume_merge_it_spec (ltable : bLSM) (c1 c2 : diskTreeComponent) (lr : dataTuple)
    (h1 : ltable.tree_c1 = some c1) (h2 : ltable.tree_c2 = some c2)
    (hsorted : ∀ c ∈ ltable.components,
      c.Pairwise (fun a b => dataTuple.compare_obj a b < 0)) :
    (resume_merge_it ltable c1 c2 lr).WF ∧
    (LawfulTupleIterator.remaining (resume_merge_it ltable c1 c2 lr)).Pairwise
      (fun a b => dataTuple.compare_obj a b < 0) ∧
    ∀ x ∈ LawfulTupleIterator.remaining (resume_merge_it ltable c1 c2 lr),
      dataTuple.compare_obj lr x < 0 := by
  obtain ⟨hwf, hR, _, hss, hmem⟩ := fresh_merge_it_spec ltable c1 c2 (some lr) h1 h2 hsorted
  have hge : ∀ x ∈ LawfulTupleIterator.remaining (fresh_merge_it ltable c1 c2 (some lr)),
      lr.strippedkey ≤ x.strippedkey := by
    intro x hx
    obtain ⟨c, hc, hxc⟩ := hmem x hx
    exact open_iterator_ge (hsorted c hc) lr x hxc
  have hpw := mergeManyIterator.peek_wf _ hwf
  obtain ⟨hp1, hp2⟩ := mergeManyIterator.peek_remaining _ hwf hss
  have hR2 := pairwise_strippedkey_of_compare_obj hR
  unfold resume_merge_it
  cases hRl : LawfulTupleIterator.remaining (fresh_merge_it ltable c1 c2 (some lr)) with
  | nil =>
    rw [hRl] at hp1 hp2
    simp only [List.head?_nil] at hp1
    rw [hp1]
    simp only
    rw [hp2]
    exact ⟨hpw, List.Pairwise.nil, fun x hx => by cases hx⟩
  | cons x xs =>
    rw [hRl] at hp1 hp2 hR hR2 hge
    simp only [List.head?_cons] at hp1
    rw [hp1]
    simp only
    by_cases hk : dataTuple.compare x.strippedkey lr.strippedkey = 0
    · rw [if_pos hk]
      have hkeq : x.strippedkey = lr.strippedkey := (dataTuple.compare_eq_zero_iff _ _).1 hk
      have hsnd : LawfulTupleIterator.remaining
          (fresh_merge_it ltable c1 c2 (some lr)).peek.2.next_callerFrees.2 =
          (LawfulTupleIterator.remaining (fresh_merge_it ltable c1 c2 (some lr)).peek.2).tail :=
        LawfulTupleIterator.next_snd _ hpw
      rw [hsnd, hp2, List.tail_cons]
      refine ⟨(mergeManyIterator.next_callerFrees_spec _ hpw).1, (List.pairwise_cons.1 hR).2, ?_⟩
      intro y hy
      rw [dataTuple.compare_obj_lt_iff, ← hkeq]
      exact (List.pairwise_cons.1 hR2).1 y hy
    · rw [if_neg hk, hp2]
      have hlt : lr.strippedkey < x.strippedkey :=
        lt_of_le_of_ne (hge x (List.mem_cons_self _ _))
          (fun hc => hk ((dataTuple.compare_eq_zero_iff _ _).2 hc.symm))
      refine ⟨hpw, hR, ?_⟩
      intro y hy
      rw [dataTuple.compare_obj_lt_iff]
      rcases List.mem_cons.1 hy with rfl | hy
      · exact hlt
      · exact lt_trans hlt ((List.pairwise_cons.1 hR2).1 y hy)

/-- Resumption after an invalidation: when a snapshot iterator is invalidated while
`last_returned` holds a tuple `lr`, then over any engine state with strictly ascending
components every tuple returned afterwards has a stripped key strictly greater than that
of `lr`, and the tuples returned afterwards are strictly ascending. -/
theorem getnext_after_invalidation (ltable : bLSM) (it : bLSM.iterator) (lr : dataTuple)
    (hv : it.valid = false) (hl : it.last_returned = some lr)
    (h1 : ltable.tree_c1.isSome = true) (h2 : ltable.tree_c2.isSome = true)
    (hsorted : ∀ c ∈ ltable.components,
      c.Pairwise (fun a b => dataTuple.compare_obj a b < 0)) :
    (∀ n, ∃ rs, bLSM.iterator.getnextIncludingTombstones_n ltable n it = some rs ∧
      (rs.filterMap id).Pairwise (fun a b => dataTuple.compare_obj a b < 0) ∧
      ∀ t ∈ rs.filterMap id, dataTuple.compare_obj lr t < 0) ∧
    ∃ N, ∀ fuel, N ≤ fuel → ∀ n,
      ∃ rs, bLSM.iterator.getnext_n ltable fuel n it = some rs ∧
        (rs.filterMap id).Pairwise (fun a b => dataTuple.compare_obj a b < 0) ∧
        ∀ t ∈ rs.filterMap id, dataTuple.compare_obj lr t < 0 := by
  obtain ⟨c1, hc1⟩ := Option.isSome_iff_exists.1 h1
  obtain ⟨c2, hc2⟩ := Option.isSome_iff_exists.1 h2
  obtain ⟨it0, hr, hl0, _⟩ := bLSM.iterator.revalidate_invalid ltable it hv
  have hval := validate_resume ltable it0 c1 c2 lr hc1 hc2 (by rw [hl0, hl])
  obtain ⟨hwf, hR, hgt⟩ := resume_merge_it_spec ltable c1 c2 lr hc1 hc2 hsorted
  have hready : bLSM.iterator.Ready ltable it (resume_merge_it ltable c1 c2 lr) :=
    ⟨_, by rw [hr, hval], rfl, hwf, rfl, rfl⟩
  refine ⟨?_, (LawfulTupleIterator.remaining (resume_merge_it ltable c1 c2 lr)).length + 1, ?_⟩
  · intro n
    obtain ⟨rs, hrs, hf⟩ :=
      bLSM.iterator.getnextIncludingTombstones_n_ready ltable n it _ hready
    refine ⟨rs, hrs, by rw [hf]; exact hR.sublist (List.take_sublist _ _), ?_⟩
    intro t ht
    rw [hf] at ht
    exact hgt t (List.mem_of_mem_take ht)
  · intro fuel hfuel n
    obtain ⟨rs, hrs, hf⟩ := bLSM.iterator.getnext_n_ready ltable fuel n it _ hready (by omega)
    refine ⟨rs, hrs, ?_, ?_⟩
    · rw [hf]
      exact hR.sublist ((List.take_sublist _ _).trans (List.filter_sublist _))
    · intro t ht
      rw [hf] at ht
      exact hgt t (List.mem_of_mem_filter (List.mem_of_mem_take ht))

/-- C8: from every state of a snapshot iterator, the tuples returned by repeated calls of
`getnext` are the tuples returned by repeated calls of `getnextIncludingTombstones` from
the same state with the delete-flagged tuples removed; no tuple `getnext` returns is a
tombstone. Both sequences are taken over `n` calls, for every `n` beyond the end of the
stream, and the loop of `getnext` is given enough fuel. -/
theorem getnext_eq_filter_tombstones (ltable : bLSM) (it : bLSM.iterator)
    (h : bLSM.iterator.Inv ltable it) :
    ∃ N, ∀ n fuel, N ≤ n → N ≤ fuel →
      ∃ rs1 rs2, bLSM.iterator.getnext_n ltable fuel n it = some rs1 ∧
        bLSM.iterator.getnextIncludingTombstones_n ltable n it = some rs2 ∧
        rs1.filterMap id = (rs2.filterMap id).filter (fun t => !t.isDelete) ∧
        ∀ t ∈ rs1.filterMap id, t.isDelete = false := by
  obtain ⟨m, hm⟩ := bLSM.iterator.ready_of_inv ltable it h
  refine ⟨(LawfulTupleIterator.remaining m).length + 1, ?_⟩
  intro n fuel hn hfuel
  obtain ⟨rs1, h1, f1⟩ := bLSM.iterator.getnext_n_ready ltable fuel n it m hm (by omega)
  obtain ⟨rs2, h2, f2⟩ := bLSM.iterator.getnextIncludingTombstones_n_ready ltable n it m hm
  have hle : ((LawfulTupleIterator.remaining m).filter (fun t => !t.isDelete)).length ≤ n := by
    have := List.length_filter_le (fun t : dataTuple => !t.isDelete)
      (LawfulTupleIterator.remaining m)
    omega
  rw [List.take_of_length_le hle] at f1
  rw [List.take_of_length_le (by omega)] at f2
  refine ⟨rs1, rs2, h1, h2, by rw [f1, f2], ?_⟩
  intro t ht
  rw [f1] at ht
  simpa using (List.mem_filter.1 ht).2

/-- The ordering at a concrete engine: C0 holds key 1, C1 holds keys 1 and 2, C2 holds
keys 2 and 3. -/
theorem getnext_strictly_ascending_witness :
    ((bLSM.iterator.init (sampleEngine [sampleTuple [1] [] [9]]
        [sampleTuple [1] [] [7], sampleTuple [2] [] [7]]
        [sampleTuple [2] [] [5], sampleTuple [3] [] [5]] 0) none).bind
      (bLSM.iterator.getnext_n (sampleEngine [sampleTuple [1] [] [9]]
        [sampleTuple [1] [] [7], sampleTuple [2] [] [7]]
        [sampleTuple [2] [] [5], sampleTuple [3] [] [5]] 0) 5 4)) =
      some [some (sampleTuple [1] [] [9]), some (sampleTuple [2] [] [7]),
        some (sampleTuple [3] [] [5]), none] ∧
    ∃ it, bLSM.iterator.init (sampleEngine [sampleTuple [1] [] [9]]
        [sampleTuple [1] [] [7], sampleTuple [2] [] [7]]
        [sampleTuple [2] [] [5], sampleTuple [3] [] [5]] 0) none = some it ∧
      (∀ n, ∃ rs, bLSM.iterator.getnextIncludingTombstones_n (sampleEngine
          [sampleTuple [1] [] [9]] [sampleTuple [1] [] [7], sampleTuple [2] [] [7]]
          [sampleTuple [2] [] [5], sampleTuple [3] [] [5]] 0) n it = some rs ∧
        (rs.filterMap id).Pairwise (fun a b => dataTuple.compare_obj a b < 0)) ∧
      ∃ N, ∀ fuel, N ≤ fuel → ∀ n,
        ∃ rs, bLSM.iterator.getnext_n (sampleEngine
          [sampleTuple [1] [] [9]] [sampleTuple [1] [] [7], sampleTuple [2] [] [7]]
          [sampleTuple [2] [] [5], sampleTuple [3] [] [5]] 0) fuel n it = some rs ∧
          (rs.filterMap id).Pairwise (fun a b => dataTuple.compare_obj a b < 0) :=
  ⟨by decide, getnext_strictly_ascending (sampleEngine [sampleTuple [1] [] [9]]
    [sampleTuple [1] [] [7], sampleTuple [2] [] [7]]
    [sampleTuple [2] [] [5], sampleTuple [3] [] [5]] 0) none rfl rfl (by decide)⟩

/-- C5 at a concrete iterator: three runs with heads of keys 1, 1 and 2; the call returns
the tuple of the first run. -/
theorem next_callerFrees_min_witness :
    sampleMerge.WF ∧ sampleMerge.SortedStreams ∧
    sampleMerge.next_callerFrees.1 = some (sampleTuple [1] [] [7]) ∧
    ((∀ j, j < sampleMerge.num_iters_ → sampleMerge.stream j = []) →
      sampleMerge.next_callerFrees.1 = none) ∧
    ((∃ j, j < sampleMerge.num_iters_ ∧ sampleMerge.stream j ≠ []) →
      ∃ m t, m < sampleMerge.num_iters_ ∧ (sampleMerge.stream m).head? = some t ∧
        sampleMerge.next_callerFrees.1 = some t ∧
        (∀ j u, j < sampleMerge.num_iters_ → (sampleMerge.stream j).head? = some u →
          dataTuple.compare_obj t u ≤ 0) ∧
        (∀ j u, j < m → (sampleMerge.stream j).head? = some u →
          dataTuple.compare_obj t u < 0) ∧
        (∀ j u, j < sampleMerge.num_iters_ →
          (sampleMerge.next_callerFrees.2.stream j).head? = some u →
          dataTuple.compare_obj t u < 0)) :=
  have hwf : sampleMerge.WF := (mergeManyIterator.init_spec _ _ trivial).1
  have hs : sampleMerge.SortedStreams := by
    unfold mergeManyIterator.SortedStreams
    decide
  ⟨hwf, hs, by decide, mergeManyIterator.next_callerFrees_min sampleMerge hwf hs⟩

/-- C7 at a concrete engine: C0 holds key 1 (value 9), C1 holds keys 1 and 2 (value 7), C2
holds keys 2 and 3 (value 5); the iterator emits key 1 from C0, key 2 from C1 and key 3
from C2. -/
theorem iterator_first_component_wins_witness :
    ((bLSM.iterator.init (sampleEngine [sampleTuple [1] [] [9]]
        [sampleTuple [1] [] [7], sampleTuple [2] [] [7]]
        [sampleTuple [2] [] [5], sampleTuple [3] [] [5]] 0) none).bind
      (bLSM.iterator.getnextIncludingTombstones_n (sampleEngine [sampleTuple [1] [] [9]]
        [sampleTuple [1] [] [7], sampleTuple [2] [] [7]]
        [sampleTuple [2] [] [5], sampleTuple [3] [] [5]] 0) 4)) =
      some [some (sampleTuple [1] [] [9]), some (sampleTuple [2] [] [7]),
        some (sampleTuple [3] [] [5]), none] ∧
    ∃ it out, bLSM.iterator.init (sampleEngine [sampleTuple [1] [] [9]]
        [sampleTuple [1] [] [7], sampleTuple [2] [] [7]]
        [sampleTuple [2] [] [5], sampleTuple [3] [] [5]] 0) none = some it ∧
      (∀ n, out.length ≤ n →
        ∃ rs, bLSM.iterator.getnextIncludingTombstones_n (sampleEngine
          [sampleTuple [1] [] [9]] [sampleTuple [1] [] [7], sampleTuple [2] [] [7]]
          [sampleTuple [2] [] [5], sampleTuple [3] [] [5]] 0) n it = some rs ∧
          rs.filterMap id = out) ∧
      out.Pairwise (fun a b => dataTuple.compare_obj a b < 0) ∧
      (∀ k : Bytes, out.find? (fun x => decide (x.strippedkey = k)) =
        ((sampleEngine [sampleTuple [1] [] [9]]
          [sampleTuple [1] [] [7], sampleTuple [2] [] [7]]
          [sampleTuple [2] [] [5], sampleTuple [3] [] [5]] 0).components.map
            (fun c => open_iterator c none)).findSome?
          (fun c => c.find? (fun x => decide (x.strippedkey = k)))) ∧
      ∀ t ∈ out, ((sampleEngine [sampleTuple [1] [] [9]]
          [sampleTuple [1] [] [7], sampleTuple [2] [] [7]]
          [sampleTuple [2] [] [5], sampleTuple [3] [] [5]] 0).components.map
            (fun c => open_iterator c none)).findSome?
          (fun c => c.find? (fun x => decide (x.strippedkey = t.strippedkey))) = some t :=
  ⟨by decide, iterator_first_component_wins (sampleEngine [sampleTuple [1] [] [9]]
    [sampleTuple [1] [] [7], sampleTuple [2] [] [7]]
    [sampleTuple [2] [] [5], sampleTuple [3] [] [5]] 0) none rfl rfl (by decide)⟩

/-- C8 at a concrete state: an invalidated iterator over an engine whose C0 holds a
tombstone for key 1 and whose C1 holds keys 1 and 2. `getnextIncludingTombstones` returns
the tombstone and key 2, `getnext` returns key 2 only. -/
theorem getnext_eq_filter_tombstones_witness :
    bLSM.iterator.getnextIncludingTombstones_n (sampleEngine [sampleTombstone [1]]
        [sampleTuple [1] [] [7], sampleTuple [2] [] [7]] [] 0) 3 sampleInvalidIterator =
      some [some (sampleTombstone [1]), some (sampleTuple [2] [] [7]), none] ∧
    bLSM.iterator.getnext_n (sampleEngine [sampleTombstone [1]]
        [sampleTuple [1] [] [7], sampleTuple [2] [] [7]] [] 0) 5 3 sampleInvalidIterator =
      some [some (sampleTuple [2] [] [7]), none, none] ∧
    ∃ N, ∀ n fuel, N ≤ n → N ≤ fuel →
      ∃ rs1 rs2, bLSM.iterator.getnext_n (sampleEngine [sampleTombstone [1]]
          [sampleTuple [1] [] [7], sampleTuple [2] [] [7]] [] 0) fuel n
          sampleInvalidIterator = some rs1 ∧
        bLSM.iterator.getnextIncludingTombstones_n (sampleEngine [sampleTombstone [1]]
          [sampleTuple [1] [] [7], sampleTuple [2] [] [7]] [] 0) n
          sampleInvalidIterator = some rs2 ∧
        rs1.filterMap id = (rs2.filterMap id).filter (fun t => !t.isDelete) ∧
        ∀ t ∈ rs1.filterMap id, t.isDelete = false :=
  ⟨by decide, by decide, getnext_eq_filter_tombstones (sampleEngine [sampleTombstone [1]]
    [sampleTuple [1] [] [7], sampleTuple [2] [] [7]] [] 0) sampleInvalidIterator
    (Or.inr ⟨rfl, rfl, rfl⟩)⟩

/-- C9 evaluated at the failing input: an iterator over an engine whose C0 holds the
single key 1 returns key 1, then null (which clears `last_returned`); the engine then
installs an empty C1-prime, which bumps the epoch and invalidates the iterator; the next
`getnext` rebuilds the sub-iterators from the start and returns key 1 a second time. -/
theorem getnext_repeats_key_after_end :
    ((bLSM.iterator.init (sampleEngine [sampleTuple [1] [] [9]] [] [] 0) none).bind
      (fun it0 => (bLSM.iterator.getnext (sampleEngine [sampleTuple [1] [] [9]] [] [] 0)
        5 it0).bind
      (fun r1 => (bLSM.iterator.getnext (sampleEngine [sampleTuple [1] [] [9]] [] [] 0)
        5 r1.2).bind
      (fun r2 => (bLSM.iterator.getnext
        { sampleEngine [sampleTuple [1] [] [9]] [] [] 1 with
          tree_c1_prime := some { bloom_filter := none, tuples := [] } }
        5 (bLSM.iterator.invalidate r2.2)).map
      (fun r3 => ([r1.1, r2.1, r3.1], r2.2.last_returned)))))) =
    some ([some (sampleTuple [1] [] [9]), none, some (sampleTuple [1] [] [9])], none) := by
  decide

/-- C6 evaluated at the failing input: over an engine whose C0 holds the single key 1
(every component strictly ascending), an iterator returns key 1 and then null, which
clears `last_returned`; after `invalidate()`, with the engine unchanged, the next call
rebuilds the sub-iterators from the start and returns key 1 again. The successive
non-null results, key 1 and key 1, are not strictly increasing; the same holds for
`getnextIncludingTombstones`. -/
theorem getnext_not_ascending_after_end :
    (∀ c ∈ (sampleEngine [sampleTuple [1] [] [9]] [] [] 0).components,
      c.Pairwise (fun a b => dataTuple.compare_obj a b < 0)) ∧
    ((bLSM.iterator.init (sampleEngine [sampleTuple [1] [] [9]] [] [] 0) none).bind
      (fun it0 => (bLSM.iterator.getnext (sampleEngine [sampleTuple [1] [] [9]] [] [] 0)
        5 it0).bind
      (fun r1 => (bLSM.iterator.getnext (sampleEngine [sampleTuple [1] [] [9]] [] [] 0)
        5 r1.2).bind
      (fun r2 => (bLSM.iterator.getnext (sampleEngine [sampleTuple [1] [] [9]] [] [] 0)
        5 (bLSM.iterator.invalidate r2.2)).map
      (fun r3 => [r1.1, r2.1, r3.1]))))) =
      some [some (sampleTuple [1] [] [9]), none, some (sampleTuple [1] [] [9])] ∧
    ((bLSM.iterator.init (sampleEngine [sampleTuple [1] [] [9]] [] [] 0) none).bind
      (fun it0 => (bLSM.iterator.getnextIncludingTombstones
        (sampleEngine [sampleTuple [1] [] [9]] [] [] 0) it0).bind
      (fun r1 => (bLSM.iterator.getnextIncludingTombstones
        (sampleEngine [sampleTuple [1] [] [9]] [] [] 0) r1.2).bind
      (fun r2 => (bLSM.iterator.getnextIncludingTombstones
        (sampleEngine [sampleTuple [1] [] [9]] [] [] 0) (bLSM.iterator.invalidate r2.2)).map
      (fun r3 => [r1.1, r2.1, r3.1]))))) =
      some [some (sampleTuple [1] [] [9]), none, some (sampleTuple [1] [] [9])] ∧
    ¬ dataTuple.compare_obj (sampleTuple [1] [] [9]) (sampleTuple [1] [] [9]) < 0 := by
  refine ⟨by decide, by decide, by decide, by decide⟩

/-! ### The rate limiter -/

theorem wrap_unsigned_long_long_of_nat (n : Nat) :
    wrap_unsigned_long_long (n : Int) = n % 2 ^ 64 := by
  unfold wrap_unsigned_long_long
  have h : ((n : Int) % 2 ^ 64) = ((n % 2 ^ 64 : Nat) : Int) := by push_cast; rfl
  rw [h, Int.toNat_natCast]

theorem wrap_int_of_range (x : Int) (h0 : -(2 ^ 31) ≤ x) (h1 : x < 2 ^ 31) :
    wrap_int x = x := by
  unfold wrap_int
  rw [Int.emod_eq_of_lt (by linarith) (by linarith)]
  ring

theorem to_long_of_nonneg (x : ℚ) (h : 0 ≤ x) : to_long x = (⌊x⌋₊ : Int) := by
  unfold to_long
  rw [if_pos h]
  exact (Int.natCast_floor_eq_floor h).symm

namespace RateLimiter

theorem sync_next_free (s : RateLimiter) (now : Nat) :
    (s.sync now).next_free_ = max s.next_free_ now := by
  unfold sync
  split
  · rename_i h; simp [max_eq_right (le_of_lt h)]
  · rename_i h; simp [max_eq_left (not_lt.1 h)]

theorem sync_interval (s : RateLimiter) (now : Nat) :
    (s.sync now).interval_ = s.interval_ ∧ (s.sync now).max_permits_ = s.max_permits_ := by
  unfold sync
  split <;> simp

theorem claim_next_snd (s : RateLimiter) (n : ℚ) (now : Nat) (hi : 0 < s.interval_) :
    (s.claim_next n now).2 =
      { interval_ := s.interval_, max_permits_ := s.max_permits_,
        stored_permits_ := (s.sync now).stored_permits_ - min n (s.sync now).stored_permits_,
        next_free_ := (max s.next_free_ now
            + ⌊(n - min n (s.sync now).stored_permits_) * s.interval_⌋₊) % 2 ^ 64 } := by
  have hf : 0 ≤ (n - min n (s.sync now).stored_permits_) * s.interval_ :=
    mul_nonneg (sub_nonneg.2 (min_le_left _ _)) (le_of_lt hi)
  simp only [claim_next, (sync_interval s now).1, (sync_interval s now).2, sync_next_free]
  rw [to_long_of_nonneg _ hf, ← Nat.cast_add, wrap_unsigned_long_long_of_nat]

/-- When `timeout * 1000` fits an `int` and the deadline fits 64 bits, `try_aquire`
returns false exactly when `next_free_ > now + 1000 * timeout`; it then neither sleeps
nor changes the state, and otherwise it does what `aquire(permits)` does. -/
theorem try_aquire_in_range (s : RateLimiter) (permits timeout : Int) (now now2 : Nat)
    (h0 : 0 ≤ timeout) (h1 : timeout * 1000 < 2 ^ 31)
    (h2 : (now : Int) + 1000 * timeout < 2 ^ 64) :
    ((s.try_aquire permits timeout now now2).1 = .ok (false, 0) ↔
        (now : Int) + 1000 * timeout < (s.next_free_ : Int)) ∧
      ((now : Int) + 1000 * timeout < (s.next_free_ : Int) →
        s.try_aquire permits timeout now now2 = (.ok (false, 0), s)) ∧
      (¬ (now : Int) + 1000 * timeout < (s.next_free_ : Int) →
        s.try_aquire permits timeout now now2
          = (.ok (true, (s.claim_next (permits : ℚ) now2).1), (s.aquire permits now2).2)) := by
  have hw : wrap_unsigned_long_long ((now : Int) + wrap_int (timeout * 1000))
      = ((now : Int) + 1000 * timeout).toNat := by
    rw [wrap_int_of_range _ (by linarith) h1]
    unfold wrap_unsigned_long_long
    rw [Int.emod_eq_of_lt (by positivity) (by linarith)]
    congr 1; ring
  have hgt : s.next_free_ > wrap_unsigned_long_long ((now : Int) + wrap_int (timeout * 1000))
      ↔ (now : Int) + 1000 * timeout < (s.next_free_ : Int) := by
    rw [hw]
    have : 0 ≤ (now : Int) + 1000 * timeout := by positivity
    omega
  have hA : (now : Int) + 1000 * timeout < (s.next_free_ : Int) →
      s.try_aquire permits timeout now now2 = (.ok (false, 0), s) := by
    intro h
    unfold try_aquire
    rw [if_pos (hgt.2 h)]
  have hB : ¬ (now : Int) + 1000 * timeout < (s.next_free_ : Int) →
      s.try_aquire permits timeout now now2
        = (.ok (true, (s.claim_next (permits : ℚ) now2).1), (s.aquire permits now2).2) := by
    intro h
    unfold try_aquire
    rw [if_neg (fun h3 => h (hgt.1 h3))]
    rfl
  refine ⟨⟨fun h => ?_, fun h => by rw [hA h]⟩, hA, hB⟩
  by_contra hn
  rw [hB hn] at h
  simp at h

/-- C14 at the failing input: an idle limiter (`next_free_` equal to the clock reading)
and a timeout of 2 147 484 ms. The `int` product `timeout * 1000` wraps to
`-2147483296`, the deadline lies before `now`, and `try_aquire` returns false without
claiming, although `next_free_ <= now + 1000 * timeout`. -/
theorem try_aquire_timeout_overflow :
    wrap_int (2147484 * 1000) = -2147483296 ∧
      (sampleLimiter 0 1700000000000000).try_aquire 1 2147484 1700000000000000
          1700000000000000
        = (.ok (false, 0), sampleLimiter 0 1700000000000000) ∧
      ¬ ((sampleLimiter 0 1700000000000000).next_free_ : Int)
          > (1700000000000000 : Int) + 1000 * 2147484 := by
  refine ⟨by decide, ?_, by simp [sampleLimiter]⟩
  unfold try_aquire
  rw [if_pos]
  simp only [sampleLimiter]
  decide

/-- C16 at the failing input: `aquire(-5)` on an idle limiter with an empty bucket
returns normally (value 0, no sleep), and the bucket then holds 5 permits: no error is
reported and the state has changed. -/
theorem aquire_negative_returns :
    (sampleLimiter 0 1700000000000000).aquire (-5) 1700000000000000
        = (.ok (0, 0), sampleLimiter 5 1700000000000000) ∧
      sampleLimiter 5 1700000000000000 ≠ sampleLimiter 0 1700000000000000 := by
  constructor
  · norm_num [aquire, claim_next, sync, sampleLimiter, to_long, wrap_unsigned_long_long]
    rfl
  · simp [sampleLimiter]


theorem init_state : init.2 = RateLimiter.mk (625 / 65536) 104857600 0 0 := by
  unfold init set_rate
  rw [if_neg (by norm_num)]
  norm_num

end RateLimiter

/-! ### The merge threads -/

theorem merge_iterators_frame (env : mergeEnv) (itrA itrB : List dataTuple) (ltable : bLSM) :
    ∃ c0, (merge_iterators env itrA itrB ltable).ltable = { ltable with tree_c0 := c0 } := by
  obtain ⟨c1, h1⟩ := (merge_loops_emitted env 100 itrB itrA
    { ltable := ltable, scratch_tree := [], i := 0, aquired := [],
      garbage := List.replicate 100 none, next_garbage := 0,
      garbage_writes := [], collected := [] }).2
  simp only [merge_iterators]
  obtain ⟨c2, h2⟩ := garbage_collect_frame
    (merge_while_large env
      (merge_while_small env 100 itrB itrA
        { ltable := ltable, scratch_tree := [], i := 0, aquired := [],
          garbage := List.replicate 100 none, next_garbage := 0,
          garbage_writes := [], collected := [] }).1
      (merge_while_small env 100 itrB itrA
        { ltable := ltable, scratch_tree := [], i := 0, aquired := [],
          garbage := List.replicate 100 none, next_garbage := 0,
          garbage_writes := [], collected := [] }).2).ltable
    (merge_while_large env
      (merge_while_small env 100 itrB itrA
        { ltable := ltable, scratch_tree := [], i := 0, aquired := [],
          garbage := List.replicate 100 none, next_garbage := 0,
          garbage_writes := [], collected := [] }).1
      (merge_while_small env 100 itrB itrA
        { ltable := ltable, scratch_tree := [], i := 0, aquired := [],
          garbage := List.replicate 100 none, next_garbage := 0,
          garbage_writes := [], collected := [] }).2).garbage
    100
    (merge_while_large env
      (merge_while_small env 100 itrB itrA
        { ltable := ltable, scratch_tree := [], i := 0, aquired := [],
          garbage := List.replicate 100 none, next_garbage := 0,
          garbage_writes := [], collected := [] }).1
      (merge_while_small env 100 itrB itrA
        { ltable := ltable, scratch_tree := [], i := 0, aquired := [],
          garbage := List.replicate 100 none, next_garbage := 0,
          garbage_writes := [], collected := [] }).2).next_garbage
    true
  refine ⟨c2, ?_⟩
  rw [h2, h1]

namespace double

theorem max_ge_left (q : ℚ) (x : double) : ge (max (finite q) x) (finite q) = true := by
  cases x <;> simp [max, lt, ge]
  rename_i b
  by_cases h : q < b
  · simp [h, ge, le_of_lt h]
  · simp [h, ge]

end double

namespace mergeScheduler

theorem step_MIN_R (t : mergeThread) (o : mergeOracle) (s : mergeScheduler) :
    (step t o s).MIN_R = s.MIN_R := by
  cases t
  · simp only [step]
    cases s.mem_pc
    · simp only [memMerge_top]; split
      · rfl
      · split <;> rfl
    · simp only [memMerge_merge]; split <;> rfl
    · simp only [memMerge_install]; split_ifs <;> rfl
    · simp only [memMerge_wait]; split <;> rfl
    · rfl
    · rfl
    · rfl
  · simp only [step]
    cases s.disk_pc
    · simp only [diskMerge_top]; split
      · split <;> rfl
      · split <;> rfl
    · rfl
    · simp only [diskMerge_merge]; split <;> rfl
    · rfl
    · rfl
    · rfl

theorem step_r_val (t : mergeThread) (o : mergeOracle) (s : mergeScheduler)
    (h : ¬ (t = .disk ∧ s.disk_pc = .installing)) :
    (step t o s).ltable_.r_val = s.ltable_.r_val := by
  cases t
  · simp only [step]
    cases s.mem_pc
    · simp only [memMerge_top]; split
      · rfl
      · split <;> rfl
    · simp only [memMerge_merge]; split
      · rfl
      · rename_i c1 _
        obtain ⟨c0, h0⟩ := merge_iterators_frame (env o .mem) c1.tuples s.ltable_.tree_c0
          s.ltable_
        simp only [h0]
    · simp only [memMerge_install]
      split_ifs <;> rfl
    · simp only [memMerge_wait]; split <;> rfl
    · rfl
    · rfl
    · rfl
  · simp only [step]
    cases hpc : s.disk_pc
    · simp only [diskMerge_top]; split
      · split <;> rfl
      · split <;> rfl
    · rfl
    · simp only [diskMerge_merge]; split
      · rename_i c2 c1m _ _
        obtain ⟨c0, h0⟩ := merge_iterators_frame (env o .disk) c2.tuples c1m.tuples s.ltable_
        simp only [h0]
      · rfl
    · exact absurd ⟨rfl, hpc⟩ h
    · rfl
    · rfl


theorem diskMerge_install_r_val (o : mergeOracle) (s : mergeScheduler) :
    (diskMerge_install o s).ltable_.r_val
      = double.max s.MIN_R
          (o.sqrt (double.div (o.output_size : ℚ) (s.ltable_.mean_c0_run_length : ℚ))) :=
  rfl

theorem memMerge_install_pc (o : mergeOracle) (s : mergeScheduler)
    (h : double.ge s.ltable_.r_val s.MIN_R = true) :
    (memMerge_install o s).mem_pc ≠ .aborted := by
  simp only [memMerge_install]
  split_ifs with h1 h2 h3 h4 h5
  · simp [bLSM.set_c0_is_merging, bLSM.set_tree_c1_prime, bLSM.set_tree_c1, h] at h2
  · simp
  · simp
  · simp [bLSM.set_c0_is_merging, bLSM.set_tree_c1_prime, bLSM.set_tree_c1, h] at h4
  · simp
  · simp

theorem step_inv (t : mergeThread) (o : mergeOracle) (s : mergeScheduler)
    (hM : s.MIN_R = double.finite 3) (hR : double.ge s.ltable_.r_val s.MIN_R = true) :
    (step t o s).MIN_R = double.finite 3 ∧
      double.ge (step t o s).ltable_.r_val (step t o s).MIN_R = true := by
  refine ⟨(step_MIN_R t o s).trans hM, ?_⟩
  rw [step_MIN_R]
  by_cases h : t = .disk ∧ s.disk_pc = .installing
  · obtain ⟨ht, hpc⟩ := h
    subst ht
    simp only [step, hpc]
    rw [diskMerge_install_r_val, hM]
    exact double.max_ge_left _ _
  · rw [step_r_val t o s h]
    exact hR

theorem run_inv (schedule : List (mergeThread × mergeOracle)) :
    ∀ s : mergeScheduler, s.MIN_R = double.finite 3 →
      double.ge s.ltable_.r_val s.MIN_R = true →
      (s.run schedule).MIN_R = double.finite 3 ∧
        double.ge (s.run schedule).ltable_.r_val (s.run schedule).MIN_R = true := by
  induction schedule with
  | nil => intro s hM hR; exact ⟨hM, hR⟩
  | cons a schedule ih =>
    intro s hM hR
    obtain ⟨h1, h2⟩ := step_inv a.1 a.2 s hM hR
    exact ih _ h1 h2

/-- C19: the install step of the disk-merge thread sets `R` to
`std::max(MIN_R, sqrt(output_size / mean_c0_run_length))`, no other step of either
thread changes `R`, and `MIN_R` is 3.0; hence `R >= MIN_R` holds in every state the two
threads reach, in any interleaving and whatever `sqrt` and the statistics report
(infinities and NaN included), from an engine with `R >= MIN_R`, and the assertion
`*R() >= MIN_R` of the mem-merge thread does not fail there. -/
theorem r_val_ge_MIN_R (ltable : bLSM) (schedule : List (mergeThread × mergeOracle))
    (h : double.ge ltable.r_val (double.finite 3) = true) :
    (∀ (o : mergeOracle) (s : mergeScheduler),
      (step .disk o { s with disk_pc := .installing }).ltable_.r_val
        = double.max s.MIN_R
            (o.sqrt (double.div (o.output_size : ℚ) (s.ltable_.mean_c0_run_length : ℚ)))) ∧
      (∀ (t : mergeThread) (o : mergeOracle) (s : mergeScheduler),
        ¬ (t = .disk ∧ s.disk_pc = .installing) →
          (step t o s).ltable_.r_val = s.ltable_.r_val) ∧
      ((init ltable).run schedule).MIN_R = double.finite 3 ∧
      double.ge ((init ltable).run schedule).ltable_.r_val
        ((init ltable).run schedule).MIN_R = true ∧
      ∀ o : mergeOracle,
        (step .mem o { (init ltable).run schedule with mem_pc := .installing }).mem_pc
          ≠ .aborted := by
  obtain ⟨h1, h2⟩ := run_inv schedule (init ltable) rfl h
  exact ⟨fun o s => rfl, step_r_val, h1, h2, fun o => memMerge_install_pc o _ h2⟩

/-- C19 on a concrete run: the disk-merge thread merges a one-tuple C1-mergeable into C2
while the statistics report a mean run length of zero and `sqrt` answers NaN, and the
mem-merge thread then starts its loop. -/
theorem r_val_ge_MIN_R_witness :
    double.ge
        ((init { sampleEngine [] [] [] 0 with
            tree_c1_mergeable := some { bloom_filter := none, tuples := [sampleTuple [1] [] [7]] }
            mean_c0_run_length := 0 }).run
          [(.disk, sampleOracle false false), (.disk, sampleOracle false false),
            (.disk, sampleOracle false false), (.mem, sampleOracle false false)]).ltable_.r_val
        ((init { sampleEngine [] [] [] 0 with
            tree_c1_mergeable := some { bloom_filter := none, tuples := [sampleTuple [1] [] [7]] }
            mean_c0_run_length := 0 }).run
          [(.disk, sampleOracle false false), (.disk, sampleOracle false false),
            (.disk, sampleOracle false false), (.mem, sampleOracle false false)]).MIN_R
      = true :=
  (r_val_ge_MIN_R _ _ (by simp [sampleEngine, double.ge])).2.2.2.1


theorem insert_filter_set_tree_c1_prime (l : bLSM) (x : Option diskTreeComponent)
    (t : dataTuple) (d : Bool) :
    insert_filter (l.set_tree_c1_prime x) t d = insert_filter l t d := rfl

theorem memMerge_merge_slots (o : mergeOracle) (s : mergeScheduler) (c1 : diskTreeComponent)
    (hc1 : s.ltable_.tree_c1 = some c1) :
    (memMerge_merge o s).mem_pc = .installing ∧
      (memMerge_merge o s).ltable_.tree_c1_prime
        = some
          { bloom_filter := o.bloom_filter
              ((merge_candidates o.merge s.ltable_.tree_c0 c1.tuples).filter
                (fun t => insert_filter s.ltable_ t false)),
            tuples := (merge_candidates o.merge s.ltable_.tree_c0 c1.tuples).filter
              (fun t => insert_filter s.ltable_ t false) } ∧
      (memMerge_merge o s).ltable_.tree_c1 = s.ltable_.tree_c1 ∧
      (memMerge_merge o s).ltable_.tree_c1_mergeable = s.ltable_.tree_c1_mergeable ∧
      (memMerge_merge o s).ltable_.tree_c2 = s.ltable_.tree_c2 := by
  obtain ⟨c0, h0⟩ := merge_iterators_frame (env o .mem) c1.tuples s.ltable_.tree_c0 s.ltable_
  have hs := merge_iterators_scratch_tree (env o .mem) c1.tuples s.ltable_.tree_c0 s.ltable_
  simp only [memMerge_merge, hc1, hs, h0]
  simp [env]

theorem memMerge_install_slots (o : mergeOracle) (s : mergeScheduler) :
    (memMerge_install o s).ltable_.tree_c1 = s.ltable_.tree_c1_prime ∧
      (memMerge_install o s).ltable_.tree_c1_prime = none ∧
      (memMerge_install o s).ltable_.tree_c1_mergeable = s.ltable_.tree_c1_mergeable ∧
      (memMerge_install o s).ltable_.tree_c2 = s.ltable_.tree_c2 := by
  simp only [memMerge_install]
  split_ifs <;>
    simp [bLSM.set_c0_is_merging, bLSM.set_tree_c1_prime, bLSM.set_tree_c1]

/-- One pass of the mem-merge thread through its loop body up to the cascade decision,
from the top of the loop: whatever the collaborators report, C1 then holds the merged
component, the C1-prime slot is null again, and C1-mergeable and C2 are as before. -/
theorem memMerge_iteration_slots (s : mergeScheduler) (o1 o2 o3 : mergeOracle)
    (c1 : diskTreeComponent) (hpc : s.mem_pc = .top)
    (hrun : s.ltable_.is_still_running = true) (hc1 : s.ltable_.tree_c1 = some c1) :
    (step .mem o3 (step .mem o2 (step .mem o1 s))).ltable_.tree_c1
        = some
          { bloom_filter := o2.bloom_filter
              ((merge_candidates o2.merge s.ltable_.tree_c0 c1.tuples).filter
                (fun t => insert_filter s.ltable_ t false)),
            tuples := (merge_candidates o2.merge s.ltable_.tree_c0 c1.tuples).filter
              (fun t => insert_filter s.ltable_ t false) } ∧
      (step .mem o3 (step .mem o2 (step .mem o1 s))).ltable_.tree_c1_prime = none ∧
      (step .mem o3 (step .mem o2 (step .mem o1 s))).ltable_.tree_c1_mergeable
        = s.ltable_.tree_c1_mergeable ∧
      (step .mem o3 (step .mem o2 (step .mem o1 s))).ltable_.tree_c2
        = s.ltable_.tree_c2 := by
  have h1 : step .mem o1 s =
      { s with
        ltable_ := s.ltable_.set_tree_c1_prime
          (some { bloom_filter := o1.bloom_filter [], tuples := [] })
        mem_pc := .merging } := by
    simp only [step, hpc, memMerge_top, hrun, hc1]
    rfl
  obtain ⟨m1, m2, m3, m4, m5⟩ := memMerge_merge_slots o2
    { s with
      ltable_ := s.ltable_.set_tree_c1_prime
        (some { bloom_filter := o1.bloom_filter [], tuples := [] })
      mem_pc := .merging } c1 hc1
  have h2 : step .mem o2 (step .mem o1 s) = memMerge_merge o2
      { s with
        ltable_ := s.ltable_.set_tree_c1_prime
          (some { bloom_filter := o1.bloom_filter [], tuples := [] })
        mem_pc := .merging } := by
    rw [h1]; rfl
  have h3 : step .mem o3 (step .mem o2 (step .mem o1 s))
      = memMerge_install o3 (step .mem o2 (step .mem o1 s)) := by
    rw [h2]
    simp only [step, m1]
  obtain ⟨i1, i2, i3, i4⟩ := memMerge_install_slots o3 (step .mem o2 (step .mem o1 s))
  rw [h3, i1, i2, i3, i4, h2, m2, m4, m5]
  exact ⟨rfl, rfl, rfl, rfl⟩

theorem diskMerge_merge_slots (o : mergeOracle) (s : mergeScheduler)
    (c2 c1m : diskTreeComponent)
    (hc2 : s.ltable_.tree_c2 = some c2) (hc1m : s.ltable_.tree_c1_mergeable = some c1m) :
    (diskMerge_merge o s).disk_pc = .installing ∧
      (diskMerge_merge o s).c2_prime
        = some
          { bloom_filter := o.bloom_filter
              ((merge_candidates o.merge c1m.tuples c2.tuples).filter
                (fun t => insert_filter s.ltable_ t true)),
            tuples := (merge_candidates o.merge c1m.tuples c2.tuples).filter
              (fun t => insert_filter s.ltable_ t true) } ∧
      (diskMerge_merge o s).ltable_.tree_c1 = s.ltable_.tree_c1 ∧
      (diskMerge_merge o s).ltable_.tree_c1_prime = s.ltable_.tree_c1_prime := by
  obtain ⟨c0, h0⟩ := merge_iterators_frame (env o .disk) c2.tuples c1m.tuples s.ltable_
  have hs := merge_iterators_scratch_tree (env o .disk) c2.tuples c1m.tuples s.ltable_
  simp only [diskMerge_merge, hc2, hc1m, hs, h0]
  simp [env]

theorem diskMerge_install_slots (o : mergeOracle) (s : mergeScheduler) :
    (diskMerge_install o s).ltable_.tree_c2 = s.c2_prime ∧
      (diskMerge_install o s).ltable_.tree_c1_mergeable = none ∧
      (diskMerge_install o s).ltable_.tree_c1 = s.ltable_.tree_c1 ∧
      (diskMerge_install o s).ltable_.tree_c1_prime = s.ltable_.tree_c1_prime :=
  ⟨rfl, rfl, rfl, rfl⟩

/-- One pass of the disk-merge thread through its loop body, from the top of the loop
with input in C1-mergeable: whatever the collaborators report, C2 then holds the merged
component, the C1-mergeable slot is null, and C1 and C1-prime are as before. -/
theorem diskMerge_iteration_slots (s : mergeScheduler) (o1 o2 o3 : mergeOracle)
    (c2 c1m : diskTreeComponent) (hpc : s.disk_pc = .top)
    (hc2 : s.ltable_.tree_c2 = some c2) (hc1m : s.ltable_.tree_c1_mergeable = some c1m) :
    (step .disk o3 (step .disk o2 (step .disk o1 s))).ltable_.tree_c2
        = some
          { bloom_filter := o2.bloom_filter
              ((merge_candidates o2.merge c1m.tuples c2.tuples).filter
                (fun t => insert_filter s.ltable_ t true)),
            tuples := (merge_candidates o2.merge c1m.tuples c2.tuples).filter
              (fun t => insert_filter s.ltable_ t true) } ∧
      (step .disk o3 (step .disk o2 (step .disk o1 s))).ltable_.tree_c1_mergeable = none ∧
      (step .disk o3 (step .disk o2 (step .disk o1 s))).ltable_.tree_c1
        = s.ltable_.tree_c1 ∧
      (step .disk o3 (step .disk o2 (step .disk o1 s))).ltable_.tree_c1_prime
        = s.ltable_.tree_c1_prime := by
  have h1 : step .disk o1 s =
      { s with
        c2_prime := some { bloom_filter := o1.bloom_filter [], tuples := [] }
        disk_pc := .merging } := by
    simp only [step, hpc, diskMerge_top, hc2, hc1m]
  obtain ⟨m1, m2, m3, m4⟩ := diskMerge_merge_slots o2
    { s with
      c2_prime := some { bloom_filter := o1.bloom_filter [], tuples := [] }
      disk_pc := .merging } c2 c1m hc2 hc1m
  have h2 : step .disk o2 (step .disk o1 s) = diskMerge_merge o2
      { s with
        c2_prime := some { bloom_filter := o1.bloom_filter [], tuples := [] }
        disk_pc := .merging } := by
    rw [h1]; rfl
  have h3 : step .disk o3 (step .disk o2 (step .disk o1 s))
      = diskMerge_install o3 (step .disk o2 (step .disk o1 s)) := by
    rw [h2]
    simp only [step, m1]
  obtain ⟨i1, i2, i3, i4⟩ := diskMerge_install_slots o3 (step .disk o2 (step .disk o1 s))
  rw [h3, i1, i2, i3, i4, h2, m2, m3, m4]
  exact ⟨rfl, rfl, rfl, rfl⟩

/-- C20, as the code has it: the merge threads do not look at the outcome of `force`
(it returns nothing) or at the value `Tcommit` returns. Whatever the collaborators
report, failure included, a pass of the mem-merge thread from the top of its loop
installs the merged component as C1 and clears the C1-prime slot, leaving C1-mergeable
and C2 alone, and a pass of the disk-merge thread installs the merged component as C2
and clears the C1-mergeable slot, leaving C1 and C1-prime alone. -/
theorem merge_installs_unconditionally (s : mergeScheduler) (o1 o2 o3 : mergeOracle) :
    (∀ c1 : diskTreeComponent, s.mem_pc = .top → s.ltable_.is_still_running = true →
      s.ltable_.tree_c1 = some c1 →
      (step .mem o3 (step .mem o2 (step .mem o1 s))).ltable_.tree_c1
          = some
            { bloom_filter := o2.bloom_filter
                ((merge_candidates o2.merge s.ltable_.tree_c0 c1.tuples).filter
                  (fun t => insert_filter s.ltable_ t false)),
              tuples := (merge_candidates o2.merge s.ltable_.tree_c0 c1.tuples).filter
                (fun t => insert_filter s.ltable_ t false) } ∧
        (step .mem o3 (step .mem o2 (step .mem o1 s))).ltable_.tree_c1_prime = none ∧
        (step .mem o3 (step .mem o2 (step .mem o1 s))).ltable_.tree_c1_mergeable
          = s.ltable_.tree_c1_mergeable ∧
        (step .mem o3 (step .mem o2 (step .mem o1 s))).ltable_.tree_c2
          = s.ltable_.tree_c2) ∧
      (∀ c2 c1m : diskTreeComponent, s.disk_pc = .top → s.ltable_.tree_c2 = some c2 →
        s.ltable_.tree_c1_mergeable = some c1m →
        (step .disk o3 (step .disk o2 (step .disk o1 s))).ltable_.tree_c2
            = some
              { bloom_filter := o2.bloom_filter
                  ((merge_candidates o2.merge c1m.tuples c2.tuples).filter
                    (fun t => insert_filter s.ltable_ t true)),
                tuples := (merge_candidates o2.merge c1m.tuples c2.tuples).filter
                  (fun t => insert_filter s.ltable_ t true) } ∧
          (step .disk o3 (step .disk o2 (step .disk o1 s))).ltable_.tree_c1_mergeable
            = none ∧
          (step .disk o3 (step .disk o2 (step .disk o1 s))).ltable_.tree_c1
            = s.ltable_.tree_c1 ∧
          (step .disk o3 (step .disk o2 (step .disk o1 s))).ltable_.tree_c1_prime
            = s.ltable_.tree_c1_prime) :=
  ⟨fun c1 hpc hrun hc1 => memMerge_iteration_slots s o1 o2 o3 c1 hpc hrun hc1,
    fun c2 c1m hpc hc2 hc1m => diskMerge_iteration_slots s o1 o2 o3 c2 c1m hpc hc2 hc1m⟩

/-- C20, as the claim states it, fails: with `force` and `Tcommit` both failing, a pass
of the mem-merge thread over an engine with one tuple in C0 and an empty C1 leaves that
tuple in C1, and a pass of the disk-merge thread over a one-tuple C1-mergeable and an
empty C2 leaves the tuple in C2 and the C1-mergeable slot null. -/
theorem merge_failure_counterexample :
    (sampleOracle true true).force_failed = true ∧
      (sampleOracle true true).commit_failed = true ∧
      (init (sampleEngine [sampleTuple [1] [] [7]] [] [] 0)).ltable_.tree_c1.map
          (fun c => c.tuples) = some [] ∧
      (step .mem (sampleOracle true true) (step .mem (sampleOracle true true)
          (step .mem (sampleOracle true true)
            (init (sampleEngine [sampleTuple [1] [] [7]] [] [] 0))))).ltable_.tree_c1.map
          (fun c => c.tuples) = some [sampleTuple [1] [] [7]] ∧
      (init { sampleEngine [] [] [] 0 with
          tree_c1_mergeable := some { bloom_filter := none, tuples := [sampleTuple [1] [] [7]] }
          }).ltable_.tree_c2.map (fun c => c.tuples) = some [] ∧
      (step .disk (sampleOracle true true) (step .disk (sampleOracle true true)
          (step .disk (sampleOracle true true)
            (init { sampleEngine [] [] [] 0 with
              tree_c1_mergeable :=
                some { bloom_filter := none, tuples := [sampleTuple [1] [] [7]] }
              })))).ltable_.tree_c2.map (fun c => c.tuples)
        = some [sampleTuple [1] [] [7]] := by
  refine ⟨rfl, rfl, rfl, ?_, rfl, ?_⟩
  · rw [(memMerge_iteration_slots (init (sampleEngine [sampleTuple [1] [] [7]] [] [] 0))
      (sampleOracle true true) (sampleOracle true true) (sampleOracle true true)
      { bloom_filter := none, tuples := [] } rfl rfl rfl).1]
    decide
  · rw [(diskMerge_iteration_slots
      (init { sampleEngine [] [] [] 0 with
        tree_c1_mergeable := some { bloom_filter := none, tuples := [sampleTuple [1] [] [7]] } })
      (sampleOracle true true) (sampleOracle true true) (sampleOracle true true)
      { bloom_filter := none, tuples := [] }
      { bloom_filter := none, tuples := [sampleTuple [1] [] [7]] } rfl rfl rfl).1]
    decide

end mergeScheduler

/-! ### The streaming merger: tombstones, pacing and the garbage buffer -/

/-- C23: when `merge_iterators` runs with `dropDeletes = true`, no tuple of the scratch
tree has the delete flag set; the scratch tree holds the candidates (the tuples of the
large side, those of the small side and the merged tuples) that are no tombstones and
pass the expiry test. -/
theorem merge_iterators_drops_tombstones (env : mergeEnv) (itrA itrB : List dataTuple)
    (ltable : bLSM) (h : env.dropDeletes = true) :
    (∀ t ∈ (merge_iterators env itrA itrB ltable).scratch_tree, t.isDelete = false) ∧
      (merge_iterators env itrA itrB ltable).scratch_tree =
        (merge_candidates env.merge itrB itrA).filter
          (fun t => !t.isDelete && insert_filter ltable t true) := by
  rw [merge_iterators_scratch_tree, h]
  constructor
  · intro t ht
    have hk := (List.mem_filter.1 ht).2
    cases hd : t.isDelete with
    | false => rfl
    | true => simp [insert_filter, hd] at hk
  · apply List.filter_congr
    intro t _
    cases hd : t.isDelete <;> simp [insert_filter, hd]

/-- C23 at a concrete input: the large side holds a tombstone for key 1 and a live key 2,
the small side a live key 1 and a tombstone for key 3; the merged tuple for key 1 is the
live one, and the scratch tree holds keys 1 and 2 only. -/
theorem merge_iterators_drops_tombstones_witness :
    (∀ t ∈ (merge_iterators (sampleEnv true 2)
        [sampleTombstone [1], sampleTuple [2] [] [7]]
        [sampleTuple [1] [] [8], sampleTombstone [3]] (sampleTable [])).scratch_tree,
        t.isDelete = false) ∧
      (merge_iterators (sampleEnv true 2)
        [sampleTombstone [1], sampleTuple [2] [] [7]]
        [sampleTuple [1] [] [8], sampleTombstone [3]] (sampleTable [])).scratch_tree
        = [sampleTuple [1] [] [8], sampleTuple [2] [] [7]] :=
  ⟨(merge_iterators_drops_tombstones (sampleEnv true 2) _ _ _ rfl).1, by decide⟩

theorem bytes_written_append (env : mergeEnv) (a b : List dataTuple) :
    bytes_written env (a ++ b) = bytes_written env a + bytes_written env b := by
  simp [bytes_written]

theorem bytes_written_flatten (env : mergeEnv) (batches : List (List dataTuple)) :
    bytes_written env batches.flatten = (batches.map (bytes_written env)).sum := by
  induction batches with
  | nil => rfl
  | cons b bs ih => simp [bytes_written_append, ih]

theorem insert_if_kept_paced (env : mergeEnv) (st : mergeState) (t : dataTuple)
    (h : Paced env st) : Paced env (insert_if_kept env st t) := by
  unfold insert_if_kept
  split
  · obtain ⟨batches, rest, h1, h2, h3, h4, h5⟩ := h
    refine ⟨batches, rest ++ [t], ?_, h2, ?_, h4, h5⟩
    · simp [h1]
    · simp [h3, bytes_written_append, bytes_written]
  · exact h

theorem periodically_force_paced (env : mergeEnv) (st : mergeState) (h : Paced env st) :
    Paced env (periodically_force env st) := by
  unfold periodically_force
  split
  · rename_i hc
    obtain ⟨batches, rest, h1, h2, h3, h4, h5⟩ := h
    refine ⟨batches ++ [rest], [], ?_, ?_, ?_, ?_, ?_⟩
    · simp [h1]
    · simp [h2, h3]
    · simp [bytes_written]
    · intro a ha
      simp only [List.mem_append, List.mem_singleton] at ha
      rcases ha with ha | ha
      · exact h4 a ha
      · rw [ha]; exact hc.2
    · intro h0
      exact absurd h0 hc.1
  · exact h

theorem merge_buffer_garbage_paced (env : mergeEnv) (garbage_len : Nat) (t2 : dataTuple)
    (st : mergeState) (h : Paced env st) :
    Paced env (merge_buffer_garbage env garbage_len t2 st) := by
  unfold merge_buffer_garbage
  split
  · exact h
  · exact h

theorem merge_while_less_paced (env : mergeEnv) (t2 : dataTuple) (itrA : List dataTuple)
    (st : mergeState) (h : Paced env st) : Paced env (merge_while_less env t2 itrA st).2 := by
  induction itrA generalizing st with
  | nil => exact h
  | cons t1 itrA ih =>
    unfold merge_while_less
    split
    · exact ih _ (periodically_force_paced env _ (insert_if_kept_paced env st t1 h))
    · exact h

theorem merge_equal_or_small_paced (env : mergeEnv) (t2 : dataTuple) (itrA : List dataTuple)
    (st : mergeState) (h : Paced env st) :
    Paced env (merge_equal_or_small env t2 itrA st).2 := by
  cases itrA with
  | nil => exact periodically_force_paced env _ (insert_if_kept_paced env st t2 h)
  | cons t1 itrA =>
    simp only [merge_equal_or_small]
    by_cases he : dataTuple.compare t1.strippedkey t2.strippedkey = 0
    · simp only [he, if_true]
      exact periodically_force_paced env _ (insert_if_kept_paced env st _ h)
    · simp only [he, if_false]
      exact periodically_force_paced env _ (insert_if_kept_paced env st t2 h)

theorem merge_while_small_paced (env : mergeEnv) (garbage_len : Nat)
    (itrB itrA : List dataTuple) (st : mergeState) (h : Paced env st) :
    Paced env (merge_while_small env garbage_len itrB itrA st).2 := by
  induction itrB generalizing itrA st with
  | nil => exact h
  | cons t2 itrB ih =>
    unfold merge_while_small
    exact ih _ _ (merge_buffer_garbage_paced env garbage_len t2 _
      (merge_equal_or_small_paced env t2 _ _ (merge_while_less_paced env t2 itrA st h)))

theorem merge_while_large_paced (env : mergeEnv) (itrA : List dataTuple) (st : mergeState)
    (h : Paced env st) : Paced env (merge_while_large env itrA st) := by
  induction itrA generalizing st with
  | nil => exact h
  | cons t1 itrA ih =>
    unfold merge_while_large
    exact ih _ (periodically_force_paced env _ (insert_if_kept_paced env st t1 h))

theorem merge_iterators_paced (env : mergeEnv) (itrA itrB : List dataTuple) (ltable : bLSM) :
    Paced env (merge_iterators env itrA itrB ltable) := by
  have h0 : Paced env
      { ltable := ltable, scratch_tree := [], i := 0, aquired := [],
        garbage := List.replicate 100 none, next_garbage := 0,
        garbage_writes := [], collected := [] } :=
    ⟨[], [], rfl, rfl, rfl, by simp, fun _ => rfl⟩
  have h1 := merge_while_large_paced env
    (merge_while_small env 100 itrB itrA
      { ltable := ltable, scratch_tree := [], i := 0, aquired := [],
        garbage := List.replicate 100 none, next_garbage := 0,
        garbage_writes := [], collected := [] }).1 _
    (merge_while_small_paced env 100 itrB itrA _ h0)
  obtain ⟨batches, rest, a1, a2, a3, a4, a5⟩ := h1
  simp only [merge_iterators]
  exact ⟨batches, rest, a1, a2, a3, a4, a5⟩

/-- C28: in every run of `merge_iterators` the scratch tree splits into consecutive
batches, one per request to the rate limiter, followed by the tuples written since the
last request: every request asks for exactly the bytes of its batch, is larger than
`FORCE_INTERVAL`, and the counter `i` is left with the bytes of the rest (it was reset to
0 at the last request); so the requests and the final counter add up to the bytes of all
tuples inserted into the scratch tree. Without rate limiting nothing is requested. -/
theorem merge_iterators_requests (env : mergeEnv) (itrA itrB : List dataTuple)
    (ltable : bLSM) :
    (∃ (batches : List (List dataTuple)) (rest : List dataTuple),
      (merge_iterators env itrA itrB ltable).scratch_tree = batches.flatten ++ rest ∧
      (merge_iterators env itrA itrB ltable).aquired = batches.map (bytes_written env) ∧
      (merge_iterators env itrA itrB ltable).i = bytes_written env rest) ∧
      (∀ a ∈ (merge_iterators env itrA itrB ltable).aquired, env.FORCE_INTERVAL < a) ∧
      (merge_iterators env itrA itrB ltable).aquired.sum
          + (merge_iterators env itrA itrB ltable).i
        = bytes_written env (merge_iterators env itrA itrB ltable).scratch_tree ∧
      (env.limit = 0 → (merge_iterators env itrA itrB ltable).aquired = []) ∧
      ∀ st : mergeState,
        (env.limit ≠ 0 ∧ st.i > env.FORCE_INTERVAL →
          (periodically_force env st).aquired = st.aquired ++ [st.i] ∧
          (periodically_force env st).i = 0) ∧
        (¬ (env.limit ≠ 0 ∧ st.i > env.FORCE_INTERVAL) → periodically_force env st = st) := by
  obtain ⟨batches, rest, h1, h2, h3, h4, h5⟩ := merge_iterators_paced env itrA itrB ltable
  refine ⟨⟨batches, rest, h1, h2, h3⟩, h4, ?_, h5, fun st => ⟨fun h => ?_, fun h => ?_⟩⟩
  · rw [h1, h2, h3, bytes_written_append, bytes_written_flatten]
  · unfold periodically_force
    rw [if_pos h]
    exact ⟨rfl, rfl⟩
  · unfold periodically_force
    rw [if_neg h]

theorem filterMap_id_map_some (l : List dataTuple) :
    (l.map some).filterMap id = l := by
  induction l with
  | nil => rfl
  | cons a l ih => simp [ih]

theorem insert_if_kept_garbage (env : mergeEnv) (st : mergeState) (t : dataTuple) :
    (insert_if_kept env st t).garbage = st.garbage ∧
      (insert_if_kept env st t).next_garbage = st.next_garbage ∧
      (insert_if_kept env st t).garbage_writes = st.garbage_writes ∧
      (insert_if_kept env st t).collected = st.collected ∧
      (insert_if_kept env st t).ltable = st.ltable := by
  unfold insert_if_kept
  split <;> exact ⟨rfl, rfl, rfl, rfl, rfl⟩

theorem periodically_force_garbage (env : mergeEnv) (st : mergeState) :
    (periodically_force env st).garbage = st.garbage ∧
      (periodically_force env st).next_garbage = st.next_garbage ∧
      (periodically_force env st).garbage_writes = st.garbage_writes ∧
      (periodically_force env st).collected = st.collected ∧
      (periodically_force env st).ltable = st.ltable := by
  unfold periodically_force
  split <;> exact ⟨rfl, rfl, rfl, rfl, rfl⟩

theorem submit_garbage (env : mergeEnv) (st : mergeState) (t : dataTuple) :
    (periodically_force env (insert_if_kept env st t)).garbage = st.garbage ∧
      (periodically_force env (insert_if_kept env st t)).next_garbage = st.next_garbage ∧
      (periodically_force env (insert_if_kept env st t)).garbage_writes
        = st.garbage_writes ∧
      (periodically_force env (insert_if_kept env st t)).collected = st.collected ∧
      (periodically_force env (insert_if_kept env st t)).ltable = st.ltable := by
  obtain ⟨a1, a2, a3, a4, a5⟩ := periodically_force_garbage env (insert_if_kept env st t)
  obtain ⟨b1, b2, b3, b4, b5⟩ := insert_if_kept_garbage env st t
  exact ⟨a1.trans b1, a2.trans b2, a3.trans b3, a4.trans b4, a5.trans b5⟩

theorem merge_while_less_garbage (env : mergeEnv) (t2 : dataTuple) (itrA : List dataTuple)
    (st : mergeState) :
    (merge_while_less env t2 itrA st).2.garbage = st.garbage ∧
      (merge_while_less env t2 itrA st).2.next_garbage = st.next_garbage ∧
      (merge_while_less env t2 itrA st).2.garbage_writes = st.garbage_writes ∧
      (merge_while_less env t2 itrA st).2.collected = st.collected ∧
      (merge_while_less env t2 itrA st).2.ltable = st.ltable := by
  induction itrA generalizing st with
  | nil => exact ⟨rfl, rfl, rfl, rfl, rfl⟩
  | cons t1 itrA ih =>
    unfold merge_while_less
    by_cases h : dataTuple.compare t1.rawkey t2.rawkey < 0
    · simp only [h, if_true]
      obtain ⟨a1, a2, a3, a4, a5⟩ := ih (periodically_force env (insert_if_kept env st t1))
      obtain ⟨b1, b2, b3, b4, b5⟩ := submit_garbage env st t1
      exact ⟨a1.trans b1, a2.trans b2, a3.trans b3, a4.trans b4, a5.trans b5⟩
    · simp [h]

theorem merge_equal_or_small_garbage (env : mergeEnv) (t2 : dataTuple)
    (itrA : List dataTuple) (st : mergeState) :
    (merge_equal_or_small env t2 itrA st).2.garbage = st.garbage ∧
      (merge_equal_or_small env t2 itrA st).2.next_garbage = st.next_garbage ∧
      (merge_equal_or_small env t2 itrA st).2.garbage_writes = st.garbage_writes ∧
      (merge_equal_or_small env t2 itrA st).2.collected = st.collected ∧
      (merge_equal_or_small env t2 itrA st).2.ltable = st.ltable := by
  cases itrA with
  | nil => exact submit_garbage env st t2
  | cons t1 itrA =>
    simp only [merge_equal_or_small]
    by_cases he : dataTuple.compare t1.strippedkey t2.strippedkey = 0
    · simp only [he, if_true]
      exact submit_garbage env st _
    · simp only [he, if_false]
      exact submit_garbage env st t2

theorem merge_while_large_garbage (env : mergeEnv) (itrA : List dataTuple) (st : mergeState) :
    (merge_while_large env itrA st).garbage = st.garbage ∧
      (merge_while_large env itrA st).next_garbage = st.next_garbage ∧
      (merge_while_large env itrA st).garbage_writes = st.garbage_writes ∧
      (merge_while_large env itrA st).collected = st.collected ∧
      (merge_while_large env itrA st).ltable = st.ltable := by
  induction itrA generalizing st with
  | nil => exact ⟨rfl, rfl, rfl, rfl, rfl⟩
  | cons t1 itrA ih =>
    unfold merge_while_large
    obtain ⟨a1, a2, a3, a4, a5⟩ := ih (periodically_force env (insert_if_kept env st t1))
    obtain ⟨b1, b2, b3, b4, b5⟩ := submit_garbage env st t1
    exact ⟨a1.trans b1, a2.trans b2, a3.trans b3, a4.trans b4, a5.trans b5⟩

theorem take_succ_set {α : Type} (l : List α) (n : Nat) (a : α) (h : n < l.length) :
    (l.set n a).take (n + 1) = l.take n ++ [a] := by
  have h1 : (l.set n a).take n = l.take n := by
    induction l generalizing n with
    | nil => simp
    | cons x xs ih =>
      cases n with
      | zero => simp
      | succ n => simp [ih n (by simpa using h)]
  rw [List.take_succ, h1, List.getElem?_set_self h]
  rfl

theorem merge_buffer_garbage_buffered (env : mergeEnv) (t2 : dataTuple) (st : mergeState)
    (consumed : List dataTuple) (hl : env.merge_level = 1) (h : Buffered st consumed) :
    Buffered (merge_buffer_garbage env 100 t2 st) (consumed ++ [t2]) := by
  obtain ⟨hlen, hle, ⟨pending, hp, hc⟩, hw, hi⟩ := h
  unfold merge_buffer_garbage
  rw [if_pos hl]
  unfold Buffered
  by_cases hfull : st.next_garbage = 100
  · have hr : (garbage_collect st.ltable st.garbage 100 st.next_garbage false).2 = 0 := by
      unfold garbage_collect
      rw [if_pos (Or.inl hfull)]
    dsimp only
    rw [hr, if_pos hfull]
    refine ⟨by simp [hlen], by omega, ⟨[t2], ?_, ?_⟩, ?_, ?_⟩
    · rw [take_succ_set _ _ _ (by omega)]
      rfl
    · rw [hp, filterMap_id_map_some, hc]
    · simp [hw]
    · intro w hw'
      simp only [List.mem_append, List.mem_singleton] at hw'
      rcases hw' with hw' | hw'
      · exact hi w hw'
      · rw [hw']
        show (0 : Nat) < 100
        decide
  · have hr : (garbage_collect st.ltable st.garbage 100 st.next_garbage false).2
        = st.next_garbage := by
      unfold garbage_collect
      rw [if_neg (by simp [hfull])]
    have hlt : st.next_garbage < 100 := by omega
    dsimp only
    rw [hr, if_neg hfull]
    refine ⟨by simp [hlen], by omega, ⟨pending ++ [t2], ?_, ?_⟩, ?_, ?_⟩
    · rw [take_succ_set _ _ _ (by omega), hp]
      simp
    · rw [← List.append_assoc, hc]
    · simp [hw]
    · intro w hw'
      simp only [List.mem_append, List.mem_singleton] at hw'
      rcases hw' with hw' | hw'
      · exact hi w hw'
      · rw [hw']; exact hlt

theorem Buffered.congr {st st1 : mergeState} {consumed : List dataTuple}
    (h : Buffered st consumed) (h1 : st1.garbage = st.garbage)
    (h2 : st1.next_garbage = st.next_garbage) (h3 : st1.garbage_writes = st.garbage_writes)
    (h4 : st1.collected = st.collected) : Buffered st1 consumed := by
  unfold Buffered at h ⊢
  rw [h1, h2, h3, h4]
  exact h

theorem merge_while_small_buffered (env : mergeEnv) (hl : env.merge_level = 1)
    (itrB itrA : List dataTuple) (st : mergeState) (consumed : List dataTuple)
    (h : Buffered st consumed) :
    Buffered (merge_while_small env 100 itrB itrA st).2 (consumed ++ itrB) := by
  induction itrB generalizing itrA st consumed with
  | nil => simpa [merge_while_small] using h
  | cons t2 itrB ih =>
    unfold merge_while_small
    obtain ⟨a1, a2, a3, a4, -⟩ := merge_while_less_garbage env t2 itrA st
    obtain ⟨b1, b2, b3, b4, -⟩ := merge_equal_or_small_garbage env t2
      (merge_while_less env t2 itrA st).1 (merge_while_less env t2 itrA st).2
    have h1 : Buffered
        (merge_equal_or_small env t2 (merge_while_less env t2 itrA st).1
          (merge_while_less env t2 itrA st).2).2 consumed :=
      h.congr (b1.trans a1) (b2.trans a2) (b3.trans a3) (b4.trans a4)
    have h2 := ih
      (merge_equal_or_small env t2 (merge_while_less env t2 itrA st).1
        (merge_while_less env t2 itrA st).2).1 _ _
      (merge_buffer_garbage_buffered env t2 _ consumed hl h1)
    simpa using h2

theorem merge_while_small_unbuffered (env : mergeEnv) (hl : env.merge_level ≠ 1)
    (itrB itrA : List dataTuple) (st : mergeState) (ltable : bLSM)
    (h : Unbuffered st ltable) :
    Unbuffered (merge_while_small env 100 itrB itrA st).2 ltable := by
  induction itrB generalizing itrA st with
  | nil => simpa [merge_while_small] using h
  | cons t2 itrB ih =>
    unfold merge_while_small
    obtain ⟨-, a2, a3, a4, a5⟩ := merge_while_less_garbage env t2 itrA st
    obtain ⟨-, b2, b3, b4, b5⟩ := merge_equal_or_small_garbage env t2
      (merge_while_less env t2 itrA st).1 (merge_while_less env t2 itrA st).2
    apply ih
    unfold merge_buffer_garbage
    rw [if_neg hl]
    obtain ⟨u1, u2, u3, u4⟩ := h
    exact ⟨(b5.trans a5).trans u1, (b2.trans a2).trans u2, (b3.trans a3).trans u3,
      (b4.trans a4).trans u4⟩

/-- C29: at merge level 1 every write `garbage[next_garbage] = t2` of `merge_iterators`
is at an index below `garbage_len = 100`, the tuples written are the tuples of the small
side, each once and in order, the tuples the loops of `garbage_collect` have visited
when `merge_iterators` returns are again exactly these, and the final forced call leaves
`next_garbage = 0`; at any other merge level nothing is written to the buffer, nothing
is collected and the engine (live C0 included) is left as it was. -/
theorem merge_iterators_garbage (env : mergeEnv) (itrA itrB : List dataTuple)
    (ltable : bLSM) :
    (env.merge_level = 1 →
      (∀ w ∈ (merge_iterators env itrA itrB ltable).garbage_writes, w.1 < 100) ∧
      (merge_iterators env itrA itrB ltable).garbage_writes.map Prod.snd = itrB ∧
      (merge_iterators env itrA itrB ltable).collected = itrB ∧
      (merge_iterators env itrA itrB ltable).next_garbage = 0) ∧
      (env.merge_level ≠ 1 →
        (merge_iterators env itrA itrB ltable).garbage_writes = [] ∧
        (merge_iterators env itrA itrB ltable).collected = [] ∧
        (merge_iterators env itrA itrB ltable).ltable = ltable) := by
  have h0B : Buffered
      { ltable := ltable, scratch_tree := [], i := 0, aquired := [],
        garbage := List.replicate 100 none, next_garbage := 0,
        garbage_writes := [], collected := [] } [] :=
    ⟨by simp, by simp, ⟨[], by simp, by simp⟩, by simp, by simp⟩
  have h0U : Unbuffered
      { ltable := ltable, scratch_tree := [], i := 0, aquired := [],
        garbage := List.replicate 100 none, next_garbage := 0,
        garbage_writes := [], collected := [] } ltable := ⟨rfl, rfl, rfl, rfl⟩
  obtain ⟨c1, c2, c3, c4, c5⟩ := merge_while_large_garbage env
    (merge_while_small env 100 itrB itrA
      { ltable := ltable, scratch_tree := [], i := 0, aquired := [],
        garbage := List.replicate 100 none, next_garbage := 0,
        garbage_writes := [], collected := [] }).1
    (merge_while_small env 100 itrB itrA
      { ltable := ltable, scratch_tree := [], i := 0, aquired := [],
        garbage := List.replicate 100 none, next_garbage := 0,
        garbage_writes := [], collected := [] }).2
  constructor
  · intro hl
    have hB := (merge_while_small_buffered env hl itrB itrA _ [] h0B).congr c1 c2 c3 c4
    obtain ⟨-, -, ⟨pending, hp, hc⟩, hw, hi⟩ := hB
    simp only [List.nil_append] at hc hw
    simp only [merge_iterators]
    refine ⟨hi, hw, ?_, ?_⟩
    · rw [hp, filterMap_id_map_some, hc]
    · simp [garbage_collect]
  · intro hl
    have hU := merge_while_small_unbuffered env hl itrB itrA _ ltable h0U
    obtain ⟨u1, u2, u3, u4⟩ := hU
    simp only [merge_iterators]
    rw [c2, c3, c4, c5, u1, u2, u3, u4]
    simp [garbage_collect, garbage_collect_loop]

namespace RateLimiter

theorem sync_bucket (s : RateLimiter) (now : Nat) (hi : 0 < s.interval_)
    (h0 : 0 ≤ s.stored_permits_) (hm : s.stored_permits_ ≤ s.max_permits_) :
    0 ≤ (s.sync now).stored_permits_ ∧
      (s.sync now).stored_permits_ ≤ (s.sync now).max_permits_ ∧
      0 < (s.sync now).interval_ := by
  unfold sync
  by_cases hn : now > s.next_free_
  · rw [if_pos hn]
    have hd : (0 : ℚ) ≤ ((now - s.next_free_ : Nat) : ℚ) / s.interval_ :=
      div_nonneg (Nat.cast_nonneg _) (le_of_lt hi)
    exact ⟨le_min (le_trans h0 hm) (add_nonneg h0 hd), min_le_left _ _, hi⟩
  · rw [if_neg hn]
    exact ⟨h0, hm, hi⟩

theorem claim_next_bucket (s : RateLimiter) (n : ℚ) (now : Nat) (hi : 0 < s.interval_)
    (h0 : 0 ≤ s.stored_permits_) (hm : s.stored_permits_ ≤ s.max_permits_) (hn : 0 ≤ n) :
    0 ≤ (s.claim_next n now).2.stored_permits_ ∧
      (s.claim_next n now).2.stored_permits_ ≤ (s.claim_next n now).2.max_permits_ ∧
      0 < (s.claim_next n now).2.interval_ := by
  obtain ⟨a0, am, -⟩ := sync_bucket s now hi h0 hm
  rw [(sync_interval s now).2] at am
  rw [claim_next_snd s n now hi]
  have h1 : min n (s.sync now).stored_permits_ ≤ (s.sync now).stored_permits_ :=
    min_le_right _ _
  have h2 : 0 ≤ min n (s.sync now).stored_permits_ := le_min hn a0
  exact ⟨by show 0 ≤ _ - _; linarith, by show _ - _ ≤ s.max_permits_; linarith, hi⟩

theorem set_rate_bucket (s : RateLimiter) (r : ℚ) (hi : 0 < s.interval_)
    (h0 : 0 ≤ s.stored_permits_) (hm : s.stored_permits_ ≤ s.max_permits_) :
    0 ≤ (s.set_rate r).2.stored_permits_ ∧
      (s.set_rate r).2.stored_permits_ ≤ (s.set_rate r).2.max_permits_ ∧
      0 < (s.set_rate r).2.interval_ := by
  unfold set_rate
  by_cases h : r ≤ 0
  · rw [if_pos h]
    exact ⟨h0, hm, hi⟩
  · rw [if_neg h]
    exact ⟨h0, hm, by show (0 : ℚ) < 1000000 / r; exact div_pos (by norm_num) (not_le.1 h)⟩

theorem perform_all_bucket (calls : List call) :
    ∀ s : RateLimiter, 0 < s.interval_ → 0 ≤ s.stored_permits_ →
      s.stored_permits_ ≤ s.max_permits_ → (∀ c ∈ calls, c.admissible) →
      0 ≤ (s.perform_all calls).stored_permits_ ∧
        (s.perform_all calls).stored_permits_ ≤ (s.perform_all calls).max_permits_ ∧
        0 < (s.perform_all calls).interval_ := by
  induction calls with
  | nil => intro s hi h0 hm _; exact ⟨h0, hm, hi⟩
  | cons c calls ih =>
    intro s hi h0 hm hc
    have hstep : 0 ≤ (s.perform c).stored_permits_ ∧
        (s.perform c).stored_permits_ ≤ (s.perform c).max_permits_ ∧
        0 < (s.perform c).interval_ := by
      cases c with
      | sync now => exact sync_bucket s now hi h0 hm
      | claim_next n now =>
        exact claim_next_bucket s n now hi h0 hm (hc _ (List.mem_cons_self _ _))
      | set_rate r => exact set_rate_bucket s r hi h0 hm
    exact ih _ hstep.2.2 hstep.1 hstep.2.1 (fun c' hc' => hc c' (List.mem_cons_of_mem _ hc'))

/-- C30: `0 <= stored_permits_ <= max_permits_` is kept by `sync(now)` for every `now`
and by `claim_next(n)` for every `n >= 0` when the interval is positive; the constructor
establishes it (with a positive interval), and it holds after every sequence of calls of
`sync`, `claim_next` with non-negative permits and `set_rate` on the constructed
limiter. -/
theorem stored_permits_invariant :
    (∀ (s : RateLimiter) (now : Nat), 0 < s.interval_ → 0 ≤ s.stored_permits_ →
      s.stored_permits_ ≤ s.max_permits_ →
      0 ≤ (s.sync now).stored_permits_ ∧
        (s.sync now).stored_permits_ ≤ (s.sync now).max_permits_) ∧
      (∀ (s : RateLimiter) (n : ℚ) (now : Nat), 0 < s.interval_ → 0 ≤ s.stored_permits_ →
        s.stored_permits_ ≤ s.max_permits_ → 0 ≤ n →
        0 ≤ (s.claim_next n now).2.stored_permits_ ∧
          (s.claim_next n now).2.stored_permits_ ≤ (s.claim_next n now).2.max_permits_) ∧
      (0 ≤ init.2.stored_permits_ ∧ init.2.stored_permits_ ≤ init.2.max_permits_ ∧
        0 < init.2.interval_) ∧
      ∀ calls : List call, (∀ c ∈ calls, c.admissible) →
        0 ≤ (init.2.perform_all calls).stored_permits_ ∧
          (init.2.perform_all calls).stored_permits_
            ≤ (init.2.perform_all calls).max_permits_ := by
  have hinit : 0 ≤ init.2.stored_permits_ ∧ init.2.stored_permits_ ≤ init.2.max_permits_ ∧
      0 < init.2.interval_ := by
    rw [init_state]
    norm_num
  refine ⟨fun s now hi h0 hm => ?_, fun s n now hi h0 hm hn => ?_, hinit, fun calls hc => ?_⟩
  · exact ⟨(sync_bucket s now hi h0 hm).1, (sync_bucket s now hi h0 hm).2.1⟩
  · exact ⟨(claim_next_bucket s n now hi h0 hm hn).1,
      (claim_next_bucket s n now hi h0 hm hn).2.1⟩
  · have := perform_all_bucket calls init.2 hinit.2.2 hinit.1 hinit.2.1 hc
    exact ⟨this.1, this.2.1⟩

end RateLimiter

/-! ### Binary64 arithmetic -/

namespace double

theorem round_zero : round 0 = finite 0 := by simp [round]

theorem round_half_even_intCast (n : Int) : round_half_even (n : ℚ) = n := by
  unfold round_half_even
  rw [Int.floor_intCast]
  norm_num

theorem log_eq_of_bounds (x : ℚ) (k : Int) (h1 : (2 : ℚ) ^ k ≤ x) (h2 : x < (2 : ℚ) ^ (k + 1)) :
    Int.log 2 x = k := by
  have hx : 0 < x := lt_of_lt_of_le (by positivity) h1
  have a : k ≤ Int.log 2 x := by
    rw [← Int.zpow_le_iff_le_log (by norm_num) hx]
    simpa using h1
  have b : Int.log 2 x < k + 1 := by
    rw [← Int.lt_zpow_iff_log_lt (by norm_num) hx]
    simpa using h2
  omega

theorem log_bounds (x : ℚ) (hx : 0 < x) :
    (2 : ℚ) ^ Int.log 2 x ≤ x ∧ x < (2 : ℚ) ^ (Int.log 2 x + 1) := by
  have a := Int.zpow_log_le_self (b := 2) (by norm_num) hx
  have b := Int.lt_zpow_succ_log_self (b := 2) (by norm_num) x
  simp only [Nat.cast_ofNat] at a b
  exact ⟨a, b⟩


theorem round_half_even_of_near (m : ℚ) (r : Int) (hlo : (r : ℚ) - 1 / 2 < m)
    (hhi : m < (r : ℚ) + 1 / 2) : round_half_even m = r := by
  unfold round_half_even
  by_cases h : (r : ℚ) ≤ m
  · have hf : ⌊m⌋ = r := by
      rw [Int.floor_eq_iff]
      exact ⟨h, by linarith⟩
    rw [hf, if_pos (by linarith)]
  · have hf : ⌊m⌋ = r - 1 := by
      rw [Int.floor_eq_iff]
      push_cast
      exact ⟨by linarith, by linarith [not_le.1 h]⟩
    rw [hf]
    push_cast
    rw [if_neg (by linarith), if_pos (by linarith)]
    ring

theorem round_half_even_nonneg (m : ℚ) (h : 0 ≤ m) : 0 ≤ round_half_even m := by
  have hf : 0 ≤ ⌊m⌋ := Int.floor_nonneg.2 h
  unfold round_half_even
  split_ifs <;> omega

theorem round_half_even_le (m : ℚ) (n : Int) (h : m ≤ n) : round_half_even m ≤ n := by
  by_cases hm : m = n
  · rw [hm, round_half_even_intCast]
  · have hlt : m < n := lt_of_le_of_ne h hm
    have hf : ⌊m⌋ < n := Int.floor_lt.2 hlt
    unfold round_half_even
    split_ifs <;> omega

theorem quantum_eq (x : ℚ) (k : Int) (h1 : (2 : ℚ) ^ k ≤ |x|) (h2 : |x| < (2 : ℚ) ^ (k + 1)) :
    quantum x = Max.max k (-1022) - 52 := by
  unfold quantum
  rw [log_eq_of_bounds |x| k h1 h2]

/-- The rounding of a positive number, from bounds that determine it. -/
theorem round_eq_of_pos (x : ℚ) (k e r : Int) (hx : 0 < x) (h1 : (2 : ℚ) ^ k ≤ x)
    (h2 : x < (2 : ℚ) ^ (k + 1)) (he : e = Max.max k (-1022) - 52)
    (hlo : (r : ℚ) - 1 / 2 < x / 2 ^ e) (hhi : x / 2 ^ e < (r : ℚ) + 1 / 2)
    (hov : (r : ℚ) * 2 ^ e < 2 ^ 1024) : round x = finite ((r : ℚ) * 2 ^ e) := by
  have ha : |x| = x := abs_of_pos hx
  have hq : quantum x = e := by
    rw [he]
    exact quantum_eq x k (by rw [ha]; exact h1) (by rw [ha]; exact h2)
  unfold round
  rw [if_neg (ne_of_gt hx), hq, ha, round_half_even_of_near _ r hlo hhi,
    if_neg (not_le.2 hov), if_pos hx]

theorem round_neg (x : ℚ) : round (-x) = neg (round x) := by
  unfold round
  by_cases h0 : x = 0
  · simp [h0, neg]
  · have hq : quantum (-x) = quantum x := by simp [quantum]
    rw [if_neg (neg_ne_zero.2 h0), if_neg h0, hq, abs_neg]
    rcases lt_or_gt_of_ne h0 with h | h
    · have h1 : 0 < -x := by linarith
      have h2 : ¬ 0 < x := by linarith
      simp only [h1, h2, if_true, if_false]
      split_ifs <;> simp [neg]
    · have h1 : ¬ 0 < -x := by linarith
      simp only [h1, h, if_true, if_false]
      split_ifs <;> simp [neg]


theorem round_sign (x v : ℚ) (h : round x = finite v) :
    (0 ≤ x → 0 ≤ v) ∧ (x ≤ 0 → v ≤ 0) := by
  have hy : (0 : ℚ) ≤ (round_half_even (|x| / 2 ^ quantum x) : ℚ) * 2 ^ quantum x :=
    mul_nonneg (by exact_mod_cast round_half_even_nonneg _ (by positivity)) (by positivity)
  unfold round at h
  by_cases h0 : x = 0
  · rw [if_pos h0] at h
    cases h
    exact ⟨fun _ => le_refl _, fun _ => le_refl _⟩
  · rw [if_neg h0] at h
    split_ifs at h with h1 h2 h2
    · cases h
      exact ⟨fun _ => hy, fun hx => absurd (lt_of_lt_of_le h2 hx) (lt_irrefl _)⟩
    · cases h
      exact ⟨fun hx => absurd (lt_of_le_of_ne hx (Ne.symm h0)) h2, fun _ => by linarith⟩

/-- A number that has a binary64 representation (a significand of at most 53 bits at an
exponent of the format) rounds to itself. -/
theorem round_of_representable (m e : Int) (hm : |m| < 2 ^ 53) (he : -1074 ≤ e)
    (hov : |(m : ℚ) * 2 ^ e| < 2 ^ 1024) : round ((m : ℚ) * 2 ^ e) = finite ((m : ℚ) * 2 ^ e) := by
  have pos : ∀ m : Int, 0 < m → m < 2 ^ 53 → (m : ℚ) * 2 ^ e < 2 ^ 1024 →
      round ((m : ℚ) * 2 ^ e) = finite ((m : ℚ) * 2 ^ e) := by
    intro m hm0 hm1 hov
    have hx : (0 : ℚ) < (m : ℚ) * 2 ^ e := mul_pos (by exact_mod_cast hm0) (by positivity)
    have ha : |(m : ℚ) * 2 ^ e| = (m : ℚ) * 2 ^ e := abs_of_pos hx
    obtain ⟨b1, b2⟩ := log_bounds _ hx
    have hk : Int.log 2 ((m : ℚ) * 2 ^ e) < 53 + e := by
      have : (2 : ℚ) ^ Int.log 2 ((m : ℚ) * 2 ^ e) < 2 ^ (53 + e) := by
        refine lt_of_le_of_lt b1 ?_
        rw [zpow_add₀ (by norm_num)]
        exact mul_lt_mul_of_pos_right (by exact_mod_cast hm1) (by positivity)
      exact (zpow_lt_zpow_iff_right₀ (by norm_num)).1 this
    have hq : quantum ((m : ℚ) * 2 ^ e) ≤ e := by
      unfold quantum
      rw [ha]
      omega
    have hy : ((round_half_even (|(m : ℚ) * 2 ^ e| / 2 ^ quantum ((m : ℚ) * 2 ^ e)) : Int) : ℚ)
        * 2 ^ quantum ((m : ℚ) * 2 ^ e) = (m : ℚ) * 2 ^ e := by
      rw [ha]
      generalize quantum ((m : ℚ) * 2 ^ e) = q at hq
      obtain ⟨n, hn⟩ : ∃ n : Nat, e = q + n := ⟨(e - q).toNat, by omega⟩
      have h2 : (2 : ℚ) ^ e = 2 ^ q * 2 ^ n := by
        rw [hn, zpow_add₀ (by norm_num), zpow_natCast]
      have hs : (m : ℚ) * 2 ^ e / 2 ^ q = ((m * 2 ^ n : Int) : ℚ) := by
        rw [h2]
        push_cast
        field_simp
        ring
      rw [hs, round_half_even_intCast, h2]
      push_cast
      ring
    unfold round
    rw [if_neg (ne_of_gt hx), hy, if_neg (not_le.2 hov), if_pos hx]
  rcases lt_trichotomy m 0 with h | h | h
  · have hm' : -m < 2 ^ 53 := by
      have := abs_lt.1 hm
      omega
    have hov' : ((-m : Int) : ℚ) * 2 ^ e < 2 ^ 1024 := by
      have := abs_lt.1 hov
      push_cast
      linarith [this.1]
    have := pos (-m) (by omega) hm' hov'
    have e1 : (m : ℚ) * 2 ^ e = -(((-m : Int) : ℚ) * 2 ^ e) := by push_cast; ring
    rw [e1, round_neg, this]
    rfl
  · subst h
    simp [round_zero]
  · exact pos m h (abs_lt.1 hm).2 (abs_lt.1 hov).2

theorem round_intCast (z : Int) (hz : |z| ≤ 2 ^ 53) : round (z : ℚ) = finite (z : ℚ) := by
  by_cases h : |z| = 2 ^ 53
  · rcases abs_eq (by norm_num : (0 : Int) ≤ 2 ^ 53) |>.1 h with h1 | h1
    · have := round_of_representable (2 ^ 52) 1 (by norm_num) (by norm_num) (by norm_num)
      rw [h1]
      norm_num at this ⊢
      exact this
    · have := round_of_representable (-2 ^ 52) 1 (by norm_num) (by norm_num) (by norm_num)
      rw [h1]
      norm_num at this ⊢
      exact this
  · have hlt : |z| < 2 ^ 53 := lt_of_le_of_ne hz h
    have := round_of_representable z 0 hlt (by norm_num) (by
      rw [zpow_zero, mul_one]
      have : |(z : ℚ)| < 2 ^ 53 := by exact_mod_cast hlt
      exact lt_trans this (by norm_num))
    simpa using this


theorem round_finite (x : ℚ) (h : |x| < 2 ^ 1023) : ∃ v, round x = finite v := by
  by_cases h0 : x = 0
  · exact ⟨0, by rw [h0, round_zero]⟩
  · have hx : 0 < |x| := abs_pos.2 h0
    obtain ⟨b1, b2⟩ := log_bounds _ hx
    have h' : |x| < (2 : ℚ) ^ (1023 : Int) := by
      rw [show (1023 : Int) = ((1023 : Nat) : Int) from rfl, zpow_natCast]
      exact h
    have hk : Int.log 2 |x| < 1023 :=
      (zpow_lt_zpow_iff_right₀ (by norm_num : (1 : ℚ) < 2)).1 (lt_of_le_of_lt b1 h')
    have c53 : (((2 : Int) ^ 53 : Int) : ℚ) = (2 : ℚ) ^ (53 : Int) := by
      rw [show (53 : Int) = ((53 : Nat) : Int) from rfl, zpow_natCast]
      norm_cast
    have e1 : (((2 : Int) ^ 53 : Int) : ℚ) * 2 ^ quantum x = 2 ^ (53 + quantum x) := by
      rw [c53, zpow_add₀ (by norm_num)]
    have hm : |x| / 2 ^ quantum x ≤ (((2 : Int) ^ 53 : Int) : ℚ) := by
      rw [div_le_iff₀ (by positivity), e1]
      refine le_trans (le_of_lt b2) ?_
      apply zpow_le_zpow_right₀ (by norm_num)
      unfold quantum
      omega
    have hr := round_half_even_le _ _ hm
    have hy : ((round_half_even (|x| / 2 ^ quantum x) : Int) : ℚ) * 2 ^ quantum x
        < 2 ^ 1024 := by
      have e2 : (2 : ℚ) ^ (53 + quantum x) ≤ 2 ^ (1023 : Int) := by
        apply zpow_le_zpow_right₀ (by norm_num)
        unfold quantum
        omega
      have e3 : (2 : ℚ) ^ (1023 : Int) < 2 ^ 1024 := by
        rw [show (1023 : Int) = ((1023 : Nat) : Int) from rfl, zpow_natCast]
        exact pow_lt_pow_right₀ (by norm_num) (by norm_num)
      calc ((round_half_even (|x| / 2 ^ quantum x) : Int) : ℚ) * 2 ^ quantum x
          ≤ (((2 : Int) ^ 53 : Int) : ℚ) * 2 ^ quantum x :=
            mul_le_mul_of_nonneg_right (by exact_mod_cast hr) (by positivity)
        _ = 2 ^ (53 + quantum x) := e1
        _ ≤ 2 ^ (1023 : Int) := e2
        _ < 2 ^ 1024 := e3
    unfold round
    rw [if_neg h0, if_neg (not_le.2 hy)]
    split_ifs
    · exact ⟨_, rfl⟩
    · exact ⟨_, rfl⟩

theorem of_int_finite (z : Int) (hz : |z| ≤ 2 ^ 63) : ∃ v, of_int z = finite v := by
  apply round_finite
  have : |(z : ℚ)| ≤ 2 ^ 63 := by exact_mod_cast hz
  exact lt_of_le_of_lt this (pow_lt_pow_right₀ (by norm_num) (by norm_num))

theorem fmul_finite_zero (a : ℚ) : fmul (finite a) (finite 0) = finite 0 := by
  simp [fmul, round_zero]

theorem fadd_zero_finite (b : ℚ) : fadd (finite 0) (finite b) = round b := by
  simp [fadd]

theorem fmul_finite_one (a : ℚ) : fmul (finite a) (finite 1) = round a := by
  simp [fmul]

theorem fsub_finite (a b : ℚ) : fsub (finite a) (finite b) = round (a - b) := by
  simp [fsub, neg, fadd, sub_eq_add_neg]

theorem round_half_even_of_tie (m : ℚ) (r : Int) (h : m = (r : ℚ) + 1 / 2 ∨ m = (r : ℚ) - 1 / 2)
    (hr : r % 2 = 0) : round_half_even m = r := by
  unfold round_half_even
  rcases h with h | h
  · have hf : ⌊m⌋ = r := by
      rw [Int.floor_eq_iff]
      exact ⟨by linarith, by linarith⟩
    rw [hf, if_neg (by linarith), if_neg (by linarith), if_pos hr]
  · have hf : ⌊m⌋ = r - 1 := by
      rw [Int.floor_eq_iff]
      push_cast
      exact ⟨by linarith, by linarith⟩
    rw [hf]
    push_cast
    rw [if_neg (by linarith), if_neg (by linarith), if_neg (by omega)]
    ring

/-- The rounding of a positive number, from the data that determine it: the exponent `k`
of its leading bit, the exponent `e` of the quantum and the significand `r`. -/
theorem round_eval (x v : ℚ) (k e r : Int) (hx : 0 < x) (h1 : (2 : ℚ) ^ k ≤ x)
    (h2 : x < (2 : ℚ) ^ (k + 1)) (he : e = Max.max k (-1022) - 52)
    (hlo : (r : ℚ) - 1 / 2 < x / 2 ^ e) (hhi : x / 2 ^ e < (r : ℚ) + 1 / 2)
    (hov : (r : ℚ) * 2 ^ e < 2 ^ 1024) (hv : v = (r : ℚ) * 2 ^ e) : round x = finite v := by
  rw [hv]
  exact round_eq_of_pos x k e r hx h1 h2 he hlo hhi hov

/-- The rounding of a positive number that lies half-way between two multiples of the
quantum: the even significand wins. -/
theorem round_eval_tie (x v : ℚ) (k e r : Int) (hx : 0 < x) (h1 : (2 : ℚ) ^ k ≤ x)
    (h2 : x < (2 : ℚ) ^ (k + 1)) (he : e = Max.max k (-1022) - 52)
    (ht : x / 2 ^ e = (r : ℚ) + 1 / 2 ∨ x / 2 ^ e = (r : ℚ) - 1 / 2) (hr : r % 2 = 0)
    (hov : (r : ℚ) * 2 ^ e < 2 ^ 1024) (hv : v = (r : ℚ) * 2 ^ e) : round x = finite v := by
  have ha : |x| = x := abs_of_pos hx
  have hq : quantum x = e := by
    rw [he]
    exact quantum_eq x k (by rw [ha]; exact h1) (by rw [ha]; exact h2)
  unfold round
  rw [if_neg (ne_of_gt hx), hq, ha, round_half_even_of_tie _ r ht hr,
    if_neg (not_le.2 hov), if_pos hx, hv]

theorem fadd_finite (a b : ℚ) : fadd (finite a) (finite b) = round (a + b) := rfl

theorem fmul_finite (a b : ℚ) : fmul (finite a) (finite b) = round (a * b) := rfl

theorem fdiv_finite (a b : ℚ) (hb : b ≠ 0) : fdiv (finite a) (finite b) = round (a / b) := by
  simp [fdiv, hb]

theorem cast_long_intCast (z : Int) : cast_long (finite (z : ℚ)) = z := by
  simp only [cast_long, to_long]
  split_ifs
  · exact Int.floor_intCast z
  · exact Int.ceil_intCast z


end double

/-! ### The rate limiter in binary64 arithmetic -/

theorem wrap_unsigned_long_long_natCast (n : Nat) :
    wrap_unsigned_long_long (n : Int) = n % 2 ^ 64 := by
  unfold wrap_unsigned_long_long
  have h : ((n : Int) % 2 ^ 64) = ((n % 2 ^ 64 : Nat) : Int) := by push_cast; rfl
  rw [h, Int.toNat_ofNat]

namespace double

theorem cast_long_of_nonneg (p : ℚ) (h : 0 ≤ p) : cast_long (finite p) = (⌊p⌋₊ : Int) := by
  simp only [cast_long, to_long, if_pos h]
  exact (Int.natCast_floor_eq_floor h).symm

theorem lt_zero_cases (x : double) (h : lt (finite 0) x = true) :
    (∃ q, x = finite q ∧ 0 < q) ∨ x = inf := by
  cases x with
  | finite q => exact Or.inl ⟨q, rfl, by simpa [lt] using h⟩
  | inf => exact Or.inr rfl
  | ninf => simp [lt] at h
  | nan => simp [lt] at h

theorem fresh_nonneg (n b : double) (f : ℚ) (hn : lt (finite 0) n = true)
    (h : fsub n (fmin n b) = finite f) : 0 ≤ f := by
  rcases lt_zero_cases n hn with ⟨nq, rfl, hq⟩ | rfl
  · cases b with
    | finite bq =>
      by_cases hlt : bq < nq
      · have e : fmin (finite nq) (finite bq) = finite bq := by simp [fmin, lt, hlt]
        rw [e, fsub_finite] at h
        exact (round_sign _ _ h).1 (by linarith)
      · have e : fmin (finite nq) (finite bq) = finite nq := by simp [fmin, lt, hlt]
        rw [e, fsub_finite] at h
        exact (round_sign _ _ h).1 (by linarith)
    | inf =>
      have e : fmin (finite nq) inf = finite nq := by simp [fmin, lt]
      rw [e, fsub_finite] at h
      exact (round_sign _ _ h).1 (by linarith)
    | ninf =>
      have e : fmin (finite nq) ninf = ninf := by simp [fmin, lt]
      rw [e] at h
      simp [fsub, neg, fadd] at h
    | nan =>
      have e : fmin (finite nq) nan = finite nq := by simp [fmin, lt]
      rw [e, fsub_finite] at h
      exact (round_sign _ _ h).1 (by linarith)
  · cases b <;> simp [fmin, lt, fsub, neg, fadd] at h

theorem fmul_nonneg (x y : double) (p : ℚ) (hx : ∀ f, x = finite f → 0 ≤ f)
    (hy : lt (finite 0) y = true) (h : fmul x y = finite p) : 0 ≤ p := by
  rcases lt_zero_cases y hy with ⟨yq, rfl, hq⟩ | rfl
  · cases x with
    | finite f =>
      rw [fmul_finite] at h
      exact (round_sign _ _ h).1 (mul_nonneg (hx f rfl) (le_of_lt hq))
    | inf => simp [fmul, ne_of_gt hq, hq] at h
    | ninf => simp [fmul, ne_of_gt hq, hq] at h
    | nan => simp [fmul] at h
  · cases x with
    | finite f =>
      simp only [fmul] at h
      split_ifs at h
    | inf => simp [fmul] at h
    | ninf => simp [fmul] at h
    | nan => simp [fmul] at h

end double

namespace binary64.RateLimiter

theorem sync_of_lt (s : RateLimiter) (now : Nat) (h : s.next_free_ < now) :
    s.sync now =
      { interval_ := s.interval_, max_permits_ := s.max_permits_,
        stored_permits_ :=
          double.fmin s.max_permits_
            (double.fadd s.stored_permits_
              (double.fdiv (double.of_int ((now - s.next_free_ : Nat) : Int)) s.interval_)),
        next_free_ := now } := by
  unfold sync
  rw [if_pos h]

theorem sync_of_ge (s : RateLimiter) (now : Nat) (h : now ≤ s.next_free_) :
    s.sync now = s := by
  unfold sync
  rw [if_neg (not_lt.2 h)]

theorem sync_fields (s : RateLimiter) (now : Nat) :
    (s.sync now).interval_ = s.interval_ ∧ (s.sync now).max_permits_ = s.max_permits_ ∧
      (s.sync now).next_free_ = max s.next_free_ now := by
  unfold sync
  split_ifs with h
  · exact ⟨rfl, rfl, (max_eq_right (le_of_lt h)).symm⟩
  · exact ⟨rfl, rfl, (max_eq_left (not_lt.1 h)).symm⟩

theorem claim_next_eq (s : RateLimiter) (n : double) (now : Nat) :
    (s.claim_next n now).1
        = wrap_unsigned_long_long (((max s.next_free_ now : Nat) : Int) - (now : Int)) ∧
      (s.claim_next n now).2.stored_permits_
        = double.fsub (s.sync now).stored_permits_
            (double.fmin n (s.sync now).stored_permits_) ∧
      (s.claim_next n now).2.next_free_
        = wrap_unsigned_long_long (((max s.next_free_ now : Nat) : Int)
            + double.cast_long
                (double.fmul (double.fsub n (double.fmin n (s.sync now).stored_permits_))
                  s.interval_)) ∧
      (s.claim_next n now).2.interval_ = s.interval_ ∧
      (s.claim_next n now).2.max_permits_ = s.max_permits_ := by
  obtain ⟨h1, h2, h3⟩ := sync_fields s now
  simp only [claim_next, h1, h2, h3]
  simp

end binary64.RateLimiter

namespace double

theorem round_nonneg_cases (x : ℚ) (h : 0 ≤ x) :
    (∃ q, round x = finite q ∧ 0 ≤ q) ∨ round x = inf := by
  cases hr : round x with
  | finite q => exact Or.inl ⟨q, rfl, (round_sign x q hr).1 h⟩
  | inf => exact Or.inr rfl
  | ninf =>
    unfold round at hr
    split_ifs at hr with h1 h2 h3 h4
    exact absurd (lt_of_le_of_ne h (Ne.symm h1)) h3
  | nan =>
    unfold round at hr
    split_ifs at hr

theorem fdiv_nonneg_cases (d : Int) (y : double) (hd : 0 ≤ d) (hd2 : d < 2 ^ 64)
    (hy : lt (finite 0) y = true) :
    (∃ q, fdiv (of_int d) y = finite q ∧ 0 ≤ q) ∨ fdiv (of_int d) y = inf := by
  obtain ⟨v, hv⟩ : ∃ v, of_int d = finite v := by
    apply round_finite
    have h1 : |(d : ℚ)| < 2 ^ 64 := by
      rw [abs_of_nonneg (by exact_mod_cast hd)]
      exact_mod_cast hd2
    exact lt_trans h1 (pow_lt_pow_right₀ (by norm_num) (by norm_num))
  have hv0 : 0 ≤ v := (round_sign _ _ hv).1 (by exact_mod_cast hd)
  rw [hv]
  rcases lt_zero_cases y hy with ⟨yq, rfl, hq⟩ | rfl
  · rw [fdiv_finite _ _ (ne_of_gt hq)]
    exact round_nonneg_cases _ (div_nonneg hv0 (le_of_lt hq))
  · exact Or.inl ⟨0, rfl, le_refl _⟩

end double

namespace binary64.RateLimiter

theorem init_set_rate (r : double) (hr : double.le r (double.finite 0) = false) :
    (init.2.set_rate r).2
      = { interval_ := double.fdiv (double.finite 1000000) r,
          max_permits_ := double.finite 104857600, stored_permits_ := double.finite 0,
          next_free_ := 0 } := by
  simp only [init, set_rate, hr]
  norm_num [double.le]

/-- C13, as the code has it: when `now > next_free_`, `sync(now)` sets the stored permits
to `min(max_permits_, stored_permits_ + (now - next_free_) / interval_)`, the quotient
and the sum being the binary64 results and the cap applying to the new total, not to the
increase, and sets `next_free_` to `now`, leaving the interval and the bucket size
alone; with a positive interval the increase is a non-negative number or `+inf`, never
NaN. When `now <= next_free_`, `sync(now)` changes nothing. -/
theorem sync_spec (s : RateLimiter) (now : Nat)
    (hi : double.lt (double.finite 0) s.interval_ = true) (hnow : now < 2 ^ 64) :
    (s.next_free_ < now →
      s.sync now =
        { interval_ := s.interval_, max_permits_ := s.max_permits_,
          stored_permits_ :=
            double.fmin s.max_permits_
              (double.fadd s.stored_permits_
                (double.fdiv (double.of_int ((now - s.next_free_ : Nat) : Int))
                  s.interval_)),
          next_free_ := now } ∧
        ((∃ q, double.fdiv (double.of_int ((now - s.next_free_ : Nat) : Int)) s.interval_
              = double.finite q ∧ 0 ≤ q) ∨
          double.fdiv (double.of_int ((now - s.next_free_ : Nat) : Int)) s.interval_
            = double.inf)) ∧
      (now ≤ s.next_free_ → s.sync now = s) := by
  refine ⟨fun h => ⟨sync_of_lt s now h, ?_⟩, sync_of_ge s now⟩
  exact double.fdiv_nonneg_cases _ _ (by positivity) (by omega) hi

/-- C13 at a concrete input: 3 stored permits, one microsecond per permit, `next_free_`
5 and a clock reading of 8: `sync` stores 6 permits and sets `next_free_` to 8. -/
theorem sync_spec_witness :
    (RateLimiter.mk (double.finite 1) (double.finite 104857600) (double.finite 3) 5).sync 8
      = RateLimiter.mk (double.finite 1) (double.finite 104857600) (double.finite 6) 8 := by
  rw [((sync_spec (RateLimiter.mk (double.finite 1) (double.finite 104857600)
    (double.finite 3) 5) 8 (by simp [double.lt]) (by norm_num)).1 (by norm_num)).1]
  have e1 : double.of_int ((8 - 5 : Nat) : Int) = double.finite 3 :=
    (by simpa using double.round_intCast 3 (by norm_num))
  have e2 : double.fdiv (double.finite 3) (double.finite 1) = double.finite 3 := by
    rw [double.fdiv_finite _ _ (by norm_num)]
    norm_num
    exact (by simpa using double.round_intCast 3 (by norm_num))
  have e3 : double.fadd (double.finite 3) (double.finite 3) = double.finite 6 := by
    rw [double.fadd_finite]
    norm_num
    exact (by simpa using double.round_intCast 6 (by norm_num))
  simp only [e1, e2, e3]
  norm_num [double.fmin, double.lt]

/-- The constructed limiter with the rate set to 1 048 576 000 000 (an interval of
`2 ^ (-20)` microseconds) fills its bucket at a clock reading of 1000; `claim_next(5)`
then leaves 104 857 595 permits, and `set_rate(1000000)` an interval of 1. -/
theorem sync_sample_reached :
    ((((init.2.set_rate (double.finite 1048576000000)).2.claim_next (double.finite 5)
        1000).2).set_rate (double.finite 1000000)).2
      = RateLimiter.mk (double.finite 1) (double.finite 104857600)
          (double.finite 104857595) 1000 := by
  have hs := init_set_rate (double.finite 1048576000000) (by simp [double.le])
  have e1 : double.fdiv (double.finite 1000000) (double.finite 1048576000000)
      = double.finite (1 / 1048576) := by
    rw [double.fdiv_finite _ _ (by norm_num)]
    exact double.round_eval _ (1 / 1048576) (-20) (-72) 4503599627370496
      (by norm_num) (by norm_num) (by norm_num) (by norm_num) (by norm_num) (by norm_num)
      (by norm_num) (by norm_num)
  rw [e1] at hs
  have e2 : double.of_int ((1000 - 0 : Nat) : Int) = double.finite 1000 :=
    (by simpa using double.round_intCast 1000 (by norm_num))
  have e3 : double.fdiv (double.finite 1000) (double.finite (1 / 1048576))
      = double.finite 1048576000 := by
    rw [double.fdiv_finite _ _ (by norm_num)]
    norm_num
    exact (by simpa using double.round_intCast 1048576000 (by norm_num))
  have e4 : double.fadd (double.finite 0) (double.finite 1048576000)
      = double.finite 1048576000 := by
    rw [double.fadd_finite]
    norm_num
    exact (by simpa using double.round_intCast 1048576000 (by norm_num))
  have e5 : double.fsub (double.finite 5) (double.finite 5) = double.finite 0 := by
    rw [double.fsub_finite]
    simpa using double.round_zero
  have e6 : double.fmul (double.finite 0) (double.finite (1 / 1048576)) = double.finite 0 := by
    rw [double.fmul_finite]
    simpa using double.round_zero
  have e7 : double.fsub (double.finite 104857600) (double.finite 5)
      = double.finite 104857595 := by
    rw [double.fsub_finite]
    norm_num
    exact (by simpa using double.round_intCast 104857595 (by norm_num))
  have e8 : double.fdiv (double.finite 1000000) (double.finite 1000000)
      = double.finite 1 := by
    rw [double.fdiv_finite _ _ (by norm_num)]
    norm_num
    exact (by simpa using double.round_intCast 1 (by norm_num))
  have hsync : (RateLimiter.mk (double.finite (1 / 1048576)) (double.finite 104857600)
      (double.finite 0) 0).sync 1000
      = RateLimiter.mk (double.finite (1 / 1048576)) (double.finite 104857600)
          (double.finite 104857600) 1000 := by
    rw [sync_of_lt _ _ (by norm_num)]
    simp only [e2, e3, e4]
    norm_num [double.fmin, double.lt]
  have hmin : double.fmin (double.finite 5) (double.finite 104857600) = double.finite 5 := by
    norm_num [double.fmin, double.lt]
  rw [hs]
  obtain ⟨-, c2, c3, c4, c5⟩ := claim_next_eq (RateLimiter.mk (double.finite (1 / 1048576))
    (double.finite 104857600) (double.finite 0) 0) (double.finite 5) 1000
  rw [hsync] at c2 c3
  simp only [hmin, e5, e6, e7] at c2 c3
  have c3' : ((RateLimiter.mk (double.finite (1 / 1048576)) (double.finite 104857600)
      (double.finite 0) 0).claim_next (double.finite 5) 1000).2.next_free_ = 1000 := by
    rw [c3]
    norm_num [double.cast_long, to_long, wrap_unsigned_long_long]
    rfl
  generalize ((RateLimiter.mk (double.finite (1 / 1048576)) (double.finite 104857600)
      (double.finite 0) 0).claim_next (double.finite 5) 1000).2 = c at c2 c3' c4 c5
  obtain ⟨i, m, st, nf⟩ := c
  simp only at c2 c3' c4 c5
  subst c2 c3' c4 c5
  rw [set_rate, if_neg (by simp [double.le])]
  simp only [e8]

/-- C13, as the claim states it, fails: with 104 857 595 stored permits, the bucket size
104 857 600 of the constructor, one microsecond per permit and 8 microseconds elapsed,
`sync` stores 104 857 600 permits, not `104857595 + min(104857600, 8) = 104857603`. The
state is one the constructed limiter reaches: the rate set to 1 048 576 000 000,
`claim_next(5)` at a clock reading of 1000, the rate set to 1 000 000. -/
theorem sync_increase_counterexample :
    ((((init.2.set_rate (double.finite 1048576000000)).2.claim_next (double.finite 5)
        1000).2).set_rate (double.finite 1000000)).2
      = RateLimiter.mk (double.finite 1) (double.finite 104857600)
          (double.finite 104857595) 1000 ∧
      double.lt (double.finite 0)
        (RateLimiter.mk (double.finite 1) (double.finite 104857600)
          (double.finite 104857595) 1000).interval_ = true ∧
      ((RateLimiter.mk (double.finite 1) (double.finite 104857600)
          (double.finite 104857595) 1000).sync 1008).stored_permits_
        = double.finite 104857600 ∧
      (104857600 : ℚ) ≠ 104857595 + min 104857600 ((1008 - 1000) / 1) := by
  refine ⟨sync_sample_reached, by simp [double.lt], ?_, by norm_num⟩
  rw [sync_of_lt _ _ (by norm_num)]
  have e1 : double.of_int ((1008 - 1000 : Nat) : Int) = double.finite 8 :=
    (by simpa using double.round_intCast 8 (by norm_num))
  have e2 : double.fdiv (double.finite 8) (double.finite 1) = double.finite 8 := by
    rw [double.fdiv_finite _ _ (by norm_num)]
    norm_num
    exact (by simpa using double.round_intCast 8 (by norm_num))
  have e3 : double.fadd (double.finite 104857595) (double.finite 8)
      = double.finite 104857603 := by
    rw [double.fadd_finite]
    norm_num
    exact (by simpa using double.round_intCast 104857603 (by norm_num))
  simp only [e1, e2, e3]
  norm_num [double.fmin, double.lt]


/-- C12, as the code has it: `claim_next(n)` takes `min(n, s)` permits from the bucket,
`s` being the stored permits after `sync(now)`, and moves `next_free_` forward from
`max(next_free_, now)` by `(long) ((n - min(n, s)) * interval_)`, the difference and the
product being the binary64 results; with `n > 0` and a positive interval a finite
product is not negative, so the cast takes its whole microseconds, and the 64-bit
unsigned sum is the mathematical one whenever that is below `2 ^ 64`. The interval and
the bucket size are unchanged. -/
theorem claim_next_state (s : RateLimiter) (n : double) (now : Nat)
    (hi : double.lt (double.finite 0) s.interval_ = true)
    (hn : double.lt (double.finite 0) n = true) :
    (s.claim_next n now).2.stored_permits_
        = double.fsub (s.sync now).stored_permits_
            (double.fmin n (s.sync now).stored_permits_) ∧
      (s.claim_next n now).2.next_free_
        = wrap_unsigned_long_long (((max s.next_free_ now : Nat) : Int)
            + double.cast_long
                (double.fmul (double.fsub n (double.fmin n (s.sync now).stored_permits_))
                  s.interval_)) ∧
      (∀ p : ℚ,
        double.fmul (double.fsub n (double.fmin n (s.sync now).stored_permits_)) s.interval_
          = double.finite p →
        0 ≤ p ∧
          (s.claim_next n now).2.next_free_ = (max s.next_free_ now + ⌊p⌋₊) % 2 ^ 64 ∧
          (max s.next_free_ now + ⌊p⌋₊ < 2 ^ 64 →
            (s.claim_next n now).2.next_free_ = max s.next_free_ now + ⌊p⌋₊)) ∧
      (s.claim_next n now).2.interval_ = s.interval_ ∧
      (s.claim_next n now).2.max_permits_ = s.max_permits_ := by
  obtain ⟨-, c2, c3, c4, c5⟩ := claim_next_eq s n now
  refine ⟨c2, c3, fun p hp => ?_, c4, c5⟩
  have h0 : 0 ≤ p :=
    double.fmul_nonneg _ _ p (fun f hf => double.fresh_nonneg n _ f hn hf) hi hp
  have hnf : (s.claim_next n now).2.next_free_ = (max s.next_free_ now + ⌊p⌋₊) % 2 ^ 64 := by
    rw [c3, hp, double.cast_long_of_nonneg p h0, ← Nat.cast_add,
      wrap_unsigned_long_long_natCast]
  exact ⟨h0, hnf, fun h => by rw [hnf, Nat.mod_eq_of_lt h]⟩

/-- C12 at a concrete input: 3 stored permits, `next_free_` 5, an interval of 100
microseconds and a request of 7 permits when the clock reads 8: `sync` brings the
bucket to 3.03 (the binary64 number next to it), the request empties it, and the fresh
permits move `next_free_` to 8 + 397. -/
theorem claim_next_state_witness :
    ((RateLimiter.mk (double.finite 100) (double.finite 104857600) (double.finite 3)
        5).claim_next (double.finite 7) 8).2.next_free_ = 8 + 397 ∧
      ((RateLimiter.mk (double.finite 100) (double.finite 104857600) (double.finite 3)
        5).claim_next (double.finite 7) 8).2.stored_permits_ = double.finite 0 := by
  have h := claim_next_state (RateLimiter.mk (double.finite 100) (double.finite 104857600)
    (double.finite 3) 5) (double.finite 7) 8 (by simp [double.lt]) (by simp [double.lt])
  have e1 : double.of_int ((8 - 5 : Nat) : Int) = double.finite 3 :=
    (by simpa using double.round_intCast 3 (by norm_num))
  have e2 : double.fdiv (double.finite 3) (double.finite 100)
      = double.finite (1080863910568919 / 36028797018963968) := by
    rw [double.fdiv_finite _ _ (by norm_num)]
    exact double.round_eval _ (1080863910568919 / 36028797018963968) (-6) (-58) 8646911284551352
      (by norm_num) (by norm_num) (by norm_num) (by norm_num) (by norm_num) (by norm_num)
      (by norm_num) (by norm_num)
  have e3 : double.fadd (double.finite 3) (double.finite (1080863910568919 / 36028797018963968))
      = double.finite (6822953435466301 / 2251799813685248) := by
    rw [double.fadd_finite]
    exact double.round_eval _ (6822953435466301 / 2251799813685248) 1 (-51) 6822953435466301
      (by norm_num) (by norm_num) (by norm_num) (by norm_num) (by norm_num) (by norm_num)
      (by norm_num) (by norm_num)
  have hs : ((RateLimiter.mk (double.finite 100) (double.finite 104857600) (double.finite 3)
      5).sync 8).stored_permits_ = double.finite (6822953435466301 / 2251799813685248) := by
    rw [sync_of_lt _ _ (by norm_num)]
    simp only [e1, e2, e3]
    norm_num [double.fmin, double.lt]
  have e4 : double.fmin (double.finite 7) (double.finite (6822953435466301 / 2251799813685248))
      = double.finite (6822953435466301 / 2251799813685248) := by
    norm_num [double.fmin, double.lt]
  have e5 : double.fsub (double.finite 7) (double.finite (6822953435466301 / 2251799813685248))
      = double.finite (8939645260330435 / 2251799813685248) := by
    rw [double.fsub_finite]
    exact double.round_eval _ (8939645260330435 / 2251799813685248) 1 (-51) 8939645260330435
      (by norm_num) (by norm_num) (by norm_num) (by norm_num) (by norm_num) (by norm_num)
      (by norm_num) (by norm_num)
  have e6 : double.fmul (double.finite (8939645260330435 / 2251799813685248)) (double.finite 100)
      = double.finite 397 := by
    rw [double.fmul_finite]
    exact double.round_eval _ 397 8 (-44) 6984097859633152
      (by norm_num) (by norm_num) (by norm_num) (by norm_num) (by norm_num) (by norm_num)
      (by norm_num) (by norm_num)
  have e7 : double.fsub (double.finite (6822953435466301 / 2251799813685248)) (double.finite (6822953435466301 / 2251799813685248))
      = double.finite 0 := by
    rw [double.fsub_finite, sub_self]
    exact double.round_zero
  rw [hs, e4, e5, e6, e7] at h
  refine ⟨?_, h.1⟩
  have := (h.2.2.1 397 rfl).2.2 (by norm_num)
  rw [this]
  norm_num

/-- C12, as the claim states it, fails by one microsecond: on the constructed limiter
with the rate set to 3 (the interval is the binary64 number next to 1e6 / 3, a little
below it) `claim_next(3)` at a clock reading of 0 finds the bucket empty and moves
`next_free_` by 1 000 000, the truncation of the binary64 product, while the floor of
`(3 - min(3, 0)) * interval` is 999 999. -/
theorem claim_next_state_counterexample :
    (init.2.set_rate (double.finite 3)).2.interval_
        = double.finite (5726623061333333 / 17179869184) ∧
      ((init.2.set_rate (double.finite 3)).2.sync 0).stored_permits_ = double.finite 0 ∧
      ((init.2.set_rate (double.finite 3)).2.claim_next (double.finite 3) 0).2.next_free_
        = 1000000 ∧
      max (init.2.set_rate (double.finite 3)).2.next_free_ 0
        + ⌊((3 : ℚ) - min 3 0) * (5726623061333333 / 17179869184)⌋₊ = 999999 := by
  have hs := init_set_rate (double.finite 3) (by simp [double.le])
  have e1 : double.fdiv (double.finite 1000000) (double.finite 3)
      = double.finite (5726623061333333 / 17179869184) := by
    rw [double.fdiv_finite _ _ (by norm_num)]
    exact double.round_eval _ (5726623061333333 / 17179869184) 18 (-34) 5726623061333333
      (by norm_num) (by norm_num) (by norm_num) (by norm_num) (by norm_num) (by norm_num)
      (by norm_num) (by norm_num)
  rw [e1] at hs
  have e2 : double.fmin (double.finite 3) (double.finite 0) = double.finite 0 := by
    norm_num [double.fmin, double.lt]
  have e3 : double.fsub (double.finite 3) (double.finite 0) = double.finite 3 := by
    rw [double.fsub_finite, sub_zero]
    exact (by simpa using double.round_intCast 3 (by norm_num))
  have e4 : double.fmul (double.finite 3) (double.finite (5726623061333333 / 17179869184))
      = double.finite 1000000 := by
    rw [double.fmul_finite]
    exact double.round_eval_tie _ 1000000 19 (-33) 8589934592000000
      (by norm_num) (by norm_num) (by norm_num) (by norm_num) (Or.inr (by norm_num)) (by norm_num)
      (by norm_num) (by norm_num)
  rw [hs]
  refine ⟨rfl, rfl, ?_, ?_⟩
  · rw [(claim_next_eq _ _ _).2.2.1, sync_of_ge _ _ (le_refl _)]
    simp only [e2, e3, e4]
    norm_num [double.cast_long, to_long, wrap_unsigned_long_long]
    rfl
  · norm_num
    rw [Nat.floor_eq_iff (by norm_num)]
    norm_num


/-- C15, as the code has it: `set_rate(r)` throws exactly when `r <= 0` (which NaN is
not) and then leaves the state as it was; otherwise it returns normally and sets
`interval_` to the binary64 quotient `1e6 / r` and no other field, and `get_rate()` then
returns the binary64 quotient `1e6 / interval_`. That is `r` again for `r = 10000`
(both quotients are exact). -/
theorem set_rate_spec (s : RateLimiter) (r : double) :
    ((∃ e, (s.set_rate r).1 = .error e) ↔ double.le r (double.finite 0) = true) ∧
      (double.le r (double.finite 0) = true → (s.set_rate r).2 = s) ∧
      (double.le r (double.finite 0) = false →
        (s.set_rate r).1 = .ok () ∧
        (s.set_rate r).2 =
          { interval_ := double.fdiv (double.finite 1000000) r,
            max_permits_ := s.max_permits_, stored_permits_ := s.stored_permits_,
            next_free_ := s.next_free_ } ∧
        (s.set_rate r).2.get_rate
          = double.fdiv (double.finite 1000000) (double.fdiv (double.finite 1000000) r)) ∧
      (s.set_rate (double.finite 10000)).2.get_rate = double.finite 10000 := by
  refine ⟨⟨fun ⟨e, he⟩ => ?_, fun h => ⟨_, by rw [set_rate, if_pos h]⟩⟩, fun h => ?_,
    fun h => ?_, ?_⟩
  · by_contra hn
    rw [set_rate, if_neg hn] at he
    simp at he
  · rw [set_rate, if_pos h]
  · rw [set_rate, if_neg (by simp [h])]
    exact ⟨rfl, rfl, rfl⟩
  · have e1 : double.fdiv (double.finite 1000000) (double.finite 10000)
        = double.finite 100 := by
      rw [double.fdiv_finite _ _ (by norm_num)]
      norm_num
      exact (by simpa using double.round_intCast 100 (by norm_num))
    have e2 : double.fdiv (double.finite 1000000) (double.finite 100)
        = double.finite 10000 := by
      rw [double.fdiv_finite _ _ (by norm_num)]
      norm_num
      exact (by simpa using double.round_intCast 10000 (by norm_num))
    rw [set_rate, if_neg (by simp [double.le])]
    simp only [get_rate, e1, e2]

/-- C15, as the claim states it, fails for `r = 7`: the interval is the binary64 number
next to `1e6 / 7`, and `get_rate()` returns 6.999999999999999 (the binary64 number just
below 7), not 7. -/
theorem set_rate_spec_counterexample :
    (init.2.set_rate (double.finite 7)).1 = .ok () ∧
      (init.2.set_rate (double.finite 7)).2.interval_
        = double.finite (4908534052571429 / 34359738368) ∧
      (init.2.set_rate (double.finite 7)).2.get_rate
        = double.finite (7881299347898367 / 1125899906842624) ∧
      ((7881299347898367 / 1125899906842624) : ℚ) < 7 ∧
      (init.2.set_rate (double.finite 7)).2.get_rate ≠ double.finite 7 := by
  have e1 : double.fdiv (double.finite 1000000) (double.finite 7)
      = double.finite (4908534052571429 / 34359738368) := by
    rw [double.fdiv_finite _ _ (by norm_num)]
    exact double.round_eval _ (4908534052571429 / 34359738368) 17 (-35) 4908534052571429
      (by norm_num) (by norm_num) (by norm_num) (by norm_num) (by norm_num) (by norm_num)
      (by norm_num) (by norm_num)
  have e2 : double.fdiv (double.finite 1000000) (double.finite (4908534052571429 / 34359738368))
      = double.finite (7881299347898367 / 1125899906842624) := by
    rw [double.fdiv_finite _ _ (by norm_num)]
    exact double.round_eval _ (7881299347898367 / 1125899906842624) 2 (-50) 7881299347898367
      (by norm_num) (by norm_num) (by norm_num) (by norm_num) (by norm_num) (by norm_num)
      (by norm_num) (by norm_num)
  have hs := init_set_rate (double.finite 7) (by simp [double.le])
  rw [e1] at hs
  have hg : (init.2.set_rate (double.finite 7)).2.get_rate
      = double.finite (7881299347898367 / 1125899906842624) := by
    rw [hs]
    simp only [get_rate, e2]
  refine ⟨?_, by rw [hs], hg, by norm_num, ?_⟩
  · rw [set_rate, if_neg (by simp [double.le])]
  · rw [hg]
    intro h
    have := double.finite.inj h
    norm_num at this


theorem wrap_long_natCast (n : Nat) (h : n < 2 ^ 63) : wrap_long (n : Int) = n := by
  unfold wrap_long
  have h1 : (n : Int) < 2 ^ 63 := by exact_mod_cast h
  rw [Int.emod_eq_of_lt (by positivity) (by linarith)]
  ring

theorem aquire_slept (s : RateLimiter) (n : Int) (now : Nat) :
    (s.aquire n now).1.2
      = (wrap_long ((s.claim_next (double.of_int n) now).1 : Int)).toNat := by
  simp only [aquire]

theorem aquire_twice_eq (s : RateLimiter) (n : Int) (now : Nat) (p : ℚ)
    (h0 : s.next_free_ ≤ now)
    (hP : double.fmul
        (double.fsub (double.of_int n)
          (double.fmin (double.of_int n) (s.sync now).stored_permits_)) s.interval_
      = double.finite p)
    (hp : 0 ≤ p) (hw : now + ⌊p⌋₊ < 2 ^ 64) (hl : ⌊p⌋₊ < 2 ^ 63) :
    (s.aquire_twice n now).1 = ⌊p⌋₊ := by
  obtain ⟨a1, -, a3, -, -⟩ := claim_next_eq s (double.of_int n) now
  rw [max_eq_right h0] at a1 a3
  have c1 : (s.claim_next (double.of_int n) now).1 = 0 := by
    rw [a1, sub_self]
    rfl
  have w1 : (s.aquire n now).1.2 = 0 := by
    rw [aquire_slept, c1, wrap_long_natCast 0 (by norm_num), Int.toNat_ofNat]
  have n1 : (s.aquire n now).2.next_free_ = now + ⌊p⌋₊ := by
    show (s.claim_next (double.of_int n) now).2.next_free_ = _
    rw [a3, hP, double.cast_long_of_nonneg p hp, ← Nat.cast_add,
      wrap_unsigned_long_long_natCast, Nat.mod_eq_of_lt hw]
  have w2 : ((s.aquire n now).2.aquire n (now + (s.aquire n now).1.2)).1.2 = ⌊p⌋₊ := by
    rw [w1, add_zero, aquire_slept, (claim_next_eq _ _ _).1, n1,
      max_eq_left (Nat.le_add_right _ _)]
    have e : ((now + ⌊p⌋₊ : Nat) : Int) - (now : Int) = ((⌊p⌋₊ : Nat) : Int) := by
      push_cast
      ring
    rw [e, wrap_unsigned_long_long_natCast, Nat.mod_eq_of_lt (by omega),
      wrap_long_natCast _ hl, Int.toNat_ofNat]
  simp only [aquire_twice]
  rw [w2, w1, zero_add]

theorem sync_init_set_rate (r : double) (now : Nat)
    (hr : double.le r (double.finite 0) = false) :
    ((init.2.set_rate r).2.sync now).stored_permits_
      = (if 0 < now then
          double.fmin (double.finite 104857600)
            (double.fadd (double.finite 0)
              (double.fdiv (double.of_int (now : Int))
                (double.fdiv (double.finite 1000000) r)))
        else double.finite 0) := by
  rw [init_set_rate r hr]
  unfold sync
  by_cases h : 0 < now
  · rw [if_pos h, if_pos h]
    simp
  · rw [if_neg h, if_neg h]

theorem aquire_twice_init (r : double) (n : Int) (now : Nat) (p : ℚ)
    (hr : double.le r (double.finite 0) = false)
    (hP : double.fmul
        (double.fsub (double.of_int n)
          (double.fmin (double.of_int n)
            (if 0 < now then
              double.fmin (double.finite 104857600)
                (double.fadd (double.finite 0)
                  (double.fdiv (double.of_int (now : Int))
                    (double.fdiv (double.finite 1000000) r)))
            else double.finite 0)))
        (double.fdiv (double.finite 1000000) r)
      = double.finite p)
    (hp : 0 ≤ p) (hw : now + ⌊p⌋₊ < 2 ^ 64) (hl : ⌊p⌋₊ < 2 ^ 63) :
    ((init.2.set_rate r).2.aquire_twice n now).1 = ⌊p⌋₊ := by
  have hs := sync_init_set_rate r now hr
  have hi : (init.2.set_rate r).2.interval_ = double.fdiv (double.finite 1000000) r := by
    rw [init_set_rate r hr]
  have hn : (init.2.set_rate r).2.next_free_ ≤ now := by
    rw [init_set_rate r hr]
    exact Nat.zero_le _
  exact aquire_twice_eq _ n now p hn (by rw [hs, hi]; exact hP) hp hw hl

/-- C17, as the code has it: on a newly constructed limiter with its rate set to `r`,
two back-to-back calls `aquire(n)`, the first at a clock reading of `now`, sleep in
total `(long) ((n - min(n, s)) * interval_)` microseconds, in binary64 arithmetic, where
`interval_ = 1e6 / r` and `s` is what the first `sync` puts into the bucket:
`min(max_permits_, 0 + now / interval_)` with `max_permits_ = 100 * 1024 * 1024`, or 0
at a clock reading of 0. (The product is taken finite and not negative, the 64-bit sum
does not wrap, and the wait fits the signed 64-bit count of the duration.) -/
theorem aquire_twice_wait (r : double) (n : Int) (now : Nat) (p : ℚ)
    (hr : double.le r (double.finite 0) = false)
    (hP : double.fmul
        (double.fsub (double.of_int n)
          (double.fmin (double.of_int n)
            (if 0 < now then
              double.fmin (double.finite 104857600)
                (double.fadd (double.finite 0)
                  (double.fdiv (double.of_int (now : Int))
                    (double.fdiv (double.finite 1000000) r)))
            else double.finite 0)))
        (double.fdiv (double.finite 1000000) r)
      = double.finite p)
    (hp : 0 ≤ p) (hw : now + ⌊p⌋₊ < 2 ^ 64) (hl : ⌊p⌋₊ < 2 ^ 63) :
    ((init.2.set_rate r).2.aquire_twice n now).1 = ⌊p⌋₊ ∧
      (init.2.set_rate r).2.interval_ = double.fdiv (double.finite 1000000) r ∧
      ((init.2.set_rate r).2.sync now).stored_permits_
        = (if 0 < now then
            double.fmin (double.finite 104857600)
              (double.fadd (double.finite 0)
                (double.fdiv (double.of_int (now : Int))
                  (double.fdiv (double.finite 1000000) r)))
          else double.finite 0) :=
  ⟨aquire_twice_init r n now p hr hP hp hw hl, by rw [init_set_rate r hr],
    sync_init_set_rate r now hr⟩

theorem sample_interval : double.fdiv (double.finite 1000000) (double.finite 10000)
    = double.finite 100 := by
  rw [double.fdiv_finite _ _ (by norm_num)]
  norm_num
  exact (by simpa using double.round_intCast 100 (by norm_num))

theorem sample_empty_product :
    double.fmul
        (double.fsub (double.of_int 5000)
          (double.fmin (double.of_int 5000)
            (if 0 < (0 : Nat) then
              double.fmin (double.finite 104857600)
                (double.fadd (double.finite 0)
                  (double.fdiv (double.of_int ((0 : Nat) : Int))
                    (double.fdiv (double.finite 1000000) (double.finite 10000))))
            else double.finite 0)))
        (double.fdiv (double.finite 1000000) (double.finite 10000))
      = double.finite 500000 := by
  have e0 : double.of_int 5000 = double.finite 5000 :=
    (by simpa using double.round_intCast 5000 (by norm_num))
  have e1 : double.fmin (double.finite 5000) (double.finite 0) = double.finite 0 := by
    norm_num [double.fmin, double.lt]
  have e2 : double.fsub (double.finite 5000) (double.finite 0) = double.finite 5000 := by
    rw [double.fsub_finite, sub_zero]
    exact (by simpa using double.round_intCast 5000 (by norm_num))
  have e3 : double.fmul (double.finite 5000) (double.finite 100) = double.finite 500000 := by
    rw [double.fmul_finite]
    norm_num
    exact (by simpa using double.round_intCast 500000 (by norm_num))
  rw [if_neg (by norm_num), sample_interval, e0, e1, e2, e3]

theorem sample_full_product :
    double.fmul
        (double.fsub (double.of_int 5000)
          (double.fmin (double.of_int 5000)
            (if 0 < (1700000000000000 : Nat) then
              double.fmin (double.finite 104857600)
                (double.fadd (double.finite 0)
                  (double.fdiv (double.of_int ((1700000000000000 : Nat) : Int))
                    (double.fdiv (double.finite 1000000) (double.finite 10000))))
            else double.finite 0)))
        (double.fdiv (double.finite 1000000) (double.finite 10000))
      = double.finite 0 := by
  have e0 : double.of_int 5000 = double.finite 5000 :=
    (by simpa using double.round_intCast 5000 (by norm_num))
  have e1 : double.of_int ((1700000000000000 : Nat) : Int)
      = double.finite 1700000000000000 :=
    (by simpa using double.round_intCast 1700000000000000 (by norm_num))
  have e2 : double.fdiv (double.finite 1700000000000000) (double.finite 100)
      = double.finite 17000000000000 := by
    rw [double.fdiv_finite _ _ (by norm_num)]
    norm_num
    exact (by simpa using double.round_intCast 17000000000000 (by norm_num))
  have e3 : double.fadd (double.finite 0) (double.finite 17000000000000)
      = double.finite 17000000000000 := by
    rw [double.fadd_finite, zero_add]
    exact (by simpa using double.round_intCast 17000000000000 (by norm_num))
  have e4 : double.fmin (double.finite 104857600) (double.finite 17000000000000)
      = double.finite 104857600 := by
    norm_num [double.fmin, double.lt]
  have e5 : double.fmin (double.finite 5000) (double.finite 104857600)
      = double.finite 5000 := by
    norm_num [double.fmin, double.lt]
  have e6 : double.fsub (double.finite 5000) (double.finite 5000) = double.finite 0 := by
    rw [double.fsub_finite, sub_self]
    exact double.round_zero
  have e7 : double.fmul (double.finite 0) (double.finite 100) = double.finite 0 := by
    rw [double.fmul_finite, zero_mul]
    exact double.round_zero
  rw [if_pos (by norm_num), sample_interval, e0, e1, e2, e3, e4, e5, e6, e7]

theorem sample_third_product :
    double.fmul
        (double.fsub (double.of_int 99)
          (double.fmin (double.of_int 99)
            (if 0 < (0 : Nat) then
              double.fmin (double.finite 104857600)
                (double.fadd (double.finite 0)
                  (double.fdiv (double.of_int ((0 : Nat) : Int))
                    (double.fdiv (double.finite 1000000) (double.finite 3))))
            else double.finite 0)))
        (double.fdiv (double.finite 1000000) (double.finite 3))
      = double.finite (8858370047999999 / 268435456) := by
  have e0 : double.of_int 99 = double.finite 99 :=
    (by simpa using double.round_intCast 99 (by norm_num))
  have e1 : double.fmin (double.finite 99) (double.finite 0) = double.finite 0 := by
    norm_num [double.fmin, double.lt]
  have e2 : double.fsub (double.finite 99) (double.finite 0) = double.finite 99 := by
    rw [double.fsub_finite, sub_zero]
    exact (by simpa using double.round_intCast 99 (by norm_num))
  have e3 : double.fdiv (double.finite 1000000) (double.finite 3)
      = double.finite (5726623061333333 / 17179869184) := by
    rw [double.fdiv_finite _ _ (by norm_num)]
    exact double.round_eval _ (5726623061333333 / 17179869184) 18 (-34) 5726623061333333
      (by norm_num) (by norm_num) (by norm_num) (by norm_num) (by norm_num) (by norm_num)
      (by norm_num) (by norm_num)
  have e4 : double.fmul (double.finite 99) (double.finite (5726623061333333 / 17179869184))
      = double.finite (8858370047999999 / 268435456) := by
    rw [double.fmul_finite]
    exact double.round_eval _ (8858370047999999 / 268435456) 24 (-28) 8858370047999999
      (by norm_num) (by norm_num) (by norm_num) (by norm_num) (by norm_num) (by norm_num)
      (by norm_num) (by norm_num)
  rw [if_neg (by norm_num), e0, e1, e2, e3, e4]

/-- C17 with an empty bucket: at a clock reading of zero, rate 10 000 and two requests of
5 000 permits, the total wait is 500 000 microseconds; rate 3 and two requests of 99
permits wait 32 999 999 microseconds (the binary64 product is 32999999.999999996). -/
theorem aquire_twice_wait_witness :
    ((init.2.set_rate (double.finite 10000)).2.aquire_twice 5000 0).1 = 500000 ∧
      ((init.2.set_rate (double.finite 3)).2.aquire_twice 99 0).1 = 32999999 := by
  have hf : ⌊((8858370047999999 / 268435456) : ℚ)⌋₊ = 32999999 := by
    rw [Nat.floor_eq_iff (by norm_num)]
    norm_num
  constructor
  · rw [(aquire_twice_wait (double.finite 10000) 5000 0 500000 (by simp [double.le])
      sample_empty_product (by norm_num) (by norm_num) (by norm_num)).1]
    norm_num
  · rw [(aquire_twice_wait (double.finite 3) 99 0 (8858370047999999 / 268435456)
      (by simp [double.le]) sample_third_product (by norm_num)
      (by rw [hf]; norm_num) (by rw [hf]; norm_num)).1, hf]

/-- C17, as the claim states it, fails: with `r = 10000` and `n = 5000` and a clock
reading of 1.7e15 microseconds since the epoch, the first `sync` fills the bucket and
the two calls sleep 0 microseconds in total, less than `n / r = 0.5` seconds. -/
theorem aquire_twice_counterexample :
    ((init.2.set_rate (double.finite 10000)).2.aquire_twice 5000 1700000000000000).1 = 0 ∧
      ((((init.2.set_rate (double.finite 10000)).2.aquire_twice 5000
          1700000000000000).1 : ℚ) / 1000000 < (5000 : ℚ) / 10000) := by
  have h : ((init.2.set_rate (double.finite 10000)).2.aquire_twice 5000
      1700000000000000).1 = 0 := by
    rw [aquire_twice_init (double.finite 10000) 5000 1700000000000000 0
      (by simp [double.le]) sample_full_product (le_refl _) (by norm_num) (by norm_num)]
    norm_num
  rw [h]
  norm_num

end binary64.RateLimiter

/-! ### The merge threads: statistics, the cascade, the slots and shutdown -/

namespace mergeScheduler

theorem to_long_intCast (z : Int) : to_long (z : ℚ) = z := by
  unfold to_long
  split <;> simp

theorem memMerge_top_eq (o : mergeOracle) (s : mergeScheduler) (c1 : diskTreeComponent)
    (hpc : s.mem_pc = .top) (hrun : s.ltable_.is_still_running = true)
    (hc1 : s.ltable_.tree_c1 = some c1) :
    step .mem o s =
      { s with
        ltable_ := s.ltable_.set_tree_c1_prime
          (some { bloom_filter := o.bloom_filter [], tuples := [] })
        mem_pc := .merging } := by
  simp only [step, hpc, memMerge_top, hrun, hc1]
  rfl

theorem memMerge_merge_fields (o : mergeOracle) (s : mergeScheduler) (c1 : diskTreeComponent)
    (hc1 : s.ltable_.tree_c1 = some c1) :
    (memMerge_merge o s).ltable_.mean_c0_run_length = s.ltable_.mean_c0_run_length ∧
      (memMerge_merge o s).ltable_.num_c0_mergers = s.ltable_.num_c0_mergers ∧
      (memMerge_merge o s).ltable_.r_val = s.ltable_.r_val ∧
      (memMerge_merge o s).mem_merge_count = s.mem_merge_count ∧
      (memMerge_merge o s).MIN_R = s.MIN_R := by
  obtain ⟨c0, h0⟩ := merge_iterators_frame (env o .mem) c1.tuples s.ltable_.tree_c0 s.ltable_
  simp only [memMerge_merge, hc1, h0]
  simp

theorem memMerge_install_fields (o : mergeOracle) (s : mergeScheduler) :
    (memMerge_install o s).mem_merge_count = s.mem_merge_count + 1 ∧
      (memMerge_install o s).ltable_.c0_is_merging = false ∧
      (memMerge_install o s).ltable_.r_val = s.ltable_.r_val ∧
      (memMerge_install o s).ltable_.mean_c0_run_length
        = (if o.bytes_in_small ≠ 0 then
            new_mean_c0_run_length s.ltable_.mean_c0_run_length o.bytes_in_small
              (s.mem_merge_count + 1)
          else s.ltable_.mean_c0_run_length) ∧
      (memMerge_install o s).ltable_.num_c0_mergers
        = (if o.bytes_in_small ≠ 0 then s.mem_merge_count + 1
          else s.ltable_.num_c0_mergers) := by
  simp only [memMerge_install]
  split_ifs <;>
    simp [bLSM.set_c0_is_merging, bLSM.set_tree_c1_prime, bLSM.set_tree_c1]

theorem memMerge_install_mem_pc (o : mergeOracle) (s : mergeScheduler)
    (hR : double.ge s.ltable_.r_val s.MIN_R = true) :
    (memMerge_install o s).mem_pc
      = if signal_c2 o (memMerge_install o s).ltable_ then .waiting else .top := by
  simp only [memMerge_install, signal_c2]
  split_ifs <;>
    simp_all [bLSM.set_c0_is_merging, bLSM.set_tree_c1_prime, bLSM.set_tree_c1]

theorem memMerge_pass_eq (s : mergeScheduler) (o1 o2 o3 : mergeOracle)
    (c1 : diskTreeComponent) (hpc : s.mem_pc = .top)
    (hrun : s.ltable_.is_still_running = true) (hc1 : s.ltable_.tree_c1 = some c1) :
    memMerge_pass o1 o2 o3 s =
      memMerge_install o3 (memMerge_merge o2
        { s with
          ltable_ := s.ltable_.set_tree_c1_prime
            (some { bloom_filter := o1.bloom_filter [], tuples := [] })
          mem_pc := .merging }) := by
  unfold memMerge_pass
  rw [memMerge_top_eq o1 s c1 hpc hrun hc1]
  have m1 := (memMerge_merge_slots o2
    { s with
      ltable_ := s.ltable_.set_tree_c1_prime
        (some { bloom_filter := o1.bloom_filter [], tuples := [] })
      mem_pc := .merging } c1 hc1).1
  have h2 : step .mem o2
      { s with
        ltable_ := s.ltable_.set_tree_c1_prime
          (some { bloom_filter := o1.bloom_filter [], tuples := [] })
        mem_pc := .merging }
      = memMerge_merge o2
        { s with
          ltable_ := s.ltable_.set_tree_c1_prime
            (some { bloom_filter := o1.bloom_filter [], tuples := [] })
          mem_pc := .merging } := rfl
  rw [h2]
  simp only [step, m1]

/-- The statistics after one pass of the mem-merge thread. -/
theorem memMerge_pass_mean (s : mergeScheduler) (o1 o2 o3 : mergeOracle)
    (c1 : diskTreeComponent) (hpc : s.mem_pc = .top)
    (hrun : s.ltable_.is_still_running = true) (hc1 : s.ltable_.tree_c1 = some c1) :
    (memMerge_pass o1 o2 o3 s).mem_merge_count = s.mem_merge_count + 1 ∧
      (memMerge_pass o1 o2 o3 s).ltable_.mean_c0_run_length
        = (if o3.bytes_in_small ≠ 0 then
            new_mean_c0_run_length s.ltable_.mean_c0_run_length o3.bytes_in_small
              (s.mem_merge_count + 1)
          else s.ltable_.mean_c0_run_length) ∧
      (memMerge_pass o1 o2 o3 s).ltable_.num_c0_mergers
        = (if o3.bytes_in_small ≠ 0 then s.mem_merge_count + 1
          else s.ltable_.num_c0_mergers) ∧
      (memMerge_pass o1 o2 o3 s).ltable_.r_val = s.ltable_.r_val := by
  rw [memMerge_pass_eq s o1 o2 o3 c1 hpc hrun hc1]
  obtain ⟨i1, -, i3, i4, i5⟩ := memMerge_install_fields o3 (memMerge_merge o2
    { s with
      ltable_ := s.ltable_.set_tree_c1_prime
        (some { bloom_filter := o1.bloom_filter [], tuples := [] })
      mem_pc := .merging })
  obtain ⟨m1, m2, m3, m4, -⟩ := memMerge_merge_fields o2
    { s with
      ltable_ := s.ltable_.set_tree_c1_prime
        (some { bloom_filter := o1.bloom_filter [], tuples := [] })
      mem_pc := .merging } c1 hc1
  rw [i1, i3, i4, i5, m1, m2, m3, m4]
  exact ⟨rfl, rfl, rfl, rfl⟩

theorem step_mem_tree_c2 (o : mergeOracle) (s : mergeScheduler) :
    (step .mem o s).ltable_.tree_c2 = s.ltable_.tree_c2 ∧
      (step .mem o s).disk_pc = s.disk_pc ∧ (step .mem o s).c2_prime = s.c2_prime := by
  simp only [step]
  cases s.mem_pc
  · simp only [memMerge_top]; split
    · exact ⟨rfl, rfl, rfl⟩
    · split <;> exact ⟨rfl, rfl, rfl⟩
  · simp only [memMerge_merge]; split
    · exact ⟨rfl, rfl, rfl⟩
    · rename_i c1 _
      obtain ⟨c0, h0⟩ := merge_iterators_frame (env o .mem) c1.tuples s.ltable_.tree_c0
        s.ltable_
      simp only [h0]
      simp
  · simp only [memMerge_install]
    split_ifs <;>
      simp [bLSM.set_c0_is_merging, bLSM.set_tree_c1_prime, bLSM.set_tree_c1]
  · simp only [memMerge_wait]; split <;> exact ⟨rfl, rfl, rfl⟩
  · exact ⟨rfl, rfl, rfl⟩
  · exact ⟨rfl, rfl, rfl⟩
  · exact ⟨rfl, rfl, rfl⟩

theorem step_disk_frame (o : mergeOracle) (s : mergeScheduler) :
    (step .disk o s).ltable_.tree_c1 = s.ltable_.tree_c1 ∧
      (step .disk o s).ltable_.tree_c1_prime = s.ltable_.tree_c1_prime ∧
      (step .disk o s).ltable_.c0_is_merging = s.ltable_.c0_is_merging ∧
      (step .disk o s).mem_pc = s.mem_pc := by
  simp only [step]
  cases s.disk_pc
  · simp only [diskMerge_top]; split
    · split <;> exact ⟨rfl, rfl, rfl, rfl⟩
    · split <;> exact ⟨rfl, rfl, rfl, rfl⟩
  · exact ⟨rfl, rfl, rfl, rfl⟩
  · simp only [diskMerge_merge]; split
    · rename_i c2 c1m _ _
      obtain ⟨c0, h0⟩ := merge_iterators_frame (env o .disk) c2.tuples c1m.tuples s.ltable_
      simp only [h0]
      simp
    · exact ⟨rfl, rfl, rfl, rfl⟩
  · exact ⟨rfl, rfl, rfl, rfl⟩
  · exact ⟨rfl, rfl, rfl, rfl⟩
  · exact ⟨rfl, rfl, rfl, rfl⟩

theorem memMerge_wait_none (o : mergeOracle) (s : mergeScheduler)
    (hpc : s.mem_pc = .waiting) (h : s.ltable_.tree_c1_mergeable = none) :
    (step .mem o s).mem_pc = .top ∧
      (step .mem o s).ltable_.tree_c1_mergeable = s.ltable_.tree_c1 ∧
      (step .mem o s).ltable_.tree_c1
        = some { bloom_filter := o.bloom_filter [], tuples := [] } ∧
      (step .mem o s).ltable_.tree_c1_prime = s.ltable_.tree_c1_prime ∧
      (step .mem o s).ltable_.c0_is_merging = s.ltable_.c0_is_merging ∧
      (step .mem o s).ltable_.tree_c2 = s.ltable_.tree_c2 := by
  simp only [step, hpc, memMerge_wait, h]
  simp [bLSM.set_tree_c1, bLSM.set_tree_c1_mergeable]

theorem memMerge_wait_some (o : mergeOracle) (s : mergeScheduler) (m : diskTreeComponent)
    (hpc : s.mem_pc = .waiting) (h : s.ltable_.tree_c1_mergeable = some m) :
    (step .mem o s).mem_pc = .blocked ∧
      (step .mem o s).ltable_.c1_flushing = true ∧
      (step .mem o s).ltable_.tree_c1_mergeable = some m ∧
      (step .mem o s).ltable_.tree_c1 = s.ltable_.tree_c1 ∧
      (step .mem o s).ltable_.tree_c1_prime = s.ltable_.tree_c1_prime ∧
      (step .mem o s).ltable_.c0_is_merging = s.ltable_.c0_is_merging := by
  simp only [step, hpc, memMerge_wait, h]
  simp [bLSM.set_tree_c1, bLSM.set_tree_c1_mergeable]

theorem memMerge_pass_slots (s : mergeScheduler) (o1 o2 o3 : mergeOracle)
    (c1 : diskTreeComponent) (hpc : s.mem_pc = .top)
    (hrun : s.ltable_.is_still_running = true) (hc1 : s.ltable_.tree_c1 = some c1)
    (hR : double.ge s.ltable_.r_val s.MIN_R = true) :
    (memMerge_pass o1 o2 o3 s).ltable_.tree_c1_prime = none ∧
      (memMerge_pass o1 o2 o3 s).ltable_.c0_is_merging = false ∧
      (memMerge_pass o1 o2 o3 s).ltable_.tree_c2 = s.ltable_.tree_c2 ∧
      (memMerge_pass o1 o2 o3 s).ltable_.tree_c1
        = some (merged_component o2 s.ltable_ c1.tuples s.ltable_.tree_c0 false) ∧
      (memMerge_pass o1 o2 o3 s).ltable_.tree_c1_mergeable
        = s.ltable_.tree_c1_mergeable ∧
      (memMerge_pass o1 o2 o3 s).mem_pc
        = (if signal_c2 o3 (memMerge_pass o1 o2 o3 s).ltable_ then .waiting else .top) := by
  obtain ⟨a1, a2, a3, a4⟩ := memMerge_iteration_slots s o1 o2 o3 c1 hpc hrun hc1
  have hp := memMerge_pass_eq s o1 o2 o3 c1 hpc hrun hc1
  obtain ⟨-, -, m3, -, m5⟩ := memMerge_merge_fields o2
    { s with
      ltable_ := s.ltable_.set_tree_c1_prime
        (some { bloom_filter := o1.bloom_filter [], tuples := [] })
      mem_pc := .merging } c1 hc1
  have hR' : double.ge (memMerge_merge o2
      { s with
        ltable_ := s.ltable_.set_tree_c1_prime
          (some { bloom_filter := o1.bloom_filter [], tuples := [] })
        mem_pc := .merging }).ltable_.r_val
      (memMerge_merge o2
        { s with
          ltable_ := s.ltable_.set_tree_c1_prime
            (some { bloom_filter := o1.bloom_filter [], tuples := [] })
          mem_pc := .merging }).MIN_R = true := by
    rw [m3, m5]
    exact hR
  refine ⟨a2, ?_, a4, a1, a3, ?_⟩
  · rw [hp]
    exact (memMerge_install_fields o3 _).2.1
  · rw [hp]
    exact memMerge_install_mem_pc o3 _ hR'


theorem step_mem_tree_c1_mergeable (o : mergeOracle) (s : mergeScheduler) :
    (step .mem o s).ltable_.tree_c1_mergeable = s.ltable_.tree_c1_mergeable ∨
      (s.mem_pc = .waiting ∧ s.ltable_.tree_c1_mergeable = none ∧
        (step .mem o s).ltable_.tree_c1_mergeable = s.ltable_.tree_c1) := by
  simp only [step]
  cases hpc : s.mem_pc
  · left
    simp only [memMerge_top]; split
    · rfl
    · split <;> rfl
  · left
    simp only [memMerge_merge]; split
    · rfl
    · rename_i c1 _
      obtain ⟨c0, h0⟩ := merge_iterators_frame (env o .mem) c1.tuples s.ltable_.tree_c0
        s.ltable_
      simp only [h0]
  · left
    exact (memMerge_install_slots o s).2.2.1
  · cases hm : s.ltable_.tree_c1_mergeable with
    | none =>
      right
      have := memMerge_wait_none o s hpc hm
      simp only [step, hpc] at this
      exact ⟨rfl, rfl, this.2.1⟩
    | some m =>
      left
      have := memMerge_wait_some o s m hpc hm
      simp only [step, hpc] at this
      exact this.2.2.1
  · left; rfl
  · left; rfl
  · left; rfl

theorem step_disk_tree_c1_mergeable (o : mergeOracle) (s : mergeScheduler) :
    (step .disk o s).ltable_.tree_c1_mergeable = s.ltable_.tree_c1_mergeable ∨
      (s.disk_pc = .installing ∧ (step .disk o s).ltable_.tree_c1_mergeable = none) := by
  simp only [step]
  cases hpc : s.disk_pc
  · left
    simp only [diskMerge_top]; split
    · split <;> rfl
    · split <;> rfl
  · left; rfl
  · left
    simp only [diskMerge_merge]; split
    · rename_i c2 c1m _ _
      obtain ⟨c0, h0⟩ := merge_iterators_frame (env o .disk) c2.tuples c1m.tuples s.ltable_
      simp only [h0]
    · rfl
  · right
    exact ⟨rfl, rfl⟩
  · left; rfl
  · left; rfl

theorem step_expiry (t : mergeThread) (o : mergeOracle) (s : mergeScheduler) :
    (step t o s).ltable_.expiry = s.ltable_.expiry ∧
      (step t o s).ltable_.current_timestamp = s.ltable_.current_timestamp := by
  cases t
  · simp only [step]
    cases s.mem_pc
    · simp only [memMerge_top]; split
      · exact ⟨rfl, rfl⟩
      · split <;> exact ⟨rfl, rfl⟩
    · simp only [memMerge_merge]; split
      · exact ⟨rfl, rfl⟩
      · rename_i c1 _
        obtain ⟨c0, h0⟩ := merge_iterators_frame (env o .mem) c1.tuples s.ltable_.tree_c0
          s.ltable_
        simp only [h0]
        simp
    · simp only [memMerge_install]
      split_ifs <;>
        simp [bLSM.set_c0_is_merging, bLSM.set_tree_c1_prime, bLSM.set_tree_c1]
    · simp only [memMerge_wait]; split <;> exact ⟨rfl, rfl⟩
    · exact ⟨rfl, rfl⟩
    · exact ⟨rfl, rfl⟩
    · exact ⟨rfl, rfl⟩
  · simp only [step]
    cases s.disk_pc
    · simp only [diskMerge_top]; split
      · split <;> exact ⟨rfl, rfl⟩
      · split <;> exact ⟨rfl, rfl⟩
    · exact ⟨rfl, rfl⟩
    · simp only [diskMerge_merge]; split
      · rename_i c2 c1m _ _
        obtain ⟨c0, h0⟩ := merge_iterators_frame (env o .disk) c2.tuples c1m.tuples
          s.ltable_
        simp only [h0]
        simp
      · exact ⟨rfl, rfl⟩
    · exact ⟨rfl, rfl⟩
    · exact ⟨rfl, rfl⟩
    · exact ⟨rfl, rfl⟩

theorem insert_filter_dropDeletes (l1 l2 : bLSM) (t : dataTuple)
    (h1 : l1.expiry = l2.expiry) (h2 : l1.current_timestamp = l2.current_timestamp) :
    insert_filter l1 t true = insert_filter l2 t true := by
  simp [insert_filter, h1, h2]

theorem merged_component_dropDeletes (o : mergeOracle) (l1 l2 : bLSM)
    (large small : List dataTuple) (h1 : l1.expiry = l2.expiry)
    (h2 : l1.current_timestamp = l2.current_timestamp) :
    merged_component o l1 large small true = merged_component o l2 large small true := by
  unfold merged_component
  have : (fun t => insert_filter l1 t true) = (fun t => insert_filter l2 t true) :=
    funext (fun t => insert_filter_dropDeletes l1 l2 t h1 h2)
  rw [this]

theorem step_diskHolds (t : mergeThread) (o : mergeOracle) (s : mergeScheduler)
    (h : DiskHolds s) : DiskHolds (step t o s) := by
  obtain ⟨hm, hi⟩ := h
  obtain ⟨e1, e2⟩ := step_expiry t o s
  cases t
  · obtain ⟨f1, f2, f3⟩ := step_mem_tree_c2 o s
    have keep : ∀ c1m, s.ltable_.tree_c1_mergeable = some c1m →
        (step .mem o s).ltable_.tree_c1_mergeable = some c1m := by
      intro c1m hc
      rcases step_mem_tree_c1_mergeable o s with h | ⟨-, h, -⟩
      · rw [h, hc]
      · rw [hc] at h; exact absurd h (by simp)
    constructor
    · intro hpc
      rw [f2] at hpc
      obtain ⟨c2, c1m, a1, a2⟩ := hm hpc
      exact ⟨c2, c1m, f1.trans a1, keep c1m a2⟩
    · intro hpc
      rw [f2] at hpc
      obtain ⟨o', c2, c1m, a1, a2, a3⟩ := hi hpc
      refine ⟨o', c2, c1m, f1.trans a1, keep c1m a2, ?_⟩
      rw [f3, a3, merged_component_dropDeletes o' _ _ _ _ e1 e2]
  · simp only [step] at e1 e2 ⊢
    cases hpc : s.disk_pc
    · simp only [hpc] at e1 e2 ⊢
      simp only [diskMerge_top]
      cases hc1m : s.ltable_.tree_c1_mergeable with
      | none =>
        dsimp only
        split <;> exact ⟨fun h => by simp at h, fun h => by simp at h⟩
      | some c1m =>
        cases hc2 : s.ltable_.tree_c2 with
        | none => exact ⟨fun h => by simp at h, fun h => by simp at h⟩
        | some c2 =>
          exact ⟨fun _ => ⟨c2, c1m, hc2, hc1m⟩, fun h => by simp at h⟩
    · exact ⟨fun h => by simp [diskMerge_wake] at h, fun h => by simp [diskMerge_wake] at h⟩
    · obtain ⟨c2, c1m, a1, a2⟩ := hm hpc
      obtain ⟨m1, m2, -, -⟩ := diskMerge_merge_slots o s c2 c1m a1 a2
      obtain ⟨c0, h0⟩ := merge_iterators_frame (env o .disk) c2.tuples c1m.tuples s.ltable_
      have hl : (diskMerge_merge o s).ltable_ = { s.ltable_ with tree_c0 := c0 } := by
        simp only [diskMerge_merge, a1, a2, h0]
      refine ⟨fun h => by rw [m1] at h; simp at h, fun _ => ⟨o, c2, c1m, ?_, ?_, ?_⟩⟩
      · rw [hl]; exact a1
      · rw [hl]; exact a2
      · rw [m2, hl]
        rfl
    · exact ⟨fun h => by simp [diskMerge_install] at h,
        fun h => by simp [diskMerge_install] at h⟩
    · exact ⟨fun h => by simp [hpc] at h, fun h => by simp [hpc] at h⟩
    · exact ⟨fun h => by simp [hpc] at h, fun h => by simp [hpc] at h⟩

theorem run_diskHolds (schedule : List (mergeThread × mergeOracle)) :
    ∀ s : mergeScheduler, DiskHolds s → DiskHolds (s.run schedule) := by
  induction schedule with
  | nil => intro s h; exact h
  | cons a schedule ih => intro s h; exact ih _ (step_diskHolds a.1 a.2 s h)


theorem step_tree_c1_mergeable_some (t : mergeThread) (o : mergeOracle) (s : mergeScheduler)
    (c : diskTreeComponent) (hc : s.ltable_.tree_c1_mergeable = some c) :
    (step t o s).ltable_.tree_c1_mergeable = some c ∨
      (t = .disk ∧ s.disk_pc = .installing ∧
        (step t o s).ltable_.tree_c1_mergeable = none) := by
  cases t
  · left
    rcases step_mem_tree_c1_mergeable o s with h | ⟨-, h, -⟩
    · rw [h, hc]
    · rw [hc] at h; exact absurd h (by simp)
  · rcases step_disk_tree_c1_mergeable o s with h | ⟨h1, h2⟩
    · left; rw [h, hc]
    · right; exact ⟨rfl, h1, h2⟩

theorem init_diskHolds (ltable : bLSM) : DiskHolds (init ltable) :=
  ⟨fun h => by simp [init] at h, fun h => by simp [init] at h⟩

/-- C25: the mem-merge thread stores into the C1-mergeable slot only from the head of its
waiting loop and only when the slot is null (it then stores C1 there); every other step
of it leaves the slot as it is. A component in the slot stays there through every step
of either thread except the install step of the disk-merge thread, which clears the
slot; and in every state the two loops reach from the start, a disk-merge thread about
to install holds in `c2_prime` the merge of C2 with the very component in the slot, so
the component it clears has been merged. -/
theorem c1_mergeable_stored_only_when_null :
    (∀ (o : mergeOracle) (s : mergeScheduler),
      (step .mem o s).ltable_.tree_c1_mergeable = s.ltable_.tree_c1_mergeable ∨
        (s.mem_pc = .waiting ∧ s.ltable_.tree_c1_mergeable = none ∧
          (step .mem o s).ltable_.tree_c1_mergeable = s.ltable_.tree_c1)) ∧
      (∀ (t : mergeThread) (o : mergeOracle) (s : mergeScheduler) (c : diskTreeComponent),
        s.ltable_.tree_c1_mergeable = some c →
        (step t o s).ltable_.tree_c1_mergeable = some c ∨
          (t = .disk ∧ s.disk_pc = .installing ∧
            (step t o s).ltable_.tree_c1_mergeable = none)) ∧
      (∀ (ltable : bLSM) (schedule : List (mergeThread × mergeOracle)),
        ((init ltable).run schedule).disk_pc = .installing →
        ∃ (o : mergeOracle) (c2 c1m : diskTreeComponent),
          ((init ltable).run schedule).ltable_.tree_c2 = some c2 ∧
          ((init ltable).run schedule).ltable_.tree_c1_mergeable = some c1m ∧
          ((init ltable).run schedule).c2_prime
            = some (merged_component o ((init ltable).run schedule).ltable_
                c2.tuples c1m.tuples true)) :=
  ⟨step_mem_tree_c1_mergeable, step_tree_c1_mergeable_some,
    fun ltable schedule => (run_diskHolds schedule (init ltable) (init_diskHolds ltable)).2⟩

theorem step_disk_finished (t : mergeThread) (o : mergeOracle) (s : mergeScheduler)
    (h : (step t o s).disk_pc = .finished) (h0 : s.disk_pc ≠ .finished) :
    t = .disk ∧ s.disk_pc = .top ∧ s.ltable_.tree_c1_mergeable = none ∧
      s.ltable_.is_still_running = false ∧ (step t o s).ltable_ = s.ltable_ := by
  cases t
  · rw [(step_mem_tree_c2 o s).2.1] at h
    exact absurd h h0
  · simp only [step] at h ⊢
    cases hpc : s.disk_pc
    · simp only [hpc] at h ⊢
      simp only [diskMerge_top] at h ⊢
      cases hc1m : s.ltable_.tree_c1_mergeable with
      | none =>
        simp only [hc1m] at h ⊢
        cases hr : s.ltable_.is_still_running
        · simp [hr]
        · simp [hr] at h
      | some c1m =>
        simp only [hc1m] at h
        cases hc2 : s.ltable_.tree_c2 <;> simp [hc2] at h
    · simp [hpc, diskMerge_wake] at h
    · simp only [hpc] at h
      simp only [diskMerge_merge] at h
      split at h <;> simp at h
    · simp [hpc, diskMerge_install] at h
    · exact absurd hpc h0
    · simp [hpc] at h

theorem run_disk_finished (schedule : List (mergeThread × mergeOracle)) :
    ∀ s : mergeScheduler, s.disk_pc ≠ .finished → (s.run schedule).disk_pc = .finished →
      ∃ (pre : List (mergeThread × mergeOracle)) (o : mergeOracle)
        (post : List (mergeThread × mergeOracle)),
        schedule = pre ++ (mergeThread.disk, o) :: post ∧
        (s.run pre).disk_pc = .top ∧
        (s.run pre).ltable_.tree_c1_mergeable = none ∧
        (s.run pre).ltable_.is_still_running = false ∧
        (step .disk o (s.run pre)).disk_pc = .finished ∧
        (step .disk o (s.run pre)).ltable_ = (s.run pre).ltable_ := by
  induction schedule with
  | nil => intro s h0 h; exact absurd h h0
  | cons a schedule ih =>
    intro s h0 h
    by_cases hf : (step a.1 a.2 s).disk_pc = .finished
    · obtain ⟨e1, e2, e3, e4, e5⟩ := step_disk_finished a.1 a.2 s hf h0
      refine ⟨[], a.2, schedule, ?_, e2, e3, e4, ?_, ?_⟩
      · obtain ⟨a1, a2⟩ := a
        simp only at e1
        subst e1
        rfl
      · rw [← e1]; exact hf
      · rw [← e1]; exact e5
    · obtain ⟨pre, o, post, e, r⟩ := ih (step a.1 a.2 s) hf h
      exact ⟨a :: pre, o, post, by rw [e]; rfl, r⟩


theorem diskMerge_top_input (o : mergeOracle) (s : mergeScheduler)
    (c2 c1m : diskTreeComponent) (hpc : s.disk_pc = .top)
    (hc2 : s.ltable_.tree_c2 = some c2) (hc1m : s.ltable_.tree_c1_mergeable = some c1m) :
    (step .disk o s).disk_pc = .merging ∧ (step .disk o s).ltable_ = s.ltable_ := by
  simp only [step, hpc, diskMerge_top, hc2, hc1m]
  simp

theorem diskMerge_pass_slots (s : mergeScheduler) (o1 o2 o3 : mergeOracle)
    (c2 c1m : diskTreeComponent) (hpc : s.disk_pc = .top)
    (hc2 : s.ltable_.tree_c2 = some c2) (hc1m : s.ltable_.tree_c1_mergeable = some c1m) :
    (diskMerge_pass o1 o2 o3 s).ltable_.tree_c2
        = some (merged_component o2 s.ltable_ c2.tuples c1m.tuples true) ∧
      (diskMerge_pass o1 o2 o3 s).ltable_.tree_c1_mergeable = none ∧
      (diskMerge_pass o1 o2 o3 s).disk_pc = .top := by
  obtain ⟨h1, h2, -, -⟩ := diskMerge_iteration_slots s o1 o2 o3 c2 c1m hpc hc2 hc1m
  refine ⟨h1, h2, ?_⟩
  obtain ⟨t1, t2⟩ := diskMerge_top_input o1 s c2 c1m hpc hc2 hc1m
  have m1 := (diskMerge_merge_slots o2 (step .disk o1 s) c2 c1m (by rw [t2]; exact hc2)
    (by rw [t2]; exact hc1m)).1
  have e2 : ∀ x : mergeScheduler, x.disk_pc = .merging →
      step .disk o2 x = diskMerge_merge o2 x := by
    intro x hx
    simp only [step, hx]
  have e3 : ∀ x : mergeScheduler, x.disk_pc = .installing →
      (step .disk o3 x).disk_pc = .top := by
    intro x hx
    simp only [step, hx]
    rfl
  unfold diskMerge_pass
  exact e3 _ (by rw [e2 _ t1]; exact m1)

theorem diskMerge_top_idle (o : mergeOracle) (s : mergeScheduler) (hpc : s.disk_pc = .top)
    (hc1m : s.ltable_.tree_c1_mergeable = none) :
    (step .disk o s).disk_pc
        = (if s.ltable_.is_still_running then diskMergePc.blocked else .finished) ∧
      (step .disk o s).ltable_ = s.ltable_ := by
  simp only [step, hpc, diskMerge_top, hc1m]
  cases s.ltable_.is_still_running <;> exact ⟨rfl, rfl⟩


/-- C26: the disk-merge thread reaches the end of its loop only by a step of its own
from the top of the loop, taken with the C1-mergeable slot null and the engine shutting
down, and that step changes nothing in the engine; so in every run that ends with the
thread out of its loop there is such a step. With a component in the C1-mergeable slot
(and a C2 to merge it into) the step from the top of the loop goes on to the merge,
whether or not the engine is shutting down, and the pass through the loop body installs
the merge of C2 and that component as C2, clears the slot and is back at the top of the
loop. With the slot null the thread waits while the engine is running. -/
theorem diskMerge_exits_only_idle :
    (∀ (t : mergeThread) (o : mergeOracle) (s : mergeScheduler),
      (step t o s).disk_pc = .finished → s.disk_pc ≠ .finished →
      t = .disk ∧ s.disk_pc = .top ∧ s.ltable_.tree_c1_mergeable = none ∧
        s.ltable_.is_still_running = false ∧ (step t o s).ltable_ = s.ltable_) ∧
      (∀ (schedule : List (mergeThread × mergeOracle)) (s : mergeScheduler),
        s.disk_pc ≠ .finished → (s.run schedule).disk_pc = .finished →
        ∃ (pre : List (mergeThread × mergeOracle)) (o : mergeOracle)
          (post : List (mergeThread × mergeOracle)),
          schedule = pre ++ (mergeThread.disk, o) :: post ∧
          (s.run pre).disk_pc = .top ∧
          (s.run pre).ltable_.tree_c1_mergeable = none ∧
          (s.run pre).ltable_.is_still_running = false ∧
          (step .disk o (s.run pre)).disk_pc = .finished ∧
          (step .disk o (s.run pre)).ltable_ = (s.run pre).ltable_) ∧
      (∀ (o : mergeOracle) (s : mergeScheduler) (c2 c1m : diskTreeComponent),
        s.disk_pc = .top → s.ltable_.tree_c2 = some c2 →
        s.ltable_.tree_c1_mergeable = some c1m →
        (step .disk o s).disk_pc = .merging ∧ (step .disk o s).ltable_ = s.ltable_) ∧
      (∀ (s : mergeScheduler) (o1 o2 o3 : mergeOracle) (c2 c1m : diskTreeComponent),
        s.disk_pc = .top → s.ltable_.tree_c2 = some c2 →
        s.ltable_.tree_c1_mergeable = some c1m →
        (diskMerge_pass o1 o2 o3 s).ltable_.tree_c2
            = some (merged_component o2 s.ltable_ c2.tuples c1m.tuples true) ∧
          (diskMerge_pass o1 o2 o3 s).ltable_.tree_c1_mergeable = none ∧
          (diskMerge_pass o1 o2 o3 s).disk_pc = .top) ∧
      (∀ (o : mergeOracle) (s : mergeScheduler),
        s.disk_pc = .top → s.ltable_.tree_c1_mergeable = none →
        (step .disk o s).disk_pc
            = (if s.ltable_.is_still_running then diskMergePc.blocked else .finished) ∧
          (step .disk o s).ltable_ = s.ltable_) :=
  ⟨step_disk_finished, run_disk_finished, diskMerge_top_input, diskMerge_pass_slots,
    diskMerge_top_idle⟩

end mergeScheduler

/-! ### The merge threads: the running mean and the mem-merge iteration -/

namespace mergeScheduler

theorem of_int_small (z : Int) (hz : |z| ≤ 2 ^ 53) : double.of_int z = double.finite (z : ℚ) :=
  double.round_intCast z hz

/-- The first update of the running mean (`merge_count = 1`) stores `bytes_in_small`. -/
theorem new_mean_first (mean bytes_in_small : Int) (hb : |bytes_in_small| ≤ 2 ^ 53)
    (hm : |mean| ≤ 2 ^ 63) : new_mean_c0_run_length mean bytes_in_small 1 = bytes_in_small := by
  obtain ⟨v, hv⟩ := double.of_int_finite mean hm
  have e1 : double.of_int 1 = double.finite 1 := by
    simpa using of_int_small 1 (by norm_num)
  have r1 : double.round 1 = double.finite 1 := by
    simpa using double.round_intCast 1 (by norm_num)
  have f : frac 1 = double.finite 1 := by
    rw [frac, e1, double.fdiv_finite _ _ (by norm_num)]
    simpa using r1
  have g : double.fsub (double.finite 1) (double.finite 1) = double.finite 0 := by
    rw [double.fsub_finite]
    simpa using double.round_zero
  have hbq : double.round (bytes_in_small : ℚ) = double.finite (bytes_in_small : ℚ) :=
    double.round_intCast bytes_in_small hb
  rw [new_mean_c0_run_length, f, g, hv, double.fmul_finite_zero, of_int_small _ hb,
    double.fmul_finite_one, hbq, double.fadd_zero_finite, hbq, double.cast_long_intCast]

/-- The third update with a mean of 1 and 25 bytes: binary64 arithmetic gives
8.999999999999998, which the cast truncates to 8. -/
theorem new_mean_sample : new_mean_c0_run_length 1 25 3 = 8 := by
  have e1 : double.of_int 1 = double.finite 1 := by
    simpa using of_int_small 1 (by norm_num)
  have e3 : double.of_int 3 = double.finite 3 := by
    simpa using of_int_small 3 (by norm_num)
  have e25 : double.of_int 25 = double.finite 25 := by
    simpa using of_int_small 25 (by norm_num)
  have f : frac 3 = double.finite (6004799503160661 / 18014398509481984) := by
    rw [frac, e3, double.fdiv_finite _ _ (by norm_num)]
    exact double.round_eval _ (6004799503160661 / 18014398509481984) (-2) (-54) 6004799503160661
      (by norm_num) (by norm_num) (by norm_num) (by norm_num) (by norm_num) (by norm_num)
      (by norm_num) (by norm_num)
  have g : double.fsub (double.finite 1) (double.finite (6004799503160661 / 18014398509481984))
      = double.finite (3002399751580331 / 4503599627370496) := by
    rw [double.fsub_finite]
    exact double.round_eval_tie _ (3002399751580331 / 4503599627370496) (-1) (-53) 6004799503160662
      (by norm_num) (by norm_num) (by norm_num) (by norm_num) (Or.inr (by norm_num)) (by norm_num)
      (by norm_num) (by norm_num)
  have h : double.fmul (double.finite 1) (double.finite (3002399751580331 / 4503599627370496))
      = double.finite (3002399751580331 / 4503599627370496) := by
    rw [double.fmul_finite]
    exact double.round_eval _ (3002399751580331 / 4503599627370496) (-1) (-53) 6004799503160662
      (by norm_num) (by norm_num) (by norm_num) (by norm_num) (by norm_num) (by norm_num)
      (by norm_num) (by norm_num)
  have i : double.fmul (double.finite 25) (double.finite (6004799503160661 / 18014398509481984))
      = double.finite (2345624805922133 / 281474976710656) := by
    rw [double.fmul_finite]
    exact double.round_eval _ (2345624805922133 / 281474976710656) 3 (-49) 4691249611844266
      (by norm_num) (by norm_num) (by norm_num) (by norm_num) (by norm_num) (by norm_num)
      (by norm_num) (by norm_num)
  have j : double.fadd (double.finite (3002399751580331 / 4503599627370496))
      (double.finite (2345624805922133 / 281474976710656))
      = double.finite (5066549580791807 / 562949953421312) := by
    rw [double.fadd_finite]
    exact double.round_eval _ (5066549580791807 / 562949953421312) 3 (-49) 5066549580791807
      (by norm_num) (by norm_num) (by norm_num) (by norm_num) (by norm_num) (by norm_num)
      (by norm_num) (by norm_num)
  rw [new_mean_c0_run_length, f, e1, e25, g, h, i, j]
  norm_num [double.cast_long, to_long]

/-- The first update with 2 ^ 53 + 1 bytes: the conversion to `double` rounds the count to
2 ^ 53, which is what is stored. -/
theorem new_mean_large :
    new_mean_c0_run_length 100 9007199254740993 1 = 9007199254740992 := by
  have e1 : double.of_int 1 = double.finite 1 := by
    simpa using of_int_small 1 (by norm_num)
  have e100 : double.of_int 100 = double.finite 100 := by
    simpa using of_int_small 100 (by norm_num)
  have r1 : double.round 1 = double.finite 1 := by
    simpa using double.round_intCast 1 (by norm_num)
  have f : frac 1 = double.finite 1 := by
    rw [frac, e1, double.fdiv_finite _ _ (by norm_num)]
    simpa using r1
  have g : double.fsub (double.finite 1) (double.finite 1) = double.finite 0 := by
    rw [double.fsub_finite]
    simpa using double.round_zero
  have t : double.round (9007199254740993 : ℚ) = double.finite 9007199254740992 :=
    double.round_eval_tie _ 9007199254740992 53 1 4503599627370496
      (by norm_num) (by norm_num) (by norm_num) (by norm_num) (Or.inl (by norm_num))
      (by norm_num) (by norm_num) (by norm_num)
  have eb : double.of_int 9007199254740993 = double.finite 9007199254740992 := by
    simpa [double.of_int] using t
  have rb : double.round (9007199254740992 : ℚ) = double.finite 9007199254740992 := by
    simpa using double.round_intCast 9007199254740992 (by norm_num)
  rw [new_mean_c0_run_length, f, g, e100, double.fmul_finite_zero, eb,
    double.fmul_finite_one, rb, double.fadd_zero_finite, rb]
  norm_num [double.cast_long, to_long]

/-- C27, as the code has it: the k-th pass of the mem-merge thread (`k` the incremented
`merge_count`) with `bytes_in_small` not zero sets `mean_c0_run_length` to
`mean_before * (1 - 1/k) + bytes_in_small * (1/k)` evaluated in binary64 arithmetic (the
conversions, the quotient `1/k`, the difference, the two products and the sum each
rounded to nearest) and truncated toward zero, and `num_c0_mergers` to `k`; after the
first merge the mean is `bytes_in_small`, when that is at most `2 ^ 53` in magnitude (so
that its conversion is exact). When `bytes_in_small` is zero both fields are left as they
were. -/
theorem mean_c0_run_length_update (s : mergeScheduler) (o1 o2 o3 : mergeOracle)
    (c1 : diskTreeComponent) (hpc : s.mem_pc = .top)
    (hrun : s.ltable_.is_still_running = true) (hc1 : s.ltable_.tree_c1 = some c1) :
    (memMerge_pass o1 o2 o3 s).mem_merge_count = s.mem_merge_count + 1 ∧
      (o3.bytes_in_small ≠ 0 →
        (memMerge_pass o1 o2 o3 s).ltable_.mean_c0_run_length
            = double.cast_long
                (double.fadd
                  (double.fmul (double.of_int s.ltable_.mean_c0_run_length)
                    (double.fsub (double.finite 1)
                      (double.fdiv (double.finite 1) (double.of_int (s.mem_merge_count + 1)))))
                  (double.fmul (double.of_int o3.bytes_in_small)
                    (double.fdiv (double.finite 1) (double.of_int (s.mem_merge_count + 1)))))
          ∧ (memMerge_pass o1 o2 o3 s).ltable_.num_c0_mergers = s.mem_merge_count + 1) ∧
      (o3.bytes_in_small ≠ 0 → s.mem_merge_count + 1 = 1 →
        |o3.bytes_in_small| ≤ 2 ^ 53 → |s.ltable_.mean_c0_run_length| ≤ 2 ^ 63 →
        (memMerge_pass o1 o2 o3 s).ltable_.mean_c0_run_length = o3.bytes_in_small) ∧
      (o3.bytes_in_small = 0 →
        (memMerge_pass o1 o2 o3 s).ltable_.mean_c0_run_length
            = s.ltable_.mean_c0_run_length ∧
          (memMerge_pass o1 o2 o3 s).ltable_.num_c0_mergers
            = s.ltable_.num_c0_mergers) := by
  obtain ⟨h1, h2, h3, -⟩ := memMerge_pass_mean s o1 o2 o3 c1 hpc hrun hc1
  refine ⟨h1, fun hb => ?_, fun hb hk hbs hms => ?_, fun hb => ?_⟩
  · rw [h2, h3, if_pos hb, if_pos hb]
    exact ⟨rfl, rfl⟩
  · rw [h2, if_pos hb, hk]
    exact new_mean_first _ _ hbs hms
  · rw [h2, h3, if_neg (by simpa using hb), if_neg (by simpa using hb)]
    exact ⟨rfl, rfl⟩

/-- C27 at a concrete input: the first pass over an engine with mean run length 100,
with 50 bytes read from the small side, leaves a mean run length of 50. -/
theorem mean_c0_run_length_update_witness :
    (memMerge_pass (sampleOracle false false)
        (sampleOracle false false) { sampleOracle false false with bytes_in_small := 50 }
        (init (sampleEngine [sampleTuple [1] [] [7]] [] [] 0))).ltable_.mean_c0_run_length
      = 50 :=
  (mean_c0_run_length_update (init (sampleEngine [sampleTuple [1] [] [7]] [] [] 0))
    (sampleOracle false false) (sampleOracle false false)
    { sampleOracle false false with bytes_in_small := 50 }
    { bloom_filter := none, tuples := [] } rfl rfl rfl).2.2.1 (by decide) rfl (by decide)
    (by decide)

/-- C27, as the claim states it, fails in three ways. For `bytes_in_small = 0` the first
pass (`k = 1`) over an engine with mean run length 100 leaves the mean at 100, while
`100 * (1 - 1/1) + 0 * (1/1)`, truncated, is 0. For `k = 3`, a mean of 1 and
`bytes_in_small = 25` the pass stores 8, the truncation of the binary64 result
8.999999999999998, while `1 * (1 - 1/3) + 25 * (1/3)` is 9. And the first pass with
`bytes_in_small = 2 ^ 53 + 1` stores `2 ^ 53`, not `bytes_in_small`. -/
theorem mean_c0_run_length_counterexample :
    ((memMerge_pass (sampleOracle false false) (sampleOracle false false)
        (sampleOracle false false)
        (init (sampleEngine [sampleTuple [1] [] [7]] [] [] 0))).mem_merge_count = 1 ∧
      (sampleOracle false false).bytes_in_small = 0 ∧
      (init (sampleEngine [sampleTuple [1] [] [7]] [] [] 0)).ltable_.mean_c0_run_length
        = 100 ∧
      (memMerge_pass (sampleOracle false false) (sampleOracle false false)
        (sampleOracle false false)
        (init (sampleEngine [sampleTuple [1] [] [7]] [] [] 0))).ltable_.mean_c0_run_length
        = 100 ∧
      to_long (((100 : Int) : ℚ) * (1 - 1 / ((1 : Int) : ℚ))
        + ((0 : Int) : ℚ) * (1 / ((1 : Int) : ℚ))) = 0) ∧
    ((memMerge_pass (sampleOracle false false) (sampleOracle false false)
        { sampleOracle false false with bytes_in_small := 25 }
        { init { sampleEngine [sampleTuple [1] [] [7]] [] [] 0 with mean_c0_run_length := 1 }
          with mem_merge_count := 2 }).mem_merge_count = 3 ∧
      (memMerge_pass (sampleOracle false false) (sampleOracle false false)
        { sampleOracle false false with bytes_in_small := 25 }
        { init { sampleEngine [sampleTuple [1] [] [7]] [] [] 0 with mean_c0_run_length := 1 }
          with mem_merge_count := 2 }).ltable_.mean_c0_run_length = 8 ∧
      to_long (((1 : Int) : ℚ) * (1 - 1 / ((3 : Int) : ℚ))
        + ((25 : Int) : ℚ) * (1 / ((3 : Int) : ℚ))) = 9) ∧
    ((memMerge_pass (sampleOracle false false) (sampleOracle false false)
        { sampleOracle false false with bytes_in_small := 9007199254740993 }
        (init (sampleEngine [sampleTuple [1] [] [7]] [] [] 0))).mem_merge_count = 1 ∧
      (memMerge_pass (sampleOracle false false) (sampleOracle false false)
        { sampleOracle false false with bytes_in_small := 9007199254740993 }
        (init (sampleEngine [sampleTuple [1] [] [7]] [] [] 0))).ltable_.mean_c0_run_length
        = 9007199254740992) := by
  refine ⟨?_, ?_, ?_⟩
  · obtain ⟨h1, h2, -, -⟩ := memMerge_pass_mean
      (init (sampleEngine [sampleTuple [1] [] [7]] [] [] 0))
      (sampleOracle false false) (sampleOracle false false) (sampleOracle false false)
      { bloom_filter := none, tuples := [] } rfl rfl rfl
    refine ⟨h1, rfl, rfl, ?_, ?_⟩
    · rw [h2]
      rfl
    · norm_num [to_long]
  · obtain ⟨h1, h2, -, -⟩ := memMerge_pass_mean
      { init { sampleEngine [sampleTuple [1] [] [7]] [] [] 0 with mean_c0_run_length := 1 }
        with mem_merge_count := 2 }
      (sampleOracle false false) (sampleOracle false false)
      { sampleOracle false false with bytes_in_small := 25 }
      { bloom_filter := none, tuples := [] } rfl rfl rfl
    refine ⟨h1, ?_, ?_⟩
    · rw [h2]
      exact new_mean_sample
    · norm_num [to_long]
  · obtain ⟨h1, h2, -, -⟩ := memMerge_pass_mean
      (init (sampleEngine [sampleTuple [1] [] [7]] [] [] 0))
      (sampleOracle false false) (sampleOracle false false)
      { sampleOracle false false with bytes_in_small := 9007199254740993 }
      { bloom_filter := none, tuples := [] } rfl rfl rfl
    refine ⟨h1, ?_⟩
    have hb : ({ sampleOracle false false with bytes_in_small := 9007199254740993 } :
        mergeOracle).bytes_in_small = 9007199254740993 := rfl
    rw [h2, hb, if_pos (by norm_num)]
    exact new_mean_large


theorem run_append (s : mergeScheduler) (a b : List (mergeThread × mergeOracle)) :
    s.run (a ++ b) = (s.run a).run b := by
  induction a generalizing s with
  | nil => rfl
  | cons x a ih => exact ih (step x.1 x.2 s)

theorem run_disk_steps_frame (os : List mergeOracle) :
    ∀ s : mergeScheduler,
      (s.run (disk_steps os)).ltable_.tree_c1 = s.ltable_.tree_c1 ∧
        (s.run (disk_steps os)).ltable_.tree_c1_prime = s.ltable_.tree_c1_prime ∧
        (s.run (disk_steps os)).ltable_.c0_is_merging = s.ltable_.c0_is_merging ∧
        (s.run (disk_steps os)).mem_pc = s.mem_pc := by
  induction os with
  | nil => intro s; exact ⟨rfl, rfl, rfl, rfl⟩
  | cons o os ih =>
    intro s
    obtain ⟨a1, a2, a3, a4⟩ := ih (step .disk o s)
    obtain ⟨b1, b2, b3, b4⟩ := step_disk_frame o s
    exact ⟨a1.trans b1, a2.trans b2, a3.trans b3, a4.trans b4⟩

theorem run_disk_steps_inv (os : List mergeOracle) (s : mergeScheduler)
    (hM : s.MIN_R = double.finite 3) (hR : double.ge s.ltable_.r_val s.MIN_R = true) :
    (s.run (disk_steps os)).MIN_R = double.finite 3 ∧
      double.ge (s.run (disk_steps os)).ltable_.r_val (s.run (disk_steps os)).MIN_R = true :=
  run_inv (disk_steps os) s hM hR

/-- The merge step of the mem-merge thread, from any state in which it is due. -/
theorem memMerge_merge_step (o : mergeOracle) (s : mergeScheduler) (c1 : diskTreeComponent)
    (hpc : s.mem_pc = .merging) (hc1 : s.ltable_.tree_c1 = some c1) :
    (step .mem o s).mem_pc = .installing ∧
      (step .mem o s).ltable_.tree_c1_prime
        = some (merged_component o s.ltable_ c1.tuples s.ltable_.tree_c0 false) ∧
      (step .mem o s).ltable_.tree_c1 = s.ltable_.tree_c1 ∧
      (step .mem o s).ltable_.tree_c1_mergeable = s.ltable_.tree_c1_mergeable ∧
      (step .mem o s).ltable_.tree_c2 = s.ltable_.tree_c2 ∧
      (step .mem o s).MIN_R = s.MIN_R ∧
      (step .mem o s).ltable_.r_val = s.ltable_.r_val := by
  have e : step .mem o s = memMerge_merge o s := by simp only [step, hpc]
  rw [e]
  obtain ⟨m1, m2, m3, m4, m5⟩ := memMerge_merge_slots o s c1 hc1
  obtain ⟨-, -, f3, -, f5⟩ := memMerge_merge_fields o s c1 hc1
  exact ⟨m1, m2, m3, m4, m5, f5, f3⟩

/-- The install step of the mem-merge thread, from any state in which it is due and the
assertion on `R` holds. -/
theorem memMerge_install_step (o : mergeOracle) (s : mergeScheduler)
    (hpc : s.mem_pc = .installing) (hR : double.ge s.ltable_.r_val s.MIN_R = true) :
    (step .mem o s).ltable_.tree_c1 = s.ltable_.tree_c1_prime ∧
      (step .mem o s).ltable_.tree_c1_prime = none ∧
      (step .mem o s).ltable_.c0_is_merging = false ∧
      (step .mem o s).ltable_.tree_c1_mergeable = s.ltable_.tree_c1_mergeable ∧
      (step .mem o s).ltable_.tree_c2 = s.ltable_.tree_c2 ∧
      (step .mem o s).mem_pc
        = (if signal_c2 o (step .mem o s).ltable_ then .waiting else .top) := by
  have e : step .mem o s = memMerge_install o s := by simp only [step, hpc]
  rw [e]
  obtain ⟨i1, i2, i3, i4⟩ := memMerge_install_slots o s
  exact ⟨i1, i2, (memMerge_install_fields o s).2.1, i3, i4, memMerge_install_mem_pc o s hR⟩

/-- The mem-merge thread from the top of its loop to the cascade decision, with any
steps of the disk-merge thread between its own three steps. -/
theorem memMerge_interleaved_pass (s : mergeScheduler) (o1 o2 o3 : mergeOracle)
    (d1 d2 : List mergeOracle) (c1 : diskTreeComponent) (hpc : s.mem_pc = .top)
    (hrun : s.ltable_.is_still_running = true) (hc1 : s.ltable_.tree_c1 = some c1)
    (hM : s.MIN_R = double.finite 3) (hR : double.ge s.ltable_.r_val s.MIN_R = true) :
    (s.run ((.mem, o1) :: disk_steps d1 ++ (.mem, o2) :: disk_steps d2
        ++ [(.mem, o3)])).ltable_.tree_c1
        = some (merged_component o2 ((step .mem o1 s).run (disk_steps d1)).ltable_ c1.tuples
            ((step .mem o1 s).run (disk_steps d1)).ltable_.tree_c0 false) ∧
      (s.run ((.mem, o1) :: disk_steps d1 ++ (.mem, o2) :: disk_steps d2
        ++ [(.mem, o3)])).ltable_.tree_c1_prime = none ∧
      (s.run ((.mem, o1) :: disk_steps d1 ++ (.mem, o2) :: disk_steps d2
        ++ [(.mem, o3)])).ltable_.c0_is_merging = false ∧
      (s.run ((.mem, o1) :: disk_steps d1 ++ (.mem, o2) :: disk_steps d2
        ++ [(.mem, o3)])).mem_pc
        = (if signal_c2 o3 (s.run ((.mem, o1) :: disk_steps d1 ++ (.mem, o2) :: disk_steps d2
            ++ [(.mem, o3)])).ltable_ then .waiting else .top) := by
  have hrun_eq : s.run ((.mem, o1) :: disk_steps d1 ++ (.mem, o2) :: disk_steps d2
      ++ [(.mem, o3)])
      = step .mem o3 ((step .mem o2 ((step .mem o1 s).run (disk_steps d1))).run
          (disk_steps d2)) := by
    show (step .mem o1 s).run (disk_steps d1 ++ (.mem, o2) :: disk_steps d2 ++ [(.mem, o3)]) = _
    rw [List.append_assoc, run_append]
    show (step .mem o2 ((step .mem o1 s).run (disk_steps d1))).run
      (disk_steps d2 ++ [(.mem, o3)]) = _
    rw [run_append]
    rfl
  rw [hrun_eq]
  -- the first step
  have h1 := memMerge_top_eq o1 s c1 hpc hrun hc1
  have s1pc : (step .mem o1 s).mem_pc = .merging := by rw [h1]
  have s1c1 : (step .mem o1 s).ltable_.tree_c1 = some c1 := by rw [h1]; exact hc1
  obtain ⟨s1M, s1R⟩ := step_inv .mem o1 s hM hR
  -- the disk steps before the merge
  obtain ⟨a1, -, -, a4⟩ := run_disk_steps_frame d1 (step .mem o1 s)
  obtain ⟨s2M, s2R⟩ := run_disk_steps_inv d1 (step .mem o1 s) s1M s1R
  -- the merge
  obtain ⟨m1, m2, -, -, -, m6, m7⟩ := memMerge_merge_step o2
    ((step .mem o1 s).run (disk_steps d1)) c1 (a4.trans s1pc) (a1.trans s1c1)
  obtain ⟨s3M, s3R⟩ := step_inv .mem o2 _ s2M s2R
  -- the disk steps before the install
  obtain ⟨-, b2, -, b4⟩ := run_disk_steps_frame d2
    (step .mem o2 ((step .mem o1 s).run (disk_steps d1)))
  obtain ⟨s4M, s4R⟩ := run_disk_steps_inv d2 _ s3M s3R
  -- the install
  obtain ⟨i1, i2, i3, -, -, i6⟩ := memMerge_install_step o3
    ((step .mem o2 ((step .mem o1 s).run (disk_steps d1))).run (disk_steps d2))
    (b4.trans m1) s4R
  exact ⟨i1.trans (b2.trans m2), i2, i3, i6⟩


theorem memMerge_wake_step (o : mergeOracle) (s : mergeScheduler) (hpc : s.mem_pc = .blocked) :
    (step .mem o s).mem_pc = .waiting ∧
      (step .mem o s).ltable_ = { s.ltable_ with c1_flushing := false } ∧
      (step .mem o s).disk_pc = s.disk_pc ∧ (step .mem o s).c2_prime = s.c2_prime := by
  simp only [step, hpc, memMerge_wake]
  simp

/-- One step of either thread while the mem-merge thread is in its wait loop (at the head
of the loop or inside `rwlc_cond_wait`) with C1 holding `c`: either the thread is still
in the wait loop, with C1, C1-prime and `c0_is_merging` as they were, or the step was
the promotion, taken by the mem-merge thread at the head of the loop with the
C1-mergeable slot null. -/
theorem wait_loop_step (t : mergeThread) (o : mergeOracle) (w : mergeScheduler)
    (c : Option diskTreeComponent) (hpc : w.mem_pc = .waiting ∨ w.mem_pc = .blocked)
    (hc : w.ltable_.tree_c1 = c) (hp : w.ltable_.tree_c1_prime = none)
    (hm : w.ltable_.c0_is_merging = false) :
    (((step t o w).mem_pc = .waiting ∨ (step t o w).mem_pc = .blocked) ∧
        (step t o w).ltable_.tree_c1 = c ∧ (step t o w).ltable_.tree_c1_prime = none ∧
        (step t o w).ltable_.c0_is_merging = false) ∨
      ((step t o w).mem_pc = .top ∧ t = .mem ∧ w.mem_pc = .waiting ∧
        w.ltable_.tree_c1_mergeable = none ∧
        (step t o w).ltable_.tree_c1_mergeable = c ∧
        (step t o w).ltable_.tree_c1
          = some { bloom_filter := o.bloom_filter [], tuples := [] } ∧
        (step t o w).ltable_.tree_c1_prime = none ∧
        (step t o w).ltable_.c0_is_merging = false ∧
        (step t o w).ltable_.tree_c2 = w.ltable_.tree_c2) := by
  cases t
  · rcases hpc with hpc | hpc
    · cases hs : w.ltable_.tree_c1_mergeable with
      | none =>
        right
        obtain ⟨a1, a2, a3, a4, a5, a6⟩ := memMerge_wait_none o w hpc hs
        exact ⟨a1, rfl, hpc, rfl, a2.trans hc, a3, a4.trans hp, a5.trans hm, a6⟩
      | some m =>
        left
        obtain ⟨a1, -, -, a4, a5, a6⟩ := memMerge_wait_some o w m hpc hs
        exact ⟨Or.inr a1, a4.trans hc, a5.trans hp, a6.trans hm⟩
    · left
      obtain ⟨a1, a2, -, -⟩ := memMerge_wake_step o w hpc
      rw [a2]
      exact ⟨Or.inl a1, hc, hp, hm⟩
  · left
    obtain ⟨a1, a2, a3, a4⟩ := step_disk_frame o w
    rw [a1, a2, a3, a4]
    exact ⟨hpc, hc, hp, hm⟩

/-- The wait loop of the mem-merge thread under any schedule of the two threads: as long
as the thread has not come back to the top of its loop it is in the wait loop with C1,
C1-prime and `c0_is_merging` untouched; and when the schedule ends with its first
return to the top, C1-mergeable holds what C1 held, C1 is a new, empty component, and
C1-prime and `c0_is_merging` are still clear. -/
theorem wait_loop_run (c : Option diskTreeComponent)
    (schedule : List (mergeThread × mergeOracle)) :
    ∀ w : mergeScheduler, (w.mem_pc = .waiting ∨ w.mem_pc = .blocked) →
      w.ltable_.tree_c1 = c → w.ltable_.tree_c1_prime = none →
      w.ltable_.c0_is_merging = false →
      (∀ n, n < schedule.length → (w.run (schedule.take n)).mem_pc ≠ .top) →
      ((w.run schedule).mem_pc ≠ .top →
        ((w.run schedule).mem_pc = .waiting ∨ (w.run schedule).mem_pc = .blocked) ∧
          (w.run schedule).ltable_.tree_c1 = c ∧
          (w.run schedule).ltable_.tree_c1_prime = none ∧
          (w.run schedule).ltable_.c0_is_merging = false) ∧
      ((w.run schedule).mem_pc = .top →
        (w.run schedule).ltable_.tree_c1_mergeable = c ∧
          (∃ o : mergeOracle, (w.run schedule).ltable_.tree_c1
            = some { bloom_filter := o.bloom_filter [], tuples := [] }) ∧
          (w.run schedule).ltable_.tree_c1_prime = none ∧
          (w.run schedule).ltable_.c0_is_merging = false) := by
  induction schedule with
  | nil =>
    intro w hpc hc hp hm _
    refine ⟨fun _ => ⟨hpc, hc, hp, hm⟩, fun h => ?_⟩
    rcases hpc with h1 | h1 <;> · rw [show w.run [] = w from rfl, h1] at h; cases h
  | cons a schedule ih =>
    intro w hpc hc hp hm hmin
    have e : w.run (a :: schedule) = (step a.1 a.2 w).run schedule := rfl
    rw [e]
    rcases wait_loop_step a.1 a.2 w c hpc hc hp hm with ⟨k1, k2, k3, k4⟩ | ⟨k1, -, -, -, k5, k6, k7, k8, -⟩
    · refine ih (step a.1 a.2 w) k1 k2 k3 k4 (fun n hn => ?_)
      exact hmin (n + 1) (by simpa using hn)
    · cases schedule with
      | nil =>
        exact ⟨fun h => absurd k1 h, fun _ => ⟨k5, ⟨a.2, k6⟩, k7, k8⟩⟩
      | cons b schedule =>
        exact absurd k1 (hmin 1 (by simp))


theorem step_disk_mean (o : mergeOracle) (s : mergeScheduler) :
    (step .disk o s).ltable_.mean_c0_run_length = s.ltable_.mean_c0_run_length ∧
      (step .disk o s).MIN_R = s.MIN_R := by
  simp only [step]
  cases s.disk_pc
  · simp only [diskMerge_top]; split
    · split <;> exact ⟨rfl, rfl⟩
    · split <;> exact ⟨rfl, rfl⟩
  · exact ⟨rfl, rfl⟩
  · simp only [diskMerge_merge]; split
    · rename_i c2 c1m _ _
      obtain ⟨c0, h0⟩ := merge_iterators_frame (env o .disk) c2.tuples c1m.tuples s.ltable_
      simp only [h0]
      simp
    · exact ⟨rfl, rfl⟩
  · exact ⟨rfl, rfl⟩
  · exact ⟨rfl, rfl⟩
  · exact ⟨rfl, rfl⟩

theorem step_mem_mean (o : mergeOracle) (s : mergeScheduler) (h : o.bytes_in_small = 0) :
    (step .mem o s).ltable_.mean_c0_run_length = s.ltable_.mean_c0_run_length := by
  simp only [step]
  cases s.mem_pc
  · simp only [memMerge_top]; split
    · rfl
    · split <;> rfl
  · simp only [memMerge_merge]; split
    · rfl
    · rename_i c1 _
      obtain ⟨c0, h0⟩ := merge_iterators_frame (env o .mem) c1.tuples s.ltable_.tree_c0
        s.ltable_
      simp only [h0]
  · rw [(memMerge_install_fields o s).2.2.2.1, if_neg (by simpa using h)]
  · simp only [memMerge_wait]; split <;> rfl
  · rfl
  · rfl
  · rfl

theorem run_mean (schedule : List (mergeThread × mergeOracle))
    (h : ∀ a ∈ schedule, a.2.bytes_in_small = 0) :
    ∀ s : mergeScheduler,
      (s.run schedule).ltable_.mean_c0_run_length = s.ltable_.mean_c0_run_length := by
  induction schedule with
  | nil => intro s; rfl
  | cons a schedule ih =>
    intro s
    have e : s.run (a :: schedule) = (step a.1 a.2 s).run schedule := rfl
    rw [e, ih (fun b hb => h b (List.mem_cons_of_mem _ hb))]
    obtain ⟨t, o⟩ := a
    cases t
    · exact step_mem_mean o s (h (.mem, o) (List.mem_cons_self _ _))
    · exact (step_disk_mean o s).1

/-- The cascade decision for 1600 bytes written against a mean run length of 100: the
binary64 value of `1.05 * 1600 / 100` is 16.8 to the last place. -/
theorem signal_c2_sample (o : mergeOracle) (l : bLSM) (ho : o.output_size = 1600)
    (hm : l.mean_c0_run_length = 100) :
    signal_c2 o l = double.gt (double.finite (4728779608739021 / 281474976710656)) l.r_val := by
  have e1 : double.of_int 1600 = double.finite 1600 := by
    simpa using of_int_small 1600 (by norm_num)
  have e2 : double.of_int 100 = double.finite 100 := by
    simpa using of_int_small 100 (by norm_num)
  have c : double.round (105 / 100) = double.finite (4728779608739021 / 4503599627370496) :=
    double.round_eval _ (4728779608739021 / 4503599627370496) 0 (-52) 4728779608739021
      (by norm_num) (by norm_num) (by norm_num) (by norm_num) (by norm_num) (by norm_num)
      (by norm_num) (by norm_num)
  have p : double.fmul (double.finite (4728779608739021 / 4503599627370496)) (double.finite 1600)
      = double.finite 1680 := by
    rw [double.fmul_finite]
    exact double.round_eval _ 1680 10 (-42) 7388718138654720
      (by norm_num) (by norm_num) (by norm_num) (by norm_num) (by norm_num) (by norm_num)
      (by norm_num) (by norm_num)
  have q : double.fdiv (double.finite 1680) (double.finite 100)
      = double.finite (4728779608739021 / 281474976710656) := by
    rw [double.fdiv_finite _ _ (by norm_num)]
    exact double.round_eval _ (4728779608739021 / 281474976710656) 4 (-48) 4728779608739021
      (by norm_num) (by norm_num) (by norm_num) (by norm_num) (by norm_num) (by norm_num)
      (by norm_num) (by norm_num)
  rw [signal_c2, ho, hm, e1, e2, c, p, q]

/-- The cascade decision for 100 bytes written against a mean run length of 100: the
binary64 value of `1.05 * 100 / 100` is 1.05 to the last place, which no `R >= 3`
is below. -/
theorem signal_c2_small (o : mergeOracle) (l : bLSM) (ho : o.output_size = 100)
    (hm : l.mean_c0_run_length = 100) (hR : double.ge l.r_val (double.finite 3) = true) :
    signal_c2 o l = false := by
  have e2 : double.of_int 100 = double.finite 100 := by
    simpa using of_int_small 100 (by norm_num)
  have c : double.round (105 / 100) = double.finite (4728779608739021 / 4503599627370496) :=
    double.round_eval _ (4728779608739021 / 4503599627370496) 0 (-52) 4728779608739021
      (by norm_num) (by norm_num) (by norm_num) (by norm_num) (by norm_num) (by norm_num)
      (by norm_num) (by norm_num)
  have p : double.fmul (double.finite (4728779608739021 / 4503599627370496)) (double.finite 100)
      = double.finite 105 := by
    rw [double.fmul_finite]
    exact double.round_eval _ 105 6 (-46) 7388718138654720
      (by norm_num) (by norm_num) (by norm_num) (by norm_num) (by norm_num) (by norm_num)
      (by norm_num) (by norm_num)
  have q : double.fdiv (double.finite 105) (double.finite 100)
      = double.finite (4728779608739021 / 4503599627370496) := by
    rw [double.fdiv_finite _ _ (by norm_num)]
    exact double.round_eval _ (4728779608739021 / 4503599627370496) 0 (-52) 4728779608739021
      (by norm_num) (by norm_num) (by norm_num) (by norm_num) (by norm_num) (by norm_num)
      (by norm_num) (by norm_num)
  rw [signal_c2, ho, hm, e2, c, p, q]
  cases hr : l.r_val with
  | finite r =>
    rw [hr] at hR
    simp only [double.ge, decide_eq_true_eq] at hR
    simp only [double.gt, double.lt, decide_eq_false_iff_not, not_lt]
    linarith
  | inf => rfl
  | ninf => rw [hr] at hR; simp [double.ge] at hR
  | nan => rfl


theorem run_expiry (schedule : List (mergeThread × mergeOracle)) :
    ∀ s : mergeScheduler,
      (s.run schedule).ltable_.expiry = s.ltable_.expiry ∧
        (s.run schedule).ltable_.current_timestamp = s.ltable_.current_timestamp := by
  induction schedule with
  | nil => intro s; exact ⟨rfl, rfl⟩
  | cons a schedule ih =>
    intro s
    obtain ⟨a1, a2⟩ := ih (step a.1 a.2 s)
    obtain ⟨b1, b2⟩ := step_expiry a.1 a.2 s
    exact ⟨a1.trans b1, a2.trans b2⟩

theorem diskMerge_pass_frame (o1 o2 o3 : mergeOracle) (s : mergeScheduler) :
    (diskMerge_pass o1 o2 o3 s).ltable_.tree_c1 = s.ltable_.tree_c1 ∧
      (diskMerge_pass o1 o2 o3 s).ltable_.tree_c1_prime = s.ltable_.tree_c1_prime ∧
      (diskMerge_pass o1 o2 o3 s).ltable_.c0_is_merging = s.ltable_.c0_is_merging ∧
      (diskMerge_pass o1 o2 o3 s).mem_pc = s.mem_pc := by
  unfold diskMerge_pass
  obtain ⟨a1, a2, a3, a4⟩ := step_disk_frame o1 s
  obtain ⟨b1, b2, b3, b4⟩ := step_disk_frame o2 (step .disk o1 s)
  obtain ⟨c1, c2, c3, c4⟩ := step_disk_frame o3 (step .disk o2 (step .disk o1 s))
  exact ⟨c1.trans (b1.trans a1), c2.trans (b2.trans a2), c3.trans (b3.trans a3),
    c4.trans (b4.trans a4)⟩

/-- The wait of the mem-merge thread comes to an end: from the head of its wait loop
with C1-mergeable occupied, the thread blocks (setting `c1_flushing`); a pass of the
disk-merge thread merges the component in the slot into C2 and clears the slot; the
mem-merge thread wakes (clearing `c1_flushing`), finds the slot null, promotes C1 and is
back at the top of its loop. -/
theorem wait_loop_ends (w : mergeScheduler) (o1 o2 o3 o4 o5 o6 : mergeOracle)
    (m c2 : diskTreeComponent) (hpc : w.mem_pc = .waiting)
    (hs : w.ltable_.tree_c1_mergeable = some m) (hc2 : w.ltable_.tree_c2 = some c2)
    (hd : w.disk_pc = .top) :
    ((step .mem o1 w).mem_pc = .blocked ∧ (step .mem o1 w).ltable_.c1_flushing = true) ∧
      ((diskMerge_pass o2 o3 o4 (step .mem o1 w)).mem_pc = .blocked ∧
        (diskMerge_pass o2 o3 o4 (step .mem o1 w)).ltable_.tree_c1_mergeable = none ∧
        (diskMerge_pass o2 o3 o4 (step .mem o1 w)).ltable_.tree_c2
          = some (merged_component o3 (step .mem o1 w).ltable_ c2.tuples m.tuples true)) ∧
      ((step .mem o5 (diskMerge_pass o2 o3 o4 (step .mem o1 w))).mem_pc = .waiting ∧
        (step .mem o5 (diskMerge_pass o2 o3 o4 (step .mem o1 w))).ltable_.c1_flushing
          = false) ∧
      (step .mem o6 (step .mem o5 (diskMerge_pass o2 o3 o4 (step .mem o1 w)))).mem_pc
        = .top ∧
      (step .mem o6 (step .mem o5
        (diskMerge_pass o2 o3 o4 (step .mem o1 w)))).ltable_.tree_c1_mergeable
        = w.ltable_.tree_c1 ∧
      (step .mem o6 (step .mem o5
        (diskMerge_pass o2 o3 o4 (step .mem o1 w)))).ltable_.tree_c1
        = some { bloom_filter := o6.bloom_filter [], tuples := [] } ∧
      (step .mem o6 (step .mem o5
        (diskMerge_pass o2 o3 o4 (step .mem o1 w)))).ltable_.tree_c2
        = some (merged_component o3 (step .mem o1 w).ltable_ c2.tuples m.tuples true) := by
  obtain ⟨a1, a2, a3, a4, -, -⟩ := memMerge_wait_some o1 w m hpc hs
  obtain ⟨a5, a6, -⟩ := step_mem_tree_c2 o1 w
  obtain ⟨d1, d2, -⟩ := diskMerge_pass_slots (step .mem o1 w) o2 o3 o4 c2 m
    (a6.trans hd) (a5.trans hc2) a3
  obtain ⟨d4, -, -, d7⟩ := diskMerge_pass_frame o2 o3 o4 (step .mem o1 w)
  obtain ⟨k1, k2, -, -⟩ := memMerge_wake_step o5 (diskMerge_pass o2 o3 o4 (step .mem o1 w))
    (d7.trans a1)
  have ks : (step .mem o5 (diskMerge_pass o2 o3 o4 (step .mem o1 w))).ltable_.tree_c1_mergeable
      = none := by rw [k2]; exact d2
  have kc1 : (step .mem o5 (diskMerge_pass o2 o3 o4 (step .mem o1 w))).ltable_.tree_c1
      = w.ltable_.tree_c1 := by rw [k2]; exact d4.trans a4
  have kc2 : (step .mem o5 (diskMerge_pass o2 o3 o4 (step .mem o1 w))).ltable_.tree_c2
      = some (merged_component o3 (step .mem o1 w).ltable_ c2.tuples m.tuples true) := by
    rw [k2]; exact d1
  have kf : (step .mem o5 (diskMerge_pass o2 o3 o4 (step .mem o1 w))).ltable_.c1_flushing
      = false := by rw [k2]
  obtain ⟨f1, f2, f3, -, -, f6⟩ := memMerge_wait_none o6
    (step .mem o5 (diskMerge_pass o2 o3 o4 (step .mem o1 w))) k1 ks
  exact ⟨⟨a1, a2⟩, ⟨d7.trans a1, d2, d1⟩, ⟨k1, kf⟩, f1, f2.trans kc1, f3, f6.trans kc2⟩


/-- C24, as the code has it: a mem-merge iteration is the three steps of the thread from
the top of its loop (first locked section, merge, second locked section), with any
steps of the disk-merge thread in between, followed when the cascade is signalled by
the wait loop under any schedule of the two threads. The merge builds `c1'` from C1 and
C0 as they are when it runs. After the second locked section C1-prime is null,
`c0_is_merging` is false and C1 holds `c1'`; without cascade the thread is back at the
top of its loop; with cascade it enters the wait loop, and whenever it first returns to
the top of its loop C1-mergeable holds `c1'`, C1 a new, empty component, C1-prime is
null and `c0_is_merging` false. The wait ends once the disk-merge thread has merged the
component in the slot into C2. A step of the mem-merge thread never changes C2 and
changes C1-mergeable only by the promotion; a step of the disk-merge thread never
changes C1, C1-prime or `c0_is_merging`. -/
theorem memMerge_iteration_end :
    (∀ (s : mergeScheduler) (o1 o2 o3 : mergeOracle) (d1 d2 : List mergeOracle)
        (c1 : diskTreeComponent),
      s.mem_pc = .top → s.ltable_.is_still_running = true → s.ltable_.tree_c1 = some c1 →
      s.MIN_R = double.finite 3 → double.ge s.ltable_.r_val s.MIN_R = true →
      ((s.run ((.mem, o1) :: disk_steps d1 ++ (.mem, o2) :: disk_steps d2
          ++ [(.mem, o3)])).ltable_.tree_c1
          = some (merged_component o2 ((step .mem o1 s).run (disk_steps d1)).ltable_
              c1.tuples ((step .mem o1 s).run (disk_steps d1)).ltable_.tree_c0 false) ∧
        (s.run ((.mem, o1) :: disk_steps d1 ++ (.mem, o2) :: disk_steps d2
          ++ [(.mem, o3)])).ltable_.tree_c1_prime = none ∧
        (s.run ((.mem, o1) :: disk_steps d1 ++ (.mem, o2) :: disk_steps d2
          ++ [(.mem, o3)])).ltable_.c0_is_merging = false) ∧
      (signal_c2 o3 (s.run ((.mem, o1) :: disk_steps d1 ++ (.mem, o2) :: disk_steps d2
          ++ [(.mem, o3)])).ltable_ = false →
        (s.run ((.mem, o1) :: disk_steps d1 ++ (.mem, o2) :: disk_steps d2
          ++ [(.mem, o3)])).mem_pc = .top) ∧
      (signal_c2 o3 (s.run ((.mem, o1) :: disk_steps d1 ++ (.mem, o2) :: disk_steps d2
          ++ [(.mem, o3)])).ltable_ = true →
        (s.run ((.mem, o1) :: disk_steps d1 ++ (.mem, o2) :: disk_steps d2
          ++ [(.mem, o3)])).mem_pc = .waiting ∧
        ∀ schedule : List (mergeThread × mergeOracle),
          (∀ n, n < schedule.length →
            ((s.run ((.mem, o1) :: disk_steps d1 ++ (.mem, o2) :: disk_steps d2
              ++ [(.mem, o3)])).run (schedule.take n)).mem_pc ≠ .top) →
          ((s.run ((.mem, o1) :: disk_steps d1 ++ (.mem, o2) :: disk_steps d2
              ++ [(.mem, o3)])).run schedule).mem_pc = .top →
          ((s.run ((.mem, o1) :: disk_steps d1 ++ (.mem, o2) :: disk_steps d2
              ++ [(.mem, o3)])).run schedule).ltable_.tree_c1_mergeable
            = some (merged_component o2 ((step .mem o1 s).run (disk_steps d1)).ltable_
                c1.tuples ((step .mem o1 s).run (disk_steps d1)).ltable_.tree_c0 false) ∧
          (∃ o : mergeOracle,
            ((s.run ((.mem, o1) :: disk_steps d1 ++ (.mem, o2) :: disk_steps d2
              ++ [(.mem, o3)])).run schedule).ltable_.tree_c1
              = some { bloom_filter := o.bloom_filter [], tuples := [] }) ∧
          ((s.run ((.mem, o1) :: disk_steps d1 ++ (.mem, o2) :: disk_steps d2
              ++ [(.mem, o3)])).run schedule).ltable_.tree_c1_prime = none ∧
          ((s.run ((.mem, o1) :: disk_steps d1 ++ (.mem, o2) :: disk_steps d2
              ++ [(.mem, o3)])).run schedule).ltable_.c0_is_merging = false)) ∧
    (∀ (w : mergeScheduler) (o1 o2 o3 o4 o5 o6 : mergeOracle) (m c2 : diskTreeComponent),
      w.mem_pc = .waiting → w.ltable_.tree_c1_mergeable = some m →
      w.ltable_.tree_c2 = some c2 → w.disk_pc = .top →
      ((step .mem o1 w).mem_pc = .blocked ∧ (step .mem o1 w).ltable_.c1_flushing = true) ∧
        ((diskMerge_pass o2 o3 o4 (step .mem o1 w)).mem_pc = .blocked ∧
          (diskMerge_pass o2 o3 o4 (step .mem o1 w)).ltable_.tree_c1_mergeable = none ∧
          (diskMerge_pass o2 o3 o4 (step .mem o1 w)).ltable_.tree_c2
            = some (merged_component o3 (step .mem o1 w).ltable_ c2.tuples m.tuples true)) ∧
        ((step .mem o5 (diskMerge_pass o2 o3 o4 (step .mem o1 w))).mem_pc = .waiting ∧
          (step .mem o5 (diskMerge_pass o2 o3 o4 (step .mem o1 w))).ltable_.c1_flushing
            = false) ∧
        (step .mem o6 (step .mem o5 (diskMerge_pass o2 o3 o4 (step .mem o1 w)))).mem_pc
          = .top ∧
        (step .mem o6 (step .mem o5
          (diskMerge_pass o2 o3 o4 (step .mem o1 w)))).ltable_.tree_c1_mergeable
          = w.ltable_.tree_c1 ∧
        (step .mem o6 (step .mem o5
          (diskMerge_pass o2 o3 o4 (step .mem o1 w)))).ltable_.tree_c1
          = some { bloom_filter := o6.bloom_filter [], tuples := [] } ∧
        (step .mem o6 (step .mem o5
          (diskMerge_pass o2 o3 o4 (step .mem o1 w)))).ltable_.tree_c2
          = some (merged_component o3 (step .mem o1 w).ltable_ c2.tuples m.tuples true)) ∧
    (∀ (o : mergeOracle) (w : mergeScheduler),
      (step .mem o w).ltable_.tree_c2 = w.ltable_.tree_c2 ∧
        ((step .mem o w).ltable_.tree_c1_mergeable = w.ltable_.tree_c1_mergeable ∨
          (w.mem_pc = .waiting ∧ w.ltable_.tree_c1_mergeable = none ∧
            (step .mem o w).ltable_.tree_c1_mergeable = w.ltable_.tree_c1))) ∧
    (∀ (o : mergeOracle) (w : mergeScheduler),
      (step .disk o w).ltable_.tree_c1 = w.ltable_.tree_c1 ∧
        (step .disk o w).ltable_.tree_c1_prime = w.ltable_.tree_c1_prime ∧
        (step .disk o w).ltable_.c0_is_merging = w.ltable_.c0_is_merging ∧
        (step .disk o w).mem_pc = w.mem_pc) := by
  refine ⟨fun s o1 o2 o3 d1 d2 c1 hpc hrun hc1 hM hR => ?_, wait_loop_ends,
    fun o w => ⟨(step_mem_tree_c2 o w).1, step_mem_tree_c1_mergeable o w⟩, step_disk_frame⟩
  obtain ⟨p1, p2, p3, p4⟩ := memMerge_interleaved_pass s o1 o2 o3 d1 d2 c1 hpc hrun hc1 hM hR
  refine ⟨⟨p1, p2, p3⟩, fun hs => ?_, fun hs => ?_⟩
  · rw [p4, hs]
    rfl
  · have hw : (s.run ((.mem, o1) :: disk_steps d1 ++ (.mem, o2) :: disk_steps d2
        ++ [(.mem, o3)])).mem_pc = .waiting := by
      rw [p4, hs]
      rfl
    refine ⟨hw, fun schedule hmin hend => ?_⟩
    exact (wait_loop_run _ schedule _ (Or.inl hw) p1 p2 p3 hmin).2 hend


/-- C24 at a concrete input: over the engine with key 1 in C0, an empty C1 and key 5 in
C1-mergeable, a pass of the mem-merge thread whose merge reports 100 bytes, with a
disk-merge step after each of its first two steps, leaves C1-prime null and
`c0_is_merging` false. -/
theorem memMerge_iteration_end_witness :
    ((init sampleFrozenEngine).run
        ((.mem, sampleSmallOracle) :: disk_steps [sampleSmallOracle]
          ++ (.mem, sampleSmallOracle) :: disk_steps [sampleSmallOracle]
          ++ [(.mem, sampleSmallOracle)])).ltable_.tree_c1_prime = none ∧
      ((init sampleFrozenEngine).run
        ((.mem, sampleSmallOracle) :: disk_steps [sampleSmallOracle]
          ++ (.mem, sampleSmallOracle) :: disk_steps [sampleSmallOracle]
          ++ [(.mem, sampleSmallOracle)])).ltable_.c0_is_merging = false :=
  ((memMerge_iteration_end.1 (init sampleFrozenEngine) sampleSmallOracle sampleSmallOracle
    sampleSmallOracle [sampleSmallOracle] [sampleSmallOracle]
    { bloom_filter := none, tuples := [] } rfl rfl rfl rfl
    (by
      show double.ge (double.finite 3) (double.finite 3) = true
      simp [double.ge])).1).2

theorem memMerge_pass_disk (o1 o2 o3 : mergeOracle) (s : mergeScheduler) :
    (memMerge_pass o1 o2 o3 s).disk_pc = s.disk_pc := by
  unfold memMerge_pass
  rw [(step_mem_tree_c2 o3 _).2.1, (step_mem_tree_c2 o2 _).2.1, (step_mem_tree_c2 o1 _).2.1]

/-- C24, as the claim states it, fails on interleaved runs. The engine starts with key 1
in C0, an empty C1, key 5 in C1-mergeable and an empty C2. In the first run the merge
reports 1600 bytes, the cascade is signalled, the mem-merge thread waits while the
disk-merge thread merges C1-mergeable into C2, and then promotes: at the end of the
iteration C2 holds key 5. In the second run the merge reports 100 bytes (no cascade)
and the disk-merge thread runs its pass between the first two steps of the mem-merge
thread: at the end of the iteration C1-mergeable is null and C2 holds key 5. -/
theorem memMerge_iteration_counterexample :
    (init sampleFrozenEngine).ltable_.tree_c2.map (fun c => c.tuples) = some [] ∧
      (init sampleFrozenEngine).ltable_.tree_c1_mergeable.map (fun c => c.tuples)
        = some [sampleTuple [5] [] [7]] ∧
      ((init sampleFrozenEngine).run
        [(.mem, sampleOracle false false), (.mem, sampleOracle false false),
          (.mem, sampleOracle false false), (.mem, sampleOracle false false),
          (.disk, sampleOracle false false), (.disk, sampleOracle false false),
          (.disk, sampleOracle false false), (.mem, sampleOracle false false),
          (.mem, sampleOracle false false)]).mem_pc = .top ∧
      ((init sampleFrozenEngine).run
        [(.mem, sampleOracle false false), (.mem, sampleOracle false false),
          (.mem, sampleOracle false false), (.mem, sampleOracle false false),
          (.disk, sampleOracle false false), (.disk, sampleOracle false false),
          (.disk, sampleOracle false false), (.mem, sampleOracle false false),
          (.mem, sampleOracle false false)]).ltable_.tree_c2.map (fun c => c.tuples)
        = some [sampleTuple [5] [] [7]] ∧
      ((init sampleFrozenEngine).run
        [(.mem, sampleSmallOracle), (.disk, sampleSmallOracle), (.disk, sampleSmallOracle),
          (.disk, sampleSmallOracle), (.mem, sampleSmallOracle),
          (.mem, sampleSmallOracle)]).mem_pc = .top ∧
      ((init sampleFrozenEngine).run
        [(.mem, sampleSmallOracle), (.disk, sampleSmallOracle), (.disk, sampleSmallOracle),
          (.disk, sampleSmallOracle), (.mem, sampleSmallOracle),
          (.mem, sampleSmallOracle)]).ltable_.tree_c1_mergeable.map (fun c => c.tuples)
        = none ∧
      ((init sampleFrozenEngine).run
        [(.mem, sampleSmallOracle), (.disk, sampleSmallOracle), (.disk, sampleSmallOracle),
          (.disk, sampleSmallOracle), (.mem, sampleSmallOracle),
          (.mem, sampleSmallOracle)]).ltable_.tree_c2.map (fun c => c.tuples)
        = some [sampleTuple [5] [] [7]] := by
  generalize hs0 : init sampleFrozenEngine = s0
  have hpc : s0.mem_pc = .top := by rw [← hs0]; rfl
  have hdpc : s0.disk_pc = .top := by rw [← hs0]; rfl
  have hrun : s0.ltable_.is_still_running = true := by rw [← hs0]; rfl
  have hc1 : s0.ltable_.tree_c1 = some { bloom_filter := none, tuples := [] } := by
    rw [← hs0]; rfl
  have hc2 : s0.ltable_.tree_c2 = some { bloom_filter := none, tuples := [] } := by
    rw [← hs0]; rfl
  have hm : s0.ltable_.tree_c1_mergeable
      = some { bloom_filter := none, tuples := [sampleTuple [5] [] [7]] } := by
    rw [← hs0]; rfl
  have hM : s0.MIN_R = double.finite 3 := by rw [← hs0]; rfl
  have hr : s0.ltable_.r_val = double.finite 3 := by rw [← hs0]; rfl
  have hmean : s0.ltable_.mean_c0_run_length = 100 := by rw [← hs0]; rfl
  have hex : s0.ltable_.expiry = 0 ∧ s0.ltable_.current_timestamp = 0 := by
    rw [← hs0]; exact ⟨rfl, rfl⟩
  have hR : double.ge s0.ltable_.r_val s0.MIN_R = true := by
    rw [hr, hM]; simp [double.ge]
  have hmerged : ∀ (o : mergeOracle) (l : bLSM), o.merge = (fun _ t2 => t2) →
      l.expiry = 0 → l.current_timestamp = 0 →
      (merged_component o l ([] : List dataTuple) [sampleTuple [5] [] [7]] true).tuples
        = [sampleTuple [5] [] [7]] := by
    intro o l ho h1 h2
    simp only [merged_component, ho]
    have : (fun t => insert_filter l t true)
        = (fun t => insert_filter (sampleEngine [] [] [] 0) t true) :=
      funext (fun t => insert_filter_dropDeletes l _ t (h1.trans rfl) (h2.trans rfl))
    rw [this]
    decide
  -- the first run up to the wait loop
  obtain ⟨-, -, p3, -, p5, p6⟩ := memMerge_pass_slots s0 (sampleOracle false false)
    (sampleOracle false false) (sampleOracle false false) _ hpc hrun hc1 hR
  obtain ⟨-, q2, -, q4⟩ := memMerge_pass_mean s0 (sampleOracle false false)
    (sampleOracle false false) (sampleOracle false false) _ hpc hrun hc1
  have hsig := signal_c2_sample (sampleOracle false false)
    (memMerge_pass (sampleOracle false false) (sampleOracle false false)
      (sampleOracle false false) s0).ltable_ rfl (by rw [q2]; exact hmean)
  rw [q4, hr] at hsig
  have hsig1 : signal_c2 (sampleOracle false false)
      (memMerge_pass (sampleOracle false false) (sampleOracle false false)
        (sampleOracle false false) s0).ltable_ = true := by
    rw [hsig]
    norm_num [double.gt, double.lt]
  rw [hsig1] at p6
  obtain ⟨-, -, -, w4, -, -, w7⟩ := wait_loop_ends _ (sampleOracle false false)
    (sampleOracle false false) (sampleOracle false false) (sampleOracle false false)
    (sampleOracle false false) (sampleOracle false false) _ _ p6 (p5.trans hm)
    (p3.trans hc2) ((memMerge_pass_disk _ _ _ s0).trans hdpc)
  have hx := run_expiry [(.mem, sampleOracle false false), (.mem, sampleOracle false false),
    (.mem, sampleOracle false false), (.mem, sampleOracle false false)] s0
  refine ⟨by rw [hc2]; rfl, by rw [hm]; rfl, w4, ?_, ?_⟩
  · refine (congrArg (Option.map (fun c => c.tuples)) w7).trans ?_
    simp only [Option.map_some']
    exact congrArg some (hmerged _ _ rfl (hx.1.trans hex.1) (hx.2.trans hex.2))
  -- the second run: the decision
  obtain ⟨-, -, -, r4⟩ := memMerge_interleaved_pass s0 sampleSmallOracle sampleSmallOracle
    sampleSmallOracle [sampleSmallOracle, sampleSmallOracle, sampleSmallOracle] [] _
    hpc hrun hc1 hM hR
  have r4' : (s0.run
      [(.mem, sampleSmallOracle), (.disk, sampleSmallOracle), (.disk, sampleSmallOracle),
        (.disk, sampleSmallOracle), (.mem, sampleSmallOracle),
        (.mem, sampleSmallOracle)]).mem_pc
      = if signal_c2 sampleSmallOracle (s0.run
          [(.mem, sampleSmallOracle), (.disk, sampleSmallOracle), (.disk, sampleSmallOracle),
            (.disk, sampleSmallOracle), (.mem, sampleSmallOracle),
            (.mem, sampleSmallOracle)]).ltable_ then .waiting else .top := r4
  obtain ⟨i1, i2⟩ := run_inv
    [(.mem, sampleSmallOracle), (.disk, sampleSmallOracle), (.disk, sampleSmallOracle),
      (.disk, sampleSmallOracle), (.mem, sampleSmallOracle), (.mem, sampleSmallOracle)]
    s0 hM hR
  rw [i1] at i2
  have hmn := run_mean
    [(.mem, sampleSmallOracle), (.disk, sampleSmallOracle), (.disk, sampleSmallOracle),
      (.disk, sampleSmallOracle), (.mem, sampleSmallOracle), (.mem, sampleSmallOracle)]
    (by
      intro a ha
      simp only [List.mem_cons, List.mem_singleton, List.not_mem_nil, or_false] at ha
      rcases ha with h | h | h | h | h | h <;> · rw [h]; rfl) s0
  have hsig2 := signal_c2_small sampleSmallOracle _ rfl (hmn.trans hmean) i2
  rw [hsig2] at r4'
  -- the second run: the slots
  have h1 := memMerge_top_eq sampleSmallOracle s0 _ hpc hrun hc1
  have b1 : (step .mem sampleSmallOracle s0).disk_pc = .top := by rw [h1]; exact hdpc
  have b2 : (step .mem sampleSmallOracle s0).ltable_.tree_c2
      = some { bloom_filter := none, tuples := [] } := by rw [h1]; exact hc2
  have b3 : (step .mem sampleSmallOracle s0).ltable_.tree_c1_mergeable
      = some { bloom_filter := none, tuples := [sampleTuple [5] [] [7]] } := by
    rw [h1]; exact hm
  have b4 : (step .mem sampleSmallOracle s0).ltable_.tree_c1
      = some { bloom_filter := none, tuples := [] } := by rw [h1]; exact hc1
  have b5 : (step .mem sampleSmallOracle s0).mem_pc = .merging := by rw [h1]
  obtain ⟨d1, d2, -⟩ := diskMerge_pass_slots (step .mem sampleSmallOracle s0)
    sampleSmallOracle sampleSmallOracle sampleSmallOracle _ _ b1 b2 b3
  obtain ⟨d4, -, -, d7⟩ := diskMerge_pass_frame sampleSmallOracle sampleSmallOracle
    sampleSmallOracle (step .mem sampleSmallOracle s0)
  obtain ⟨g1, -, -, g4, g5, -, -⟩ := memMerge_merge_step sampleSmallOracle
    (diskMerge_pass sampleSmallOracle sampleSmallOracle sampleSmallOracle
      (step .mem sampleSmallOracle s0)) _ (d7.trans b5) (d4.trans b4)
  obtain ⟨-, j2⟩ := run_inv
    [(.mem, sampleSmallOracle), (.disk, sampleSmallOracle), (.disk, sampleSmallOracle),
      (.disk, sampleSmallOracle), (.mem, sampleSmallOracle)] s0 hM hR
  obtain ⟨-, -, -, f4, f5, -⟩ := memMerge_install_step sampleSmallOracle
    (step .mem sampleSmallOracle
      (diskMerge_pass sampleSmallOracle sampleSmallOracle sampleSmallOracle
        (step .mem sampleSmallOracle s0))) g1 j2
  obtain ⟨x1, x2⟩ := step_expiry .mem sampleSmallOracle s0
  refine ⟨r4', ?_, ?_⟩
  · refine (congrArg (Option.map (fun c => c.tuples)) (f4.trans (g4.trans d2))).trans ?_
    rfl
  · refine (congrArg (Option.map (fun c => c.tuples)) (f5.trans (g5.trans d1))).trans ?_
    simp only [Option.map_some']
    exact congrArg some (hmerged _ _ rfl (x1.trans hex.1) (x2.trans hex.2))

end mergeScheduler

namespace bLSM

theorem stop_running (flushTable : bLSM → bLSM) (l : bLSM)
    (hrun : l.shutting_down_ = false) :
    stop flushTable l
      = ({ flushTable { l with shutting_down_ := true } with
            c0_flushing := true, c1_flushing := true }, 1) := by
  simp [stop, hrun]

theorem stop_shutting_down (flushTable : bLSM → bLSM) (l : bLSM)
    (hdown : l.shutting_down_ = true) : stop flushTable l = (l, 0) := by
  simp [stop, hdown]

theorem stop_shuts_down (flushTable : bLSM → bLSM) (l : bLSM)
    (hft : ∀ l1 : bLSM, (flushTable l1).shutting_down_ = l1.shutting_down_) :
    (stop flushTable l).1.shutting_down_ = true := by
  cases hd : l.shutting_down_
  · rw [stop_running flushTable l hd]
    exact hft _
  · rw [stop_shutting_down flushTable l hd]
    exact hd

/-- C22, as the code has it: `stop()` acts only on an engine that is not yet shutting
down. On such an engine it sets `shutting_down_`, calls `flushTable()` once and sets
`c0_flushing` and `c1_flushing`; on an engine that is already shutting down it changes
no field and does not call `flushTable()`. With a `flushTable()` that leaves
`shutting_down_` alone, `is_still_running()` is false after `stop()` in every case, and
a second `stop()` changes no field and does not call `flushTable()` again. -/
theorem stop_spec (flushTable : bLSM → bLSM) (l : bLSM)
    (hft : ∀ l1 : bLSM, (flushTable l1).shutting_down_ = l1.shutting_down_) :
    (stop flushTable l).1.is_still_running = false ∧
      (l.shutting_down_ = false →
        (stop flushTable l).1.c0_flushing = true ∧
          (stop flushTable l).1.c1_flushing = true ∧
          (stop flushTable l).2 = 1 ∧
          (stop flushTable l).1
            = { flushTable { l with shutting_down_ := true } with
                c0_flushing := true, c1_flushing := true }) ∧
      (l.shutting_down_ = true → stop flushTable l = (l, 0)) ∧
      stop flushTable (stop flushTable l).1 = ((stop flushTable l).1, 0) := by
  refine ⟨?_, ?_, stop_shutting_down flushTable l, ?_⟩
  · simp [is_still_running, stop_shuts_down flushTable l hft]
  · intro hrun
    rw [stop_running flushTable l hrun]
    exact ⟨rfl, rfl, rfl, rfl⟩
  · exact stop_shutting_down flushTable _ (stop_shuts_down flushTable l hft)

/-- C22 at a concrete input: a running engine and a `flushTable()` that moves C0 to the
C0-mergeable slot. -/
theorem stop_spec_witness :
    (stop (fun l => { l with tree_c0_mergeable := l.tree_c0, tree_c0 := [] })
        (sampleEngine [sampleTuple [1] [] [7]] [] [] 0)).1.is_still_running = false ∧
      (stop (fun l => { l with tree_c0_mergeable := l.tree_c0, tree_c0 := [] })
        (sampleEngine [sampleTuple [1] [] [7]] [] [] 0)).1.c0_flushing = true ∧
      (stop (fun l => { l with tree_c0_mergeable := l.tree_c0, tree_c0 := [] })
        (sampleEngine [sampleTuple [1] [] [7]] [] [] 0)).1.c1_flushing = true ∧
      (stop (fun l => { l with tree_c0_mergeable := l.tree_c0, tree_c0 := [] })
        (sampleEngine [sampleTuple [1] [] [7]] [] [] 0)).2 = 1 :=
  have h := stop_spec (fun l => { l with tree_c0_mergeable := l.tree_c0, tree_c0 := [] })
    (sampleEngine [sampleTuple [1] [] [7]] [] [] 0) (fun _ => rfl)
  ⟨h.1, (h.2.1 rfl).1, (h.2.1 rfl).2.1, (h.2.1 rfl).2.2.1⟩

/-- C22, as the claim states it, fails on an engine that is already shutting down: the
mem-merge thread, waiting for the C1-mergeable slot when `stop()` is called, clears
`c1_flushing` when it wakes, and a `stop()` after that returns with `c1_flushing` false.
Likewise `stop()` on an engine with `shutting_down_` set and both flags clear returns
with both flags clear. -/
theorem stop_counterexample :
    (mergeScheduler.step .mem (sampleOracle false false)
        { mergeScheduler.init
            { sampleEngine [] [] [] 0 with
              tree_c1_mergeable := some { bloom_filter := none, tuples := [] } } with
          mem_pc := .waiting }).mem_pc = .blocked ∧
      (stop (fun l => l)
        (mergeScheduler.step .mem (sampleOracle false false)
          { mergeScheduler.init
              { sampleEngine [] [] [] 0 with
                tree_c1_mergeable := some { bloom_filter := none, tuples := [] } } with
            mem_pc := .waiting }).ltable_).1.c1_flushing = true ∧
      (stop (fun l => l)
        (mergeScheduler.step .mem (sampleOracle false false)
          { mergeScheduler.step .mem (sampleOracle false false)
              { mergeScheduler.init
                  { sampleEngine [] [] [] 0 with
                    tree_c1_mergeable := some { bloom_filter := none, tuples := [] } } with
                mem_pc := .waiting } with
            ltable_ :=
              (stop (fun l => l)
                (mergeScheduler.step .mem (sampleOracle false false)
                  { mergeScheduler.init
                      { sampleEngine [] [] [] 0 with
                        tree_c1_mergeable :=
                          some { bloom_filter := none, tuples := [] } } with
                    mem_pc := .waiting }).ltable_).1 }).ltable_).1.c1_flushing = false ∧
      (stop (fun l => l) { sampleEngine [] [] [] 0 with shutting_down_ := true }).1.c0_flushing
        = false ∧
      (stop (fun l => l) { sampleEngine [] [] [] 0 with shutting_down_ := true }).1.c1_flushing
        = false ∧
      (stop (fun l => l) { sampleEngine [] [] [] 0 with shutting_down_ := true }).2 = 0 :=
  ⟨rfl, rfl, rfl, rfl, rfl, rfl⟩

end bLSM

/-! ### The snapshot iterator: the out-of-order check -/

namespace bLSM.iterator

theorem validate_keeps (ltable : bLSM) (it it1 : iterator)
    (h : validate ltable it = some it1) :
    it1.last_returned = it.last_returned ∧ it1.reports = it.reports := by
  unfold validate at h
  cases hc1 : ltable.tree_c1 with
  | none => simp [hc1] at h
  | some c1 =>
    cases hc2 : ltable.tree_c2 with
    | none => simp [hc1, hc2] at h
    | some c2 =>
      simp only [hc1, hc2, Option.some.injEq] at h
      subst h
      exact ⟨rfl, rfl⟩

theorem revalidate_keeps (ltable : bLSM) (it it1 : iterator)
    (h : revalidate ltable it = some it1) :
    it1.last_returned = it.last_returned ∧ it1.reports = it.reports := by
  unfold revalidate at h
  by_cases hc : it.reval_count = 100
  · simp only [hc, if_true] at h
    split at h
    · have k := validate_keeps ltable _ it1 h
      exact k
    · split at h
      · simp only [Option.some.injEq] at h
        subst h
        exact ⟨rfl, rfl⟩
      · simp at h
  · simp only [hc, if_false] at h
    split at h
    · have k := validate_keeps ltable _ it1 h
      exact k
    · split at h
      · simp only [Option.some.injEq] at h
        subst h
        exact ⟨rfl, rfl⟩
      · simp at h

theorem getnextHelper_eq (ltable : bLSM) (it it1 : iterator) (m : merge_it_t)
    (hr : revalidate ltable it = some it1) (hm : it1.merge_it_ = some m) :
    ∃ it2, getnextHelper ltable it = some (m.next_callerFrees.1, it2) ∧
      it2.last_returned = m.next_callerFrees.1 ∧
      it2.merge_it_ = some m.next_callerFrees.2 ∧
      it2.reports =
        (match it.last_returned, m.next_callerFrees.1 with
          | some lr, some t =>
            if dataTuple.compare lr.strippedkey t.strippedkey ≥ 0 then
              it.reports ++ [(lr, t)]
            else it.reports
          | _, _ => it.reports) := by
  obtain ⟨k1, k2⟩ := revalidate_keeps ltable it it1 hr
  simp only [getnextHelper, hr, hm]
  refine ⟨_, rfl, rfl, rfl, ?_⟩
  simp only [k1, k2]

/-- C21, as the code has it: a call of `getnextHelper` that revalidates without aborting
returns what the merge iterator yields next and stores it in `last_returned`; it never
fails on account of the order of the keys. When the tuple it is handed has a stripped
key that is smaller than or equal to that of `last_returned`, it prints its out-of-order
message for the pair, and still returns the tuple; when the key is greater, or there is
no `last_returned`, or the stream is at its end, it prints nothing. -/
theorem getnextHelper_reports (ltable : bLSM) (it it1 : iterator) (m : merge_it_t)
    (hr : revalidate ltable it = some it1) (hm : it1.merge_it_ = some m) :
    ∃ it2, getnextHelper ltable it = some (m.next_callerFrees.1, it2) ∧
      it2.last_returned = m.next_callerFrees.1 ∧
      (∀ lr t, it.last_returned = some lr → m.next_callerFrees.1 = some t →
        (0 ≤ dataTuple.compare lr.strippedkey t.strippedkey →
          it2.reports = it.reports ++ [(lr, t)]) ∧
        (dataTuple.compare lr.strippedkey t.strippedkey < 0 →
          it2.reports = it.reports)) ∧
      (it.last_returned = none → it2.reports = it.reports) ∧
      (m.next_callerFrees.1 = none → it2.reports = it.reports) := by
  obtain ⟨it2, h1, h2, -, h4⟩ := getnextHelper_eq ltable it it1 m hr hm
  refine ⟨it2, h1, h2, ?_, ?_, ?_⟩
  · intro lr t hlr ht
    rw [hlr, ht] at h4
    constructor
    · intro hc
      rw [h4]
      exact if_pos hc
    · intro hc
      rw [h4]
      exact if_neg (not_le.2 hc)
  · intro hlr
    rw [h4, hlr]
  · intro ht
    rw [h4, ht]
    cases it.last_returned <;> rfl

/-- C21 at a concrete input: an iterator that last returned key 2 and is handed key 1
prints its message for the pair and returns key 1. -/
theorem getnextHelper_reports_witness :
    ∃ it2, getnextHelper (sampleEngine [] [] [] 0) sampleOutOfOrderIterator
        = some (some (sampleTuple [1] [] [8]), it2) ∧
      it2.last_returned = some (sampleTuple [1] [] [8]) ∧
      it2.reports = [(sampleTuple [2] [] [7], sampleTuple [1] [] [8])] := by
  obtain ⟨it2, h1, h2, h3, -⟩ := getnextHelper_reports (sampleEngine [] [] [] 0)
    sampleOutOfOrderIterator { sampleOutOfOrderIterator with reval_count := 1 }
    (mergeManyIterator.init (mergeManyIterator.init [] [some []])
      [none, some [sampleTuple [1] [] [8]], none, some []]) rfl rfl
  have hn : (mergeManyIterator.init (mergeManyIterator.init ([] : treeIterator) [some []])
      [none, some [sampleTuple [1] [] [8]], none, some []]).next_callerFrees.1
      = some (sampleTuple [1] [] [8]) := by decide
  rw [hn] at h1 h2
  exact ⟨it2, h1, h2, (h3 (sampleTuple [2] [] [7]) (sampleTuple [1] [] [8]) rfl hn).1
    (by decide)⟩

/-- C21, as the claim states it, fails: over an engine whose C1 holds key 2 before
key 1, the second call is handed key 1 after key 2; it does not fail, it returns key 1
and only records the message. And over an engine whose C1 holds the stripped key 1
twice, the second call is handed a key that is not smaller, and prints the message all
the same. -/
theorem getnextHelper_out_of_order_counterexample :
    dataTuple.compare (sampleTuple [1] [] [8]).strippedkey
        (sampleTuple [2] [] [7]).strippedkey < 0 ∧
      ((init (sampleEngine [] [sampleTuple [2] [] [7], sampleTuple [1] [] [8]] [] 0)
          none).bind
        (fun it0 => (getnextHelper
            (sampleEngine [] [sampleTuple [2] [] [7], sampleTuple [1] [] [8]] [] 0) it0).bind
        (fun r1 => (getnextHelper
            (sampleEngine [] [sampleTuple [2] [] [7], sampleTuple [1] [] [8]] [] 0) r1.2).map
        (fun r2 => (r1.1, r2.1, r2.2.last_returned, r2.2.reports))))) =
      some (some (sampleTuple [2] [] [7]), some (sampleTuple [1] [] [8]),
        some (sampleTuple [1] [] [8]),
        [(sampleTuple [2] [] [7], sampleTuple [1] [] [8])]) ∧
      dataTuple.compare (sampleTuple [1] [0] [7]).strippedkey
        (sampleTuple [1] [1] [8]).strippedkey = 0 ∧
      ((init (sampleEngine [] [sampleTuple [1] [0] [7], sampleTuple [1] [1] [8]] [] 0)
          none).bind
        (fun it0 => (getnextHelper
            (sampleEngine [] [sampleTuple [1] [0] [7], sampleTuple [1] [1] [8]] [] 0) it0).bind
        (fun r1 => (getnextHelper
            (sampleEngine [] [sampleTuple [1] [0] [7], sampleTuple [1] [1] [8]] [] 0) r1.2).map
        (fun r2 => (r1.1, r2.1, r2.2.last_returned, r2.2.reports))))) =
      some (some (sampleTuple [1] [0] [7]), some (sampleTuple [1] [1] [8]),
        some (sampleTuple [1] [1] [8]),
        [(sampleTuple [1] [0] [7], sampleTuple [1] [1] [8])]) := by
  refine ⟨by decide, by decide, by decide, by decide⟩

end bLSM.iterator
